import Mathlib

/-!
# Matrix_And_Friends_2015: dense matrices, Strassen products and the task pool

A shallow embedding of `Matrix.hpp`, `Strassen.hpp`, `Thread_Pool_T.hpp` and `Algebra.hpp`.

* `size_t` values are natural numbers; every `size_t` operation of the source is
  written with an explicit reduction modulo `2^64`.
* `std::vector<T>` is a `List T`; `elements(k)` value-initialises `k` zeros and
  is assumed to succeed (memory exhaustion is not modelled).
* A C++ `throw` is `Except.error` with the constructor of `Err` naming the message;
  an unchecked `operator[]` outside the buffer is undefined behaviour and is
  reported as `Err.out_of_buffer`. The matrix and multiplier code never catches, so an
  error anywhere in a call is the result of the call; an exception raised inside a queued
  task is stored in the shared state of the task and raised again by `future::get`.
* The functors run in a state monad that records the operations performed (`Op`), so that
  "computed by one `operator *`, nothing sliced, nothing submitted" can be stated.
* The pool is a state: the deque of packaged tasks and the shared states of the futures.
  A blocked `future::get` lets the workers run queued tasks one at a time, each to
  completion, from the end of the deque that `work_end` selects.
* The linear algebra that `Algebra.hpp` is measured against is that of Mathlib:
  `Matrix.det` on square matrices indexed by `Fin n`.
-/

/-- The square matrices of Mathlib with `n` rows, the setting of `Matrix.det`. -/
abbrev SquareTable (n : Nat) (K : Type) : Type := Matrix (Fin n) (Fin n) K

namespace MatrixAndFriends

/-! ## Errors and `size_t` arithmetic -/

/-- The ways a call can fail to return a value. -/
inductive Err
  /-- out_of_range "matrix size of 0x0 not allowed" -/
  | size_zero
  /-- out_of_range "matrix row number of 0 not allowed" -/
  | row_zero
  /-- out_of_range "dimension resolution error" -/
  | dimension_resolution
  /-- out_of_range "index out of bounds" -/
  | index_out_of_bounds
  /-- out_of_range "dimensions do not match" -/
  | dimensions_do_not_match
  /-- out_of_range "incorrect dimensions for a product" -/
  | incorrect_product
  /-- out_of_range "incorrect dimensions for a Strassen product" -/
  | incorrect_strassen
  /-- undefined behaviour: `elements[i]` with `i` not below `elements.size()` -/
  | out_of_buffer
  /-- a `future::get` that blocks for ever -/
  | never_resolves
  /-- out_of_range "matrix is singular" -/
  | singular
  deriving DecidableEq

/-- The text carried by the exception. -/
def Err.what : Err → String
  | .size_zero => "matrix size of 0x0 not allowed"
  | .row_zero => "matrix row number of 0 not allowed"
  | .dimension_resolution => "dimension resolution error"
  | .index_out_of_bounds => "index out of bounds"
  | .dimensions_do_not_match => "dimensions do not match"
  | .incorrect_product => "incorrect dimensions for a product"
  | .incorrect_strassen => "incorrect dimensions for a Strassen product"
  | .out_of_buffer => "undefined behaviour"
  | .never_resolves => "blocked"
  | .singular => "matrix is singular"

instance {ε α : Type} [DecidableEq ε] [DecidableEq α] : DecidableEq (Except ε α)
  | .ok a, .ok b => if h : a = b then isTrue (by rw [h]) else isFalse (by simpa using h)
  | .error a, .error b => if h : a = b then isTrue (by rw [h]) else isFalse (by simpa using h)
  | .ok _, .error _ => isFalse (by simp)
  | .error _, .ok _ => isFalse (by simp)

/-- Number of values of `size_t`. -/
def SIZE_MOD : Nat := 2 ^ 64

/-- Reduction of a natural number to `size_t`. -/
def sz (x : Nat) : Nat := x % SIZE_MOD

/-- `a - b` on `size_t`. -/
def size_sub (a b : Nat) : Nat := (a + (SIZE_MOD - b % SIZE_MOD)) % SIZE_MOD

/-- `v[i]` for reading: undefined outside the buffer. -/
def buf_get {T : Type} (v : List T) (i : Nat) : Except Err T :=
  match v[i]? with
  | some x => .ok x
  | none => .error .out_of_buffer

/-- `v[i] = x`: undefined outside the buffer. -/
def buf_set {T : Type} (v : List T) (i : Nat) (x : T) : Except Err (List T) :=
  if i < v.length then .ok (v.set i x) else .error .out_of_buffer

/-! ## `Matrix<T>` -/

/-- The private members of `Matrix<T>`. -/
structure Matrix (T : Type) where
  n_rows : Nat
  n_columns : Nat
  total_elements : Nat
  elements : List T
  deriving DecidableEq

variable {T : Type}

/-- `Matrix(size_t r, size_t c)`. -/
def Matrix.new [Zero T] (r c : Nat) : Except Err (Matrix T) :=
  let M : Matrix T := ⟨r, c, sz (r * c), List.replicate (sz (r * c)) 0⟩
  if M.n_rows = 0 ∨ M.n_columns = 0 then .error .size_zero else .ok M

/-- `Matrix(size_t r)`. -/
def Matrix.new_column [Zero T] (r : Nat) : Except Err (Matrix T) :=
  let M : Matrix T := ⟨r, 1, r, List.replicate r 0⟩
  if M.n_rows = 0 then .error .row_zero else .ok M

/-- `Matrix()`. -/
def Matrix.new_default [Zero T] : Matrix T := ⟨1, 1, 1, List.replicate 1 0⟩

/-- `Matrix(size_t r, size_t c, std::initializer_list<T> l)`. -/
def Matrix.new_list (r c : Nat) (l : List T) : Except Err (Matrix T) :=
  let M : Matrix T := ⟨r, c, sz (r * c), l⟩
  if M.total_elements ≠ M.elements.length then .error .dimension_resolution else .ok M

/-- `rows()`. -/
def Matrix.rows (M : Matrix T) : Nat := M.n_rows

/-- `columns()`. -/
def Matrix.columns (M : Matrix T) : Nat := M.n_columns

/-- The buffer position `(r * n_columns) + c` computed by both `operator()`. -/
def Matrix.offset (M : Matrix T) (r c : Nat) : Nat := sz (sz (r * M.n_columns) + c)

/-- `T operator () (size_t r, size_t c) const`. -/
def Matrix.get (M : Matrix T) (r c : Nat) : Except Err T :=
  buf_get M.elements (M.offset r c)

/-- Assignment through `T& operator () (size_t r, size_t c)`. -/
def Matrix.put (M : Matrix T) (r c : Nat) (x : T) : Except Err (Matrix T) := do
  let els ← buf_set M.elements (M.offset r c) x
  pure { M with elements := els }

/-- `exchange_rows(row_a, row_b)`. -/
def Matrix.exchange_rows (M : Matrix T) (row_a row_b : Nat) : Except Err (Matrix T) :=
  if row_a > M.n_rows ∨ row_b > M.n_rows then .error .index_out_of_bounds
  else do
    let index_a := sz (row_a * M.n_columns)
    let index_b := sz (row_b * M.n_columns)
    let els ← (List.range M.n_columns).foldlM (fun els j => do
      let x ← buf_get els (sz (index_a + j))
      let y ← buf_get els (sz (index_b + j))
      let els ← buf_set els (sz (index_a + j)) y
      buf_set els (sz (index_b + j)) x) M.elements
    pure { M with elements := els }

/-- `operator +=`. -/
def Matrix.add_assign [Add T] (A M : Matrix T) : Except Err (Matrix T) :=
  if A.n_rows ≠ M.n_rows ∨ A.n_columns ≠ M.n_columns then .error .dimensions_do_not_match
  else do
    let els ← (List.range A.total_elements).foldlM (fun els i => do
      let x ← buf_get els i
      let y ← buf_get M.elements i
      buf_set els i (x + y)) A.elements
    pure { A with elements := els }

/-- `operator -=`. -/
def Matrix.sub_assign [Sub T] (A M : Matrix T) : Except Err (Matrix T) :=
  if A.n_rows ≠ M.n_rows ∨ A.n_columns ≠ M.n_columns then .error .dimensions_do_not_match
  else do
    let els ← (List.range A.total_elements).foldlM (fun els i => do
      let x ← buf_get els i
      let y ← buf_get M.elements i
      buf_set els i (x - y)) A.elements
    pure { A with elements := els }

/-- `slice(row_a, row_b, column_a, column_b)`. -/
def Matrix.slice [Zero T] (M : Matrix T) (row_a row_b column_a column_b : Nat) :
    Except Err (Matrix T) := do
  let row_range := size_sub row_b row_a
  let column_range := size_sub column_b column_a
  let MP ← (Matrix.new row_range column_range : Except Err (Matrix T))
  let els ← (List.range row_range).foldlM (fun els i =>
    let MP_index := sz (i * MP.n_columns)
    let index := sz (sz (row_a + i) * M.n_columns)
    (List.range column_range).foldlM (fun els j => do
      let x ← buf_get M.elements (sz (sz (index + column_a) + j))
      buf_set els (sz (MP_index + j)) x) els) MP.elements
  pure { MP with elements := els }

/-- `operator +`: copy, then `+=`. -/
def Matrix.add [Add T] (A M : Matrix T) : Except Err (Matrix T) :=
  let MS := A
  MS.add_assign M

/-- `operator -`: copy, then `-=`. -/
def Matrix.sub [Sub T] (A M : Matrix T) : Except Err (Matrix T) :=
  let MD := A
  MD.sub_assign M

/-- `operator *`: the i-k-j loop over the row-major buffers. -/
def Matrix.mul [Zero T] [Add T] [Mul T] (A M : Matrix T) : Except Err (Matrix T) :=
  if A.n_columns ≠ M.n_rows then .error .incorrect_product
  else do
    let MP ← (Matrix.new A.n_rows M.n_columns : Except Err (Matrix T))
    let i_end := A.n_rows
    let k_end := A.n_columns
    let j_end := M.n_columns
    let els ← (List.range i_end).foldlM (fun els i =>
      let MP_index := sz (j_end * i)
      let index := sz (k_end * i)
      (List.range k_end).foldlM (fun els k =>
        let M_index := sz (j_end * k)
        (List.range j_end).foldlM (fun els j => do
          let acc ← buf_get els (sz (MP_index + j))
          let a ← buf_get A.elements (sz (index + k))
          let b ← buf_get M.elements (sz (M_index + j))
          buf_set els (sz (MP_index + j)) (acc + a * b)) els) els) MP.elements
    pure { MP with elements := els }

/-- The value at row `i`, column `j` of the row-major buffer (zero outside it). -/
def Matrix.entry [Zero T] (M : Matrix T) (i j : Nat) : T :=
  M.elements.getD (i * M.n_columns + j) 0

/-- A matrix of the data model: at least one row and one column, and a buffer of exactly
`n_rows * n_columns` elements, a number that fits `size_t`. -/
def Matrix.wf (M : Matrix T) : Prop :=
  1 ≤ M.n_rows ∧ 1 ≤ M.n_columns ∧ M.n_rows * M.n_columns < SIZE_MOD ∧
    M.total_elements = M.n_rows * M.n_columns ∧ M.elements.length = M.n_rows * M.n_columns

instance (M : Matrix T) : Decidable M.wf := by
  unfold Matrix.wf; infer_instance

/-! ## Traces -/

/-- The operations a multiplier performs, in the order it performs them. -/
inductive Op
  /-- a call of `Matrix::slice` -/
  | slice
  /-- a call of `Matrix::operator +` -/
  | add
  /-- a call of `Matrix::operator -` -/
  | sub
  /-- a call of `Matrix::operator *` -/
  | mul
  /-- a `Strassen` functor is constructed -/
  | serial_new
  /-- `Strassen::operator()` is entered -/
  | serial_call
  /-- a `Parallel_Strassen` functor is constructed -/
  | parallel_new
  /-- `Parallel_Strassen::operator()` is entered -/
  | parallel_call
  /-- a task is handed to `Thread_Pool::load_front` -/
  | load_front
  /-- a `future::get` -/
  | future_get
  deriving DecidableEq

/-- A computation of the calling thread that appends to the trace of operations. -/
abbrev Traced (α : Type) : Type := StateT (List Op) (Except Err) α

/-- Perform `x` and record it as `o`. -/
def traced {α : Type} (o : Op) (x : Except Err α) : Traced α :=
  fun tr => match x with
    | .ok v => .ok (v, tr ++ [o])
    | .error e => .error e

/-- Perform `x` without recording anything (element accesses). -/
def untraced {α : Type} (x : Except Err α) : Traced α :=
  fun tr => match x with
    | .ok v => .ok (v, tr)
    | .error e => .error e

/-! ## `Strassen<T>` -/

/-- The members of `Strassen<T>` that the functor initialises (`p` is never written or read). -/
structure Strassen (T : Type) where
  A : Matrix T
  B : Matrix T
  r : Nat
  deriving DecidableEq

/-- `Strassen(A_in, B_in, r_in)`. -/
def Strassen.new (A_in B_in : Matrix T) (r_in : Nat) : Except Err (Strassen T) :=
  let S : Strassen T := ⟨A_in, B_in, r_in⟩
  if S.A.rows ≠ S.B.rows ∨ S.A.rows ≠ S.B.columns ∨ S.A.columns ≠ S.B.columns then
    .error .incorrect_strassen
  else .ok S

/-- The eight quadrant slices taken by both functors. -/
structure Quadrants (T : Type) where
  A11 : Matrix T
  A12 : Matrix T
  A21 : Matrix T
  A22 : Matrix T
  B11 : Matrix T
  B12 : Matrix T
  B21 : Matrix T
  B22 : Matrix T

/-- The block `// A submatrices ... // B submatrices` of both `operator()`. -/
def quadrants [Zero T] (A B : Matrix T) (n : Nat) : Traced (Quadrants T) := do
  let A11 ← traced .slice (A.slice 0 n 0 n)
  let A12 ← traced .slice (A.slice 0 n n (sz (2 * n)))
  let A21 ← traced .slice (A.slice n (sz (2 * n)) 0 n)
  let A22 ← traced .slice (A.slice n (sz (2 * n)) n (sz (2 * n)))
  let B11 ← traced .slice (B.slice 0 n 0 n)
  let B12 ← traced .slice (B.slice 0 n n (sz (2 * n)))
  let B21 ← traced .slice (B.slice n (sz (2 * n)) 0 n)
  let B22 ← traced .slice (B.slice n (sz (2 * n)) n (sz (2 * n)))
  pure ⟨A11, A12, A21, A22, B11, B12, B21, B22⟩

/-- The block `// specify return matrix C ... // put elements into C` of both `operator()`. -/
def combine [Zero T] [Add T] [Sub T] (A B : Matrix T) (n : Nat)
    (M1 M2 M3 M4 M5 M6 M7 : Matrix T) : Except Err (Matrix T) := do
  let C ← (Matrix.new A.rows B.columns : Except Err (Matrix T))
  (List.range n).foldlM (fun C i =>
    (List.range n).foldlM (fun C j => do
      let C ← C.put i j ((← M1.get i j) + (← M4.get i j) - (← M5.get i j) + (← M7.get i j))
      let C ← C.put i (sz (n + j)) ((← M3.get i j) + (← M5.get i j))
      let C ← C.put (sz (n + i)) j ((← M2.get i j) + (← M4.get i j))
      C.put (sz (n + i)) (sz (n + j))
        ((← M1.get i j) - (← M2.get i j) + (← M3.get i j) + (← M6.get i j))) C) C

/-- `Strassen::operator()` with the members `r`, `A`, `B` as arguments; the second equation is
the case `r != 0`, in which `r -= 1` leaves the budget of the nested functors. -/
def Strassen.run [Zero T] [Add T] [Sub T] [Mul T] :
    Nat → Matrix T → Matrix T → Traced (Matrix T)
  | 0, A, B => do
    traced .serial_call (pure ())
    traced .mul (A.mul B)
  | r + 1, A, B => do
    traced .serial_call (pure ())
    if A.rows % 2 ≠ 0 then traced .mul (A.mul B)
    else do
      let n := A.rows / 2
      let q ← quadrants A B n
      let nested (X Y : Matrix T) : Traced (Matrix T) := do
        let S ← traced .serial_new (Strassen.new X Y r)
        Strassen.run r S.A S.B
      let M1 ← nested (← traced .add (q.A11.add q.A22)) (← traced .add (q.B11.add q.B22))
      let M2 ← nested (← traced .add (q.A21.add q.A22)) q.B11
      let M3 ← nested q.A11 (← traced .sub (q.B12.sub q.B22))
      let M4 ← nested q.A22 (← traced .sub (q.B21.sub q.B11))
      let M5 ← nested (← traced .add (q.A11.add q.A12)) q.B22
      let M6 ← nested (← traced .sub (q.A21.sub q.A11)) (← traced .add (q.B11.add q.B12))
      let M7 ← nested (← traced .sub (q.A12.sub q.A22)) (← traced .add (q.B21.add q.B22))
      untraced (combine A B n M1 M2 M3 M4 M5 M6 M7)

/-- `Strassen::operator()`. -/
def Strassen.call [Zero T] [Add T] [Sub T] [Mul T] (S : Strassen T) : Traced (Matrix T) :=
  Strassen.run S.r S.A S.B

/-- The value a worker obtains when it executes a queued `Strassen` functor. -/
def Strassen.invoke [Zero T] [Add T] [Sub T] [Mul T] (S : Strassen T) : Except Err (Matrix T) :=
  match (S.call).run [] with
  | .ok (M, _) => .ok M
  | .error e => .error e

/-! ## `Thread_Pool<T>` -/

/-- A `std::packaged_task<R()>` holding a callable of type `F`; `state` names the shared state
that the task writes and its future reads. -/
structure packaged_task (F : Type) where
  state : Nat
  f : F

/-- The members of `Thread_Pool<R>` (the worker threads themselves are represented by their
number), followed by the shared states of the futures the pool has handed out: `shared` lists
the states that have been written, `next_state` is the first unused name. -/
structure Thread_Pool (F R : Type) where
  thread_number : Nat
  done : Bool
  work_end : Char
  time_to_sleep : Nat
  tasks : List (packaged_task F)
  shared : List (Nat × Except Err R)
  next_state : Nat

variable {F R : Type}

/-- `Thread_Pool(t_n, w_e, t)`. -/
def Thread_Pool.new (t_n : Nat) (w_e : Char) (t : Nat) : Thread_Pool F R :=
  ⟨t_n, false, w_e, t, [], [], 0⟩

/-- `Thread_Pool()`. -/
def Thread_Pool.new_default : Thread_Pool F R :=
  ⟨2, false, 'f', 1, [], [], 0⟩

/-- `set_work_end(end)`. -/
def Thread_Pool.set_work_end (TP : Thread_Pool F R) (e : Char) : Thread_Pool F R :=
  { TP with work_end := e }

/-- `set_time_to_sleep(t)`. -/
def Thread_Pool.set_time_to_sleep (TP : Thread_Pool F R) (t : Nat) : Thread_Pool F R :=
  { TP with time_to_sleep := t }

/-- `load_front(f)`: the future (the name of its shared state) and the pool after the push. -/
def Thread_Pool.load_front (TP : Thread_Pool F R) (f : F) : Nat × Thread_Pool F R :=
  let task : packaged_task F := ⟨TP.next_state, f⟩
  (task.state, { TP with tasks := task :: TP.tasks, next_state := TP.next_state + 1 })

/-- `load_back(f)`. -/
def Thread_Pool.load_back (TP : Thread_Pool F R) (f : F) : Nat × Thread_Pool F R :=
  let task : packaged_task F := ⟨TP.next_state, f⟩
  (task.state, { TP with tasks := TP.tasks ++ [task], next_state := TP.next_state + 1 })

/-- `task()`: run the callable and store its value or its exception in the shared state. -/
def packaged_task.perform (invoke : F → Except Err R) (task : packaged_task F)
    (shared : List (Nat × Except Err R)) : List (Nat × Except Err R) :=
  (task.state, invoke task.f) :: shared

/-- `work_front()`. -/
def Thread_Pool.work_front (invoke : F → Except Err R) (TP : Thread_Pool F R) :
    Bool × Thread_Pool F R :=
  match TP.tasks with
  | task :: rest => (true, { TP with tasks := rest, shared := task.perform invoke TP.shared })
  | [] => (false, TP)

/-- `work_back()`. -/
def Thread_Pool.work_back (invoke : F → Except Err R) (TP : Thread_Pool F R) :
    Bool × Thread_Pool F R :=
  match TP.tasks.getLast? with
  | some task =>
    (true, { TP with tasks := TP.tasks.dropLast, shared := task.perform invoke TP.shared })
  | none => (false, TP)

/-- `is_empty()`. -/
def Thread_Pool.is_empty (TP : Thread_Pool F R) : Bool := TP.tasks.isEmpty

/-- One pass through the body of `while(!done)` in `looper` by one worker (the sleep after an
unsuccessful attempt changes nothing). -/
def Thread_Pool.looper_step (invoke : F → Except Err R) (TP : Thread_Pool F R) :
    Thread_Pool F R :=
  if TP.work_end = 'f' then (TP.work_front invoke).2 else (TP.work_back invoke).2

/-- `future::get` on the shared state `fut`, with the workers running queued tasks one at a
time, each to completion, while the caller is blocked; the first argument bounds the number of
worker passes. The wait cannot end when the state is unwritten and no worker can write it any
more. -/
def Thread_Pool.future_get (invoke : F → Except Err R) (fut : Nat) :
    Nat → Thread_Pool F R → Except Err (R × Thread_Pool F R)
  | 0, TP =>
    match TP.shared.lookup fut with
    | some (.ok v) => .ok (v, TP)
    | some (.error e) => .error e
    | none => .error .never_resolves
  | fuel + 1, TP =>
    match TP.shared.lookup fut with
    | some (.ok v) => .ok (v, TP)
    | some (.error e) => .error e
    | none =>
      if TP.done ∨ TP.thread_number = 0 ∨ TP.tasks.isEmpty then .error .never_resolves
      else Thread_Pool.future_get invoke fut fuel (TP.looper_step invoke)

/-- `f.get()`: every pass of a worker removes one task, so the queue length bounds the wait. -/
def Thread_Pool.get (invoke : F → Except Err R) (TP : Thread_Pool F R) (fut : Nat) :
    Except Err (R × Thread_Pool F R) :=
  Thread_Pool.future_get invoke fut TP.tasks.length TP

/-! ## `Parallel_Strassen<T>` -/

/-- The members `A`, `B`, `r`, `p` of `Parallel_Strassen<T>`; the pool that `TP` refers to is
the state of `Par`. -/
structure Parallel_Strassen (T : Type) where
  A : Matrix T
  B : Matrix T
  r : Nat
  p : Nat
  deriving DecidableEq

/-- `Parallel_Strassen(A_in, B_in, r_in, p_in, TP_in)`. -/
def Parallel_Strassen.new (A_in B_in : Matrix T) (r_in p_in : Nat) :
    Except Err (Parallel_Strassen T) :=
  let S : Parallel_Strassen T := ⟨A_in, B_in, r_in, p_in⟩
  if S.A.rows ≠ S.B.rows ∨ S.A.rows ≠ S.B.columns ∨ S.A.columns ≠ S.B.columns then
    .error .incorrect_strassen
  else .ok S

/-- What the thread calling `Parallel_Strassen::operator()` acts on: its trace and the pool. -/
structure World (T : Type) where
  trace : List Op
  pool : Thread_Pool (Strassen T) (Matrix T)

/-- A computation of the thread that calls `Parallel_Strassen::operator()`. -/
abbrev Par (T α : Type) : Type := StateT (World T) (Except Err) α

/-- Perform `x` and record it as `o`. -/
def Par.traced {α : Type} (o : Op) (x : Except Err α) : Par T α :=
  fun w => match x with
    | .ok v => .ok (v, { w with trace := w.trace ++ [o] })
    | .error e => .error e

/-- A part of the caller that does not use the pool. -/
def Par.lift {α : Type} (x : Traced α) : Par T α :=
  fun w => match x.run w.trace with
    | .ok (v, tr) => .ok (v, { w with trace := tr })
    | .error e => .error e

/-- `TP.load_front(std::move(S))`. -/
def Par.load_front (S : Strassen T) : Par T Nat :=
  fun w =>
    let (fut, pool) := w.pool.load_front S
    .ok (fut, { trace := w.trace ++ [.load_front], pool := pool })

/-- `fut.get()`. -/
def Par.get [Zero T] [Add T] [Sub T] [Mul T] (fut : Nat) : Par T (Matrix T) :=
  fun w => match w.pool.get Strassen.invoke fut with
    | .ok (M, pool) => .ok (M, { trace := w.trace ++ [.future_get], pool := pool })
    | .error e => .error e

/-- `Parallel_Strassen::operator()` with the members `r`, `p`, `A`, `B` as arguments; the
second equation is the case `r != 0`. -/
def Parallel_Strassen.run [Zero T] [Add T] [Sub T] [Mul T] :
    Nat → Nat → Matrix T → Matrix T → Par T (Matrix T)
  | 0, _, A, B => do
    Par.traced .parallel_call (pure ())
    Par.traced .mul (A.mul B)
  | r + 1, p, A, B => do
    Par.traced .parallel_call (pure ())
    if A.rows % 2 ≠ 0 then Par.traced .mul (A.mul B)
    else do
      let n := A.rows / 2
      let q ← Par.lift (quadrants A B n)
      if p = 0 then
        let submit (X Y : Matrix T) : Par T Nat := do
          let S ← Par.traced .serial_new (Strassen.new X Y r)
          Par.load_front S
        let f_M1 ← submit (← Par.traced .add (q.A11.add q.A22))
          (← Par.traced .add (q.B11.add q.B22))
        let f_M2 ← submit (← Par.traced .add (q.A21.add q.A22)) q.B11
        let f_M3 ← submit q.A11 (← Par.traced .sub (q.B12.sub q.B22))
        let f_M4 ← submit q.A22 (← Par.traced .sub (q.B21.sub q.B11))
        let f_M5 ← submit (← Par.traced .add (q.A11.add q.A12)) q.B22
        let f_M6 ← submit (← Par.traced .sub (q.A21.sub q.A11))
          (← Par.traced .add (q.B11.add q.B12))
        let f_M7 ← submit (← Par.traced .sub (q.A12.sub q.A22))
          (← Par.traced .add (q.B21.add q.B22))
        let M1 ← Par.get f_M1
        let M2 ← Par.get f_M2
        let M3 ← Par.get f_M3
        let M4 ← Par.get f_M4
        let M5 ← Par.get f_M5
        let M6 ← Par.get f_M6
        let M7 ← Par.get f_M7
        Par.lift (untraced (combine A B n M1 M2 M3 M4 M5 M6 M7))
      else
        let nested (X Y : Matrix T) : Par T (Matrix T) := do
          let S ← Par.traced .parallel_new (Parallel_Strassen.new X Y r (p - 1))
          Parallel_Strassen.run r S.p S.A S.B
        let M1 ← nested (← Par.traced .add (q.A11.add q.A22))
          (← Par.traced .add (q.B11.add q.B22))
        let M2 ← nested (← Par.traced .add (q.A21.add q.A22)) q.B11
        let M3 ← nested q.A11 (← Par.traced .sub (q.B12.sub q.B22))
        let M4 ← nested q.A22 (← Par.traced .sub (q.B21.sub q.B11))
        let M5 ← nested (← Par.traced .add (q.A11.add q.A12)) q.B22
        let M6 ← nested (← Par.traced .sub (q.A21.sub q.A11))
          (← Par.traced .add (q.B11.add q.B12))
        let M7 ← nested (← Par.traced .sub (q.A12.sub q.A22))
          (← Par.traced .add (q.B21.add q.B22))
        Par.lift (untraced (combine A B n M1 M2 M3 M4 M5 M6 M7))

/-- `Parallel_Strassen::operator()` on the pool of the world it runs in. -/
def Parallel_Strassen.call [Zero T] [Add T] [Sub T] [Mul T] (S : Parallel_Strassen T) :
    Par T (Matrix T) :=
  Parallel_Strassen.run S.r S.p S.A S.B

/-! ## The textbook product and the states of the loops -/

/-- The partial sum `A(i,0)·M(0,j) + ... + A(i,k-1)·M(k-1,j)` of the textbook product. -/
def dot [Semiring T] (A M : Matrix T) (k i j : Nat) : T :=
  ∑ x in Finset.range k, A.entry i x * M.entry x j

/-- State of the result buffer of `A * M` when the loops are at `(i, k, j)`: rows above `i` are
finished, row `i` holds the sums over `k + 1` terms left of column `j` and over `k` terms from
column `j` on, the rows below are still zero. -/
def mul_state [CommRing T] (A M : Matrix T) (i k j : Nat) (els : List T) : Prop :=
  els.length = A.n_rows * M.n_columns ∧
    ∀ i' j', i' < A.n_rows → j' < M.n_columns →
      els.getD (i' * M.n_columns + j') 0 =
        if i' < i then dot A M A.n_columns i' j'
        else if i' = i then (if j' < j then dot A M (k + 1) i' j' else dot A M k i' j')
        else 0

/-- State of the buffer of a slice when the copy loops are at `(i, j)`: the positions before
`(i, j)` in row-major order hold the copied entries, the others are still zero. -/
def slice_state [Zero T] (M : Matrix T) (row_a column_a rr cr i j : Nat) (els : List T) : Prop :=
  els.length = rr * cr ∧
    ∀ i' j', i' < rr → j' < cr →
      els.getD (i' * cr + j') 0 =
        if i' < i ∨ (i' = i ∧ j' < j) then M.entry (row_a + i') (column_a + j') else 0

/-- Position of a row or column index inside its quadrant. -/
def quad (n i : Nat) : Nat := if i < n then i else i - n

/-- The value that the recombination writes at `(i, j)`, from the entries of the quadrants. -/
def combine_value (n : Nat) (c11 c12 c21 c22 : Nat → Nat → T) (i j : Nat) : T :=
  if i < n then (if j < n then c11 i j else c12 i (j - n))
  else (if j < n then c21 (i - n) j else c22 (i - n) (j - n))

/-- State of `C` when the recombination loops are at `(i, j)`. -/
def combine_state [Zero T] (n : Nat) (c11 c12 c21 c22 : Nat → Nat → T) (i j : Nat)
    (C : Matrix T) : Prop :=
  C.n_rows = 2 * n ∧ C.n_columns = 2 * n ∧ C.total_elements = 2 * n * (2 * n) ∧
    C.elements.length = 2 * n * (2 * n) ∧
    ∀ i' j', i' < 2 * n → j' < 2 * n →
      C.entry i' j' =
        if quad n i' < i ∨ (quad n i' = i ∧ quad n j' < j) then
          combine_value n c11 c12 c21 c22 i' j'
        else 0

/-! ## What a computation of the calling thread returns -/

/-- The computation `x` returns `v` after appending exactly `ops` to the trace. -/
def Traced.Does {α : Type} (x : Traced α) (v : α) (ops : List Op) : Prop :=
  ∀ tr, x.run tr = .ok (v, tr ++ ops)

/-- The computation `x` returns `v`, whatever the trace it starts from. -/
def Traced.Yields {α : Type} (x : Traced α) (v : α) : Prop :=
  ∃ ops, Traced.Does x v ops

/-- A square matrix of the data model with `n` rows. -/
def Matrix.square (M : Matrix T) (n : Nat) : Prop :=
  M.wf ∧ M.n_rows = n ∧ M.n_columns = n

/-- What the serial multiplier with budget `r` is shown to do on every pair of square operands:
it returns, and its value is the well-formed matrix of the textbook sums. -/
def Strassen.run_ok [CommRing T] (r : Nat) : Prop :=
  ∀ (n : Nat) (A B : Matrix T), A.square n → B.square n →
    ∃ P, Traced.Yields (Strassen.run r A B) P ∧ P.square n ∧
      ∀ i j, i < n → j < n → P.entry i j = dot A B n i j

/-! ## Pools in order -/

/-- A pool whose workers run and whose futures are paired one to one with its tasks: the shared
states of the queued tasks are distinct, unwritten, and older than the next state to hand out. -/
def Thread_Pool.Inv {F R : Type} (TP : Thread_Pool F R) : Prop :=
  TP.done = false ∧ 0 < TP.thread_number ∧ (TP.tasks.map (fun t => t.state)).Nodup ∧
    (∀ t ∈ TP.tasks, t.state < TP.next_state) ∧ (∀ e ∈ TP.shared, e.1 < TP.next_state) ∧
    (∀ t ∈ TP.tasks, ∀ e ∈ TP.shared, e.1 ≠ t.state)

/-- The future `fut` stands for the callable `f`: either the task holding `f` is still queued
with that shared state, or the state already holds what `f` returns. -/
def Thread_Pool.Holds {F R : Type} (invoke : F → Except Err R) (TP : Thread_Pool F R)
    (fut : Nat) (f : F) : Prop :=
  (∃ t ∈ TP.tasks, t.state = fut ∧ t.f = f) ∨ TP.shared.lookup fut = some (invoke f)

/-- The pool is in order and every listed future stands for the listed functor. -/
def Promised [Zero T] [Add T] [Sub T] [Mul T] (L : List (Nat × Strassen T))
    (TP : Thread_Pool (Strassen T) (Matrix T)) : Prop :=
  TP.Inv ∧ ∀ e ∈ L, TP.Holds Strassen.invoke e.1 e.2

/-- From every world whose pool satisfies `Pre`, the computation `x` returns `v` and leaves a
pool satisfying `Post`. -/
def Par.Spec {α : Type} (Pre : Thread_Pool (Strassen T) (Matrix T) → Prop) (x : Par T α) (v : α)
    (Post : Thread_Pool (Strassen T) (Matrix T) → Prop) : Prop :=
  ∀ w : World T, Pre w.pool → ∃ w', x.run w = .ok (v, w') ∧ Post w'.pool

/-- What the parallel controller with budget `r` is shown to do, for every parallel depth, on
every pair of square operands and every pool that is in order. -/
def Parallel_Strassen.run_ok [CommRing T] (r : Nat) : Prop :=
  ∀ (p n : Nat) (A B : Matrix T), A.square n → B.square n →
    ∃ P, Par.Spec Thread_Pool.Inv (Parallel_Strassen.run r p A B) P Thread_Pool.Inv ∧
      P.square n ∧ ∀ i j, i < n → j < n → P.entry i j = dot A B n i j

/-! ## Concrete operands -/

instance (M : Matrix T) (n : Nat) : Decidable (M.square n) := by
  unfold Matrix.square; infer_instance

/-- A 2×2 matrix of integers. -/
def demoA : Matrix Int := ⟨2, 2, 4, [1, 2, 3, 4]⟩

/-- Another 2×2 matrix of integers. -/
def demoB : Matrix Int := ⟨2, 2, 4, [5, 6, 7, 8]⟩

/-- A 3×3 matrix of integers. -/
def demoC : Matrix Int := ⟨3, 3, 9, [1, 2, 3, 4, 5, 6, 7, 8, 9]⟩

/-- Another 3×3 matrix of integers. -/
def demoD : Matrix Int := ⟨3, 3, 9, [1, 0, 2, 0, 1, 0, -1, 0, 1]⟩

/-- A 4×4 matrix of integers: its dimension halves twice before it is odd. -/
def demoM : Matrix Int :=
  ⟨4, 4, 16, [1, 2, 3, 4, 5, 6, 7, 8, 9, 10, 11, 12, 13, 14, 15, 16]⟩

/-- Another 4×4 matrix of integers. -/
def demoN : Matrix Int :=
  ⟨4, 4, 16, [2, 0, -1, 3, 1, 1, 0, -2, 0, 4, 5, 1, -3, 2, 1, 0]⟩

/-- The pool of `test_Strassen.cpp`: `Thread_Pool<Matrix<T>> TP(4, 'f', 2)`. -/
def test_pool (T : Type) : Thread_Pool (Strassen T) (Matrix T) := Thread_Pool.new 4 'f' 2

/-- The caller's world before the call of the test: an empty trace and the fresh pool. -/
def test_world (T : Type) : World T := ⟨[], test_pool T⟩

/-- The column of `n` zeros, as `Matrix<T>(n, 1)` builds it. -/
def zero_column (n : Nat) : Matrix Int := ⟨n, 1, n, List.replicate n 0⟩

/-- The row of `n` zeros, as `Matrix<T>(1, n)` builds it. -/
def zero_row (n : Nat) : Matrix Int := ⟨1, n, n, List.replicate n 0⟩

/-! ## Matrices a program can hold -/

/-- The matrices a program can hold: the values returned by the constructors and by the
public operations applied to such values (the row count passed to `Matrix(size_t)` is a
`size_t`; copies and moves return the value itself). -/
inductive Matrix.Reachable [Zero T] [Add T] [Sub T] [Mul T] : Matrix T → Prop
  | new (r c : Nat) (M : Matrix T) (h : Matrix.new r c = .ok M) : Matrix.Reachable M
  | new_column (r : Nat) (M : Matrix T) (hr : r < SIZE_MOD)
      (h : Matrix.new_column r = .ok M) : Matrix.Reachable M
  | new_default : Matrix.Reachable Matrix.new_default
  | new_list (r c : Nat) (l : List T) (M : Matrix T) (h : Matrix.new_list r c l = .ok M) :
      Matrix.Reachable M
  | add_assign (A B M : Matrix T) (hA : Matrix.Reachable A) (hB : Matrix.Reachable B)
      (h : A.add_assign B = .ok M) : Matrix.Reachable M
  | sub_assign (A B M : Matrix T) (hA : Matrix.Reachable A) (hB : Matrix.Reachable B)
      (h : A.sub_assign B = .ok M) : Matrix.Reachable M
  | add (A B M : Matrix T) (hA : Matrix.Reachable A) (hB : Matrix.Reachable B)
      (h : A.add B = .ok M) : Matrix.Reachable M
  | sub (A B M : Matrix T) (hA : Matrix.Reachable A) (hB : Matrix.Reachable B)
      (h : A.sub B = .ok M) : Matrix.Reachable M
  | mul (A B M : Matrix T) (hA : Matrix.Reachable A) (hB : Matrix.Reachable B)
      (h : A.mul B = .ok M) : Matrix.Reachable M
  | slice (A : Matrix T) (row_a row_b column_a column_b : Nat) (M : Matrix T)
      (hA : Matrix.Reachable A) (h : A.slice row_a row_b column_a column_b = .ok M) :
      Matrix.Reachable M
  | exchange_rows (A : Matrix T) (row_a row_b : Nat) (M : Matrix T)
      (hA : Matrix.Reachable A) (h : A.exchange_rows row_a row_b = .ok M) : Matrix.Reachable M
  | put (A : Matrix T) (r c : Nat) (x : T) (M : Matrix T)
      (hA : Matrix.Reachable A) (h : A.put r c x = .ok M) : Matrix.Reachable M

/-- The representation invariant in `size_t` arithmetic: the buffer has `total_elements`
elements, and `total_elements` is the `size_t` product `n_rows * n_columns`. -/
def Matrix.rep (M : Matrix T) : Prop :=
  M.elements.length = M.total_elements ∧ M.total_elements = sz (M.n_rows * M.n_columns)

/-! ## Runs of the pool -/

section pool_runs
variable {F R : Type}

/-- The pool of `Thread_Pool_G.hpp`. Its members and member functions are those of
`Thread_Pool_T.hpp`; a queued `Task_Container` holds a `std::packaged_task<result_type()>`
whose result type is that of the callable, so `R` stands for the union of the result types of
the callables submitted, and `Task_Container::operator()` runs the packaged task it holds. -/
abbrev Thread_Pool_G (F R : Type) : Type := Thread_Pool F R

/-- `~Thread_Pool() { done = true; }`: the flag is set and the queue is not touched. -/
def Thread_Pool.destroy (TP : Thread_Pool F R) : Thread_Pool F R := { TP with done := true }

/-- `void looper()` as one worker runs it, for at most `n` evaluations of the condition of
`while(!done)`: whether the worker has left the loop, and the pool it leaves. -/
def Thread_Pool.looper (invoke : F → Except Err R) :
    Nat → Thread_Pool F R → Bool × Thread_Pool F R
  | 0, TP => (false, TP)
  | n + 1, TP =>
    if TP.done then (true, TP) else Thread_Pool.looper invoke n (TP.looper_step invoke)

/-- The callables `fs` submitted one after the other with `load_front`: the futures returned,
in the order of submission, and the pool. -/
def Thread_Pool.load_front_all (TP : Thread_Pool F R) : List F → List Nat × Thread_Pool F R
  | [] => ([], TP)
  | f :: fs =>
    let rest := Thread_Pool.load_front_all (TP.load_front f).2 fs
    ((TP.load_front f).1 :: rest.1, rest.2)

/-- The callables `fs` submitted one after the other with `load_back`: the futures returned,
in the order of submission, and the pool. -/
def Thread_Pool.load_back_all (TP : Thread_Pool F R) : List F → List Nat × Thread_Pool F R
  | [] => ([], TP)
  | f :: fs =>
    let rest := Thread_Pool.load_back_all (TP.load_back f).2 fs
    ((TP.load_back f).1 :: rest.1, rest.2)

/-- The shared states written so far with what each holds, oldest first: running a task
writes its shared state, so this is the order in which the tasks were executed. -/
def Thread_Pool.executed (TP : Thread_Pool F R) : List (Nat × Except Err R) :=
  TP.shared.reverse

/-- The tasks packaged for the callables `fs`, the first with shared state `s`. -/
def packaged_all (s : Nat) : List F → List (packaged_task F)
  | [] => []
  | f :: fs => ⟨s, f⟩ :: packaged_all (s + 1) fs

/-- What running a task writes: its shared state and what its callable returns. -/
def packaged_task.outcome (invoke : F → Except Err R) (task : packaged_task F) :
    Nat × Except Err R :=
  (task.state, invoke task.f)

/-- A callable for the examples: it returns its number, and the callable `0` throws. -/
def demo_task (n : Nat) : Except Err Nat :=
  if n = 0 then .error .incorrect_product else .ok n

/-- A pool with one worker that drains the front, as `Thread_Pool<T> TP(1, 'f', 2)`. -/
def front_pool : Thread_Pool Nat Nat := Thread_Pool.new 1 'f' 2

/-- A pool with one worker that drains the back, as `Thread_Pool<T> TP(1, 'b', 2)`. -/
def back_pool : Thread_Pool Nat Nat := Thread_Pool.new 1 'b' 2

end pool_runs

/-! ## Calls on the pool -/

section pool_calls
variable {F R : Type}

/-- One call of a public member function of the pool by some thread, or one pass of a worker
through `looper`: the evaluation of `while(!done)` and, if the flag is not set, the body. -/
inductive Pool_Call (F : Type) where
  | load_front (f : F)
  | load_back (f : F)
  | work_front
  | work_back
  | is_empty
  | set_work_end (e : Char)
  | set_time_to_sleep (t : Nat)
  | looper_pass

/-- The pool after the call. -/
def Thread_Pool.call (invoke : F → Except Err R) (TP : Thread_Pool F R) :
    Pool_Call F → Thread_Pool F R
  | .load_front f => (TP.load_front f).2
  | .load_back f => (TP.load_back f).2
  | .work_front => (TP.work_front invoke).2
  | .work_back => (TP.work_back invoke).2
  | .is_empty => TP
  | .set_work_end e => TP.set_work_end e
  | .set_time_to_sleep t => TP.set_time_to_sleep t
  | .looper_pass => if TP.done then TP else TP.looper_step invoke

/-- The pool after the calls `cs`, made one after the other. -/
def Thread_Pool.calls (invoke : F → Except Err R) (TP : Thread_Pool F R) :
    List (Pool_Call F) → Thread_Pool F R
  | [] => TP
  | c :: cs => Thread_Pool.calls invoke (TP.call invoke c) cs

/-- Whether the call is a submission. -/
def Pool_Call.submits : Pool_Call F → Bool
  | .load_front _ => true
  | .load_back _ => true
  | _ => false

/-- Whether the call is, or makes, a call of `work_front` or `work_back` that returns
`true`. -/
def Thread_Pool.works (invoke : F → Except Err R) (TP : Thread_Pool F R) : Pool_Call F → Bool
  | .work_front => (TP.work_front invoke).1
  | .work_back => (TP.work_back invoke).1
  | .looper_pass =>
    if TP.done then false
    else if TP.work_end = 'f' then (TP.work_front invoke).1 else (TP.work_back invoke).1
  | _ => false

/-- The number of submissions among the calls `cs`. -/
def submissions (cs : List (Pool_Call F)) : Nat := cs.countP Pool_Call.submits

/-- The number of calls of `work_front` and `work_back` that return `true` in the course of
the calls `cs`. -/
def Thread_Pool.successes (invoke : F → Except Err R) (TP : Thread_Pool F R) :
    List (Pool_Call F) → Nat
  | [] => 0
  | c :: cs =>
    (if TP.works invoke c then 1 else 0) + Thread_Pool.successes invoke (TP.call invoke c) cs

end pool_calls

/-! ## What a multiplier does to the pool -/

/-- The operations of the serial multiplier: operations on matrices, and the construction and
the call of a `Strassen` functor. -/
def Op.serial : Op → Bool
  | .slice => true
  | .add => true
  | .sub => true
  | .mul => true
  | .serial_new => true
  | .serial_call => true
  | _ => false

/-- Whenever the computation `x` returns, what it appended to the trace are operations of the
serial multiplier only. -/
def Traced.Only {α : Type} (x : Traced α) : Prop :=
  ∀ tr v tr', x.run tr = .ok (v, tr') → ∃ ops, tr' = tr ++ ops ∧ ∀ o ∈ ops, o.serial = true

/-- Whenever the computation `x` of the calling thread returns, it has handed at most `k`
tasks to `load_front`, and the pool has handed out exactly one shared state for each. -/
def Par.Submits {α : Type} (k : Nat) (x : Par T α) : Prop :=
  ∀ w v w', x.run w = .ok (v, w') → ∃ ops, w'.trace = w.trace ++ ops ∧
    w'.pool.next_state = w.pool.next_state + ops.count .load_front ∧
    ops.count .load_front ≤ k

/-! ## Rows exchanged -/

/-- The buffer position that position `k` holds after the first `j` swaps of the rows that
start at `ia` and `ib`. -/
def swap_index (ia ib j k : Nat) : Nat :=
  if ia ≤ k ∧ k < ia + j then k - ia + ib
  else if ib ≤ k ∧ k < ib + j then k - ib + ia
  else k

/-- The row that row `i` holds after rows `a` and `b` are exchanged. -/
def swap_row (a b i : Nat) : Nat := if i = a then b else if i = b then a else i

/-! ## `Algebra` -/

section algebra
variable [Zero T] [One T] [Sub T] [Mul T] [Div T] [DecidableEq T]

/-- `is_zero(const T&)`. -/
def Algebra.is_zero (a : T) : Bool := decide (a = 0)

/-- The loop of `main_diagonal_partial_sort` over the rows `i` it still has to visit: the
first row with `M(i, row)` not zero is exchanged with row `row`, the sign is flipped, and
`i = last_row` ends the loop. -/
def Algebra.sort_scan (row : Nat) : List Nat → Matrix T → Int → Except Err (Matrix T × Int)
  | [], M, dm => pure (M, dm)
  | i :: rest, M, dm => do
    if !Algebra.is_zero (← M.get i row) then
      let M ← M.exchange_rows i row
      pure (M, dm * -1)
    else Algebra.sort_scan row rest M dm

/-- `main_diagonal_partial_sort(row, M)`, with the member `determinant_multiplier` as `dm`. -/
def Algebra.main_diagonal_partial_sort (row : Nat) (M : Matrix T) (dm : Int) :
    Except Err (Matrix T × Int) := do
  let last_row := M.rows
  if Algebra.is_zero (← M.get row row) then
    Algebra.sort_scan row (List.range' row (last_row - row)) M dm
  else pure (M, dm)

/-- The loop over `j` of `zeros_under_pivots` (`for(j = 1; c + j != j_end; ++j)`, entered
with `c < j_end`) and of `zeros_above_pivots` (`for(j = 1; c + j < j_end; ++j)`):
`M(t, c + j) -= M(row, c + j) * multiplier`. -/
def Algebra.subtract_row (t row c j_end : Nat) (multiplier : T) (M : Matrix T) :
    Except Err (Matrix T) :=
  (List.range (j_end - c - 1)).foldlM (fun M l => do
    let j := l + 1
    M.put t (sz (c + j)) ((← M.get t (sz (c + j))) - (← M.get row (sz (c + j))) * multiplier)) M

/-- What `zeros_under_pivots` does once `M(row, c)` is not zero, `c` being
`col + right_shift`: the loop over `i` that subtracts from each row under `row` its multiple
of row `row`, to the right of column `c`, and the loop over `i` that makes column `c` zero
under row `row`. The loops `for(i = 1; row + i != i_end; ++i)` are entered with
`row < i_end`. -/
def Algebra.clear_under (row c : Nat) (M : Matrix T) : Except Err (Matrix T) := do
  let i_end := M.rows
  let j_end := M.columns
  let pivot ← M.get row c
  let M ← (List.range (i_end - row - 1)).foldlM (fun M k => do
    let i := k + 1
    let multiplier := (← M.get (sz (row + i)) c) / pivot
    Algebra.subtract_row (sz (row + i)) row c j_end multiplier M) M
  (List.range (i_end - row - 1)).foldlM (fun M k => M.put (sz (row + (k + 1))) c 0) M

/-- The loop `while(col + right_shift < last_col)` of `zeros_under_pivots` for one `row`,
over the columns `c = col + right_shift` it still has to visit: under the first with
`M(row, c)` not zero it forms zeros, and `right_shift = last_col - col` ends the loop. -/
def Algebra.under_scan (row : Nat) : List Nat → Matrix T → Except Err (Matrix T)
  | [], M => pure M
  | c :: rest, M => do
    if !Algebra.is_zero (← M.get row c) then Algebra.clear_under row c M
    else Algebra.under_scan row rest M

/-- `zeros_under_pivots(M)`; the value `determinant_multiplier` had is overwritten with 1. -/
def Algebra.zeros_under_pivots (M : Matrix T) (_dm : Int) : Except Err (Matrix T × Int) := do
  let last_row := M.rows
  let last_col := M.columns
  (List.range last_row).foldlM (fun (s : Matrix T × Int) row => do
    let s ← Algebra.main_diagonal_partial_sort row s.1 s.2
    let col := row
    let M ← Algebra.under_scan row (List.range' col (last_col - col)) s.1
    pure (M, s.2)) (M, 1)

/-- What `zeros_above_pivots` does once `M(row, c)` is not zero: the loops
`for(i = 1; row - i + 1 > 0; ++i)` visit the rows `row - 1` down to `0`. -/
def Algebra.clear_above (row c : Nat) (M : Matrix T) : Except Err (Matrix T) := do
  let j_end := M.columns
  let pivot ← M.get row c
  let M ← (List.range row).foldlM (fun M k => do
    let i := k + 1
    let multiplier := (← M.get (size_sub row i) c) / pivot
    Algebra.subtract_row (size_sub row i) row c j_end multiplier M) M
  (List.range row).foldlM (fun M k => M.put (size_sub row (k + 1)) c 0) M

/-- The loop `while(col + right_shift < last_col)` of `zeros_above_pivots` for one `row`. -/
def Algebra.above_scan (row : Nat) : List Nat → Matrix T → Except Err (Matrix T)
  | [], M => pure M
  | c :: rest, M => do
    if !Algebra.is_zero (← M.get row c) then Algebra.clear_above row c M
    else Algebra.above_scan row rest M

/-- `zeros_above_pivots(M)`. -/
def Algebra.zeros_above_pivots (M : Matrix T) : Except Err (Matrix T) := do
  let last_row := M.rows
  let last_col := M.columns
  (List.range' 1 (last_row - 1)).foldlM (fun M row =>
    Algebra.above_scan row (List.range' row (last_col - row)) M) M

/-- The loop over `j` of `divide_rows_by_pivots` for one row `i`, over the columns it still
has to visit: the row is divided from the first `M(i, j)` not zero on, and `j = j_end` ends
the loop. -/
def Algebra.divide_scan (i j_end : Nat) : List Nat → Matrix T → Except Err (Matrix T)
  | [], M => pure M
  | j :: rest, M => do
    if !Algebra.is_zero (← M.get i j) then
      let divisor ← M.get i j
      (List.range (j_end - j)).foldlM (fun M k => do
        M.put i (sz (j + k)) ((← M.get i (sz (j + k))) / divisor)) M
    else Algebra.divide_scan i j_end rest M

/-- `divide_rows_by_pivots(M)`. -/
def Algebra.divide_rows_by_pivots (M : Matrix T) : Except Err (Matrix T) := do
  let i_end := M.rows
  let j_end := M.columns
  (List.range i_end).foldlM (fun M i => Algebra.divide_scan i j_end (List.range j_end) M) M

/-- The loop of `has_a_main_diagonal_zero` over the diagonal entries it still has to visit. -/
def Algebra.diagonal_scan (M : Matrix T) : List Nat → Except Err Bool
  | [] => pure false
  | i :: rest => do
    if Algebra.is_zero (← M.get i i) then pure true else Algebra.diagonal_scan M rest

/-- `has_a_main_diagonal_zero(M)`. -/
def Algebra.has_a_main_diagonal_zero (M : Matrix T) : Except Err Bool :=
  let last_diagonal := if M.rows < M.columns then M.rows else M.columns
  Algebra.diagonal_scan M (List.range last_diagonal)

/-- `rref(M)`: the matrix returned and the value left in `determinant_multiplier`. -/
def Algebra.rref (M : Matrix T) (dm : Int) : Except Err (Matrix T × Int) := do
  let MR := M
  let s ← Algebra.zeros_under_pivots MR dm
  let MR ← Algebra.zeros_above_pivots s.1
  let MR ← Algebra.divide_rows_by_pivots MR
  pure (MR, s.2)

/-- `inverse(M)`: the matrix returned and the value left in `determinant_multiplier`. -/
def Algebra.inverse (M : Matrix T) (dm : Int) : Except Err (Matrix T × Int) := do
  let i_end := M.rows
  let j_end := M.columns
  let MA ← (Matrix.new i_end (sz (2 * j_end)) : Except Err (Matrix T))
  let MA ← (List.range i_end).foldlM (fun MA i =>
    (List.range j_end).foldlM (fun MA j => do MA.put i j (← M.get i j)) MA) MA
  let MA ← (List.range i_end).foldlM (fun MA i =>
    (List.range' j_end (sz (2 * j_end) - j_end)).foldlM (fun MA j =>
      if i = size_sub j j_end then MA.put i j 1 else MA.put i j 0) MA) MA
  let s ← Algebra.zeros_under_pivots MA dm
  if (← Algebra.has_a_main_diagonal_zero s.1) then .error .singular
  else do
    let MA ← Algebra.zeros_above_pivots s.1
    let MA ← Algebra.divide_rows_by_pivots MA
    let MI ← (Matrix.new i_end j_end : Except Err (Matrix T))
    let MI ← (List.range i_end).foldlM (fun MI i =>
      (List.range j_end).foldlM (fun MI j => do MI.put i j (← MA.get i (sz (j + j_end)))) MI) MI
    pure (MI, s.2)

/-- `T determinant(const Matrix<T>&)`: the value returned and the value left in
`determinant_multiplier`. -/
def Algebra.determinant [IntCast T] (M : Matrix T) (dm : Int) : Except Err (T × Int) :=
  if M.rows = M.columns then do
    let MD := M
    let s ← Algebra.zeros_under_pivots MD dm
    let i_end := s.1.rows
    let det ← (List.range i_end).foldlM (fun det i => do pure (det * (← s.1.get i i))) (1 : T)
    pure (det * ((s.2 : Int) : T), s.2)
  else pure (0, dm)

end algebra

/-- A 2×3 matrix of rationals. -/
def demoE : Matrix ℚ := ⟨2, 3, 6, [0, 0, 1, 0, 1, 0]⟩

/-- A 2×1 matrix of rationals. -/
def demoF : Matrix ℚ := ⟨2, 1, 2, [1, 2]⟩

/-- A 2×2 matrix of rationals with determinant `-2`. -/
def demoG : Matrix ℚ := ⟨2, 2, 4, [1, 2, 3, 4]⟩

/-- A singular 2×2 matrix of rationals. -/
def demoH : Matrix ℚ := ⟨2, 2, 4, [1, 2, 2, 4]⟩

/-- The first column of row `i` whose entry is not zero: the leading entry of the row. -/
def Matrix.leading [Zero T] [DecidableEq T] (M : Matrix T) (i : Nat) : Option Nat :=
  (List.range M.n_columns).find? (fun j => decide (M.entry i j ≠ 0))

/-- Reduced row echelon form, in the words of the specification: every non-zero row has
leading entry 1, which is the only non-zero entry of its column; the leading entry of a
non-zero row lies strictly to the right of the leading entry of the row above it, which is
therefore not a zero row. -/
def Matrix.reduced_row_echelon [Zero T] [One T] [DecidableEq T] (M : Matrix T) : Prop :=
  (∀ i j, i < M.n_rows → M.leading i = some j →
    M.entry i j = 1 ∧ ∀ k, k < M.n_rows → k ≠ i → M.entry k j = 0) ∧
  (∀ i j, i + 1 < M.n_rows → M.leading (i + 1) = some j →
    ∃ l, M.leading i = some l ∧ l < j)

/-! ## The products and the tasks of a call -/

/-- The pairs of operands on which a call of `Strassen::operator()` with budget `r` calls
`operator *`, in the order of the calls: its own operands when `r == 0` or the dimension is
odd, and otherwise the pairs of the seven functors it constructs and calls. -/
def Strassen.products [Zero T] [Add T] [Sub T] [Mul T] :
    Nat → Matrix T → Matrix T → Except Err (List (Matrix T × Matrix T))
  | 0, A, B => pure [(A, B)]
  | r + 1, A, B =>
    if A.rows % 2 ≠ 0 then pure [(A, B)]
    else do
      let n := A.rows / 2
      let q ← (quadrants A B n).run' []
      let nested (X Y : Matrix T) : Except Err (List (Matrix T × Matrix T)) := do
        let S ← Strassen.new X Y r
        Strassen.products r S.A S.B
      let L1 ← nested (← q.A11.add q.A22) (← q.B11.add q.B22)
      let L2 ← nested (← q.A21.add q.A22) q.B11
      let L3 ← nested q.A11 (← q.B12.sub q.B22)
      let L4 ← nested q.A22 (← q.B21.sub q.B11)
      let L5 ← nested (← q.A11.add q.A12) q.B22
      let L6 ← nested (← q.A21.sub q.A11) (← q.B11.add q.B12)
      let L7 ← nested (← q.A12.sub q.A22) (← q.B21.add q.B22)
      pure (L1 ++ L2 ++ L3 ++ L4 ++ L5 ++ L6 ++ L7)

/-- The computation `x` returns `v` after exactly `k` calls of `operator *`, whatever the
trace it starts from. -/
def Traced.Multiplies {α : Type} (k : Nat) (x : Traced α) (v : α) : Prop :=
  ∃ ops, Traced.Does x v ops ∧ ops.count .mul = k

/-- The functors that a call of `Parallel_Strassen::operator()` with budget `r` and parallel
depth `p` hands to `load_front`, in the order of the submissions: none when `r == 0` or the
dimension is odd, the seven `Strassen` functors it constructs when `p == 0`, and otherwise
those of the seven `Parallel_Strassen` functors it constructs and calls. -/
def Parallel_Strassen.tasks [Zero T] [Add T] [Sub T] [Mul T] :
    Nat → Nat → Matrix T → Matrix T → Except Err (List (Strassen T))
  | 0, _, _, _ => pure []
  | r + 1, p, A, B =>
    if A.rows % 2 ≠ 0 then pure []
    else do
      let n := A.rows / 2
      let q ← (quadrants A B n).run' []
      if p = 0 then
        let S1 ← Strassen.new (← q.A11.add q.A22) (← q.B11.add q.B22) r
        let S2 ← Strassen.new (← q.A21.add q.A22) q.B11 r
        let S3 ← Strassen.new q.A11 (← q.B12.sub q.B22) r
        let S4 ← Strassen.new q.A22 (← q.B21.sub q.B11) r
        let S5 ← Strassen.new (← q.A11.add q.A12) q.B22 r
        let S6 ← Strassen.new (← q.A21.sub q.A11) (← q.B11.add q.B12) r
        let S7 ← Strassen.new (← q.A12.sub q.A22) (← q.B21.add q.B22) r
        pure [S1, S2, S3, S4, S5, S6, S7]
      else
        let nested (X Y : Matrix T) : Except Err (List (Strassen T)) := do
          let S ← Parallel_Strassen.new X Y r (p - 1)
          Parallel_Strassen.tasks r S.p S.A S.B
        let L1 ← nested (← q.A11.add q.A22) (← q.B11.add q.B22)
        let L2 ← nested (← q.A21.add q.A22) q.B11
        let L3 ← nested q.A11 (← q.B12.sub q.B22)
        let L4 ← nested q.A22 (← q.B21.sub q.B11)
        let L5 ← nested (← q.A11.add q.A12) q.B22
        let L6 ← nested (← q.A21.sub q.A11) (← q.B11.add q.B12)
        let L7 ← nested (← q.A12.sub q.A22) (← q.B21.add q.B22)
        pure (L1 ++ L2 ++ L3 ++ L4 ++ L5 ++ L6 ++ L7)

/-- Whenever the computation `x` of the calling thread returns, its value satisfies `Q`, it
has handed exactly `k` tasks to `load_front` and read exactly `g` futures, the pool has handed
out exactly `k` shared states, and with `k = 0` and `g = 0` the pool is as it was. -/
def Par.Uses {α : Type} (k g : Nat) (x : Par T α) (Q : α → Prop) : Prop :=
  ∀ w v w', x.run w = .ok (v, w') → Q v ∧ ∃ ops, w'.trace = w.trace ++ ops ∧
    ops.count .load_front = k ∧ ops.count .future_get = g ∧
    w'.pool.next_state = w.pool.next_state + k ∧ (k = 0 → g = 0 → w'.pool = w.pool)

/-! ## Matrices as tables of entries -/

/-- The matrix `M` is a matrix of the data model with `h` rows and `w` columns whose entry
`(i, j)` is `e i j`. -/
def Matrix.Is [Zero T] (M : Matrix T) (h w : Nat) (e : Nat → Nat → T) : Prop :=
  M.wf ∧ M.n_rows = h ∧ M.n_columns = w ∧ ∀ i j, i < h → j < w → M.entry i j = e i j

/-- The table `e` with `v` at `(r, c)`. -/
def entry_set (e : Nat → Nat → T) (r c : Nat) (v : T) : Nat → Nat → T :=
  fun i j => if i = r ∧ j = c then v else e i j

/-- The table after `zeros_under_pivots` has formed zeros under the pivot `(row, c)`: from
every row under `row` the multiple of row `row` is subtracted right of column `c`, and its
entry in column `c` is zero. -/
def cleared_under {K : Type} [Field K] (e : Nat → Nat → K) (row c : Nat) : Nat → Nat → K :=
  fun i j =>
    if row < i then
      (if c < j then e i j - e row j * (e i c / e row c) else if j = c then 0 else e i j)
    else e i j

/-- The table after `zeros_above_pivots` has formed zeros above the pivot `(row, c)`. -/
def cleared_above {K : Type} [Field K] (e : Nat → Nat → K) (row c : Nat) : Nat → Nat → K :=
  fun i j =>
    if i < row then
      (if c < j then e i j - e row j * (e i c / e row c) else if j = c then 0 else e i j)
    else e i j

/-! ## Row operations on tables -/

/-- The entries `(i, j)` with `i, j < n` of a table, as a square matrix. -/
def table {K : Type} (n : Nat) (e : Nat → Nat → K) : SquareTable n K :=
  Matrix.of fun i j => e i j

/-- Row operations lead from the table `e0` to the table `e`, both of `n` rows and `w`
columns: the rows of `e` are the combinations of the rows of `e0` that a square matrix of
determinant `d` gives. -/
def RowEquivalent {K : Type} [Field K] (n w : Nat) (e0 e : Nat → Nat → K) (d : K) : Prop :=
  ∃ E : SquareTable n K, E.det = d ∧
    ∀ (i : Fin n) (j : Nat), j < w → e i j = ∑ k : Fin n, E i k * e0 k j

/-- The augmented table `[e | I]` of `inverse`: `e` left of column `n`, the identity from
column `n` on. -/
def augmented [Zero T] [One T] (n : Nat) (e : Nat → Nat → T) : Nat → Nat → T :=
  fun i j => if j < n then e i j else if i = j - n then 1 else 0

/-! ## Unsigned element types and calls on an object -/

/-- The unsigned integers of `w` bits: the numbers below `2^w`, whose `+`, `-` and `*` are
those of the natural numbers taken modulo `2^w`. -/
abbrev Word (w : Nat) : Type := Fin (2 ^ w)

/-- A 2×2 matrix of bytes. -/
def demoP : Matrix (Word 8) := ⟨2, 2, 4, [200, 100, 50, 255]⟩

/-- A 2×2 matrix of bytes. -/
def demoQ : Matrix (Word 8) := ⟨2, 2, 4, [3, 250, 128, 77]⟩

/-- One step of the loop of `operator +=` and `operator -=` on the object: `elements[i]`
becomes `op elements[i] M.elements[i]`; after an access outside a buffer nothing more is
done. -/
def assign_step (op : T → T → T) (M : Matrix T) (s : Except Err Unit × Matrix T) (i : Nat) :
    Except Err Unit × Matrix T :=
  match s.1 with
  | .error _ => s
  | .ok _ =>
    match (do
      let x ← buf_get s.2.elements i
      let y ← buf_get M.elements i
      buf_set s.2.elements i (op x y) : Except Err (List T)) with
    | .ok els => (.ok (), { s.2 with elements := els })
    | .error e => (.error e, s.2)

/-- `operator +=` as a call on the object `A`: how the call ends, and the object after the
call, also when the call throws. -/
def Matrix.add_assign_object [Add T] (A M : Matrix T) : Except Err Unit × Matrix T :=
  if A.n_rows ≠ M.n_rows ∨ A.n_columns ≠ M.n_columns then (.error .dimensions_do_not_match, A)
  else (List.range A.total_elements).foldl (assign_step (fun x y => x + y) M) (.ok (), A)

/-- `operator -=` as a call on the object `A`. -/
def Matrix.sub_assign_object [Sub T] (A M : Matrix T) : Except Err Unit × Matrix T :=
  if A.n_rows ≠ M.n_rows ∨ A.n_columns ≠ M.n_columns then (.error .dimensions_do_not_match, A)
  else (List.range A.total_elements).foldl (assign_step (fun x y => x - y) M) (.ok (), A)

/-- The value of a call on an object that returns the object. -/
def returned (s : Except Err Unit × Matrix T) : Except Err (Matrix T) :=
  match s.1 with
  | .ok _ => .ok s.2
  | .error e => .error e

/-! ## Loops with their tests -/

/-- How a run with a bound on the iterations of its loops ends without a value: by a `throw`
or an access outside a buffer, or with the bound used up. -/
inductive Halt
  /-- an exception, or undefined behaviour -/
  | thrown (e : Err)
  /-- the bound on the iterations is used up -/
  | out_of_fuel
  deriving DecidableEq

/-- A call that needs no bound, inside a run with a bound. -/
def bounded {α : Type} (x : Except Err α) : Except Halt α :=
  match x with
  | .ok a => .ok a
  | .error e => .error (.thrown e)

/-- A loop of the source with a `size_t` index: while the test `cond` holds of the index, the
body runs on the index and the state, and gives the value the index has when the test is
made again (the body of a `for` loop ends with `++i`, taken modulo `2^64`) and the state.
At most `fuel` iterations are run. -/
def loop {σ : Type} (cond : Nat → Bool) (body : Nat → σ → Except Halt (Nat × σ)) :
    Nat → Nat → σ → Except Halt σ
  | 0, _, _ => .error .out_of_fuel
  | fuel + 1, i, s =>
    if cond i then do
      let r ← body i s
      loop cond body fuel r.1 r.2
    else pure s

/-- `operator ==`: the local `equal` is the state of the loop; after `i = total_elements`
the loop ends with `++i`. -/
def Matrix.eq [DecidableEq T] (fuel : Nat) (A M : Matrix T) : Except Halt Bool :=
  if A.n_rows ≠ M.n_rows ∨ A.n_columns ≠ M.n_columns then pure false
  else
    loop (fun i => decide (i < A.total_elements))
      (fun i equal => do
        let a ← bounded (buf_get A.elements i)
        let b ← bounded (buf_get M.elements i)
        if a ≠ b then pure (sz (A.total_elements + 1), false) else pure (sz (i + 1), equal))
      fuel 0 true

/-- `operator !=`. -/
def Matrix.ne [DecidableEq T] (fuel : Nat) (A M : Matrix T) : Except Halt Bool :=
  if A.n_rows ≠ M.n_rows ∨ A.n_columns ≠ M.n_columns then pure true
  else
    loop (fun i => decide (i < A.total_elements))
      (fun i not_equal => do
        let a ← bounded (buf_get A.elements i)
        let b ← bounded (buf_get M.elements i)
        if a ≠ b then pure (sz (A.total_elements + 1), true) else pure (sz (i + 1), not_equal))
      fuel 0 false

/-! ## `Algebra` with the tests of its loops -/

section algebra_runs
variable [Zero T] [One T] [Sub T] [Mul T] [Div T] [DecidableEq T]

/-- `main_diagonal_partial_sort(row, M)` with its loop `for(size_t i = row; i < last_row; ++i)`:
after an exchange, `i = last_row` and then `++i`. -/
def Algebra.main_diagonal_partial_sort_run (fuel row : Nat) (M : Matrix T) (dm : Int) :
    Except Halt (Matrix T × Int) := do
  let last_row := M.rows
  if Algebra.is_zero (← bounded (M.get row row)) then
    loop (fun i => decide (i < last_row))
      (fun i (s : Matrix T × Int) => do
        if !Algebra.is_zero (← bounded (s.1.get i row)) then
          let M ← bounded (s.1.exchange_rows i row)
          pure (sz (last_row + 1), (M, s.2 * -1))
        else pure (sz (i + 1), s))
      fuel row (M, dm)
  else pure (M, dm)

/-- The loop `for(size_t j = 1; test(c + j); ++j)` with `c = col + right_shift`: the test
is `c + j != j_end` in `zeros_under_pivots` and `c + j < j_end` in `zeros_above_pivots`;
the body is `M(t, c + j) -= M(row, c + j) * multiplier`. -/
def Algebra.subtract_row_run (test : Nat → Bool) (fuel t row c : Nat) (multiplier : T)
    (M : Matrix T) : Except Halt (Matrix T) :=
  loop (fun j => test (sz (c + j)))
    (fun j M => do
      let x ← bounded (M.get t (sz (c + j)))
      let y ← bounded (M.get row (sz (c + j)))
      let M ← bounded (M.put t (sz (c + j)) (x - y * multiplier))
      pure (sz (j + 1), M))
    fuel 1 M

/-- What `zeros_under_pivots` does once `M(row, c)` is not zero: the two loops
`for(size_t i = 1; row + i != i_end; ++i)`. -/
def Algebra.clear_under_run (fuel row c i_end j_end : Nat) (M : Matrix T) :
    Except Halt (Matrix T) := do
  let pivot ← bounded (M.get row c)
  let M ← loop (fun i => decide (sz (row + i) ≠ i_end))
    (fun i M => do
      let multiplier := (← bounded (M.get (sz (row + i)) c)) / pivot
      let M ← Algebra.subtract_row_run (fun x => decide (x ≠ j_end)) fuel (sz (row + i)) row c
        multiplier M
      pure (sz (i + 1), M))
    fuel 1 M
  loop (fun i => decide (sz (row + i) ≠ i_end))
    (fun i M => do
      let M ← bounded (M.put (sz (row + i)) c 0)
      pure (sz (i + 1), M))
    fuel 1 M

/-- What `zeros_above_pivots` does once `M(row, c)` is not zero: the two loops
`for(size_t i = 1; row - i + 1 > 0; ++i)`. -/
def Algebra.clear_above_run (fuel row c j_end : Nat) (M : Matrix T) :
    Except Halt (Matrix T) := do
  let pivot ← bounded (M.get row c)
  let M ← loop (fun i => decide (0 < sz (size_sub row i + 1)))
    (fun i M => do
      let multiplier := (← bounded (M.get (size_sub row i) c)) / pivot
      let M ← Algebra.subtract_row_run (fun x => decide (x < j_end)) fuel (size_sub row i) row c
        multiplier M
      pure (sz (i + 1), M))
    fuel 1 M
  loop (fun i => decide (0 < sz (size_sub row i + 1)))
    (fun i M => do
      let M ← bounded (M.put (size_sub row i) c 0)
      pure (sz (i + 1), M))
    fuel 1 M

/-- The loop `while(col + right_shift < last_col)` of `zeros_under_pivots` and of
`zeros_above_pivots`, `clear` being what is done once `M(row, col + right_shift)` is not
zero; then `right_shift = last_col - col`, and otherwise `++right_shift`. -/
def Algebra.pivot_scan_run (clear : Nat → Matrix T → Except Halt (Matrix T))
    (fuel row col last_col : Nat) (M : Matrix T) : Except Halt (Matrix T) :=
  loop (fun right_shift => decide (sz (col + right_shift) < last_col))
    (fun right_shift M => do
      if !Algebra.is_zero (← bounded (M.get row (sz (col + right_shift)))) then
        let M ← clear (sz (col + right_shift)) M
        pure (size_sub last_col col, M)
      else pure (sz (right_shift + 1), M))
    fuel 0 M

/-- `zeros_under_pivots(M)` with its loop `for(size_t row = 0; row != last_row; ++row)`. -/
def Algebra.zeros_under_pivots_run (fuel : Nat) (M : Matrix T) (_dm : Int) :
    Except Halt (Matrix T × Int) := do
  let last_row := M.rows
  let last_col := M.columns
  let i_end := last_row
  let j_end := last_col
  loop (fun row => decide (row ≠ last_row))
    (fun row (s : Matrix T × Int) => do
      let s ← Algebra.main_diagonal_partial_sort_run fuel row s.1 s.2
      let col := row
      let M ← Algebra.pivot_scan_run (fun c M => Algebra.clear_under_run fuel row c i_end j_end M)
        fuel row col last_col s.1
      pure (sz (row + 1), (M, s.2)))
    fuel 0 (M, 1)

/-- `zeros_above_pivots(M)` with its loop `for(size_t row = 1; row < last_row; ++row)`. -/
def Algebra.zeros_above_pivots_run (fuel : Nat) (M : Matrix T) : Except Halt (Matrix T) := do
  let last_row := M.rows
  let last_col := M.columns
  let j_end := last_col
  loop (fun row => decide (row < last_row))
    (fun row M => do
      let col := row
      let M ← Algebra.pivot_scan_run (fun c M => Algebra.clear_above_run fuel row c j_end M)
        fuel row col last_col M
      pure (sz (row + 1), M))
    fuel 1 M

/-- The loop `for(size_t k = 0; j + k < j_end; ++k)` of `divide_rows_by_pivots`. -/
def Algebra.divide_from_run (fuel i j j_end : Nat) (divisor : T) (M : Matrix T) :
    Except Halt (Matrix T) :=
  loop (fun k => decide (sz (j + k) < j_end))
    (fun k M => do
      let x ← bounded (M.get i (sz (j + k)))
      let M ← bounded (M.put i (sz (j + k)) (x / divisor))
      pure (sz (k + 1), M))
    fuel 0 M

/-- The loop `for(size_t j = 0; j < j_end; ++j)` of `divide_rows_by_pivots`: after a row is
divided, `j = j_end` and then `++j`. -/
def Algebra.divide_scan_run (fuel i j_end : Nat) (M : Matrix T) : Except Halt (Matrix T) :=
  loop (fun j => decide (j < j_end))
    (fun j M => do
      if !Algebra.is_zero (← bounded (M.get i j)) then
        let divisor ← bounded (M.get i j)
        let M ← Algebra.divide_from_run fuel i j j_end divisor M
        pure (sz (j_end + 1), M)
      else pure (sz (j + 1), M))
    fuel 0 M

/-- `divide_rows_by_pivots(M)` with its loop `for(size_t i = 0; i < i_end; ++i)`. -/
def Algebra.divide_rows_by_pivots_run (fuel : Nat) (M : Matrix T) : Except Halt (Matrix T) := do
  let i_end := M.rows
  let j_end := M.columns
  loop (fun i => decide (i < i_end))
    (fun i M => do
      let M ← Algebra.divide_scan_run fuel i j_end M
      pure (sz (i + 1), M))
    fuel 0 M

/-- `rref(M)` with the loops of the three functions it calls. -/
def Algebra.rref_run (fuel : Nat) (M : Matrix T) (dm : Int) : Except Halt (Matrix T × Int) := do
  let MR := M
  let s ← Algebra.zeros_under_pivots_run fuel MR dm
  let MR ← Algebra.zeros_above_pivots_run fuel s.1
  let MR ← Algebra.divide_rows_by_pivots_run fuel MR
  pure (MR, s.2)

end algebra_runs

/-! ## Schedules -/

section schedules
variable {F R : Type}

/-- A pass of a worker that ends with the task at position `k` of the deque performed and
its shared state written. With one worker the position is the end that `work_end` names;
with several workers the tasks are taken from that end one after the other and are performed
side by side, so that they end in any order, and a task pushed in the meantime changes the
positions. The position is counted modulo the length of the deque; on an empty deque nothing
is done. -/
def Thread_Pool.work_at (invoke : F → Except Err R) (TP : Thread_Pool F R) (k : Nat) :
    Thread_Pool F R :=
  match TP.tasks[k % TP.tasks.length]? with
  | some task =>
    { TP with tasks := TP.tasks.eraseIdx (k % TP.tasks.length),
              shared := task.perform invoke TP.shared }
  | none => TP

/-- `future::get` on the shared state `fut` while the workers perform the queued tasks in
the order `pick` names, a position for every state of the pool; the first argument bounds
the number of tasks performed. -/
def Thread_Pool.future_get_by (invoke : F → Except Err R) (pick : Thread_Pool F R → Nat)
    (fut : Nat) : Nat → Thread_Pool F R → Except Err (R × Thread_Pool F R)
  | 0, TP =>
    match TP.shared.lookup fut with
    | some (.ok v) => .ok (v, TP)
    | some (.error e) => .error e
    | none => .error .never_resolves
  | fuel + 1, TP =>
    match TP.shared.lookup fut with
    | some (.ok v) => .ok (v, TP)
    | some (.error e) => .error e
    | none =>
      if TP.done ∨ TP.thread_number = 0 ∨ TP.tasks.isEmpty then .error .never_resolves
      else Thread_Pool.future_get_by invoke pick fut fuel (TP.work_at invoke (pick TP))

end schedules

/-- What the workers of the pool do while the calling thread runs, as a function of the
world the calling thread is in (its trace grows with every operation, so that the workers
may do something else every time). -/
structure Scheduler (T : Type) where
  /-- the positions of the tasks performed, one after the other, before the next operation
  of the calling thread on the pool -/
  ahead : World T → List Nat
  /-- the position of the task performed next while the calling thread is blocked in
  `future::get` -/
  pick : World T → Nat

/-- The world once the workers have performed the tasks the scheduler names. -/
def World.ahead [Zero T] [Add T] [Sub T] [Mul T] (s : Scheduler T) (w : World T) : World T :=
  { w with pool := (s.ahead w).foldl (fun TP k => TP.work_at Strassen.invoke k) w.pool }

/-- `TP.load_front(std::move(S))` while the workers run. -/
def Par.load_front_with [Zero T] [Add T] [Sub T] [Mul T] (s : Scheduler T) (S : Strassen T) :
    Par T Nat :=
  fun w => Par.load_front S (w.ahead s)

/-- `fut.get()` while the workers run. -/
def Par.get_with [Zero T] [Add T] [Sub T] [Mul T] (s : Scheduler T) (fut : Nat) :
    Par T (Matrix T) :=
  fun w =>
    let w := w.ahead s
    match Thread_Pool.future_get_by Strassen.invoke (fun TP => s.pick { w with pool := TP }) fut
        w.pool.tasks.length w.pool with
    | .ok (M, pool) => .ok (M, { trace := w.trace ++ [.future_get], pool := pool })
    | .error e => .error e

/-- `Parallel_Strassen::operator()` while the workers of the pool run as the scheduler `s`
says; the second equation is the case `r != 0`. -/
def Parallel_Strassen.run_with [Zero T] [Add T] [Sub T] [Mul T] (s : Scheduler T) :
    Nat → Nat → Matrix T → Matrix T → Par T (Matrix T)
  | 0, _, A, B => do
    Par.traced .parallel_call (pure ())
    Par.traced .mul (A.mul B)
  | r + 1, p, A, B => do
    Par.traced .parallel_call (pure ())
    if A.rows % 2 ≠ 0 then Par.traced .mul (A.mul B)
    else do
      let n := A.rows / 2
      let q ← Par.lift (quadrants A B n)
      if p = 0 then
        let submit (X Y : Matrix T) : Par T Nat := do
          let S ← Par.traced .serial_new (Strassen.new X Y r)
          Par.load_front_with s S
        let f_M1 ← submit (← Par.traced .add (q.A11.add q.A22))
          (← Par.traced .add (q.B11.add q.B22))
        let f_M2 ← submit (← Par.traced .add (q.A21.add q.A22)) q.B11
        let f_M3 ← submit q.A11 (← Par.traced .sub (q.B12.sub q.B22))
        let f_M4 ← submit q.A22 (← Par.traced .sub (q.B21.sub q.B11))
        let f_M5 ← submit (← Par.traced .add (q.A11.add q.A12)) q.B22
        let f_M6 ← submit (← Par.traced .sub (q.A21.sub q.A11))
          (← Par.traced .add (q.B11.add q.B12))
        let f_M7 ← submit (← Par.traced .sub (q.A12.sub q.A22))
          (← Par.traced .add (q.B21.add q.B22))
        let M1 ← Par.get_with s f_M1
        let M2 ← Par.get_with s f_M2
        let M3 ← Par.get_with s f_M3
        let M4 ← Par.get_with s f_M4
        let M5 ← Par.get_with s f_M5
        let M6 ← Par.get_with s f_M6
        let M7 ← Par.get_with s f_M7
        Par.lift (untraced (combine A B n M1 M2 M3 M4 M5 M6 M7))
      else
        let nested (X Y : Matrix T) : Par T (Matrix T) := do
          let S ← Par.traced .parallel_new (Parallel_Strassen.new X Y r (p - 1))
          Parallel_Strassen.run_with s r S.p S.A S.B
        let M1 ← nested (← Par.traced .add (q.A11.add q.A22))
          (← Par.traced .add (q.B11.add q.B22))
        let M2 ← nested (← Par.traced .add (q.A21.add q.A22)) q.B11
        let M3 ← nested q.A11 (← Par.traced .sub (q.B12.sub q.B22))
        let M4 ← nested q.A22 (← Par.traced .sub (q.B21.sub q.B11))
        let M5 ← nested (← Par.traced .add (q.A11.add q.A12)) q.B22
        let M6 ← nested (← Par.traced .sub (q.A21.sub q.A11))
          (← Par.traced .add (q.B11.add q.B12))
        let M7 ← nested (← Par.traced .sub (q.A12.sub q.A22))
          (← Par.traced .add (q.B21.add q.B22))
        Par.lift (untraced (combine A B n M1 M2 M3 M4 M5 M6 M7))

/-- The scheduler of a pool with one worker that runs only while the calling thread is
blocked: the task at the end that `work_end` names. -/
def Scheduler.policy (T : Type) : Scheduler T where
  ahead := fun _ => []
  pick := fun w => if w.pool.work_end = 'f' then 0 else w.pool.tasks.length - 1

/-- A scheduler that performs the task pushed last but one before every operation of the
calling thread, and the task at the back while the calling thread is blocked. -/
def Scheduler.eager (T : Type) : Scheduler T where
  ahead := fun _ => [1]
  pick := fun w => w.pool.tasks.length - 1

/-- What the controller run under the scheduler `s` with budget `r` is shown to do. -/
def Parallel_Strassen.run_with_ok [CommRing T] (s : Scheduler T) (r : Nat) : Prop :=
  ∀ (p n : Nat) (A B : Matrix T), A.square n → B.square n →
    ∃ P, Par.Spec Thread_Pool.Inv (Parallel_Strassen.run_with s r p A B) P Thread_Pool.Inv ∧
      P.square n ∧ ∀ i j, i < n → j < n → P.entry i j = dot A B n i j

/-! ## Threads that call the pool at the same time -/

section threads
variable {F R : Type}

/-- The member functions of the pool that threads call at the same time. -/
inductive Method (F : Type) where
  /-- `load_front(f)` -/
  | load_front (f : F)
  /-- `load_back(f)` -/
  | load_back (f : F)
  /-- `work_front()` -/
  | work_front
  /-- `work_back()` -/
  | work_back
  /-- `is_empty()` -/
  | is_empty

/-- Where a thread is in the member function it has called: the statement it executes next.
The flag `front` tells `load_front` from `load_back` and `work_front` from `work_back`. -/
inductive Pc (F : Type) where
  /-- not in a member function -/
  | idle
  /-- `load_*`: the task and its future are made, `muter.lock()` is next -/
  | load_lock (front : Bool) (task : packaged_task F)
  /-- `load_*`: `tasks.push_front(std::move(task))` or `push_back` is next -/
  | load_push (front : Bool) (task : packaged_task F)
  /-- `load_*`: `muter.unlock()` is next -/
  | load_unlock
  /-- `work_*`: `muter.lock()` is next -/
  | work_lock (front : Bool)
  /-- `work_*`: `if(!tasks.empty())` is next -/
  | work_test (front : Bool)
  /-- `work_*`: `task(std::move(tasks.front()))` or `tasks.back()` is next -/
  | work_move (front : Bool)
  /-- `work_*`: `tasks.pop_front()` or `pop_back()` is next -/
  | work_pop (front : Bool) (task : packaged_task F)
  /-- `work_*`: `muter.unlock()` after the task is taken is next -/
  | work_unlock (task : packaged_task F)
  /-- `work_*`: `task()` is next -/
  | work_perform (task : packaged_task F)
  /-- `work_*`: `muter.unlock()` for an empty deque is next -/
  | work_unlock_empty
  /-- `is_empty`: `muter.lock()` is next -/
  | empty_lock
  /-- `is_empty`: `bool empty = tasks.empty()` is next -/
  | empty_test
  /-- `is_empty`: `muter.unlock()` is next -/
  | empty_unlock (empty : Bool)

/-- The thread is between `muter.lock()` and `muter.unlock()`. -/
def Pc.inside : Pc F → Bool
  | .load_push _ _ | .load_unlock | .work_test _ | .work_move _ | .work_pop _ _
  | .work_unlock _ | .work_unlock_empty | .empty_test | .empty_unlock _ => true
  | _ => false

/-- The statement the thread executes next reads or writes the deque `tasks`. -/
def Pc.touches : Pc F → Bool
  | .load_push _ _ | .work_test _ | .work_move _ | .work_pop _ _ | .empty_test => true
  | _ => false

/-- The task in the local variable `task` of a `load_*` that has not pushed it yet. -/
def Pc.loading : Pc F → Option (packaged_task F)
  | .load_lock _ task | .load_push _ task => some task
  | _ => none

/-- The task in the local variable `task` of a `work_*` that has moved it out of the deque
and has not performed it yet. -/
def Pc.took : Pc F → Option (packaged_task F)
  | .work_pop _ task | .work_unlock task | .work_perform task => some task
  | _ => none

/-- The pool with the threads that call it: the thread that holds `muter`, the deque (a
task that has been moved from is `none`), the shared states written (one entry for every
`task()` performed), the next shared state, and where every thread is. `taken` lists, for
every task moved out of the deque, the thread that moved it and its shared state;
`undefined` is set by a `std::move` from an empty deque or from a task moved from, and by a
`pop` on an empty deque. -/
structure Threads (F R : Type) where
  muter : Option Nat
  tasks : List (Option (packaged_task F))
  shared : List (Nat × Except Err R)
  next_state : Nat
  pc : Nat → Pc F
  taken : List (Nat × Nat)
  undefined : Bool

/-- A pool that has just been made: nobody holds the mutex, nothing is queued. -/
def Threads.init : Threads F R :=
  ⟨none, [], [], 0, fun _ => .idle, [], false⟩

/-- The thread `t` goes on to the statement `p`. -/
def Threads.goto (s : Threads F R) (t : Nat) (p : Pc F) : Threads F R :=
  { s with pc := fun u => if u = t then p else s.pc u }

/-- `muter.lock()` by the thread `t`, which goes on to `p`: the thread waits while another
thread holds the mutex. -/
def Threads.lock (s : Threads F R) (t : Nat) (p : Pc F) : Threads F R :=
  match s.muter with
  | none => { s.goto t p with muter := some t }
  | some _ => s

/-- `muter.unlock()` by the thread `t`, which goes on to `p`. -/
def Threads.unlock (s : Threads F R) (t : Nat) (p : Pc F) : Threads F R :=
  { s.goto t p with muter := none }

/-- The thread `t` executes its next statement; when it is not in a member function it
calls `m`. -/
def Threads.step (invoke : F → Except Err R) (s : Threads F R) (t : Nat) (m : Method F) :
    Threads F R :=
  match s.pc t with
  | .idle =>
    match m with
    | .load_front f =>
      { s.goto t (.load_lock true ⟨s.next_state, f⟩) with next_state := s.next_state + 1 }
    | .load_back f =>
      { s.goto t (.load_lock false ⟨s.next_state, f⟩) with next_state := s.next_state + 1 }
    | .work_front => s.goto t (.work_lock true)
    | .work_back => s.goto t (.work_lock false)
    | .is_empty => s.goto t .empty_lock
  | .load_lock front task => s.lock t (.load_push front task)
  | .load_push front task =>
    { s.goto t .load_unlock with
      tasks := if front then some task :: s.tasks else s.tasks ++ [some task] }
  | .load_unlock => s.unlock t .idle
  | .work_lock front => s.lock t (.work_test front)
  | .work_test front =>
    if s.tasks.isEmpty then s.goto t .work_unlock_empty else s.goto t (.work_move front)
  | .work_move front =>
    match (if front then s.tasks.head? else s.tasks.getLast?) with
    | some (some task) =>
      { s.goto t (.work_pop front task) with
        tasks := if front then none :: s.tasks.tail else s.tasks.dropLast ++ [none],
        taken := (t, task.state) :: s.taken }
    | _ => { s with undefined := true }
  | .work_pop front task =>
    if s.tasks.isEmpty then { s with undefined := true }
    else
      { s.goto t (.work_unlock task) with
        tasks := if front then s.tasks.tail else s.tasks.dropLast }
  | .work_unlock task => s.unlock t (.work_perform task)
  | .work_perform task => { s.goto t .idle with shared := task.perform invoke s.shared }
  | .work_unlock_empty => s.unlock t .idle
  | .empty_lock => s.lock t .empty_test
  | .empty_test => s.goto t (.empty_unlock s.tasks.isEmpty)
  | .empty_unlock _ => s.unlock t .idle

/-- The threads take steps in the order the schedule lists them, every thread calling the
member function listed with it when it is not in one. -/
def Threads.run (invoke : F → Except Err R) (schedule : List (Nat × Method F))
    (s : Threads F R) : Threads F R :=
  schedule.foldl (fun s x => s.step invoke x.1 x.2) s

/-- The tasks in the deque. -/
def Threads.queued (s : Threads F R) : List (packaged_task F) :=
  s.tasks.filterMap id

/-- The task in a local variable of the thread: made and not pushed yet, or moved out of
the deque and not performed yet. -/
def Pc.held : Pc F → Option (packaged_task F)
  | .load_lock _ task | .load_push _ task | .work_pop _ task | .work_unlock task
  | .work_perform task => some task
  | _ => none

/-- Every thread between `muter.lock()` and `muter.unlock()` holds the mutex: there is at
most one. -/
def Threads.Exclusive (s : Threads F R) : Prop :=
  ∀ t, (s.pc t).inside = true → s.muter = some t

/-- The deque and the tasks are in order: no undefined behaviour has occurred; the deque
holds a task that
has been moved from only between the `std::move` and the `pop` of the thread that moved it,
at the end that thread works on; the tasks in the deque, in local variables and performed
have different shared states, older than the next one; and every task moved out of the deque
has been moved out once, and is performed or in the local variable of the thread that moved
it. -/
structure Threads.Ledger (s : Threads F R) : Prop where
  sound : s.undefined = false
  shape_pop : ∀ t front task, s.pc t = .work_pop front task →
    ∃ rest : List (packaged_task F),
      s.tasks = if front then none :: rest.map some else rest.map some ++ [none]
  shape_move : ∀ t front, s.pc t = .work_move front → s.tasks ≠ []
  clean : (∀ t front task, s.pc t ≠ .work_pop front task) → ∀ x ∈ s.tasks, x ≠ none
  bound_q : ∀ q ∈ s.queued, q.state < s.next_state
  bound_s : ∀ e ∈ s.shared, e.1 < s.next_state
  bound_h : ∀ t task, (s.pc t).held = some task → task.state < s.next_state
  nodup_q : (s.queued.map (fun q => q.state)).Nodup
  nodup_s : (s.shared.map (fun e => e.1)).Nodup
  q_s : ∀ q ∈ s.queued, ∀ e ∈ s.shared, q.state ≠ e.1
  h_q : ∀ t task, (s.pc t).held = some task → ∀ q ∈ s.queued, q.state ≠ task.state
  h_s : ∀ t task, (s.pc t).held = some task → ∀ e ∈ s.shared, e.1 ≠ task.state
  h_h : ∀ t u a b, t ≠ u → (s.pc t).held = some a → (s.pc u).held = some b →
    a.state ≠ b.state
  log : ∀ x ∈ s.taken, (∃ e ∈ s.shared, e.1 = x.2) ∨
    ∃ task, (s.pc x.1).took = some task ∧ task.state = x.2
  nodup_t : (s.taken.map (fun x => x.2)).Nodup

/-- The pool and the threads that call it are in order. -/
def Threads.Inv (s : Threads F R) : Prop := s.Exclusive ∧ s.Ledger

/-- The number of statements a thread that has moved a task out of the deque executes up to
and with `task()`. -/
def Pc.steps_left : Pc F → Nat
  | .work_pop _ _ => 3
  | .work_unlock _ => 2
  | .work_perform _ => 1
  | _ => 0

/-- A schedule of three threads: thread 0 submits a task with `load_front`, threads 1 and 2
call `work_front` at the same time; thread 2 finds the mutex held, and then the deque
empty. -/
def demo_schedule : List (Nat × Method Nat) :=
  [(0, .load_front 5), (0, .load_front 5), (0, .load_front 5), (0, .load_front 5),
   (1, .work_front), (2, .work_front), (1, .work_front), (2, .work_front),
   (1, .work_front), (1, .work_front), (2, .work_front), (1, .work_front),
   (1, .work_front), (2, .work_front), (2, .work_front), (1, .work_front),
   (2, .work_front)]

/-- The number of steps the thread `t` takes in a schedule. -/
def steps_of (t : Nat) (schedule : List (Nat × Method F)) : Nat :=
  (schedule.filter (fun x => x.1 = t)).length

end threads

/-! ## Basic facts about `size_t`, buffers and loops -/

theorem sz_of_lt {x : Nat} (h : x < SIZE_MOD) : sz x = x := Nat.mod_eq_of_lt h

theorem size_sub_of_le {a b : Nat} (hba : b ≤ a) (ha : a < SIZE_MOD) : size_sub a b = a - b := by
  unfold size_sub
  have hb : b % SIZE_MOD = b := Nat.mod_eq_of_lt (by omega)
  rw [hb]
  have : a + (SIZE_MOD - b) = (a - b) + SIZE_MOD := by omega
  rw [this, Nat.add_mod_right]
  exact Nat.mod_eq_of_lt (by omega)

@[simp] theorem ok_bind {α β : Type} (a : α) (f : α → Except Err β) :
    ((Except.ok a : Except Err α) >>= f) = f a := rfl

@[simp] theorem error_bind {α β : Type} (e : Err) (f : α → Except Err β) :
    ((Except.error e : Except Err α) >>= f) = Except.error e := rfl

@[simp] theorem pure_eq_ok {α : Type} (a : α) : (pure a : Except Err α) = Except.ok a := rfl

theorem buf_get_of_lt [Zero T] {v : List T} {i : Nat} (h : i < v.length) :
    buf_get v i = .ok (v.getD i 0) := by
  simp [buf_get, List.getElem?_eq_getElem h]

theorem buf_set_of_lt {v : List T} {i : Nat} (h : i < v.length) (x : T) :
    buf_set v i x = .ok (v.set i x) := by
  simp [buf_set, h]

/-- A loop over `0 .. n-1` whose body keeps an invariant returns a state satisfying it. -/
theorem foldlM_range_inv {σ : Type} (f : σ → Nat → Except Err σ) (P : Nat → σ → Prop)
    (n : Nat) (s0 : σ) (h0 : P 0 s0)
    (hstep : ∀ i s, i < n → P i s → ∃ s', f s i = .ok s' ∧ P (i + 1) s') :
    ∃ s', (List.range n).foldlM f s0 = .ok s' ∧ P n s' := by
  induction n with
  | zero => exact ⟨s0, rfl, h0⟩
  | succ n ih =>
    obtain ⟨s1, h1, hp1⟩ := ih (fun i s hi => hstep i s (by omega))
    obtain ⟨s2, h2, hp2⟩ := hstep n s1 (by omega) hp1
    refine ⟨s2, ?_, hp2⟩
    rw [List.range_succ, List.foldlM_append, h1]
    simp [h2]

theorem lin_lt {a c i j : Nat} (hi : i < a) (hj : j < c) : i * c + j < a * c := by
  have : (i + 1) * c ≤ a * c := Nat.mul_le_mul_right c hi
  have h2 : (i + 1) * c = i * c + c := by ring
  omega

theorem lin_inj {c i j i' j' : Nat} (hj : j < c) (hj' : j' < c)
    (h : i * c + j = i' * c + j') : i = i' ∧ j = j' := by
  have h1 : (i * c + j) / c = i := by
    rw [Nat.add_comm, Nat.add_mul_div_right _ _ (by omega), Nat.div_eq_of_lt hj]; simp
  have h2 : (i' * c + j') / c = i' := by
    rw [Nat.add_comm, Nat.add_mul_div_right _ _ (by omega), Nat.div_eq_of_lt hj']; simp
  have hi : i = i' := by rw [← h1, ← h2, h]
  subst hi
  exact ⟨rfl, by omega⟩

/-- Reading position `(i',j')` after writing position `(i,j)` of a row-major buffer. -/
theorem getD_set_lin [Zero T] (els : List T) {c i j i' j' : Nat} (hj : j < c) (hj' : j' < c)
    (hlen : i * c + j < els.length) (v : T) :
    (els.set (i * c + j) v).getD (i' * c + j') 0 =
      if i' = i ∧ j' = j then v else els.getD (i' * c + j') 0 := by
  by_cases h : i' = i ∧ j' = j
  · obtain ⟨rfl, rfl⟩ := h
    simp [List.getElem?_set_self hlen]
  · have hne : i * c + j ≠ i' * c + j' := by
      intro heq
      obtain ⟨h1, h2⟩ := lin_inj hj hj' heq
      exact h ⟨h1.symm, h2.symm⟩
    simp [List.getElem?_set_ne hne, h]

theorem sz_lin {c i j : Nat} (h : i * c + j < SIZE_MOD) : sz (sz (c * i) + j) = i * c + j := by
  have h1 : c * i < SIZE_MOD := by rw [Nat.mul_comm]; omega
  rw [sz_of_lt h1, Nat.mul_comm c i, sz_of_lt h]

theorem Matrix.new_ok [Zero T] {r c : Nat} (hr : 1 ≤ r) (hc : 1 ≤ c) (h : r * c < SIZE_MOD) :
    (Matrix.new r c : Except Err (Matrix T)) = .ok ⟨r, c, r * c, List.replicate (r * c) 0⟩ := by
  have h1 : ¬ (r = 0 ∨ c = 0) := by omega
  simp [Matrix.new, sz_of_lt h, h1]

/-! ## The direct product -/

theorem mul_state_init [CommRing T] (A M : Matrix T) :
    mul_state A M 0 0 0 (List.replicate (A.n_rows * M.n_columns) (0 : T)) := by
  refine ⟨by simp, ?_⟩
  intro i' j' hi hj
  have hlt := lin_lt hi hj
  rw [List.getD_eq_getElem?_getD, List.getElem?_replicate_of_lt hlt]
  by_cases h0 : i' = 0 <;> simp [h0, dot]

theorem mul_state_next_k [CommRing T] (A M : Matrix T) (i k : Nat) (els : List T)
    (h : mul_state A M i k M.n_columns els) : mul_state A M i (k + 1) 0 els := by
  refine ⟨h.1, ?_⟩
  intro i' j' hi hj
  rw [h.2 i' j' hi hj]
  simp [hj]

theorem mul_state_next_i [CommRing T] (A M : Matrix T) (i : Nat) (els : List T)
    (h : mul_state A M i A.n_columns 0 els) : mul_state A M (i + 1) 0 0 els := by
  refine ⟨h.1, ?_⟩
  intro i' j' hi hj
  rw [h.2 i' j' hi hj]
  by_cases h1 : i' < i
  · have h2 : i' < i + 1 := by omega
    simp [h1, h2]
  · by_cases h2 : i' = i
    · subst h2; simp
    · have h3 : ¬ i' < i + 1 := by omega
      by_cases h5 : i' = i + 1 <;> simp [h1, h2, h3, h5, dot]

theorem mul_step [CommRing T] (A M : Matrix T) (hA : A.wf) (hM : M.wf)
    (hd : A.n_columns = M.n_rows) (hs : A.n_rows * M.n_columns < SIZE_MOD)
    {i k j : Nat} (hi : i < A.n_rows) (hk : k < A.n_columns) (hj : j < M.n_columns)
    (els : List T) (h : mul_state A M i k j els) :
    ∃ els', (do
        let acc ← buf_get els (sz (sz (M.n_columns * i) + j))
        let a ← buf_get A.elements (sz (sz (A.n_columns * i) + k))
        let b ← buf_get M.elements (sz (sz (M.n_columns * k) + j))
        buf_set els (sz (sz (M.n_columns * i) + j)) (acc + a * b)) = .ok els' ∧
      mul_state A M i k (j + 1) els' := by
  obtain ⟨_, _, hA3, _, hA5⟩ := hA
  obtain ⟨_, _, hM3, _, hM5⟩ := hM
  have e1 : i * M.n_columns + j < A.n_rows * M.n_columns := lin_lt hi hj
  have e2 : i * A.n_columns + k < A.n_rows * A.n_columns := lin_lt hi hk
  have e3 : k * M.n_columns + j < M.n_rows * M.n_columns := lin_lt (hd ▸ hk) hj
  have s1 : sz (sz (M.n_columns * i) + j) = i * M.n_columns + j := sz_lin (by omega)
  have s2 : sz (sz (A.n_columns * i) + k) = i * A.n_columns + k := sz_lin (by omega)
  have s3 : sz (sz (M.n_columns * k) + j) = k * M.n_columns + j := sz_lin (by omega)
  rw [s1, s2, s3, buf_get_of_lt (by rw [h.1]; exact e1), buf_get_of_lt (by rw [hA5]; exact e2),
    buf_get_of_lt (by rw [hM5]; exact e3)]
  simp only [ok_bind]
  rw [buf_set_of_lt (by rw [h.1]; exact e1)]
  refine ⟨_, rfl, by simp [h.1], ?_⟩
  intro i' j' hi' hj'
  rw [getD_set_lin els hj hj' (by rw [h.1]; exact e1)]
  by_cases hc : i' = i ∧ j' = j
  · obtain ⟨rfl, rfl⟩ := hc
    have hold := h.2 i' j' hi hj
    simp only [lt_irrefl, if_false, if_true] at hold
    rw [if_pos ⟨rfl, rfl⟩, hold]
    simp [dot, Finset.sum_range_succ, Matrix.entry]
  · rw [if_neg hc, h.2 i' j' hi' hj']
    by_cases h1 : i' < i
    · simp [h1]
    · by_cases h2 : i' = i
      · subst h2
        have hjne : j' ≠ j := fun e => hc ⟨rfl, e⟩
        by_cases h3 : j' < j
        · have : j' < j + 1 := by omega
          simp [h3, this]
        · have : ¬ j' < j + 1 := by omega
          simp [h3, this]
      · simp [h1, h2]

theorem mul_loops [CommRing T] (A M : Matrix T) (hA : A.wf) (hM : M.wf)
    (hd : A.n_columns = M.n_rows) (hs : A.n_rows * M.n_columns < SIZE_MOD) :
    ∃ els, (List.range A.n_rows).foldlM (fun els i =>
        (List.range A.n_columns).foldlM (fun els k =>
          (List.range M.n_columns).foldlM (fun els j => do
            let acc ← buf_get els (sz (sz (M.n_columns * i) + j))
            let a ← buf_get A.elements (sz (sz (A.n_columns * i) + k))
            let b ← buf_get M.elements (sz (sz (M.n_columns * k) + j))
            buf_set els (sz (sz (M.n_columns * i) + j)) (acc + a * b)) els) els)
        (List.replicate (A.n_rows * M.n_columns) (0 : T)) = .ok els ∧
      mul_state A M A.n_rows 0 0 els := by
  apply foldlM_range_inv _ (fun i els => mul_state A M i 0 0 els) _ _ (mul_state_init A M)
  intro i s hi hst
  obtain ⟨s', h1, h2⟩ := foldlM_range_inv _ (fun k els => mul_state A M i k 0 els)
    A.n_columns s hst (by
      intro k s2 hk hst2
      obtain ⟨s3, h3, h4⟩ := foldlM_range_inv _ (fun j els => mul_state A M i k j els)
        M.n_columns s2 hst2 (fun j s4 hj hst4 => mul_step A M hA hM hd hs hi hk hj s4 hst4)
      exact ⟨s3, h3, mul_state_next_k A M i k s3 h4⟩)
  exact ⟨s', h1, mul_state_next_i A M i s' h2⟩

/-- The direct product of well-formed operands whose result fits `size_t`. -/
theorem Matrix.mul_spec [CommRing T] (A M : Matrix T) (hA : A.wf) (hM : M.wf)
    (hd : A.n_columns = M.n_rows) (hs : A.n_rows * M.n_columns < SIZE_MOD) :
    ∃ P, A.mul M = .ok P ∧ P.n_rows = A.n_rows ∧ P.n_columns = M.n_columns ∧ P.wf ∧
      ∀ i j, i < A.n_rows → j < M.n_columns → P.entry i j = dot A M A.n_columns i j := by
  obtain ⟨els, h1, h2, h3⟩ := mul_loops A M hA hM hd hs
  refine ⟨⟨A.n_rows, M.n_columns, A.n_rows * M.n_columns, els⟩, ?_, rfl, rfl,
    ⟨hA.1, hM.2.1, hs, rfl, h2⟩, ?_⟩
  · unfold Matrix.mul
    rw [if_neg (not_not.mpr hd), Matrix.new_ok hA.1 hM.2.1 hs]
    simp only [ok_bind]
    rw [h1]
    rfl
  · intro i j hi hj
    have := h3 i j hi hj
    simp only [Nat.lt_irrefl, if_false] at this
    simpa [Matrix.entry, hi] using this

/-! ## Element-wise operators -/

theorem getD_set_one [Zero T] (els : List T) {i q : Nat} (hlen : i < els.length) (v : T) :
    (els.set i v).getD q 0 = if q = i then v else els.getD q 0 := by
  by_cases h : q = i
  · subst h; simp [List.getElem?_set_self hlen]
  · have hne : i ≠ q := fun e => h e.symm
    simp [List.getElem?_set_ne hne, h]

/-- The loop shared by `+=` and `-=`. -/
theorem zip_loop [Zero T] (op : T → T → T) (a m : List T) (n : Nat) (ha : a.length = n)
    (hm : m.length = n) :
    ∃ els, (List.range n).foldlM (fun els i => do
        let x ← buf_get els i
        let y ← buf_get m i
        buf_set els i (op x y)) a = .ok els ∧
      els.length = n ∧ ∀ q, q < n → els.getD q 0 = op (a.getD q 0) (m.getD q 0) := by
  obtain ⟨els, h1, h2, h3⟩ := foldlM_range_inv (fun els i => do
        let x ← buf_get els i
        let y ← buf_get m i
        buf_set els i (op x y))
    (fun i els => els.length = n ∧
      ∀ q, q < n → els.getD q 0 = if q < i then op (a.getD q 0) (m.getD q 0) else a.getD q 0)
    n a ⟨ha, by intro q _; simp⟩ (by
      intro i s hi ⟨hl, hv⟩
      have hi1 : i < s.length := by omega
      have hi2 : i < m.length := by omega
      beta_reduce
      rw [buf_get_of_lt hi1, buf_get_of_lt hi2]
      simp only [ok_bind]
      rw [buf_set_of_lt hi1]
      refine ⟨_, rfl, by simp [hl], ?_⟩
      intro q hq
      rw [getD_set_one s hi1]
      by_cases hqi : q = i
      · subst hqi
        have := hv q hq
        simp only [Nat.lt_irrefl, if_false] at this
        rw [if_pos rfl, this, if_pos (Nat.lt_succ_self q)]
      · rw [if_neg hqi, hv q hq]
        by_cases h5 : q < i
        · have : q < i + 1 := by omega
          simp [h5, this]
        · have : ¬ q < i + 1 := by omega
          simp [h5, this])
  refine ⟨els, h1, h2, ?_⟩
  intro q hq
  rw [h3 q hq, if_pos hq]

theorem Matrix.add_assign_spec [CommRing T] (A M : Matrix T) (hA : A.wf) (hM : M.wf)
    (hr : A.n_rows = M.n_rows) (hc : A.n_columns = M.n_columns) :
    ∃ P, A.add_assign M = .ok P ∧ P.n_rows = A.n_rows ∧ P.n_columns = A.n_columns ∧ P.wf ∧
      ∀ i j, i < A.n_rows → j < A.n_columns → P.entry i j = A.entry i j + M.entry i j := by
  obtain ⟨h1, h2, h3, h4, h5⟩ := hA
  obtain ⟨els, e1, e2, e3⟩ := zip_loop (fun x y => x + y) A.elements M.elements
    A.total_elements (by rw [h4, h5]) (by rw [h4, hM.2.2.2.2, hr, hc])
  refine ⟨{ A with elements := els }, ?_, rfl, rfl, ⟨h1, h2, h3, h4, by rw [e2, h4]⟩, ?_⟩
  · unfold Matrix.add_assign
    rw [if_neg (by simp [hr, hc])]
    simp only [e1, ok_bind, pure_eq_ok]
  · intro i j hi hj
    have := e3 (i * A.n_columns + j) (by rw [h4]; exact lin_lt hi hj)
    simpa [Matrix.entry, hc] using this

theorem Matrix.sub_assign_spec [CommRing T] (A M : Matrix T) (hA : A.wf) (hM : M.wf)
    (hr : A.n_rows = M.n_rows) (hc : A.n_columns = M.n_columns) :
    ∃ P, A.sub_assign M = .ok P ∧ P.n_rows = A.n_rows ∧ P.n_columns = A.n_columns ∧ P.wf ∧
      ∀ i j, i < A.n_rows → j < A.n_columns → P.entry i j = A.entry i j - M.entry i j := by
  obtain ⟨h1, h2, h3, h4, h5⟩ := hA
  obtain ⟨els, e1, e2, e3⟩ := zip_loop (fun x y => x - y) A.elements M.elements
    A.total_elements (by rw [h4, h5]) (by rw [h4, hM.2.2.2.2, hr, hc])
  refine ⟨{ A with elements := els }, ?_, rfl, rfl, ⟨h1, h2, h3, h4, by rw [e2, h4]⟩, ?_⟩
  · unfold Matrix.sub_assign
    rw [if_neg (by simp [hr, hc])]
    simp only [e1, ok_bind, pure_eq_ok]
  · intro i j hi hj
    have := e3 (i * A.n_columns + j) (by rw [h4]; exact lin_lt hi hj)
    simpa [Matrix.entry, hc] using this

theorem Matrix.add_spec [CommRing T] (A M : Matrix T) (hA : A.wf) (hM : M.wf)
    (hr : A.n_rows = M.n_rows) (hc : A.n_columns = M.n_columns) :
    ∃ P, A.add M = .ok P ∧ P.n_rows = A.n_rows ∧ P.n_columns = A.n_columns ∧ P.wf ∧
      ∀ i j, i < A.n_rows → j < A.n_columns → P.entry i j = A.entry i j + M.entry i j :=
  Matrix.add_assign_spec A M hA hM hr hc

theorem Matrix.sub_spec [CommRing T] (A M : Matrix T) (hA : A.wf) (hM : M.wf)
    (hr : A.n_rows = M.n_rows) (hc : A.n_columns = M.n_columns) :
    ∃ P, A.sub M = .ok P ∧ P.n_rows = A.n_rows ∧ P.n_columns = A.n_columns ∧ P.wf ∧
      ∀ i j, i < A.n_rows → j < A.n_columns → P.entry i j = A.entry i j - M.entry i j :=
  Matrix.sub_assign_spec A M hA hM hr hc

/-! ## Slices -/

theorem Matrix.wf_rows_lt {M : Matrix T} (hM : M.wf) : M.n_rows < SIZE_MOD := by
  obtain ⟨h1, h2, h3, _, _⟩ := hM
  have : M.n_rows ≤ M.n_rows * M.n_columns := Nat.le_mul_of_pos_right _ h2
  omega

theorem Matrix.wf_columns_lt {M : Matrix T} (hM : M.wf) : M.n_columns < SIZE_MOD := by
  obtain ⟨h1, h2, h3, _, _⟩ := hM
  have : M.n_columns ≤ M.n_rows * M.n_columns := Nat.le_mul_of_pos_left _ h1
  omega

theorem slice_step [Zero T] (M : Matrix T) (hM : M.wf) {ra ca rr cr i j : Nat}
    (hrr : ra + rr ≤ M.n_rows) (hcr : ca + cr ≤ M.n_columns) (hi : i < rr) (hj : j < cr)
    (els : List T) (h : slice_state M ra ca rr cr i j els) :
    ∃ els', (do
        let x ← buf_get M.elements (sz (sz (sz (sz (ra + i) * M.n_columns) + ca) + j))
        buf_set els (sz (sz (i * cr) + j)) x) = .ok els' ∧
      slice_state M ra ca rr cr i (j + 1) els' := by
  have hrows := Matrix.wf_rows_lt hM
  obtain ⟨_, _, h3, _, h5⟩ := hM
  have e1 : (ra + i) * M.n_columns + (ca + j) < M.n_rows * M.n_columns :=
    lin_lt (by omega) (by omega)
  have e2 : i * cr + j < rr * cr := lin_lt hi hj
  have e3 : rr * cr ≤ M.n_rows * M.n_columns := Nat.mul_le_mul (by omega) (by omega)
  have s0 : sz (ra + i) = ra + i := sz_of_lt (by omega)
  have s1 : sz ((ra + i) * M.n_columns) = (ra + i) * M.n_columns := sz_of_lt (by omega)
  have s2 : sz ((ra + i) * M.n_columns + ca) = (ra + i) * M.n_columns + ca :=
    sz_of_lt (by omega)
  have s3 : sz ((ra + i) * M.n_columns + ca + j) = (ra + i) * M.n_columns + (ca + j) := by
    rw [sz_of_lt (by omega)]; omega
  have s4 : sz (i * cr) = i * cr := sz_of_lt (by omega)
  have s5 : sz (i * cr + j) = i * cr + j := sz_of_lt (by omega)
  rw [s0, s1, s2, s3, s4, s5, buf_get_of_lt (by rw [h5]; exact e1)]
  simp only [ok_bind]
  rw [buf_set_of_lt (by rw [h.1]; exact e2)]
  refine ⟨_, rfl, by simp [h.1], ?_⟩
  intro i' j' hi' hj'
  rw [getD_set_lin els hj hj' (by rw [h.1]; exact e2)]
  by_cases hc : i' = i ∧ j' = j
  · obtain ⟨rfl, rfl⟩ := hc
    simp [Matrix.entry]
  · rw [if_neg hc, h.2 i' j' hi' hj']
    have : (i' < i ∨ i' = i ∧ j' < j) ↔ (i' < i ∨ i' = i ∧ j' < j + 1) := by
      constructor
      · rintro (h1 | ⟨h1, h2⟩)
        · exact Or.inl h1
        · exact Or.inr ⟨h1, by omega⟩
      · rintro (h1 | ⟨h1, h2⟩)
        · exact Or.inl h1
        · refine Or.inr ⟨h1, ?_⟩
          have : j' ≠ j := fun e => hc ⟨h1, e⟩
          omega
    simp only [this]

theorem slice_loops [Zero T] (M : Matrix T) (hM : M.wf) (ra ca rr cr : Nat)
    (hrr : ra + rr ≤ M.n_rows) (hcr : ca + cr ≤ M.n_columns) :
    ∃ els, (List.range rr).foldlM (fun els i =>
        (List.range cr).foldlM (fun els j => do
          let x ← buf_get M.elements (sz (sz (sz (sz (ra + i) * M.n_columns) + ca) + j))
          buf_set els (sz (sz (i * cr) + j)) x) els)
        (List.replicate (rr * cr) (0 : T)) = .ok els ∧
      slice_state M ra ca rr cr rr 0 els := by
  apply foldlM_range_inv _ (fun i els => slice_state M ra ca rr cr i 0 els)
  · refine ⟨by simp, ?_⟩
    intro i' j' hi' hj'
    rw [List.getD_eq_getElem?_getD, List.getElem?_replicate_of_lt (lin_lt hi' hj')]
    simp
  · intro i s hi hst
    obtain ⟨s', h1, h2, h3⟩ := foldlM_range_inv _
      (fun j els => slice_state M ra ca rr cr i j els) cr s hst
      (fun j s2 hj hst2 => slice_step M hM hrr hcr hi hj s2 hst2)
    refine ⟨s', h1, h2, ?_⟩
    intro i' j' hi' hj'
    rw [h3 i' j' hi' hj']
    have : (i' < i ∨ i' = i ∧ j' < cr) ↔ (i' < i + 1 ∨ i' = i + 1 ∧ j' < 0) := by
      constructor
      · rintro (h1 | ⟨h1, _⟩)
        · exact Or.inl (by omega)
        · exact Or.inl (by omega)
      · rintro (h1 | ⟨_, h2⟩)
        · by_cases h4 : i' < i
          · exact Or.inl h4
          · exact Or.inr ⟨by omega, hj'⟩
        · omega
    simp only [this]

/-- A slice with a non-empty range inside the matrix copies that range. -/
theorem Matrix.slice_spec [Zero T] (M : Matrix T) (hM : M.wf) {ra rb ca cb : Nat}
    (hr : ra < rb) (hrb : rb ≤ M.n_rows) (hc : ca < cb) (hcb : cb ≤ M.n_columns) :
    ∃ P, M.slice ra rb ca cb = .ok P ∧ P.n_rows = rb - ra ∧ P.n_columns = cb - ca ∧ P.wf ∧
      ∀ i j, i < rb - ra → j < cb - ca → P.entry i j = M.entry (ra + i) (ca + j) := by
  have hrows := Matrix.wf_rows_lt hM
  have hcols := Matrix.wf_columns_lt hM
  have e3 : (rb - ra) * (cb - ca) ≤ M.n_rows * M.n_columns :=
    Nat.mul_le_mul (by omega) (by omega)
  have hsize : (rb - ra) * (cb - ca) < SIZE_MOD := lt_of_le_of_lt e3 hM.2.2.1
  obtain ⟨els, h1, h2, h3⟩ := slice_loops M hM ra ca (rb - ra) (cb - ca)
    (by omega) (by omega)
  refine ⟨⟨rb - ra, cb - ca, (rb - ra) * (cb - ca), els⟩, ?_, rfl, rfl,
    ⟨show 1 ≤ rb - ra by omega, show 1 ≤ cb - ca by omega, hsize, rfl, h2⟩, ?_⟩
  · unfold Matrix.slice
    rw [size_sub_of_le hr.le (by omega), size_sub_of_le hc.le (by omega)]
    dsimp only
    rw [Matrix.new_ok (by omega) (by omega) hsize]
    simp only [ok_bind]
    rw [h1]
    rfl
  · intro i j hi hj
    have := h3 i j hi hj
    rw [if_pos (Or.inl hi)] at this
    exact this

/-! ## Element access and recombination -/

theorem Matrix.ext_entry [Zero T] {P Q : Matrix T} (hP : P.wf) (hQ : Q.wf)
    (hr : P.n_rows = Q.n_rows) (hc : P.n_columns = Q.n_columns)
    (h : ∀ i j, i < P.n_rows → j < P.n_columns → P.entry i j = Q.entry i j) : P = Q := by
  obtain ⟨r, c, t, els⟩ := P
  obtain ⟨r', c', t', els'⟩ := Q
  obtain ⟨p1, p2, p3, p4, p5⟩ := hP
  obtain ⟨q1, q2, q3, q4, q5⟩ := hQ
  simp only at hr hc p1 p2 p3 p4 p5 q1 q2 q3 q4 q5 h
  subst hr hc
  have ht : t = t' := by rw [p4, q4]
  subst ht
  have hels : els = els' := by
    apply List.ext_getElem (by rw [p5, q5])
    intro q h1 h2
    have hq : q < r * c := by rw [← p5]; exact h1
    have hi : q / c < r := Nat.div_lt_of_lt_mul (by rw [Nat.mul_comm]; exact hq)
    have hj : q % c < c := Nat.mod_lt _ (by omega)
    have := h (q / c) (q % c) hi hj
    simp only [Matrix.entry, Nat.div_add_mod'] at this
    rw [List.getD_eq_getElem _ _ h1, List.getD_eq_getElem _ _ h2] at this
    exact this
  rw [hels]

theorem Matrix.get_ok [Zero T] (M : Matrix T) (hM : M.wf) {r c : Nat} (hr : r < M.n_rows)
    (hc : c < M.n_columns) : M.get r c = .ok (M.entry r c) := by
  obtain ⟨_, _, h3, _, h5⟩ := hM
  have e1 := lin_lt hr hc
  unfold Matrix.get Matrix.offset Matrix.entry
  rw [sz_of_lt (x := r * M.n_columns) (by omega), sz_of_lt (by omega),
    buf_get_of_lt (by omega)]

theorem Matrix.put_ok {h w r c : Nat} (hsz : h * w < SIZE_MOD) (hr : r < h) (hc : c < w)
    (C : Matrix T) (v : T) (hw : C.n_columns = w) (hlen : C.elements.length = h * w) :
    C.put r c v = .ok { C with elements := C.elements.set (r * w + c) v } := by
  have e1 := lin_lt hr hc
  unfold Matrix.put Matrix.offset
  rw [hw, sz_of_lt (x := r * w) (by omega), sz_of_lt (by omega), buf_set_of_lt (by omega)]
  rfl


theorem Matrix.get_ok_sq [Zero T] (M : Matrix T) {n : Nat}
    (hM : M.wf ∧ M.n_rows = n ∧ M.n_columns = n) {r c : Nat} (hr : r < n) (hc : c < n) :
    M.get r c = .ok (M.entry r c) :=
  Matrix.get_ok M hM.1 (by rw [hM.2.1]; exact hr) (by rw [hM.2.2]; exact hc)

theorem quad_cases (n i' : Nat) (h : i' < 2 * n) (i : Nat) (hi : i < n) :
    quad n i' = i ↔ (i' = i ∨ i' = n + i) := by
  unfold quad
  split_ifs with h1 <;> omega

theorem combine_step [CommRing T] (n : Nat) (M1 M2 M3 M4 M5 M6 M7 : Matrix T)
    (h1 : M1.wf ∧ M1.n_rows = n ∧ M1.n_columns = n)
    (h2 : M2.wf ∧ M2.n_rows = n ∧ M2.n_columns = n)
    (h3 : M3.wf ∧ M3.n_rows = n ∧ M3.n_columns = n)
    (h4 : M4.wf ∧ M4.n_rows = n ∧ M4.n_columns = n)
    (h5 : M5.wf ∧ M5.n_rows = n ∧ M5.n_columns = n)
    (h6 : M6.wf ∧ M6.n_rows = n ∧ M6.n_columns = n)
    (h7 : M7.wf ∧ M7.n_rows = n ∧ M7.n_columns = n)
    (hsz : 2 * n * (2 * n) < SIZE_MOD) {i j : Nat} (hi : i < n) (hj : j < n) (C : Matrix T)
    (hC : combine_state n
      (fun i j => M1.entry i j + M4.entry i j - M5.entry i j + M7.entry i j)
      (fun i j => M3.entry i j + M5.entry i j)
      (fun i j => M2.entry i j + M4.entry i j)
      (fun i j => M1.entry i j - M2.entry i j + M3.entry i j + M6.entry i j) i j C) :
    ∃ C', (do
        let C ← C.put i j ((← M1.get i j) + (← M4.get i j) - (← M5.get i j) + (← M7.get i j))
        let C ← C.put i (sz (n + j)) ((← M3.get i j) + (← M5.get i j))
        let C ← C.put (sz (n + i)) j ((← M2.get i j) + (← M4.get i j))
        C.put (sz (n + i)) (sz (n + j))
          ((← M1.get i j) - (← M2.get i j) + (← M3.get i j) + (← M6.get i j))) = .ok C' ∧
      combine_state n
      (fun i j => M1.entry i j + M4.entry i j - M5.entry i j + M7.entry i j)
      (fun i j => M3.entry i j + M5.entry i j)
      (fun i j => M2.entry i j + M4.entry i j)
      (fun i j => M1.entry i j - M2.entry i j + M3.entry i j + M6.entry i j) i (j + 1) C' := by
  obtain ⟨c1, c2, c3, c4, c5⟩ := hC
  have g1 := Matrix.get_ok_sq M1 h1 hi hj
  have g2 := Matrix.get_ok_sq M2 h2 hi hj
  have g3 := Matrix.get_ok_sq M3 h3 hi hj
  have g4 := Matrix.get_ok_sq M4 h4 hi hj
  have g5 := Matrix.get_ok_sq M5 h5 hi hj
  have g6 := Matrix.get_ok_sq M6 h6 hi hj
  have g7 := Matrix.get_ok_sq M7 h7 hi hj
  clear h1 h2 h3 h4 h5 h6 h7
  have hn : 2 * n ≤ 2 * n * (2 * n) := Nat.le_mul_self _
  have si : sz (n + i) = n + i := sz_of_lt (by omega)
  have sj : sz (n + j) = n + j := sz_of_lt (by omega)
  have l1 : i * (2 * n) + j < C.elements.length := by
    rw [c4]; exact lin_lt (by omega) (by omega)
  have l2 : i * (2 * n) + (n + j) < C.elements.length := by
    rw [c4]; exact lin_lt (by omega) (by omega)
  have l3 : (n + i) * (2 * n) + j < C.elements.length := by
    rw [c4]; exact lin_lt (by omega) (by omega)
  have l4 : (n + i) * (2 * n) + (n + j) < C.elements.length := by
    rw [c4]; exact lin_lt (by omega) (by omega)
  rw [g1, g2, g3, g4, g5, g6, g7, si, sj]
  simp only [ok_bind]
  rw [Matrix.put_ok hsz (show i < 2 * n by omega) (show j < 2 * n by omega) C _ c2 c4]
  simp only [ok_bind]
  rw [Matrix.put_ok hsz (show i < 2 * n by omega) (show n + j < 2 * n by omega)]
  rotate_left
  · exact c2
  · simp [c4]
  simp only [ok_bind]
  rw [Matrix.put_ok hsz (show n + i < 2 * n by omega) (show j < 2 * n by omega)]
  rotate_left
  · exact c2
  · simp [c4]
  simp only [ok_bind]
  rw [Matrix.put_ok hsz (show n + i < 2 * n by omega) (show n + j < 2 * n by omega)]
  rotate_left
  · exact c2
  · simp [c4]
  refine ⟨_, rfl, c1, c2, c3, by simp [c4], ?_⟩
  intro i' j' hi' hj'
  have hold := c5 i' j' hi' hj'
  unfold Matrix.entry at hold ⊢
  simp only [c2] at hold ⊢
  rw [getD_set_lin _ (show n + j < 2 * n by omega) hj' (by simpa using l4),
    getD_set_lin _ (show j < 2 * n by omega) hj' (by simpa using l3),
    getD_set_lin _ (show n + j < 2 * n by omega) hj' (by simpa using l2),
    getD_set_lin _ (show j < 2 * n by omega) hj' l1, hold]
  have qi := quad_cases n i' hi' i hi
  have qj := quad_cases n j' hj' j hj
  by_cases hq : quad n i' = i ∧ quad n j' = j
  · have hcond : quad n i' < i ∨ quad n i' = i ∧ quad n j' < j + 1 := Or.inr ⟨hq.1, by omega⟩
    rw [if_pos hcond]
    rcases qi.mp hq.1 with rfl | rfl <;> rcases qj.mp hq.2 with rfl | rfl
    · have a1 : ¬ (i' = n + i') := by omega
      have a2 : ¬ (j' = n + j') := by omega
      simp [combine_value, hi, hj, a1, a2]
    · have a1 : ¬ (i' = n + i') := by omega
      have a2 : ¬ (n + j < n) := by omega
      simp [combine_value, hi, a1, a2]
    · have a1 : ¬ (n + i < n) := by omega
      have a2 : ¬ (j' = n + j') := by omega
      simp [combine_value, hj, a1, a2]
    · have a1 : ¬ (n + i < n) := by omega
      have a2 : ¬ (n + j < n) := by omega
      simp [combine_value, a1, a2]
  · have n1 : ¬ (i' = n + i ∧ j' = n + j) := fun h => hq ⟨qi.mpr (Or.inr h.1), qj.mpr (Or.inr h.2)⟩
    have n2 : ¬ (i' = n + i ∧ j' = j) := fun h => hq ⟨qi.mpr (Or.inr h.1), qj.mpr (Or.inl h.2)⟩
    have n3 : ¬ (i' = i ∧ j' = n + j) := fun h => hq ⟨qi.mpr (Or.inl h.1), qj.mpr (Or.inr h.2)⟩
    have n4 : ¬ (i' = i ∧ j' = j) := fun h => hq ⟨qi.mpr (Or.inl h.1), qj.mpr (Or.inl h.2)⟩
    rw [if_neg n1, if_neg n2, if_neg n3, if_neg n4]
    have : (quad n i' < i ∨ quad n i' = i ∧ quad n j' < j) ↔
        (quad n i' < i ∨ quad n i' = i ∧ quad n j' < j + 1) := by
      constructor
      · rintro (h | ⟨h, h'⟩)
        · exact Or.inl h
        · exact Or.inr ⟨h, by omega⟩
      · rintro (h | ⟨h, h'⟩)
        · exact Or.inl h
        · refine Or.inr ⟨h, ?_⟩
          have : quad n j' ≠ j := fun e => hq ⟨h, e⟩
          omega
    simp only [this]


theorem quad_lt (n i' : Nat) (h : i' < 2 * n) : quad n i' < n := by
  unfold quad
  split_ifs with h1 <;> omega

theorem combine_row_done (n i qi qj : Nat) (q1 : qj < n) :
    (qi < i ∨ qi = i ∧ qj < n) ↔ (qi < i + 1 ∨ qi = i + 1 ∧ qj < 0) := by
  constructor
  · rintro (h | ⟨h, _⟩)
    · exact Or.inl (by omega)
    · exact Or.inl (by omega)
  · rintro (h | ⟨_, h⟩)
    · by_cases h' : qi < i
      · exact Or.inl h'
      · exact Or.inr ⟨by omega, q1⟩
    · omega

/-- The recombination loops fill the four quadrants of `C`. -/
theorem combine_spec [CommRing T] (A B : Matrix T) (n : Nat) (hn : 1 ≤ n)
    (hA : A.n_rows = 2 * n) (hB : B.n_columns = 2 * n)
    (M1 M2 M3 M4 M5 M6 M7 : Matrix T)
    (h1 : M1.wf ∧ M1.n_rows = n ∧ M1.n_columns = n)
    (h2 : M2.wf ∧ M2.n_rows = n ∧ M2.n_columns = n)
    (h3 : M3.wf ∧ M3.n_rows = n ∧ M3.n_columns = n)
    (h4 : M4.wf ∧ M4.n_rows = n ∧ M4.n_columns = n)
    (h5 : M5.wf ∧ M5.n_rows = n ∧ M5.n_columns = n)
    (h6 : M6.wf ∧ M6.n_rows = n ∧ M6.n_columns = n)
    (h7 : M7.wf ∧ M7.n_rows = n ∧ M7.n_columns = n)
    (hsz : 2 * n * (2 * n) < SIZE_MOD) :
    ∃ C, combine A B n M1 M2 M3 M4 M5 M6 M7 = .ok C ∧ C.n_rows = 2 * n ∧
      C.n_columns = 2 * n ∧ C.wf ∧
      ∀ i j, i < 2 * n → j < 2 * n → C.entry i j = combine_value n
        (fun i j => M1.entry i j + M4.entry i j - M5.entry i j + M7.entry i j)
        (fun i j => M3.entry i j + M5.entry i j)
        (fun i j => M2.entry i j + M4.entry i j)
        (fun i j => M1.entry i j - M2.entry i j + M3.entry i j + M6.entry i j) i j := by
  obtain ⟨C, e1, c1, c2, c3, c4, c5⟩ := foldlM_range_inv _
    (fun i C => combine_state n
      (fun i j => M1.entry i j + M4.entry i j - M5.entry i j + M7.entry i j)
      (fun i j => M3.entry i j + M5.entry i j)
      (fun i j => M2.entry i j + M4.entry i j)
      (fun i j => M1.entry i j - M2.entry i j + M3.entry i j + M6.entry i j) i 0 C)
    n (⟨2 * n, 2 * n, 2 * n * (2 * n), List.replicate (2 * n * (2 * n)) 0⟩ : Matrix T)
    ⟨rfl, rfl, rfl, by simp, by
      intro i' j' hi' hj'
      unfold Matrix.entry
      rw [List.getD_eq_getElem?_getD, List.getElem?_replicate_of_lt (lin_lt hi' hj')]
      simp⟩
    (by
      intro i C hi hC
      obtain ⟨C', e1, c1, c2, c3, c4, c5⟩ := foldlM_range_inv _
        (fun j C => combine_state n
          (fun i j => M1.entry i j + M4.entry i j - M5.entry i j + M7.entry i j)
          (fun i j => M3.entry i j + M5.entry i j)
          (fun i j => M2.entry i j + M4.entry i j)
          (fun i j => M1.entry i j - M2.entry i j + M3.entry i j + M6.entry i j) i j C)
        n C hC
        (fun j C2 hj hC2 => combine_step n M1 M2 M3 M4 M5 M6 M7 h1 h2 h3 h4 h5 h6 h7 hsz hi hj
          C2 hC2)
      refine ⟨C', e1, c1, c2, c3, c4, ?_⟩
      intro i' j' hi' hj'
      rw [c5 i' j' hi' hj']
      simp only [combine_row_done n i _ _ (quad_lt n j' hj')])
  clear h1 h2 h3 h4 h5 h6 h7
  have hn2 : 1 ≤ 2 * n := by omega
  refine ⟨C, ?_, c1, c2, ⟨by rw [c1]; exact hn2, by rw [c2]; exact hn2,
    by rw [c1, c2]; exact hsz, by rw [c3, c1, c2], by rw [c4, c1, c2]⟩, ?_⟩
  · unfold combine Matrix.rows Matrix.columns
    rw [hA, hB, Matrix.new_ok hn2 hn2 hsz]
    simp only [ok_bind]
    exact e1
  · intro i j hi hj
    rw [c5 i j hi hj, if_pos (Or.inl (quad_lt n i hi))]

/-! ## Strassen's identities -/

theorem strassen_identity [CommRing T] (n : Nat) (a b : Nat → Nat → T)
    (m1 m2 m3 m4 m5 m6 m7 : Nat → Nat → T)
    (h1 : ∀ i j, i < n → j < n → m1 i j =
      ∑ x in Finset.range n, (a i x + a (n + i) (n + x)) * (b x j + b (n + x) (n + j)))
    (h2 : ∀ i j, i < n → j < n → m2 i j =
      ∑ x in Finset.range n, (a (n + i) x + a (n + i) (n + x)) * b x j)
    (h3 : ∀ i j, i < n → j < n → m3 i j =
      ∑ x in Finset.range n, a i x * (b x (n + j) - b (n + x) (n + j)))
    (h4 : ∀ i j, i < n → j < n → m4 i j =
      ∑ x in Finset.range n, a (n + i) (n + x) * (b (n + x) j - b x j))
    (h5 : ∀ i j, i < n → j < n → m5 i j =
      ∑ x in Finset.range n, (a i x + a i (n + x)) * b (n + x) (n + j))
    (h6 : ∀ i j, i < n → j < n → m6 i j =
      ∑ x in Finset.range n, (a (n + i) x - a i x) * (b x j + b x (n + j)))
    (h7 : ∀ i j, i < n → j < n → m7 i j =
      ∑ x in Finset.range n, (a i (n + x) - a (n + i) (n + x)) * (b (n + x) j + b (n + x) (n + j)))
    (i' j' : Nat) (hi' : i' < 2 * n) (hj' : j' < 2 * n) :
    combine_value n (fun i j => m1 i j + m4 i j - m5 i j + m7 i j)
      (fun i j => m3 i j + m5 i j) (fun i j => m2 i j + m4 i j)
      (fun i j => m1 i j - m2 i j + m3 i j + m6 i j) i' j' =
      ∑ x in Finset.range (2 * n), a i' x * b x j' := by
  have h2n : 2 * n = n + n := by ring
  rw [h2n, Finset.sum_range_add]
  unfold combine_value
  by_cases hi : i' < n <;> by_cases hj : j' < n
  · rw [if_pos hi, if_pos hj]
    beta_reduce
    rw [h1 _ _ hi hj, h4 _ _ hi hj, h5 _ _ hi hj, h7 _ _ hi hj]
    simp only [← Finset.sum_add_distrib, ← Finset.sum_sub_distrib]
    exact Finset.sum_congr rfl (fun x _ => by ring)
  · have hj2 : j' - n < n := by omega
    have e : n + (j' - n) = j' := by omega
    rw [if_pos hi, if_neg hj]
    beta_reduce
    rw [h3 _ _ hi hj2, h5 _ _ hi hj2, e]
    simp only [← Finset.sum_add_distrib, ← Finset.sum_sub_distrib]
    exact Finset.sum_congr rfl (fun x _ => by ring)
  · have hi2 : i' - n < n := by omega
    have e : n + (i' - n) = i' := by omega
    rw [if_neg hi, if_pos hj]
    beta_reduce
    rw [h2 _ _ hi2 hj, h4 _ _ hi2 hj, e]
    simp only [← Finset.sum_add_distrib, ← Finset.sum_sub_distrib]
    exact Finset.sum_congr rfl (fun x _ => by ring)
  · have hi2 : i' - n < n := by omega
    have e : n + (i' - n) = i' := by omega
    have hj2 : j' - n < n := by omega
    have e' : n + (j' - n) = j' := by omega
    rw [if_neg hi, if_neg hj]
    beta_reduce
    rw [h1 _ _ hi2 hj2, h2 _ _ hi2 hj2, h3 _ _ hi2 hj2, h6 _ _ hi2 hj2,
      e, e']
    simp only [← Finset.sum_add_distrib, ← Finset.sum_sub_distrib]
    exact Finset.sum_congr rfl (fun x _ => by ring)

theorem dot_eq [CommRing T] (A M : Matrix T) (k i j : Nat) (f g : Nat → T)
    (hf : ∀ x, x < k → A.entry i x = f x) (hg : ∀ x, x < k → M.entry x j = g x) :
    dot A M k i j = ∑ x in Finset.range k, f x * g x := by
  unfold dot
  apply Finset.sum_congr rfl
  intro x hx
  rw [hf x (Finset.mem_range.mp hx), hg x (Finset.mem_range.mp hx)]


/-! ## The serial multiplier -/

theorem Traced.does_bind {α β : Type} {x : Traced α} {f : α → Traced β} {a : α} {b : β}
    {o1 o2 : List Op} (h1 : Traced.Does x a o1) (h2 : Traced.Does (f a) b o2) :
    Traced.Does (x >>= f) b (o1 ++ o2) := by
  intro tr
  rw [StateT.run_bind, h1 tr]
  simp [h2 (tr ++ o1)]

theorem Traced.does_traced {α : Type} {x : Except Err α} {v : α} (o : Op) (h : x = .ok v) :
    Traced.Does (traced o x) v [o] := by
  intro tr; subst h; rfl

theorem Traced.does_untraced {α : Type} {x : Except Err α} {v : α} (h : x = .ok v) :
    Traced.Does (untraced x) v [] := by
  intro tr; subst h; simp [MatrixAndFriends.untraced, StateT.run]

theorem Traced.does_pure {α : Type} (v : α) : Traced.Does (Pure.pure v : Traced α) v [] := by
  intro tr; simp [StateT.run_pure]

theorem Traced.yields_bind {α β : Type} {x : Traced α} {f : α → Traced β} {a : α} {b : β}
    (h1 : Traced.Yields x a) (h2 : Traced.Yields (f a) b) : Traced.Yields (x >>= f) b := by
  obtain ⟨o1, h1⟩ := h1
  obtain ⟨o2, h2⟩ := h2
  exact ⟨o1 ++ o2, Traced.does_bind h1 h2⟩

theorem Traced.yields_traced {α : Type} {x : Except Err α} {v : α} (o : Op) (h : x = .ok v) :
    Traced.Yields (traced o x) v := ⟨_, Traced.does_traced o h⟩

theorem Traced.yields_untraced {α : Type} {x : Except Err α} {v : α} (h : x = .ok v) :
    Traced.Yields (untraced x) v := ⟨_, Traced.does_untraced h⟩

theorem Strassen.serial_new_ok {A B : Matrix T} {n : Nat} (hA : A.square n) (hB : B.square n)
    (r : Nat) : Strassen.new A B r = .ok ⟨A, B, r⟩ := by
  unfold Strassen.new Matrix.rows Matrix.columns
  simp [hA.2.1, hA.2.2, hB.2.1, hB.2.2]

theorem quadrants_spec [Zero T] (A B : Matrix T) (n : Nat) (hn : 1 ≤ n)
    (hA : A.square (2 * n)) (hB : B.square (2 * n)) :
    ∃ q, Traced.Yields (quadrants A B n) q ∧
      q.A11.square n ∧ q.A12.square n ∧ q.A21.square n ∧ q.A22.square n ∧
      q.B11.square n ∧ q.B12.square n ∧ q.B21.square n ∧ q.B22.square n ∧
      (∀ i j, i < n → j < n → q.A11.entry i j = A.entry i j) ∧
      (∀ i j, i < n → j < n → q.A12.entry i j = A.entry i (n + j)) ∧
      (∀ i j, i < n → j < n → q.A21.entry i j = A.entry (n + i) j) ∧
      (∀ i j, i < n → j < n → q.A22.entry i j = A.entry (n + i) (n + j)) ∧
      (∀ i j, i < n → j < n → q.B11.entry i j = B.entry i j) ∧
      (∀ i j, i < n → j < n → q.B12.entry i j = B.entry i (n + j)) ∧
      (∀ i j, i < n → j < n → q.B21.entry i j = B.entry (n + i) j) ∧
      (∀ i j, i < n → j < n → q.B22.entry i j = B.entry (n + i) (n + j)) := by
  obtain ⟨wA, rA, cA⟩ := hA
  obtain ⟨wB, rB, cB⟩ := hB
  have h2n : sz (2 * n) = 2 * n := sz_of_lt (by have := Matrix.wf_rows_lt wA; omega)
  have e0 : n - 0 = n := rfl
  have e1 : 2 * n - n = n := by omega
  have q0 : 0 < n := by omega
  have q1 : n < 2 * n := by omega
  have q2 : n ≤ A.n_rows := by omega
  have q3 : n ≤ A.n_columns := by omega
  have q4 : 2 * n ≤ A.n_rows := by omega
  have q5 : 2 * n ≤ A.n_columns := by omega
  have q2' : n ≤ B.n_rows := by omega
  have q3' : n ≤ B.n_columns := by omega
  have q4' : 2 * n ≤ B.n_rows := by omega
  have q5' : 2 * n ≤ B.n_columns := by omega
  obtain ⟨A11, a1, a2, a3, a4, a5⟩ := Matrix.slice_spec A wA q0 q2 q0 q3
  obtain ⟨A12, b1, b2, b3, b4, b5⟩ := Matrix.slice_spec A wA q0 q2 q1 q5
  obtain ⟨A21, c1, c2, c3, c4, c5⟩ := Matrix.slice_spec A wA q1 q4 q0 q3
  obtain ⟨A22, d1, d2, d3, d4, d5⟩ := Matrix.slice_spec A wA q1 q4 q1 q5
  obtain ⟨B11, a1', a2', a3', a4', a5'⟩ := Matrix.slice_spec B wB q0 q2' q0 q3'
  obtain ⟨B12, b1', b2', b3', b4', b5'⟩ := Matrix.slice_spec B wB q0 q2' q1 q5'
  obtain ⟨B21, c1', c2', c3', c4', c5'⟩ := Matrix.slice_spec B wB q1 q4' q0 q3'
  obtain ⟨B22, d1', d2', d3', d4', d5'⟩ := Matrix.slice_spec B wB q1 q4' q1 q5'
  rw [e0] at a2 a3 a5 b2 c3 a2' a3' a5' b2' c3' b5 c5 b5' c5'
  rw [e1] at b3 b5 c2 c5 d2 d3 d5 b3' b5' c2' c5' d2' d3' d5'
  simp only [Nat.zero_add] at a5 b5 c5 a5' b5' c5'
  refine ⟨⟨A11, A12, A21, A22, B11, B12, B21, B22⟩, ?_, ⟨a4, a2, a3⟩, ⟨b4, b2, b3⟩,
    ⟨c4, c2, c3⟩, ⟨d4, d2, d3⟩, ⟨a4', a2', a3'⟩, ⟨b4', b2', b3'⟩, ⟨c4', c2', c3'⟩,
    ⟨d4', d2', d3'⟩, a5, b5, c5, d5, a5', b5', c5', d5'⟩
  unfold quadrants
  rw [h2n]
  refine Traced.yields_bind (Traced.yields_traced _ a1) ?_
  refine Traced.yields_bind (Traced.yields_traced _ b1) ?_
  refine Traced.yields_bind (Traced.yields_traced _ c1) ?_
  refine Traced.yields_bind (Traced.yields_traced _ d1) ?_
  refine Traced.yields_bind (Traced.yields_traced _ a1') ?_
  refine Traced.yields_bind (Traced.yields_traced _ b1') ?_
  refine Traced.yields_bind (Traced.yields_traced _ c1') ?_
  refine Traced.yields_bind (Traced.yields_traced _ d1') ?_
  exact ⟨_, Traced.does_pure _⟩


theorem Matrix.square_size {M : Matrix T} {n : Nat} (h : M.square n) : n * n < SIZE_MOD := by
  obtain ⟨⟨_, _, h3, _, _⟩, h1, h2⟩ := h
  rw [h1, h2] at h3
  exact h3

theorem direct_does [CommRing T] (o : Op) (n : Nat) (A B : Matrix T) (hA : A.square n)
    (hB : B.square n) :
    ∃ P, Traced.Yields (do traced o (pure ()); traced .mul (A.mul B)) P ∧ P.square n ∧
      ∀ i j, i < n → j < n → P.entry i j = dot A B n i j := by
  have hsz := Matrix.square_size hA
  obtain ⟨wA, rA, cA⟩ := hA
  obtain ⟨wB, rB, cB⟩ := hB
  obtain ⟨P, e, p1, p2, p3, p4⟩ := Matrix.mul_spec A B wA wB (by rw [cA, rB])
    (by rw [rA, cB]; exact hsz)
  refine ⟨P, ⟨_, Traced.does_bind (Traced.does_traced _ rfl) (Traced.does_traced _ e)⟩,
    ⟨p3, by rw [p1, rA], by rw [p2, cB]⟩, ?_⟩
  intro i j hi hj
  rw [p4 i j (by rw [rA]; exact hi) (by rw [cB]; exact hj), cA]

theorem Matrix.add_square [CommRing T] {X Y : Matrix T} {m : Nat} (hX : X.square m)
    (hY : Y.square m) :
    ∃ P, X.add Y = .ok P ∧ P.square m ∧
      ∀ i j, i < m → j < m → P.entry i j = X.entry i j + Y.entry i j := by
  obtain ⟨P, e, p1, p2, p3, p4⟩ := Matrix.add_spec X Y hX.1 hY.1 (by rw [hX.2.1, hY.2.1])
    (by rw [hX.2.2, hY.2.2])
  refine ⟨P, e, ⟨p3, by rw [p1, hX.2.1], by rw [p2, hX.2.2]⟩, ?_⟩
  intro i j hi hj
  exact p4 i j (by rw [hX.2.1]; exact hi) (by rw [hX.2.2]; exact hj)

theorem Matrix.sub_square [CommRing T] {X Y : Matrix T} {m : Nat} (hX : X.square m)
    (hY : Y.square m) :
    ∃ P, X.sub Y = .ok P ∧ P.square m ∧
      ∀ i j, i < m → j < m → P.entry i j = X.entry i j - Y.entry i j := by
  obtain ⟨P, e, p1, p2, p3, p4⟩ := Matrix.sub_spec X Y hX.1 hY.1 (by rw [hX.2.1, hY.2.1])
    (by rw [hX.2.2, hY.2.2])
  refine ⟨P, e, ⟨p3, by rw [p1, hX.2.1], by rw [p2, hX.2.2]⟩, ?_⟩
  intro i j hi hj
  exact p4 i j (by rw [hX.2.1]; exact hi) (by rw [hX.2.2]; exact hj)

theorem nested_does [CommRing T] (r : Nat) (ih : Strassen.run_ok (T := T) r) {X Y : Matrix T}
    {m : Nat} (hX : X.square m) (hY : Y.square m) :
    ∃ P, Traced.Yields (do
        let S ← traced .serial_new (Strassen.new X Y r)
        Strassen.run r S.A S.B) P ∧ P.square m ∧
      ∀ i j, i < m → j < m → P.entry i j = dot X Y m i j := by
  obtain ⟨P, h1, h2, h3⟩ := ih m X Y hX hY
  exact ⟨P, Traced.yields_bind (Traced.yields_traced _ (Strassen.serial_new_ok hX hY r)) h1, h2, h3⟩

theorem Strassen.serial_ok_zero [CommRing T] : Strassen.run_ok (T := T) 0 := by
  intro n A B hA hB
  rw [Strassen.run]
  exact direct_does _ n A B hA hB

theorem Strassen.serial_ok_succ [CommRing T] (r : Nat) (ih : Strassen.run_ok (T := T) r) :
    Strassen.run_ok (T := T) (r + 1) := by
  intro n A B hA hB
  rw [Strassen.run]
  by_cases hodd : A.rows % 2 ≠ 0
  · simp only [if_pos hodd]
    exact direct_does _ n A B hA hB
  · simp only [if_neg hodd]
    have hm : A.rows % 2 = 0 := by omega
    obtain ⟨m, hn⟩ : ∃ m, n = 2 * m := ⟨A.rows / 2, by
      have : A.rows = n := hA.2.1
      omega⟩
    have hrows : A.rows / 2 = m := by
      have : A.rows = n := hA.2.1
      omega
    have hm1 : 1 ≤ m := by
      have : 1 ≤ A.n_rows := hA.1.1
      have : A.n_rows = n := hA.2.1
      omega
    subst hn
    rw [hrows]
    obtain ⟨q, hq, s11, s12, s21, s22, t11, t12, t21, t22, a11, a12, a21, a22, b11, b12,
      b21, b22⟩ := quadrants_spec A B m hm1 hA hB
    obtain ⟨X1, x1, sx1, ex1⟩ := Matrix.add_square s11 s22
    obtain ⟨Y1, y1, sy1, ey1⟩ := Matrix.add_square t11 t22
    obtain ⟨M1, d1, sm1, em1⟩ := nested_does r ih sx1 sy1
    obtain ⟨X2, x2, sx2, ex2⟩ := Matrix.add_square s21 s22
    obtain ⟨M2, d2, sm2, em2⟩ := nested_does r ih sx2 t11
    obtain ⟨Y3, y3, sy3, ey3⟩ := Matrix.sub_square t12 t22
    obtain ⟨M3, d3, sm3, em3⟩ := nested_does r ih s11 sy3
    obtain ⟨Y4, y4, sy4, ey4⟩ := Matrix.sub_square t21 t11
    obtain ⟨M4, d4, sm4, em4⟩ := nested_does r ih s22 sy4
    obtain ⟨X5, x5, sx5, ex5⟩ := Matrix.add_square s11 s12
    obtain ⟨M5, d5, sm5, em5⟩ := nested_does r ih sx5 t22
    obtain ⟨X6, x6, sx6, ex6⟩ := Matrix.sub_square s21 s11
    obtain ⟨Y6, y6, sy6, ey6⟩ := Matrix.add_square t11 t12
    obtain ⟨M6, d6, sm6, em6⟩ := nested_does r ih sx6 sy6
    obtain ⟨X7, x7, sx7, ex7⟩ := Matrix.sub_square s12 s22
    obtain ⟨Y7, y7, sy7, ey7⟩ := Matrix.add_square t21 t22
    obtain ⟨M7, d7, sm7, em7⟩ := nested_does r ih sx7 sy7
    obtain ⟨C, hC, c1, c2, c3, c4⟩ := combine_spec A B m hm1 hA.2.1 hB.2.2 M1 M2 M3 M4 M5 M6 M7
      sm1 sm2 sm3 sm4 sm5 sm6 sm7 (Matrix.square_size hA)
    refine ⟨C, ?_, ⟨c3, c1, c2⟩, ?_⟩
    · refine Traced.yields_bind (Traced.yields_traced _ rfl) ?_
      refine Traced.yields_bind hq ?_
      refine Traced.yields_bind (Traced.yields_traced _ x1) ?_
      refine Traced.yields_bind (Traced.yields_traced _ y1) ?_
      refine Traced.yields_bind d1 ?_
      refine Traced.yields_bind (Traced.yields_traced _ x2) ?_
      refine Traced.yields_bind d2 ?_
      refine Traced.yields_bind (Traced.yields_traced _ y3) ?_
      refine Traced.yields_bind d3 ?_
      refine Traced.yields_bind (Traced.yields_traced _ y4) ?_
      refine Traced.yields_bind d4 ?_
      refine Traced.yields_bind (Traced.yields_traced _ x5) ?_
      refine Traced.yields_bind d5 ?_
      refine Traced.yields_bind (Traced.yields_traced _ x6) ?_
      refine Traced.yields_bind (Traced.yields_traced _ y6) ?_
      refine Traced.yields_bind d6 ?_
      refine Traced.yields_bind (Traced.yields_traced _ x7) ?_
      refine Traced.yields_bind (Traced.yields_traced _ y7) ?_
      refine Traced.yields_bind d7 ?_
      exact Traced.yields_untraced hC
    · intro i j hi hj
      rw [c4 i j hi hj]
      unfold dot
      apply strassen_identity m A.entry B.entry M1.entry M2.entry M3.entry M4.entry M5.entry
        M6.entry M7.entry _ _ _ _ _ _ _ i j hi hj
      · intro i j hi hj
        rw [em1 i j hi hj]
        apply dot_eq
        · intro x hx; rw [ex1 i x hi hx, a11 i x hi hx, a22 i x hi hx]
        · intro x hx; rw [ey1 x j hx hj, b11 x j hx hj, b22 x j hx hj]
      · intro i j hi hj
        rw [em2 i j hi hj]
        apply dot_eq
        · intro x hx; rw [ex2 i x hi hx, a21 i x hi hx, a22 i x hi hx]
        · intro x hx; rw [b11 x j hx hj]
      · intro i j hi hj
        rw [em3 i j hi hj]
        apply dot_eq
        · intro x hx; rw [a11 i x hi hx]
        · intro x hx; rw [ey3 x j hx hj, b12 x j hx hj, b22 x j hx hj]
      · intro i j hi hj
        rw [em4 i j hi hj]
        apply dot_eq
        · intro x hx; rw [a22 i x hi hx]
        · intro x hx; rw [ey4 x j hx hj, b21 x j hx hj, b11 x j hx hj]
      · intro i j hi hj
        rw [em5 i j hi hj]
        apply dot_eq
        · intro x hx; rw [ex5 i x hi hx, a11 i x hi hx, a12 i x hi hx]
        · intro x hx; rw [b22 x j hx hj]
      · intro i j hi hj
        rw [em6 i j hi hj]
        apply dot_eq
        · intro x hx; rw [ex6 i x hi hx, a21 i x hi hx, a11 i x hi hx]
        · intro x hx; rw [ey6 x j hx hj, b11 x j hx hj, b12 x j hx hj]
      · intro i j hi hj
        rw [em7 i j hi hj]
        apply dot_eq
        · intro x hx; rw [ex7 i x hi hx, a12 i x hi hx, a22 i x hi hx]
        · intro x hx; rw [ey7 x j hx hj, b21 x j hx hj, b22 x j hx hj]

theorem Strassen.serial_ok_all [CommRing T] (r : Nat) : Strassen.run_ok (T := T) r := by
  induction r with
  | zero => exact Strassen.serial_ok_zero
  | succ r ih => exact Strassen.serial_ok_succ r ih

/-! ## The pool as seen by one caller -/

section pool
variable {F R : Type}

theorem lookup_eq_none_of_ne (l : List (Nat × Except Err R)) (k : Nat)
    (h : ∀ e ∈ l, e.1 ≠ k) : l.lookup k = none := by
  rw [List.lookup_eq_none_iff]
  intro p hp
  simpa [bne_iff_ne] using (h p hp).symm

theorem Thread_Pool.new_inv (t_n : Nat) (w_e : Char) (t : Nat) (h : 0 < t_n) :
    (Thread_Pool.new t_n w_e t : Thread_Pool F R).Inv := by
  refine ⟨rfl, h, ?_, ?_, ?_, ?_⟩ <;> simp [Thread_Pool.new]

theorem Thread_Pool.load_front_inv (TP : Thread_Pool F R) (f : F) (h : TP.Inv) :
    (TP.load_front f).2.Inv := by
  obtain ⟨h1, h2, h3, h4, h5, h6⟩ := h
  refine ⟨h1, h2, ?_, ?_, ?_, ?_⟩
  · simp only [Thread_Pool.load_front, List.map_cons, List.nodup_cons]
    refine ⟨?_, h3⟩
    intro hmem
    obtain ⟨t, ht, e⟩ := List.mem_map.mp hmem
    have := h4 t ht
    omega
  · intro t ht
    simp only [Thread_Pool.load_front, List.mem_cons] at ht ⊢
    rcases ht with rfl | ht
    · simp
    · have := h4 t ht; omega
  · intro e he
    have := h5 e he
    simp only [Thread_Pool.load_front]; omega
  · intro t ht e he
    simp only [Thread_Pool.load_front, List.mem_cons] at ht he
    rcases ht with rfl | ht
    · have := h5 e he; simp only; omega
    · exact h6 t ht e he

theorem Thread_Pool.load_front_holds_new (invoke : F → Except Err R) (TP : Thread_Pool F R)
    (f : F) : (TP.load_front f).2.Holds invoke (TP.load_front f).1 f :=
  Or.inl ⟨⟨TP.next_state, f⟩, by simp [Thread_Pool.load_front], rfl, rfl⟩

theorem Thread_Pool.load_front_holds_old (invoke : F → Except Err R) (TP : Thread_Pool F R)
    (f : F) {fut : Nat} {g : F} (h : TP.Holds invoke fut g) :
    (TP.load_front f).2.Holds invoke fut g := by
  rcases h with ⟨t, ht, e1, e2⟩ | h
  · exact Or.inl ⟨t, by simp [Thread_Pool.load_front, ht], e1, e2⟩
  · exact Or.inr h

/-- Running one queued task keeps the pairing of futures and callables. -/
theorem Thread_Pool.perform_step (invoke : F → Except Err R) (TP : Thread_Pool F R)
    (t : packaged_task F) (rest : List (packaged_task F)) (h : TP.Inv)
    (hperm : ∀ u, u ∈ TP.tasks ↔ u = t ∨ u ∈ rest)
    (hnd : (rest.map (fun u => u.state)).Nodup) (hnot : ∀ u ∈ rest, u.state ≠ t.state) :
    ({ TP with tasks := rest, shared := t.perform invoke TP.shared } : Thread_Pool F R).Inv ∧
      ∀ fut g, TP.Holds invoke fut g →
        ({ TP with tasks := rest, shared := t.perform invoke TP.shared } :
          Thread_Pool F R).Holds invoke fut g := by
  obtain ⟨h1, h2, h3, h4, h5, h6⟩ := h
  have ht : t ∈ TP.tasks := (hperm t).mpr (Or.inl rfl)
  refine ⟨⟨h1, h2, hnd, ?_, ?_, ?_⟩, ?_⟩
  · intro u hu
    exact h4 u ((hperm u).mpr (Or.inr hu))
  · intro e he
    simp only [packaged_task.perform, List.mem_cons] at he
    rcases he with rfl | he
    · exact h4 t ht
    · exact h5 e he
  · intro u hu e he
    simp only [packaged_task.perform, List.mem_cons] at he
    rcases he with rfl | he
    · exact fun e => hnot u hu e.symm
    · exact h6 u ((hperm u).mpr (Or.inr hu)) e he
  · intro fut g hg
    rcases hg with ⟨u, hu, e1, e2⟩ | hg
    · rcases (hperm u).mp hu with rfl | hu'
      · right
        simp only [packaged_task.perform]
        rw [← e1, ← e2]
        exact List.lookup_cons_self
      · exact Or.inl ⟨u, hu', e1, e2⟩
    · right
      simp only [packaged_task.perform, List.lookup_cons]
      have hne : fut ≠ t.state := by
        intro e
        have hnone := lookup_eq_none_of_ne TP.shared t.state (fun x hx => h6 t ht x hx)
        rw [e, hnone] at hg
        exact Option.noConfusion hg
      have : (fut == t.state) = false := by simpa using hne
      rw [this]
      exact hg

theorem Thread_Pool.looper_step_spec (invoke : F → Except Err R) (TP : Thread_Pool F R)
    (h : TP.Inv) (hne : TP.tasks ≠ []) :
    (TP.looper_step invoke).Inv ∧
      (∀ fut g, TP.Holds invoke fut g → (TP.looper_step invoke).Holds invoke fut g) ∧
      (TP.looper_step invoke).tasks.length + 1 = TP.tasks.length := by
  have hnd := h.2.2.1
  unfold Thread_Pool.looper_step
  by_cases hw : TP.work_end = 'f'
  · rw [if_pos hw]
    unfold Thread_Pool.work_front
    cases htk : TP.tasks with
    | nil => exact absurd htk hne
    | cons t rest =>
      rw [htk] at hnd
      simp only [List.map_cons, List.nodup_cons, List.mem_map, not_exists, not_and] at hnd
      obtain ⟨i1, i2⟩ := Thread_Pool.perform_step invoke TP t rest h
        (by intro u; rw [htk]; exact List.mem_cons) hnd.2 (fun u hu e => hnd.1 u hu e)
      exact ⟨i1, i2, rfl⟩
  · rw [if_neg hw]
    unfold Thread_Pool.work_back
    cases hlast : TP.tasks.getLast? with
    | none => exact absurd (List.getLast?_eq_none_iff.mp hlast) hne
    | some t =>
      have hsplit : TP.tasks.dropLast ++ [t] = TP.tasks :=
        List.dropLast_append_getLast? t (by rw [hlast]; exact rfl)
      rw [← hsplit] at hnd
      simp only [List.map_append, List.map_cons, List.map_nil] at hnd
      have hnd2 := List.nodup_append.mp hnd
      obtain ⟨i1, i2⟩ := Thread_Pool.perform_step invoke TP t TP.tasks.dropLast h
        (by
          intro u
          conv_lhs => rw [← hsplit]
          simp only [List.mem_append, List.mem_singleton]
          exact Or.comm)
        hnd2.1
        (by
          intro u hu e
          exact hnd2.2.2 (List.mem_map.mpr ⟨u, hu, rfl⟩) (by simp [e]))
      refine ⟨i1, i2, ?_⟩
      have : TP.tasks.length = TP.tasks.dropLast.length + 1 := by
        conv_lhs => rw [← hsplit]
        simp
      simp only
      omega

/-- Reading a future that stands for `f` returns what `f` returns, once the workers have run
enough of the queue; the other futures keep standing for their callables. -/
theorem Thread_Pool.future_get_spec (invoke : F → Except Err R) (fut : Nat) (f : F) (v : R)
    (hv : invoke f = .ok v) :
    ∀ (fuel : Nat) (TP : Thread_Pool F R), TP.Inv → TP.Holds invoke fut f →
      TP.tasks.length ≤ fuel →
      ∃ TP', Thread_Pool.future_get invoke fut fuel TP = .ok (v, TP') ∧ TP'.Inv ∧
        ∀ fut' g, TP.Holds invoke fut' g → TP'.Holds invoke fut' g := by
  intro fuel
  induction fuel with
  | zero =>
    intro TP hinv hh hlen
    have hnil : TP.tasks = [] := List.length_eq_zero.mp (by omega)
    rcases hh with ⟨t, ht, _, _⟩ | hh
    · rw [hnil] at ht; exact absurd ht (List.not_mem_nil t)
    · refine ⟨TP, ?_, hinv, fun _ _ h => h⟩
      unfold Thread_Pool.future_get
      rw [hh, hv]
  | succ fuel ih =>
    intro TP hinv hh hlen
    cases hl : TP.shared.lookup fut with
    | some res =>
      have hres : res = .ok v := by
        rcases hh with ⟨t, ht, e1, _⟩ | hh
        · have := lookup_eq_none_of_ne TP.shared t.state (fun x hx => hinv.2.2.2.2.2 t ht x hx)
          rw [e1, hl] at this
          exact Option.noConfusion this
        · rw [hl, hv] at hh
          exact Option.some.inj hh
      refine ⟨TP, ?_, hinv, fun _ _ h => h⟩
      unfold Thread_Pool.future_get
      rw [hl, hres]
    | none =>
      have hpend : TP.tasks ≠ [] := by
        rcases hh with ⟨t, ht, _, _⟩ | hh
        · exact List.ne_nil_of_mem ht
        · rw [hl] at hh; exact Option.noConfusion hh
      obtain ⟨i1, i2, i3⟩ := Thread_Pool.looper_step_spec invoke TP hinv hpend
      obtain ⟨TP', e, j1, j2⟩ := ih (TP.looper_step invoke) i1 (i2 fut f hh) (by omega)
      refine ⟨TP', ?_, j1, fun fut' g h => j2 fut' g (i2 fut' g h)⟩
      unfold Thread_Pool.future_get
      have hblock : ¬ (TP.done = true ∨ TP.thread_number = 0 ∨ TP.tasks.isEmpty = true) := by
        rintro (h | h | h)
        · rw [hinv.1] at h; exact Bool.noConfusion h
        · have := hinv.2.1; omega
        · exact hpend (List.isEmpty_iff.mp h)
      rw [hl]
      simp only [hblock, if_false]
      exact e

theorem Thread_Pool.get_spec (invoke : F → Except Err R) (fut : Nat) (f : F) (v : R)
    (hv : invoke f = .ok v) (TP : Thread_Pool F R) (hinv : TP.Inv)
    (hh : TP.Holds invoke fut f) :
    ∃ TP', TP.get invoke fut = .ok (v, TP') ∧ TP'.Inv ∧
      ∀ fut' g, TP.Holds invoke fut' g → TP'.Holds invoke fut' g :=
  Thread_Pool.future_get_spec invoke fut f v hv TP.tasks.length TP hinv hh (Nat.le_refl _)

end pool


/-! ## The parallel controller -/

theorem Par.spec_bind {α β : Type} {Pre Mid Post : Thread_Pool (Strassen T) (Matrix T) → Prop}
    {x : Par T α} {f : α → Par T β} {a : α} {b : β} (h1 : Par.Spec Pre x a Mid)
    (h2 : Par.Spec Mid (f a) b Post) : Par.Spec Pre (x >>= f) b Post := by
  intro w hw
  obtain ⟨w1, e1, q1⟩ := h1 w hw
  obtain ⟨w2, e2, q2⟩ := h2 w1 q1
  refine ⟨w2, ?_, q2⟩
  rw [StateT.run_bind, e1]
  exact e2

theorem Par.spec_traced {α : Type} {Pre : Thread_Pool (Strassen T) (Matrix T) → Prop}
    {x : Except Err α} {v : α} (o : Op) (h : x = .ok v) :
    Par.Spec Pre (Par.traced o x : Par T α) v Pre := by
  intro w hw
  subst h
  exact ⟨_, rfl, hw⟩

theorem Par.spec_lift {α : Type} {Pre : Thread_Pool (Strassen T) (Matrix T) → Prop}
    {x : Traced α} {v : α} (h : Traced.Yields x v) : Par.Spec Pre (Par.lift x : Par T α) v Pre := by
  intro w hw
  obtain ⟨ops, h⟩ := h
  refine ⟨{ w with trace := w.trace ++ ops }, ?_, hw⟩
  show Par.lift x w = _
  unfold Par.lift
  rw [h w.trace]

theorem Par.spec_load_front [Zero T] [Add T] [Sub T] [Mul T] {β : Type}
    {L : List (Nat × Strassen T)} {Post : Thread_Pool (Strassen T) (Matrix T) → Prop}
    (S : Strassen T) {f : Nat → Par T β} {b : β}
    (h : ∀ fut, Par.Spec (Promised ((fut, S) :: L)) (f fut) b Post) :
    Par.Spec (Promised L) (Par.load_front S >>= f) b Post := by
  intro w hw
  obtain ⟨w', e, q⟩ := h (w.pool.load_front S).1
    ⟨w.trace ++ [.load_front], (w.pool.load_front S).2⟩ (by
      refine ⟨Thread_Pool.load_front_inv _ _ hw.1, ?_⟩
      intro e he
      rcases List.mem_cons.mp he with rfl | he
      · exact Thread_Pool.load_front_holds_new _ _ _
      · exact Thread_Pool.load_front_holds_old _ _ _ (hw.2 e he))
  refine ⟨w', ?_, q⟩
  rw [StateT.run_bind]
  exact e

theorem Par.spec_get [Zero T] [Add T] [Sub T] [Mul T] {L : List (Nat × Strassen T)}
    {fut : Nat} {S : Strassen T} {M : Matrix T} (hmem : (fut, S) ∈ L)
    (hM : S.invoke = .ok M) : Par.Spec (Promised L) (Par.get fut) M (Promised L) := by
  intro w hw
  obtain ⟨TP', e, i1, i2⟩ := Thread_Pool.get_spec Strassen.invoke fut S M hM w.pool hw.1
    (hw.2 (fut, S) hmem)
  refine ⟨⟨w.trace ++ [.future_get], TP'⟩, ?_, i1, fun x hx => i2 _ _ (hw.2 x hx)⟩
  show Par.get fut w = _
  unfold Par.get
  rw [e]

theorem Par.spec_weaken {α : Type}
    (Pre Post : Thread_Pool (Strassen T) (Matrix T) → Prop)
    {Pre' Post' : Thread_Pool (Strassen T) (Matrix T) → Prop} {x : Par T α} {v : α} (h : Par.Spec Pre x v Post) (hpre : ∀ p, Pre' p → Pre p)
    (hpost : ∀ p, Post p → Post' p) : Par.Spec Pre' x v Post' := by
  intro w hw
  obtain ⟨w', e, q⟩ := h w (hpre _ hw)
  exact ⟨w', e, hpost _ q⟩

theorem Strassen.invoke_ok [Zero T] [Add T] [Sub T] [Mul T] {X Y P : Matrix T} {r : Nat}
    (h : Traced.Yields (Strassen.run r X Y) P) : Strassen.invoke ⟨X, Y, r⟩ = .ok P := by
  obtain ⟨ops, h⟩ := h
  unfold Strassen.invoke Strassen.call
  rw [h []]

/-- Recombining the seven products of Strassen's operand combinations gives the textbook sums
of the whole product. -/
theorem recombine_spec [CommRing T] (m : Nat) (hm1 : 1 ≤ m) (A B : Matrix T)
    (hA : A.square (2 * m)) (hB : B.square (2 * m)) (q : Quadrants T)
    (a11 : ∀ i j, i < m → j < m → q.A11.entry i j = A.entry i j)
    (a12 : ∀ i j, i < m → j < m → q.A12.entry i j = A.entry i (m + j))
    (a21 : ∀ i j, i < m → j < m → q.A21.entry i j = A.entry (m + i) j)
    (a22 : ∀ i j, i < m → j < m → q.A22.entry i j = A.entry (m + i) (m + j))
    (b11 : ∀ i j, i < m → j < m → q.B11.entry i j = B.entry i j)
    (b12 : ∀ i j, i < m → j < m → q.B12.entry i j = B.entry i (m + j))
    (b21 : ∀ i j, i < m → j < m → q.B21.entry i j = B.entry (m + i) j)
    (b22 : ∀ i j, i < m → j < m → q.B22.entry i j = B.entry (m + i) (m + j))
    (X1 Y1 X2 Y3 Y4 X5 X6 Y6 X7 Y7 : Matrix T)
    (ex1 : ∀ i j, i < m → j < m → X1.entry i j = q.A11.entry i j + q.A22.entry i j)
    (ey1 : ∀ i j, i < m → j < m → Y1.entry i j = q.B11.entry i j + q.B22.entry i j)
    (ex2 : ∀ i j, i < m → j < m → X2.entry i j = q.A21.entry i j + q.A22.entry i j)
    (ey3 : ∀ i j, i < m → j < m → Y3.entry i j = q.B12.entry i j - q.B22.entry i j)
    (ey4 : ∀ i j, i < m → j < m → Y4.entry i j = q.B21.entry i j - q.B11.entry i j)
    (ex5 : ∀ i j, i < m → j < m → X5.entry i j = q.A11.entry i j + q.A12.entry i j)
    (ex6 : ∀ i j, i < m → j < m → X6.entry i j = q.A21.entry i j - q.A11.entry i j)
    (ey6 : ∀ i j, i < m → j < m → Y6.entry i j = q.B11.entry i j + q.B12.entry i j)
    (ex7 : ∀ i j, i < m → j < m → X7.entry i j = q.A12.entry i j - q.A22.entry i j)
    (ey7 : ∀ i j, i < m → j < m → Y7.entry i j = q.B21.entry i j + q.B22.entry i j)
    (M1 M2 M3 M4 M5 M6 M7 : Matrix T)
    (sm1 : M1.square m) (sm2 : M2.square m) (sm3 : M3.square m) (sm4 : M4.square m)
    (sm5 : M5.square m) (sm6 : M6.square m) (sm7 : M7.square m)
    (em1 : ∀ i j, i < m → j < m → M1.entry i j = dot X1 Y1 m i j)
    (em2 : ∀ i j, i < m → j < m → M2.entry i j = dot X2 q.B11 m i j)
    (em3 : ∀ i j, i < m → j < m → M3.entry i j = dot q.A11 Y3 m i j)
    (em4 : ∀ i j, i < m → j < m → M4.entry i j = dot q.A22 Y4 m i j)
    (em5 : ∀ i j, i < m → j < m → M5.entry i j = dot X5 q.B22 m i j)
    (em6 : ∀ i j, i < m → j < m → M6.entry i j = dot X6 Y6 m i j)
    (em7 : ∀ i j, i < m → j < m → M7.entry i j = dot X7 Y7 m i j) :
    ∃ C, combine A B m M1 M2 M3 M4 M5 M6 M7 = .ok C ∧ C.square (2 * m) ∧
      ∀ i j, i < 2 * m → j < 2 * m → C.entry i j = dot A B (2 * m) i j := by
  obtain ⟨C, hC, c1, c2, c3, c4⟩ := combine_spec A B m hm1 hA.2.1 hB.2.2 M1 M2 M3 M4 M5 M6 M7
    sm1 sm2 sm3 sm4 sm5 sm6 sm7 (Matrix.square_size hA)
  refine ⟨C, hC, ⟨c3, c1, c2⟩, ?_⟩
  intro i j hi hj
  rw [c4 i j hi hj]
  unfold dot
  apply strassen_identity m A.entry B.entry M1.entry M2.entry M3.entry M4.entry M5.entry
    M6.entry M7.entry _ _ _ _ _ _ _ i j hi hj
  · intro i j hi hj
    rw [em1 i j hi hj]
    apply dot_eq
    · intro x hx; rw [ex1 i x hi hx, a11 i x hi hx, a22 i x hi hx]
    · intro x hx; rw [ey1 x j hx hj, b11 x j hx hj, b22 x j hx hj]
  · intro i j hi hj
    rw [em2 i j hi hj]
    apply dot_eq
    · intro x hx; rw [ex2 i x hi hx, a21 i x hi hx, a22 i x hi hx]
    · intro x hx; rw [b11 x j hx hj]
  · intro i j hi hj
    rw [em3 i j hi hj]
    apply dot_eq
    · intro x hx; rw [a11 i x hi hx]
    · intro x hx; rw [ey3 x j hx hj, b12 x j hx hj, b22 x j hx hj]
  · intro i j hi hj
    rw [em4 i j hi hj]
    apply dot_eq
    · intro x hx; rw [a22 i x hi hx]
    · intro x hx; rw [ey4 x j hx hj, b21 x j hx hj, b11 x j hx hj]
  · intro i j hi hj
    rw [em5 i j hi hj]
    apply dot_eq
    · intro x hx; rw [ex5 i x hi hx, a11 i x hi hx, a12 i x hi hx]
    · intro x hx; rw [b22 x j hx hj]
  · intro i j hi hj
    rw [em6 i j hi hj]
    apply dot_eq
    · intro x hx; rw [ex6 i x hi hx, a21 i x hi hx, a11 i x hi hx]
    · intro x hx; rw [ey6 x j hx hj, b11 x j hx hj, b12 x j hx hj]
  · intro i j hi hj
    rw [em7 i j hi hj]
    apply dot_eq
    · intro x hx; rw [ex7 i x hi hx, a12 i x hi hx, a22 i x hi hx]
    · intro x hx; rw [ey7 x j hx hj, b21 x j hx hj, b22 x j hx hj]

theorem direct_spec [CommRing T] (o : Op) (n : Nat) (A B : Matrix T) (hA : A.square n)
    (hB : B.square n) :
    ∃ P, Par.Spec Thread_Pool.Inv
        (do Par.traced o (pure ()); Par.traced .mul (A.mul B) : Par T (Matrix T)) P
        Thread_Pool.Inv ∧ P.square n ∧
      ∀ i j, i < n → j < n → P.entry i j = dot A B n i j := by
  have hsz := Matrix.square_size hA
  obtain ⟨wA, rA, cA⟩ := hA
  obtain ⟨wB, rB, cB⟩ := hB
  obtain ⟨P, e, p1, p2, p3, p4⟩ := Matrix.mul_spec A B wA wB (by rw [cA, rB])
    (by rw [rA, cB]; exact hsz)
  refine ⟨P, Par.spec_bind (Par.spec_traced _ rfl) (Par.spec_traced _ e),
    ⟨p3, by rw [p1, rA], by rw [p2, cB]⟩, ?_⟩
  intro i j hi hj
  rw [p4 i j (by rw [rA]; exact hi) (by rw [cB]; exact hj), cA]

theorem Parallel_Strassen.parallel_ok_zero [CommRing T] : Parallel_Strassen.run_ok (T := T) 0 := by
  intro p n A B hA hB
  rw [Parallel_Strassen.run]
  exact direct_spec _ n A B hA hB

theorem Parallel_Strassen.parallel_new_ok {A B : Matrix T} {n : Nat} (hA : A.square n)
    (hB : B.square n) (r p : Nat) : Parallel_Strassen.new A B r p = .ok ⟨A, B, r, p⟩ := by
  unfold Parallel_Strassen.new Matrix.rows Matrix.columns
  simp [hA.2.1, hA.2.2, hB.2.1, hB.2.2]

theorem Parallel_Strassen.parallel_ok_succ [CommRing T] (r : Nat)
    (ihs : Strassen.run_ok (T := T) r) (ih : Parallel_Strassen.run_ok (T := T) r) :
    Parallel_Strassen.run_ok (T := T) (r + 1) := by
  intro p n A B hA hB
  rw [Parallel_Strassen.run]
  by_cases hodd : A.rows % 2 ≠ 0
  · simp only [if_pos hodd]
    exact direct_spec _ n A B hA hB
  · simp only [if_neg hodd]
    have hm : A.rows % 2 = 0 := by omega
    obtain ⟨m, hn⟩ : ∃ m, n = 2 * m := ⟨A.rows / 2, by
      have : A.rows = n := hA.2.1
      omega⟩
    have hrows : A.rows / 2 = m := by
      have : A.rows = n := hA.2.1
      omega
    have hm1 : 1 ≤ m := by
      have : 1 ≤ A.n_rows := hA.1.1
      have : A.n_rows = n := hA.2.1
      omega
    subst hn
    rw [hrows]
    obtain ⟨q, hq, s11, s12, s21, s22, t11, t12, t21, t22, a11, a12, a21, a22, b11, b12,
      b21, b22⟩ := quadrants_spec A B m hm1 hA hB
    obtain ⟨X1, x1, sx1, ex1⟩ := Matrix.add_square s11 s22
    obtain ⟨Y1, y1, sy1, ey1⟩ := Matrix.add_square t11 t22
    obtain ⟨X2, x2, sx2, ex2⟩ := Matrix.add_square s21 s22
    obtain ⟨Y3, y3, sy3, ey3⟩ := Matrix.sub_square t12 t22
    obtain ⟨Y4, y4, sy4, ey4⟩ := Matrix.sub_square t21 t11
    obtain ⟨X5, x5, sx5, ex5⟩ := Matrix.add_square s11 s12
    obtain ⟨X6, x6, sx6, ex6⟩ := Matrix.sub_square s21 s11
    obtain ⟨Y6, y6, sy6, ey6⟩ := Matrix.add_square t11 t12
    obtain ⟨X7, x7, sx7, ex7⟩ := Matrix.sub_square s12 s22
    obtain ⟨Y7, y7, sy7, ey7⟩ := Matrix.add_square t21 t22
    by_cases hp : p = 0
    · obtain ⟨M1, d1, sm1, em1⟩ := ihs m X1 Y1 sx1 sy1
      obtain ⟨M2, d2, sm2, em2⟩ := ihs m X2 q.B11 sx2 t11
      obtain ⟨M3, d3, sm3, em3⟩ := ihs m q.A11 Y3 s11 sy3
      obtain ⟨M4, d4, sm4, em4⟩ := ihs m q.A22 Y4 s22 sy4
      obtain ⟨M5, d5, sm5, em5⟩ := ihs m X5 q.B22 sx5 t22
      obtain ⟨M6, d6, sm6, em6⟩ := ihs m X6 Y6 sx6 sy6
      obtain ⟨M7, d7, sm7, em7⟩ := ihs m X7 Y7 sx7 sy7
      obtain ⟨C, hC, sC, eC⟩ := recombine_spec m hm1 A B hA hB q a11 a12 a21 a22 b11 b12 b21
        b22 X1 Y1 X2 Y3 Y4 X5 X6 Y6 X7 Y7 ex1 ey1 ex2 ey3 ey4 ex5 ex6 ey6 ex7 ey7
        M1 M2 M3 M4 M5 M6 M7 sm1 sm2 sm3 sm4 sm5 sm6 sm7 em1 em2 em3 em4 em5 em6 em7
      refine ⟨C, ?_, sC, eC⟩
      simp only [if_pos hp, bind_assoc]
      refine Par.spec_weaken (Promised []) Thread_Pool.Inv ?_
        (fun p h => ⟨h, fun e he => absurd he (List.not_mem_nil e)⟩) (fun p h => h)
      refine Par.spec_bind (Par.spec_traced _ rfl) ?_
      refine Par.spec_bind (Par.spec_lift hq) ?_
      refine Par.spec_bind (Par.spec_traced _ x1) ?_
      refine Par.spec_bind (Par.spec_traced _ y1) ?_
      refine Par.spec_bind (Par.spec_traced _ (Strassen.serial_new_ok sx1 sy1 r)) ?_
      refine Par.spec_load_front _ (fun f1 => ?_)
      refine Par.spec_bind (Par.spec_traced _ x2) ?_
      refine Par.spec_bind (Par.spec_traced _ (Strassen.serial_new_ok sx2 t11 r)) ?_
      refine Par.spec_load_front _ (fun f2 => ?_)
      refine Par.spec_bind (Par.spec_traced _ y3) ?_
      refine Par.spec_bind (Par.spec_traced _ (Strassen.serial_new_ok s11 sy3 r)) ?_
      refine Par.spec_load_front _ (fun f3 => ?_)
      refine Par.spec_bind (Par.spec_traced _ y4) ?_
      refine Par.spec_bind (Par.spec_traced _ (Strassen.serial_new_ok s22 sy4 r)) ?_
      refine Par.spec_load_front _ (fun f4 => ?_)
      refine Par.spec_bind (Par.spec_traced _ x5) ?_
      refine Par.spec_bind (Par.spec_traced _ (Strassen.serial_new_ok sx5 t22 r)) ?_
      refine Par.spec_load_front _ (fun f5 => ?_)
      refine Par.spec_bind (Par.spec_traced _ x6) ?_
      refine Par.spec_bind (Par.spec_traced _ y6) ?_
      refine Par.spec_bind (Par.spec_traced _ (Strassen.serial_new_ok sx6 sy6 r)) ?_
      refine Par.spec_load_front _ (fun f6 => ?_)
      refine Par.spec_bind (Par.spec_traced _ x7) ?_
      refine Par.spec_bind (Par.spec_traced _ y7) ?_
      refine Par.spec_bind (Par.spec_traced _ (Strassen.serial_new_ok sx7 sy7 r)) ?_
      refine Par.spec_load_front _ (fun f7 => ?_)
      refine Par.spec_bind (Par.spec_get (S := ⟨X1, Y1, r⟩) (by simp)
        (Strassen.invoke_ok d1)) ?_
      refine Par.spec_bind (Par.spec_get (S := ⟨X2, q.B11, r⟩) (by simp)
        (Strassen.invoke_ok d2)) ?_
      refine Par.spec_bind (Par.spec_get (S := ⟨q.A11, Y3, r⟩) (by simp)
        (Strassen.invoke_ok d3)) ?_
      refine Par.spec_bind (Par.spec_get (S := ⟨q.A22, Y4, r⟩) (by simp)
        (Strassen.invoke_ok d4)) ?_
      refine Par.spec_bind (Par.spec_get (S := ⟨X5, q.B22, r⟩) (by simp)
        (Strassen.invoke_ok d5)) ?_
      refine Par.spec_bind (Par.spec_get (S := ⟨X6, Y6, r⟩) (by simp)
        (Strassen.invoke_ok d6)) ?_
      refine Par.spec_bind (Par.spec_get (S := ⟨X7, Y7, r⟩) (by simp)
        (Strassen.invoke_ok d7)) ?_
      exact Par.spec_weaken _ _ (Par.spec_lift (Traced.yields_untraced hC)) (fun p h => h)
        (fun p h => h.1)
    · obtain ⟨M1, d1, sm1, em1⟩ := ih (p - 1) m X1 Y1 sx1 sy1
      obtain ⟨M2, d2, sm2, em2⟩ := ih (p - 1) m X2 q.B11 sx2 t11
      obtain ⟨M3, d3, sm3, em3⟩ := ih (p - 1) m q.A11 Y3 s11 sy3
      obtain ⟨M4, d4, sm4, em4⟩ := ih (p - 1) m q.A22 Y4 s22 sy4
      obtain ⟨M5, d5, sm5, em5⟩ := ih (p - 1) m X5 q.B22 sx5 t22
      obtain ⟨M6, d6, sm6, em6⟩ := ih (p - 1) m X6 Y6 sx6 sy6
      obtain ⟨M7, d7, sm7, em7⟩ := ih (p - 1) m X7 Y7 sx7 sy7
      obtain ⟨C, hC, sC, eC⟩ := recombine_spec m hm1 A B hA hB q a11 a12 a21 a22 b11 b12 b21
        b22 X1 Y1 X2 Y3 Y4 X5 X6 Y6 X7 Y7 ex1 ey1 ex2 ey3 ey4 ex5 ex6 ey6 ex7 ey7
        M1 M2 M3 M4 M5 M6 M7 sm1 sm2 sm3 sm4 sm5 sm6 sm7 em1 em2 em3 em4 em5 em6 em7
      refine ⟨C, ?_, sC, eC⟩
      simp only [if_neg hp, bind_assoc]
      refine Par.spec_bind (Par.spec_traced _ rfl) ?_
      refine Par.spec_bind (Par.spec_lift hq) ?_
      refine Par.spec_bind (Par.spec_traced _ x1) ?_
      refine Par.spec_bind (Par.spec_traced _ y1) ?_
      refine Par.spec_bind (Par.spec_traced _ (Parallel_Strassen.parallel_new_ok sx1 sy1 r _)) ?_
      refine Par.spec_bind d1 ?_
      refine Par.spec_bind (Par.spec_traced _ x2) ?_
      refine Par.spec_bind (Par.spec_traced _ (Parallel_Strassen.parallel_new_ok sx2 t11 r _)) ?_
      refine Par.spec_bind d2 ?_
      refine Par.spec_bind (Par.spec_traced _ y3) ?_
      refine Par.spec_bind (Par.spec_traced _ (Parallel_Strassen.parallel_new_ok s11 sy3 r _)) ?_
      refine Par.spec_bind d3 ?_
      refine Par.spec_bind (Par.spec_traced _ y4) ?_
      refine Par.spec_bind (Par.spec_traced _ (Parallel_Strassen.parallel_new_ok s22 sy4 r _)) ?_
      refine Par.spec_bind d4 ?_
      refine Par.spec_bind (Par.spec_traced _ x5) ?_
      refine Par.spec_bind (Par.spec_traced _ (Parallel_Strassen.parallel_new_ok sx5 t22 r _)) ?_
      refine Par.spec_bind d5 ?_
      refine Par.spec_bind (Par.spec_traced _ x6) ?_
      refine Par.spec_bind (Par.spec_traced _ y6) ?_
      refine Par.spec_bind (Par.spec_traced _ (Parallel_Strassen.parallel_new_ok sx6 sy6 r _)) ?_
      refine Par.spec_bind d6 ?_
      refine Par.spec_bind (Par.spec_traced _ x7) ?_
      refine Par.spec_bind (Par.spec_traced _ y7) ?_
      refine Par.spec_bind (Par.spec_traced _ (Parallel_Strassen.parallel_new_ok sx7 sy7 r _)) ?_
      refine Par.spec_bind d7 ?_
      exact Par.spec_lift (Traced.yields_untraced hC)

theorem Parallel_Strassen.parallel_ok_all [CommRing T] (r : Nat) :
    Parallel_Strassen.run_ok (T := T) r := by
  induction r with
  | zero => exact Parallel_Strassen.parallel_ok_zero
  | succ r ih => exact Parallel_Strassen.parallel_ok_succ r (Strassen.serial_ok_all r) ih

/-! ## The representation invariant -/

theorem bind_eq_ok {α β : Type} {x : Except Err α} {f : α → Except Err β} {b : β} :
    (x >>= f) = .ok b ↔ ∃ a, x = .ok a ∧ f a = .ok b := by
  cases x with
  | error e => simp
  | ok a => simp

theorem buf_set_length {v v' : List T} {i : Nat} {x : T} (h : buf_set v i x = .ok v') :
    v'.length = v.length := by
  unfold buf_set at h
  by_cases hi : i < v.length
  · rw [if_pos hi] at h
    rw [← Except.ok.inj h]
    simp
  · rw [if_neg hi] at h
    exact Except.noConfusion h

/-- A loop that returns has kept whatever each returning pass keeps. -/
theorem foldlM_preserves {σ α : Type} (Q : σ → Prop) (f : σ → α → Except Err σ)
    (hf : ∀ s a s', Q s → f s a = .ok s' → Q s') :
    ∀ (l : List α) (s s' : σ), Q s → l.foldlM f s = .ok s' → Q s' := by
  intro l
  induction l with
  | nil =>
    intro s s' hs h
    rw [List.foldlM_nil] at h
    rw [← Except.ok.inj h]
    exact hs
  | cons a l ih =>
    intro s s' hs h
    rw [List.foldlM_cons] at h
    obtain ⟨s1, h1, h2⟩ := bind_eq_ok.mp h
    exact ih s1 s' (hf s a s1 hs h1) h2

theorem Matrix.new_rep [Zero T] {r c : Nat} {M : Matrix T} (h : Matrix.new r c = .ok M) :
    M.rep := by
  unfold Matrix.new at h
  by_cases hz : r = 0 ∨ c = 0
  · rw [if_pos hz] at h; exact Except.noConfusion h
  · rw [if_neg hz] at h
    rw [← Except.ok.inj h]
    exact ⟨by simp, rfl⟩

theorem Matrix.add_assign_rep [Add T] {A B M : Matrix T} (hA : A.rep)
    (h : A.add_assign B = .ok M) : M.rep := by
  unfold Matrix.add_assign at h
  by_cases hc : A.n_rows ≠ B.n_rows ∨ A.n_columns ≠ B.n_columns
  · rw [if_pos hc] at h; exact Except.noConfusion h
  · rw [if_neg hc] at h
    obtain ⟨els, h1, h2⟩ := bind_eq_ok.mp h
    have hlen := foldlM_preserves (fun s : List T => s.length = A.elements.length) _ (by
      intro s a s' hs hb
      obtain ⟨x, _, hb⟩ := bind_eq_ok.mp hb
      obtain ⟨y, _, hb⟩ := bind_eq_ok.mp hb
      rw [buf_set_length hb]; exact hs) _ _ _ rfl h1
    rw [← Except.ok.inj h2]
    exact ⟨by rw [← hA.1]; exact hlen, hA.2⟩

theorem Matrix.sub_assign_rep [Sub T] {A B M : Matrix T} (hA : A.rep)
    (h : A.sub_assign B = .ok M) : M.rep := by
  unfold Matrix.sub_assign at h
  by_cases hc : A.n_rows ≠ B.n_rows ∨ A.n_columns ≠ B.n_columns
  · rw [if_pos hc] at h; exact Except.noConfusion h
  · rw [if_neg hc] at h
    obtain ⟨els, h1, h2⟩ := bind_eq_ok.mp h
    have hlen := foldlM_preserves (fun s : List T => s.length = A.elements.length) _ (by
      intro s a s' hs hb
      obtain ⟨x, _, hb⟩ := bind_eq_ok.mp hb
      obtain ⟨y, _, hb⟩ := bind_eq_ok.mp hb
      rw [buf_set_length hb]; exact hs) _ _ _ rfl h1
    rw [← Except.ok.inj h2]
    exact ⟨by rw [← hA.1]; exact hlen, hA.2⟩

theorem Matrix.put_rep {A M : Matrix T} {r c : Nat} {x : T} (hA : A.rep)
    (h : A.put r c x = .ok M) : M.rep := by
  unfold Matrix.put at h
  obtain ⟨els, h1, h2⟩ := bind_eq_ok.mp h
  rw [← Except.ok.inj h2]
  exact ⟨by rw [← hA.1]; exact buf_set_length h1, hA.2⟩

theorem Matrix.exchange_rows_rep {A M : Matrix T} {a b : Nat} (hA : A.rep)
    (h : A.exchange_rows a b = .ok M) : M.rep := by
  unfold Matrix.exchange_rows at h
  by_cases hc : a > A.n_rows ∨ b > A.n_rows
  · rw [if_pos hc] at h; exact Except.noConfusion h
  · rw [if_neg hc] at h
    obtain ⟨els, h1, h2⟩ := bind_eq_ok.mp h
    have hlen := foldlM_preserves (fun s : List T => s.length = A.elements.length) _ (by
      intro s j s' hs hb
      obtain ⟨x, _, hb⟩ := bind_eq_ok.mp hb
      obtain ⟨y, _, hb⟩ := bind_eq_ok.mp hb
      obtain ⟨s1, hs1, hb⟩ := bind_eq_ok.mp hb
      rw [buf_set_length hb, buf_set_length hs1]; exact hs) _ _ _ rfl h1
    rw [← Except.ok.inj h2]
    exact ⟨by rw [← hA.1]; exact hlen, hA.2⟩

theorem Matrix.slice_rep [Zero T] {A M : Matrix T} {ra rb ca cb : Nat}
    (h : A.slice ra rb ca cb = .ok M) : M.rep := by
  unfold Matrix.slice at h
  obtain ⟨MP, h0, h⟩ := bind_eq_ok.mp h
  obtain ⟨els, h1, h2⟩ := bind_eq_ok.mp h
  have hMP := Matrix.new_rep h0
  have hlen := foldlM_preserves (fun s : List T => s.length = MP.elements.length) _ (by
    intro s i s' hs hb
    exact foldlM_preserves (fun s : List T => s.length = MP.elements.length) _ (by
      intro s j s' hs hb
      obtain ⟨x, _, hb⟩ := bind_eq_ok.mp hb
      rw [buf_set_length hb]; exact hs) _ _ _ hs hb) _ _ _ rfl h1
  rw [← Except.ok.inj h2]
  exact ⟨by rw [← hMP.1]; exact hlen, hMP.2⟩

theorem Matrix.mul_rep [Zero T] [Add T] [Mul T] {A B M : Matrix T}
    (h : A.mul B = .ok M) : M.rep := by
  unfold Matrix.mul at h
  by_cases hc : A.n_columns ≠ B.n_rows
  · rw [if_pos hc] at h; exact Except.noConfusion h
  · rw [if_neg hc] at h
    obtain ⟨MP, h0, h⟩ := bind_eq_ok.mp h
    obtain ⟨els, h1, h2⟩ := bind_eq_ok.mp h
    have hMP := Matrix.new_rep h0
    have hlen := foldlM_preserves (fun s : List T => s.length = MP.elements.length) _ (by
      intro s i s' hs hb
      exact foldlM_preserves (fun s : List T => s.length = MP.elements.length) _ (by
        intro s k s' hs hb
        exact foldlM_preserves (fun s : List T => s.length = MP.elements.length) _ (by
          intro s j s' hs hb
          obtain ⟨x, _, hb⟩ := bind_eq_ok.mp hb
          obtain ⟨y, _, hb⟩ := bind_eq_ok.mp hb
          obtain ⟨z, _, hb⟩ := bind_eq_ok.mp hb
          rw [buf_set_length hb]; exact hs) _ _ _ hs hb) _ _ _ hs hb) _ _ _ rfl h1
    rw [← Except.ok.inj h2]
    exact ⟨by rw [← hMP.1]; exact hlen, hMP.2⟩

theorem Matrix.reachable_rep [Zero T] [Add T] [Sub T] [Mul T] {M : Matrix T}
    (h : Matrix.Reachable M) : M.rep := by
  induction h with
  | new r c M h => exact Matrix.new_rep h
  | new_column r M hr h =>
    unfold Matrix.new_column at h
    by_cases hz : r = 0
    · rw [if_pos hz] at h; exact Except.noConfusion h
    · rw [if_neg hz] at h
      rw [← Except.ok.inj h]
      exact ⟨by simp, by simp [sz_of_lt hr]⟩
  | new_default => exact ⟨rfl, show 1 = sz (1 * 1) by decide⟩
  | new_list r c l M h =>
    unfold Matrix.new_list at h
    by_cases hz : sz (r * c) ≠ l.length
    · rw [if_pos hz] at h; exact Except.noConfusion h
    · rw [if_neg hz] at h
      rw [← Except.ok.inj h]
      exact ⟨(not_not.mp hz).symm, rfl⟩
  | add_assign A B M _ _ h ihA _ => exact Matrix.add_assign_rep ihA h
  | sub_assign A B M _ _ h ihA _ => exact Matrix.sub_assign_rep ihA h
  | add A B M _ _ h ihA _ => exact Matrix.add_assign_rep ihA h
  | sub A B M _ _ h ihA _ => exact Matrix.sub_assign_rep ihA h
  | mul A B M _ _ h _ _ => exact Matrix.mul_rep h
  | slice A ra rb ca cb M _ h _ => exact Matrix.slice_rep h
  | exchange_rows A a b M _ h ihA => exact Matrix.exchange_rows_rep ihA h
  | put A r c x M _ h ihA => exact Matrix.put_rep ihA h

/-- A matrix obtained from the constructors and the public operations, with at least one row
and one column and a buffer of exactly `n_rows * n_columns` elements, is a matrix of the data
model: its `total_elements` is that product, which fits `size_t`. -/
theorem Matrix.wf_of_reachable [Zero T] [Add T] [Sub T] [Mul T] {M : Matrix T}
    (h : Matrix.Reachable M) (h1 : 1 ≤ M.n_rows) (h2 : 1 ≤ M.n_columns)
    (h3 : M.elements.length = M.n_rows * M.n_columns) : M.wf := by
  obtain ⟨r1, r2⟩ := Matrix.reachable_rep h
  have h4 : M.n_rows * M.n_columns = sz (M.n_rows * M.n_columns) := by
    rw [← r2, ← r1]; exact h3.symm
  have h5 : sz (M.n_rows * M.n_columns) < SIZE_MOD := Nat.mod_lt _ (by decide)
  exact ⟨h1, h2, by rw [h4]; exact h5, by rw [← r1, h3], h3⟩

/-! ## Properties of the multipliers -/

/-- The direct product of square operands, with its entries. -/
theorem Matrix.mul_square [CommRing T] {A B : Matrix T} {n : Nat} (hA : A.square n)
    (hB : B.square n) :
    ∃ P, A.mul B = .ok P ∧ P.square n ∧ ∀ i j, i < n → j < n → P.entry i j = dot A B n i j := by
  have hsz := Matrix.square_size hA
  obtain ⟨wA, rA, cA⟩ := hA
  obtain ⟨wB, rB, cB⟩ := hB
  obtain ⟨P, e, p1, p2, p3, p4⟩ := Matrix.mul_spec A B wA wB (by rw [cA, rB])
    (by rw [rA, cB]; exact hsz)
  refine ⟨P, e, ⟨p3, by rw [p1, rA], by rw [p2, cB]⟩, ?_⟩
  intro i j hi hj
  rw [p4 i j (by rw [rA]; exact hi) (by rw [cB]; exact hj), cA]

theorem Matrix.square_ext [Zero T] {P Q : Matrix T} {n : Nat} (hP : P.square n)
    (hQ : Q.square n) (h : ∀ i j, i < n → j < n → P.entry i j = Q.entry i j) : P = Q :=
  Matrix.ext_entry hP.1 hQ.1 (by rw [hP.2.1, hQ.2.1]) (by rw [hP.2.2, hQ.2.2])
    (fun i j hi hj => h i j (by rw [← hP.2.1]; exact hi) (by rw [← hP.2.2]; exact hj))

/-- The serial multiplier returns the matrix that `operator *` returns. -/
theorem Strassen.serial_eq_mul [CommRing T] (r n : Nat) (A B : Matrix T) (hA : A.square n)
    (hB : B.square n) :
    ∃ P, Traced.Yields (Strassen.run r A B) P ∧ A.mul B = .ok P ∧ P.square n ∧
      ∀ i j, i < n → j < n → P.entry i j = dot A B n i j := by
  obtain ⟨P, h1, h2, h3⟩ := Strassen.serial_ok_all r n A B hA hB
  obtain ⟨Q, k1, k2, k3⟩ := Matrix.mul_square hA hB
  have : P = Q := Matrix.square_ext h2 k2 (fun i j hi hj => by rw [h3 i j hi hj, k3 i j hi hj])
  subst this
  exact ⟨P, h1, k1, h2, h3⟩

/-- The parallel controller returns the matrix that `operator *` returns. -/
theorem Parallel_Strassen.parallel_eq_mul [CommRing T] (r p n : Nat) (A B : Matrix T)
    (hA : A.square n) (hB : B.square n) :
    ∃ P, Par.Spec Thread_Pool.Inv (Parallel_Strassen.run r p A B) P Thread_Pool.Inv ∧
      A.mul B = .ok P ∧ P.square n ∧ ∀ i j, i < n → j < n → P.entry i j = dot A B n i j := by
  obtain ⟨P, h1, h2, h3⟩ := Parallel_Strassen.parallel_ok_all r p n A B hA hB
  obtain ⟨Q, k1, k2, k3⟩ := Matrix.mul_square hA hB
  have : P = Q := Matrix.square_ext h2 k2 (fun i j hi hj => by rw [h3 i j hi hj, k3 i j hi hj])
  subst this
  exact ⟨P, h1, k1, h2, h3⟩

/-- C1: for every budget `r` and all square operands `A`, `B` of the same dimension `n ≥ 1` over
a commutative ring, constructing `Strassen(A, B, r)` succeeds and calling it returns, from any
trace, the very matrix that the direct `A * B` returns; that matrix is `n × n` and its entry
`(i, j)` is the sum over `k < n` of `A(i,k) · B(k,j)`. -/
theorem C1_serial_strassen_is_direct_product [CommRing T] (r n : Nat) (A B : Matrix T)
    (hA : A.square n) (hB : B.square n) :
    ∃ S P, Strassen.new A B r = .ok S ∧
      (∃ ops, ∀ tr, (S.call).run tr = .ok (P, tr ++ ops)) ∧
      A.mul B = .ok P ∧ P.n_rows = n ∧ P.n_columns = n ∧
      ∀ i j, i < n → j < n →
        P.get i j = .ok (∑ k in Finset.range n, A.entry i k * B.entry k j) := by
  obtain ⟨P, h1, h2, h3, h4⟩ := Strassen.serial_eq_mul r n A B hA hB
  refine ⟨⟨A, B, r⟩, P, Strassen.serial_new_ok hA hB r, h1, h2, h3.2.1, h3.2.2, ?_⟩
  intro i j hi hj
  rw [Matrix.get_ok_sq P h3 hi hj, h4 i j hi hj]
  rfl

/-- Witness for C1: the 2×2 integer matrices `demoA`, `demoB` with budget 1. -/
theorem C1_witness :
    (demoA.square 2 ∧ demoB.square 2) ∧
    ∃ S P, Strassen.new demoA demoB 1 = .ok S ∧
      (∃ ops, ∀ tr, (S.call).run tr = .ok (P, tr ++ ops)) ∧
      demoA.mul demoB = .ok P ∧ P.n_rows = 2 ∧ P.n_columns = 2 ∧
      ∀ i j, i < 2 → j < 2 →
        P.get i j = .ok (∑ k in Finset.range 2, demoA.entry i k * demoB.entry k j) :=
  ⟨⟨by decide, by decide⟩,
    C1_serial_strassen_is_direct_product 1 2 demoA demoB (by decide) (by decide)⟩

/-- C2: with a pool that is in order (not shut down, at least one worker, futures paired one
to one with the queued tasks, each task run to completion by a worker), for every `r`, every
`p` and all square operands of the same dimension, constructing `Parallel_Strassen(A,B,r,p,pool)`
succeeds and calling it returns the matrix that `Strassen(A,B,r)()` returns, which is the
direct product `A * B`; the pool is left in order. The pool of the test,
`Thread_Pool(4, 'f', 2)`, is such a pool. -/
theorem C2_parallel_equals_serial [CommRing T] (r p n : Nat) (A B : Matrix T)
    (hA : A.square n) (hB : B.square n) (w : World T) (hw : w.pool.Inv) :
    (∃ S S' P w', Parallel_Strassen.new A B r p = .ok S ∧ (S.call).run w = .ok (P, w') ∧
      w'.pool.Inv ∧ Strassen.new A B r = .ok S' ∧
      (∃ ops, ∀ tr, (S'.call).run tr = .ok (P, tr ++ ops)) ∧ A.mul B = .ok P) ∧
    (test_pool T).Inv := by
  obtain ⟨P, h1, h2, h3, _⟩ := Parallel_Strassen.parallel_eq_mul r p n A B hA hB
  obtain ⟨Q, k1, k2, _, _⟩ := Strassen.serial_eq_mul r n A B hA hB
  have hPQ : Q = P := by
    rw [h2] at k2
    exact (Except.ok.inj k2).symm
  subst hPQ
  obtain ⟨w', e, hw'⟩ := h1 w hw
  exact ⟨⟨⟨A, B, r, p⟩, ⟨A, B, r⟩, Q, w', Parallel_Strassen.parallel_new_ok hA hB r p, e, hw',
    Strassen.serial_new_ok hA hB r, k1, h2⟩, Thread_Pool.new_inv 4 'f' 2 (by decide)⟩

/-- Witness for C2: the call of the test, `Parallel_Strassen(M, N, 5, 0, TP)` with
`TP(4, 'f', 2)`, on the 2×2 integer matrices `demoA`, `demoB`. -/
theorem C2_witness :
    (demoA.square 2 ∧ demoB.square 2 ∧ (test_pool Int).Inv) ∧
    (∃ S S' P w', Parallel_Strassen.new demoA demoB 5 0 = .ok S ∧
      (S.call).run (test_world Int) = .ok (P, w') ∧
      w'.pool.Inv ∧ Strassen.new demoA demoB 5 = .ok S' ∧
      (∃ ops, ∀ tr, (S'.call).run tr = .ok (P, tr ++ ops)) ∧ demoA.mul demoB = .ok P) ∧
    (test_pool Int).Inv :=
  ⟨⟨by decide, by decide, Thread_Pool.new_inv 4 'f' 2 (by decide)⟩,
    C2_parallel_equals_serial 5 0 2 demoA demoB (by decide) (by decide) (test_world Int)
      (Thread_Pool.new_inv 4 'f' 2 (by decide))⟩

/-- C3: each constructor raises the error "incorrect dimensions for a Strassen product" exactly
when it is not the case that `A.rows = A.columns = B.rows = B.columns`, and otherwise returns a
functor holding `A`, `B`, `r` (and `p`) unchanged. -/
theorem C3_constructor_dimension_check (A B : Matrix T) (r p : Nat) :
    (Strassen.new A B r = .error .incorrect_strassen ↔
      ¬ (A.rows = A.columns ∧ A.columns = B.rows ∧ B.rows = B.columns)) ∧
    ((A.rows = A.columns ∧ A.columns = B.rows ∧ B.rows = B.columns) →
      Strassen.new A B r = .ok ⟨A, B, r⟩) ∧
    (Parallel_Strassen.new A B r p = .error .incorrect_strassen ↔
      ¬ (A.rows = A.columns ∧ A.columns = B.rows ∧ B.rows = B.columns)) ∧
    ((A.rows = A.columns ∧ A.columns = B.rows ∧ B.rows = B.columns) →
      Parallel_Strassen.new A B r p = .ok ⟨A, B, r, p⟩) ∧
    Err.incorrect_strassen.what = "incorrect dimensions for a Strassen product" := by
  have key : (A.rows ≠ B.rows ∨ A.rows ≠ B.columns ∨ A.columns ≠ B.columns) ↔
      ¬ (A.rows = A.columns ∧ A.columns = B.rows ∧ B.rows = B.columns) := by
    constructor
    · rintro h ⟨h1, h2, h3⟩
      omega
    · intro h
      by_contra hc
      apply h
      omega
  unfold Strassen.new Parallel_Strassen.new
  refine ⟨?_, ?_, ?_, ?_, rfl⟩
  · rw [← key]
    by_cases hc : A.rows ≠ B.rows ∨ A.rows ≠ B.columns ∨ A.columns ≠ B.columns
    · rw [if_pos hc]; exact ⟨fun _ => hc, fun _ => rfl⟩
    · rw [if_neg hc]; exact ⟨fun h => Except.noConfusion h, fun h => absurd h hc⟩
  · intro h
    rw [if_neg (fun hc => (key.mp hc) h)]
  · rw [← key]
    by_cases hc : A.rows ≠ B.rows ∨ A.rows ≠ B.columns ∨ A.columns ≠ B.columns
    · rw [if_pos hc]; exact ⟨fun _ => hc, fun _ => rfl⟩
    · rw [if_neg hc]; exact ⟨fun h => Except.noConfusion h, fun h => absurd h hc⟩
  · intro h
    rw [if_neg (fun hc => (key.mp hc) h)]

theorem Strassen.serial_new_eq_ok {A B : Matrix T} {r : Nat} {S : Strassen T}
    (h : Strassen.new A B r = .ok S) :
    S = ⟨A, B, r⟩ ∧ A.n_rows = B.n_rows ∧ A.n_rows = B.n_columns ∧
      A.n_columns = B.n_columns := by
  unfold Strassen.new Matrix.rows Matrix.columns at h
  by_cases hc : A.n_rows ≠ B.n_rows ∨ A.n_rows ≠ B.n_columns ∨ A.n_columns ≠ B.n_columns
  · rw [if_pos hc] at h; exact Except.noConfusion h
  · rw [if_neg hc] at h
    refine ⟨(Except.ok.inj h).symm, ?_, ?_, ?_⟩ <;> omega

theorem Parallel_Strassen.parallel_new_eq_ok {A B : Matrix T} {r p : Nat} {S : Parallel_Strassen T}
    (h : Parallel_Strassen.new A B r p = .ok S) :
    S = ⟨A, B, r, p⟩ ∧ A.n_rows = B.n_rows ∧ A.n_rows = B.n_columns ∧
      A.n_columns = B.n_columns := by
  unfold Parallel_Strassen.new Matrix.rows Matrix.columns at h
  by_cases hc : A.n_rows ≠ B.n_rows ∨ A.n_rows ≠ B.n_columns ∨ A.n_columns ≠ B.n_columns
  · rw [if_pos hc] at h; exact Except.noConfusion h
  · rw [if_neg hc] at h
    refine ⟨(Except.ok.inj h).symm, ?_, ?_, ?_⟩ <;> omega

/-- C4: for operands obtained from the constructors and the public operations that are well
formed (at least one row and one column, a buffer of exactly rows times columns elements) and
on which a constructor succeeds, calling the functor returns a value for every `r` (and `p`):
no error is raised at any level (an error or an access outside a buffer anywhere would be the
result of the call), and the returned matrix is well formed with the rows and columns of the
inputs; the parallel call needs a pool in order and leaves it in order. -/
theorem C4_no_error_after_construction [CommRing T] (A B : Matrix T) (r p : Nat)
    (hA : Matrix.Reachable A) (hA1 : 1 ≤ A.n_rows) (hA2 : 1 ≤ A.n_columns)
    (hA3 : A.elements.length = A.n_rows * A.n_columns)
    (hB : Matrix.Reachable B) (hB1 : 1 ≤ B.n_rows) (hB2 : 1 ≤ B.n_columns)
    (hB3 : B.elements.length = B.n_rows * B.n_columns) :
    (∀ S, Strassen.new A B r = .ok S → ∀ tr, ∃ P tr', (S.call).run tr = .ok (P, tr') ∧
      P.wf ∧ P.n_rows = A.n_rows ∧ P.n_columns = A.n_columns ∧ P.n_rows = B.n_rows ∧
      P.n_columns = B.n_columns) ∧
    (∀ S, Parallel_Strassen.new A B r p = .ok S → ∀ w : World T, w.pool.Inv →
      ∃ P w', (S.call).run w = .ok (P, w') ∧ w'.pool.Inv ∧
      P.wf ∧ P.n_rows = A.n_rows ∧ P.n_columns = A.n_columns ∧ P.n_rows = B.n_rows ∧
      P.n_columns = B.n_columns) := by
  have wA : A.wf := Matrix.wf_of_reachable hA hA1 hA2 hA3
  have wB : B.wf := Matrix.wf_of_reachable hB hB1 hB2 hB3
  constructor
  · intro S hS tr
    obtain ⟨rfl, e1, e2, e3⟩ := Strassen.serial_new_eq_ok hS
    have sA : A.square A.n_rows := ⟨wA, rfl, by rw [e3, ← e2]⟩
    have sB : B.square A.n_rows := ⟨wB, e1.symm, e2.symm⟩
    obtain ⟨P, ⟨ops, h1⟩, h2, _⟩ := Strassen.serial_ok_all r A.n_rows A B sA sB
    exact ⟨P, tr ++ ops, h1 tr, h2.1, h2.2.1, by rw [h2.2.2, sA.2.2], by rw [h2.2.1, e1],
      by rw [h2.2.2, e2]⟩
  · intro S hS w hw
    obtain ⟨rfl, e1, e2, e3⟩ := Parallel_Strassen.parallel_new_eq_ok hS
    have sA : A.square A.n_rows := ⟨wA, rfl, by rw [e3, ← e2]⟩
    have sB : B.square A.n_rows := ⟨wB, e1.symm, e2.symm⟩
    obtain ⟨P, h1, h2, _⟩ := Parallel_Strassen.parallel_ok_all r p A.n_rows A B sA sB
    obtain ⟨w', e, hw'⟩ := h1 w hw
    exact ⟨P, w', e, hw', h2.1, h2.2.1, by rw [h2.2.2, sA.2.2], by rw [h2.2.1, e1],
      by rw [h2.2.2, e2]⟩

/-- Witness for C4: the 4×4 integer matrices `demoM`, `demoN`, built from initializer lists,
with `r = 2`, `p = 1`, on which both constructors succeed. The dimension is even at the first
two levels, so the serial call slices, adds, subtracts and constructs seven nested functors on
the 2×2 quadrants, each of which does the same on 1×1 quadrants before the direct products;
the parallel call runs the first level in the calling thread (`p` goes from 1 to 0) and each of
its seven nested functors hands seven `Strassen` tasks to the pool and waits for their
futures. -/
theorem C4_witness :
    (Matrix.Reachable demoM ∧ 1 ≤ demoM.n_rows ∧ 1 ≤ demoM.n_columns ∧
      demoM.elements.length = demoM.n_rows * demoM.n_columns ∧
      Matrix.Reachable demoN ∧ 1 ≤ demoN.n_rows ∧ 1 ≤ demoN.n_columns ∧
      demoN.elements.length = demoN.n_rows * demoN.n_columns) ∧
    (demoM.rows % 2 = 0 ∧ (demoM.rows / 2) % 2 = 0 ∧
      Strassen.new demoM demoN 2 = .ok ⟨demoM, demoN, 2⟩ ∧
      Parallel_Strassen.new demoM demoN 2 1 = .ok ⟨demoM, demoN, 2, 1⟩ ∧
      (test_world Int).pool.Inv) ∧
    (∀ S, Strassen.new demoM demoN 2 = .ok S → ∀ tr, ∃ P tr', (S.call).run tr = .ok (P, tr') ∧
      P.wf ∧ P.n_rows = demoM.n_rows ∧ P.n_columns = demoM.n_columns ∧
      P.n_rows = demoN.n_rows ∧ P.n_columns = demoN.n_columns) ∧
    (∀ S, Parallel_Strassen.new demoM demoN 2 1 = .ok S → ∀ w : World Int, w.pool.Inv →
      ∃ P w', (S.call).run w = .ok (P, w') ∧ w'.pool.Inv ∧
      P.wf ∧ P.n_rows = demoM.n_rows ∧ P.n_columns = demoM.n_columns ∧
      P.n_rows = demoN.n_rows ∧ P.n_columns = demoN.n_columns) :=
  have hM : Matrix.Reachable demoM :=
    Matrix.Reachable.new_list 4 4 [1, 2, 3, 4, 5, 6, 7, 8, 9, 10, 11, 12, 13, 14, 15, 16] demoM
      (by decide)
  have hN : Matrix.Reachable demoN :=
    Matrix.Reachable.new_list 4 4 [2, 0, -1, 3, 1, 1, 0, -2, 0, 4, 5, 1, -3, 2, 1, 0] demoN
      (by decide)
  ⟨⟨hM, by decide, by decide, by decide, hN, by decide, by decide, by decide⟩,
    ⟨by decide, by decide, rfl, rfl, Thread_Pool.new_inv 4 'f' 2 (by decide)⟩,
    C4_no_error_after_construction demoM demoN 2 1 hM (by decide) (by decide) (by decide)
      hN (by decide) (by decide) (by decide)⟩

/-- C5: with `r = 0`, for all operands and every `p`, both functors return exactly what the
direct `A * B` returns (its matrix, or its error); the only operations recorded are the entry
into `operator()` and one `operator *`, so nothing is sliced, no functor is constructed or
called, and the pool, its queue included, is left as it was. -/
theorem C5_zero_budget_is_direct [Zero T] [Add T] [Sub T] [Mul T] (A B : Matrix T) (p : Nat)
    (tr : List Op) (w : World T) :
    (Strassen.call ⟨A, B, 0⟩).run tr =
      (A.mul B).map (fun P => (P, tr ++ [Op.serial_call, Op.mul])) ∧
    (Parallel_Strassen.call ⟨A, B, 0, p⟩).run w =
      (A.mul B).map (fun P =>
        (P, { trace := w.trace ++ [Op.parallel_call, Op.mul], pool := w.pool })) := by
  constructor
  · unfold Strassen.call
    rw [Strassen.run]
    cases A.mul B <;> simp [traced, StateT.run, bind, StateT.bind, Except.bind, pure,
      Except.pure, Except.map]
  · unfold Parallel_Strassen.call
    rw [Parallel_Strassen.run]
    cases A.mul B <;> simp [Par.traced, StateT.run, bind, StateT.bind, Except.bind, pure,
      Except.pure, Except.map]

/-- C6: when the number of rows of `A` is odd, for every `r` and `p` both functors return
exactly what the single direct `A * B` returns (its matrix, or its error), recording only the
entry into `operator()` and one `operator *`: no slice, no nested functor, no task submitted,
pool untouched. The nested functors of an even-dimension call run this same
`Strassen.run` / `Parallel_Strassen.run` on their own operands, so this holds at every
recursion level; and for square operands of any dimension and any budget the whole serial call
returns the matrix of the direct product. -/
theorem C6_odd_dimension_is_direct [CommRing T] (r p : Nat) (A B : Matrix T)
    (hodd : A.rows % 2 = 1) (tr : List Op) (w : World T) :
    (Strassen.call ⟨A, B, r⟩).run tr =
      (A.mul B).map (fun P => (P, tr ++ [Op.serial_call, Op.mul])) ∧
    (Parallel_Strassen.call ⟨A, B, r, p⟩).run w =
      (A.mul B).map (fun P =>
        (P, { trace := w.trace ++ [Op.parallel_call, Op.mul], pool := w.pool })) ∧
    (∀ (r' n' : Nat) (A' B' : Matrix T), A'.square n' → B'.square n' →
      ∃ P, A'.mul B' = .ok P ∧ ∃ ops, ∀ tr', (Strassen.call ⟨A', B', r'⟩).run tr' =
        .ok (P, tr' ++ ops)) := by
  have hne : A.rows % 2 ≠ 0 := by omega
  refine ⟨?_, ?_, ?_⟩
  · unfold Strassen.call
    cases r with
    | zero =>
      rw [Strassen.run]
      cases A.mul B <;> simp [traced, StateT.run, bind, StateT.bind, Except.bind, pure,
        Except.pure, Except.map]
    | succ r =>
      rw [Strassen.run]
      simp only [if_pos hne]
      cases A.mul B <;> simp [traced, StateT.run, bind, StateT.bind, Except.bind, pure,
        Except.pure, Except.map]
  · unfold Parallel_Strassen.call
    cases r with
    | zero =>
      rw [Parallel_Strassen.run]
      cases A.mul B <;> simp [Par.traced, StateT.run, bind, StateT.bind, Except.bind, pure,
        Except.pure, Except.map]
    | succ r =>
      rw [Parallel_Strassen.run]
      simp only [if_pos hne]
      cases A.mul B <;> simp [Par.traced, StateT.run, bind, StateT.bind, Except.bind, pure,
        Except.pure, Except.map]
  · intro r' n' A' B' hA' hB'
    obtain ⟨P, h1, h2, _⟩ := Strassen.serial_eq_mul r' n' A' B' hA' hB'
    exact ⟨P, h2, h1⟩

/-- Witness for C6: the 3×3 integer matrices `demoC`, `demoD` with `r = 2`, `p = 0` and the
world of the test. -/
theorem C6_witness :
    demoC.rows % 2 = 1 ∧
    ((Strassen.call ⟨demoC, demoD, 2⟩).run [] =
      (demoC.mul demoD).map (fun P => (P, [] ++ [Op.serial_call, Op.mul])) ∧
    (Parallel_Strassen.call ⟨demoC, demoD, 2, 0⟩).run (test_world Int) =
      (demoC.mul demoD).map (fun P =>
        (P, { trace := (test_world Int).trace ++ [Op.parallel_call, Op.mul],
              pool := (test_world Int).pool })) ∧
    (∀ (r' n' : Nat) (A' B' : Matrix Int), A'.square n' → B'.square n' →
      ∃ P, A'.mul B' = .ok P ∧ ∃ ops, ∀ tr', (Strassen.call ⟨A', B', r'⟩).run tr' =
        .ok (P, tr' ++ ops))) :=
  ⟨by decide, C6_odd_dimension_is_direct 2 0 demoC demoD (by decide) [] (test_world Int)⟩

/-! ## Properties of `Matrix` -/

/-- A loop whose first pass fails, fails. -/
theorem foldlM_range_first_error {σ : Type} (f : σ → Nat → Except Err σ) (s : σ) (n : Nat)
    (e : Err) (hn : 0 < n) (h : f s 0 = .error e) : (List.range n).foldlM f s = .error e := by
  obtain ⟨m, rfl⟩ : ∃ m, n = m + 1 := ⟨n - 1, by omega⟩
  rw [List.range_succ_eq_map, List.foldlM_cons, h]
  rfl

/-- When the number of elements of the result wraps around to zero, `operator *` writes outside
the (empty) buffer it has allocated. -/
theorem Matrix.mul_wraps_to_zero [Zero T] [Add T] [Mul T] (A M : Matrix T)
    (hd : A.n_columns = M.n_rows) (ha : 0 < A.n_rows) (hb : 0 < A.n_columns)
    (hc : 0 < M.n_columns) (hz : sz (A.n_rows * M.n_columns) = 0) :
    A.mul M = .error .out_of_buffer := by
  unfold Matrix.mul
  rw [if_neg (not_not.mpr hd)]
  have hnew : (Matrix.new A.n_rows M.n_columns : Except Err (Matrix T)) =
      .ok ⟨A.n_rows, M.n_columns, 0, []⟩ := by
    unfold Matrix.new
    have h1 : ¬ (A.n_rows = 0 ∨ M.n_columns = 0) := by omega
    simp only [hz, List.replicate_zero]
    rw [if_neg h1]
  rw [hnew]
  simp only [ok_bind]
  rw [foldlM_range_first_error _ _ _ .out_of_buffer ha]
  · rfl
  · rw [foldlM_range_first_error _ _ _ .out_of_buffer hb]
    rw [foldlM_range_first_error _ _ _ .out_of_buffer hc]
    rfl

theorem zero_column_wf (n : Nat) (h1 : 1 ≤ n) (h2 : n < SIZE_MOD) : (zero_column n).wf := by
  refine ⟨h1, Nat.le_refl 1, ?_, ?_, ?_⟩ <;> simp [zero_column, h2]

theorem zero_row_wf (n : Nat) (h1 : 1 ≤ n) (h2 : n < SIZE_MOD) : (zero_row n).wf := by
  refine ⟨Nat.le_refl 1, h1, ?_, ?_, ?_⟩ <;> simp [zero_row, h2]

theorem zero_column_new (n : Nat) (h1 : 1 ≤ n) (h2 : n < SIZE_MOD) :
    Matrix.new n 1 = .ok (zero_column n) := by
  have hz : ¬ (n = 0 ∨ 1 = 0) := by omega
  unfold Matrix.new zero_column
  simp only [Nat.mul_one, sz_of_lt h2]
  rw [if_neg hz]

theorem zero_row_new (n : Nat) (h1 : 1 ≤ n) (h2 : n < SIZE_MOD) :
    Matrix.new 1 n = .ok (zero_row n) := by
  have hz : ¬ (1 = 0 ∨ n = 0) := by omega
  unfold Matrix.new zero_row
  simp only [Nat.one_mul, sz_of_lt h2]
  rw [if_neg hz]

/-- C7 fails for the `2^32 × 1` matrix that `Matrix(2^32, 1)` returns times the `1 × 2^32`
matrix that `Matrix(1, 2^32)` returns: both operands are well formed and the inner dimensions
agree, but the `2^64` elements of the result wrap around to an empty
buffer and the first accumulation is an access outside it, so no product matrix is returned. -/
theorem C7_counterexample :
    Matrix.new 4294967296 1 = .ok (zero_column 4294967296) ∧
      Matrix.new 1 4294967296 = .ok (zero_row 4294967296) ∧
      (zero_column 4294967296).wf ∧ (zero_row 4294967296).wf ∧
      (zero_column 4294967296).n_columns = (zero_row 4294967296).n_rows ∧
      (zero_column 4294967296).mul (zero_row 4294967296) = .error .out_of_buffer ∧
      ¬ ∃ P, (zero_column 4294967296).mul (zero_row 4294967296) = .ok P := by
  have h : (zero_column 4294967296).mul (zero_row 4294967296) = .error .out_of_buffer :=
    Matrix.mul_wraps_to_zero _ _ rfl (by decide) (by decide) (by decide) (by decide)
  refine ⟨zero_column_new _ (by decide) (by decide), zero_row_new _ (by decide) (by decide),
    zero_column_wf _ (by decide) (by decide), zero_row_wf _ (by decide) (by decide),
    rfl, h, ?_⟩
  rintro ⟨P, hP⟩
  rw [h] at hP
  exact Except.noConfusion hP

/-- C7 (amended): for every well-formed `a × b` matrix `A` and `b × c` matrix `B` whose result
size `a · c` is below `2^64`, `A * B` returns the `a × c` matrix, with a buffer of `a · c`
elements, whose `(i, j)` entry is the sum over `k < b` of `A(i,k) · B(k,j)`. The operands are
arguments of a function and are not modified. -/
theorem C7_direct_product_when_result_fits [CommRing T] (A B : Matrix T) (hA : A.wf)
    (hB : B.wf) (hd : A.n_columns = B.n_rows) (hs : A.n_rows * B.n_columns < SIZE_MOD) :
    ∃ P, A.mul B = .ok P ∧ P.n_rows = A.n_rows ∧ P.n_columns = B.n_columns ∧
      P.total_elements = A.n_rows * B.n_columns ∧
      P.elements.length = A.n_rows * B.n_columns ∧
      ∀ i j, i < A.n_rows → j < B.n_columns →
        P.get i j = .ok (∑ k in Finset.range A.n_columns, A.entry i k * B.entry k j) := by
  obtain ⟨P, e, p1, p2, p3, p4⟩ := Matrix.mul_spec A B hA hB hd hs
  refine ⟨P, e, p1, p2, by rw [p3.2.2.2.1, p1, p2], by rw [p3.2.2.2.2, p1, p2], ?_⟩
  intro i j hi hj
  rw [Matrix.get_ok P p3 (by rw [p1]; exact hi) (by rw [p2]; exact hj), p4 i j hi hj]
  rfl

/-- Witness for C7: the 2×2 integer matrices `demoA`, `demoB`. -/
theorem C7_witness :
    (demoA.wf ∧ demoB.wf ∧ demoA.n_columns = demoB.n_rows ∧
      demoA.n_rows * demoB.n_columns < SIZE_MOD) ∧
    ∃ P, demoA.mul demoB = .ok P ∧ P.n_rows = demoA.n_rows ∧ P.n_columns = demoB.n_columns ∧
      P.total_elements = demoA.n_rows * demoB.n_columns ∧
      P.elements.length = demoA.n_rows * demoB.n_columns ∧
      ∀ i j, i < demoA.n_rows → j < demoB.n_columns →
        P.get i j =
          .ok (∑ k in Finset.range demoA.n_columns, demoA.entry i k * demoB.entry k j) :=
  ⟨⟨by decide, by decide, by decide, by decide⟩,
    C7_direct_product_when_result_fits demoA demoB (by decide) (by decide) (by decide)
      (by decide)⟩

/-- C8 fails for the `2^33 × 1` matrix of `Matrix(2^33, 1)` times the `1 × 2^31` matrix of
`Matrix(1, 2^31)`: the operands are well formed
and `A.columns = B.rows`, the call does not raise the dimension error, and yet no result
matrix is returned (the product overruns the empty buffer allocated for `2^64` elements). It
also fails for the zero-row matrix that `Matrix(0, 1, {})` returns: multiplied by a `1 × 1`
matrix it raises "matrix size of 0x0 not allowed" although `A.columns = B.rows`. -/
theorem C8_counterexample :
    (Matrix.new 8589934592 1 = .ok (zero_column 8589934592) ∧
      Matrix.new 1 2147483648 = .ok (zero_row 2147483648) ∧
      (zero_column 8589934592).wf ∧ (zero_row 2147483648).wf ∧
      (zero_column 8589934592).n_columns = (zero_row 2147483648).n_rows ∧
      (zero_column 8589934592).mul (zero_row 2147483648) ≠ .error .incorrect_product ∧
      ¬ ∃ P, (zero_column 8589934592).mul (zero_row 2147483648) = .ok P) ∧
    (Matrix.new_list 0 1 ([] : List Int) = .ok ⟨0, 1, 0, []⟩ ∧
      (⟨0, 1, 0, []⟩ : Matrix Int).n_columns = (⟨1, 1, 1, [7]⟩ : Matrix Int).n_rows ∧
      (⟨0, 1, 0, []⟩ : Matrix Int).mul ⟨1, 1, 1, [7]⟩ = .error .size_zero) := by
  have h : (zero_column 8589934592).mul (zero_row 2147483648) = .error .out_of_buffer :=
    Matrix.mul_wraps_to_zero _ _ rfl (by decide) (by decide) (by decide) (by decide)
  refine ⟨⟨zero_column_new _ (by decide) (by decide), zero_row_new _ (by decide) (by decide),
    zero_column_wf _ (by decide) (by decide), zero_row_wf _ (by decide) (by decide),
    rfl, ?_, ?_⟩, by decide, rfl, by decide⟩
  · rw [h]; exact fun e => Err.noConfusion (Except.error.inj e)
  · rintro ⟨P, hP⟩
    rw [h] at hP
    exact Except.noConfusion hP

/-- C8 (amended): for well-formed matrices, `A + B`, `A - B`, `A += B` and `A -= B` raise
"dimensions do not match" exactly when the shapes differ and otherwise return a matrix of the
shape of `A`; `A * B` raises "incorrect dimensions for a product" when `A.columns ≠ B.rows`,
and when `A.columns = B.rows` and `A.rows · B.columns < 2^64` it returns a matrix of shape
`A.rows × B.columns` (so in that range it raises exactly on mismatch). -/
theorem C8_operators_raise_on_mismatch [CommRing T] (A B : Matrix T) (hA : A.wf) (hB : B.wf) :
    ((A.n_rows ≠ B.n_rows ∨ A.n_columns ≠ B.n_columns) →
      A.add B = .error .dimensions_do_not_match ∧ A.sub B = .error .dimensions_do_not_match ∧
      A.add_assign B = .error .dimensions_do_not_match ∧
      A.sub_assign B = .error .dimensions_do_not_match) ∧
    ((A.n_rows = B.n_rows ∧ A.n_columns = B.n_columns) →
      (∃ P, A.add B = .ok P ∧ P.n_rows = A.n_rows ∧ P.n_columns = A.n_columns) ∧
      (∃ P, A.sub B = .ok P ∧ P.n_rows = A.n_rows ∧ P.n_columns = A.n_columns) ∧
      (∃ P, A.add_assign B = .ok P ∧ P.n_rows = A.n_rows ∧ P.n_columns = A.n_columns) ∧
      (∃ P, A.sub_assign B = .ok P ∧ P.n_rows = A.n_rows ∧ P.n_columns = A.n_columns)) ∧
    (A.n_columns ≠ B.n_rows → A.mul B = .error .incorrect_product) ∧
    (A.n_columns = B.n_rows → A.n_rows * B.n_columns < SIZE_MOD →
      ∃ P, A.mul B = .ok P ∧ P.n_rows = A.n_rows ∧ P.n_columns = B.n_columns) := by
  refine ⟨?_, ?_, ?_, ?_⟩
  · intro h
    unfold Matrix.add Matrix.sub Matrix.add_assign Matrix.sub_assign
    simp only [if_pos h, and_self]
  · rintro ⟨hr, hc⟩
    obtain ⟨P, e, p1, p2, _⟩ := Matrix.add_assign_spec A B hA hB hr hc
    obtain ⟨Q, e', q1, q2, _⟩ := Matrix.sub_assign_spec A B hA hB hr hc
    exact ⟨⟨P, e, p1, p2⟩, ⟨Q, e', q1, q2⟩, ⟨P, e, p1, p2⟩, ⟨Q, e', q1, q2⟩⟩
  · intro h
    unfold Matrix.mul
    rw [if_pos h]
  · intro hd hs
    obtain ⟨P, e, p1, p2, _⟩ := Matrix.mul_spec A B hA hB hd hs
    exact ⟨P, e, p1, p2⟩

/-- Witness for C8: the 2×2 integer matrices `demoA`, `demoB`. -/
theorem C8_witness :
    (demoA.wf ∧ demoB.wf) ∧
    (((demoA.n_rows ≠ demoB.n_rows ∨ demoA.n_columns ≠ demoB.n_columns) →
      demoA.add demoB = .error .dimensions_do_not_match ∧
      demoA.sub demoB = .error .dimensions_do_not_match ∧
      demoA.add_assign demoB = .error .dimensions_do_not_match ∧
      demoA.sub_assign demoB = .error .dimensions_do_not_match) ∧
    ((demoA.n_rows = demoB.n_rows ∧ demoA.n_columns = demoB.n_columns) →
      (∃ P, demoA.add demoB = .ok P ∧ P.n_rows = demoA.n_rows ∧
        P.n_columns = demoA.n_columns) ∧
      (∃ P, demoA.sub demoB = .ok P ∧ P.n_rows = demoA.n_rows ∧
        P.n_columns = demoA.n_columns) ∧
      (∃ P, demoA.add_assign demoB = .ok P ∧ P.n_rows = demoA.n_rows ∧
        P.n_columns = demoA.n_columns) ∧
      (∃ P, demoA.sub_assign demoB = .ok P ∧ P.n_rows = demoA.n_rows ∧
        P.n_columns = demoA.n_columns)) ∧
    (demoA.n_columns ≠ demoB.n_rows → demoA.mul demoB = .error .incorrect_product) ∧
    (demoA.n_columns = demoB.n_rows → demoA.n_rows * demoB.n_columns < SIZE_MOD →
      ∃ P, demoA.mul demoB = .ok P ∧ P.n_rows = demoA.n_rows ∧
        P.n_columns = demoB.n_columns)) :=
  ⟨⟨by decide, by decide⟩, C8_operators_raise_on_mismatch demoA demoB (by decide) (by decide)⟩

/-- C9: the initializer-list constructor does not reject a zero dimension. `Matrix(0, 5, {})`
returns a matrix with zero rows, and so does every `Matrix(0, c, {})` and `Matrix(r, 0, {})`,
whereas `Matrix(r, c)` raises "matrix size of 0x0 not allowed" whenever `r = 0` or `c = 0` and
`Matrix(0)` raises "matrix row number of 0 not allowed". -/
theorem C9_initializer_list_accepts_zero_dimension :
    Matrix.new_list 0 5 ([] : List Int) = .ok ⟨0, 5, 0, []⟩ ∧
    (∀ c : Nat, Matrix.new_list 0 c ([] : List Int) = .ok ⟨0, c, 0, []⟩) ∧
    (∀ r : Nat, Matrix.new_list r 0 ([] : List Int) = .ok ⟨r, 0, 0, []⟩) ∧
    (∀ r c : Nat, r = 0 ∨ c = 0 →
      (Matrix.new r c : Except Err (Matrix Int)) = .error .size_zero) ∧
    (Matrix.new_column 0 : Except Err (Matrix Int)) = .error .row_zero := by
  refine ⟨by decide, ?_, ?_, ?_, by decide⟩
  · intro c
    simp [Matrix.new_list, sz]
  · intro r
    simp [Matrix.new_list, sz]
  · intro r c h
    unfold Matrix.new
    rw [if_pos h]

/-- C10 fails for `Matrix(2^32, 2^32)`: the constructor returns normally with an empty buffer
and `total_elements = 0`, while `n_rows · n_columns = 2^64`. -/
theorem C10_counterexample :
    ∃ M : Matrix Int, Matrix.new 4294967296 4294967296 = .ok M ∧ Matrix.Reachable M ∧
      M.elements.length = 0 ∧ M.total_elements = 0 ∧
      M.elements.length ≠ M.n_rows * M.n_columns := by
  have h : (Matrix.new 4294967296 4294967296 : Except Err (Matrix Int)) =
      .ok ⟨4294967296, 4294967296, 0, []⟩ := by decide
  exact ⟨_, h, Matrix.Reachable.new _ _ _ h, rfl, rfl, by decide⟩

/-- C10 (amended): every matrix returned by a constructor and transformed by any sequence of
`+=`, `-=`, `+`, `-`, `*`, `slice`, `exchange_rows` and element writes that return normally has
a buffer of exactly `total_elements` elements, and `total_elements` is `n_rows · n_columns`
reduced modulo `2^64`; so the buffer length is `n_rows · n_columns` whenever that product is
below `2^64`. -/
theorem C10_representation_invariant [Zero T] [Add T] [Sub T] [Mul T] (M : Matrix T)
    (h : Matrix.Reachable M) :
    M.elements.length = M.total_elements ∧
      M.total_elements = (M.n_rows * M.n_columns) % SIZE_MOD ∧
      (M.n_rows * M.n_columns < SIZE_MOD →
        M.elements.length = M.n_rows * M.n_columns ∧
        M.total_elements = M.n_rows * M.n_columns) := by
  obtain ⟨h1, h2⟩ := Matrix.reachable_rep h
  refine ⟨h1, h2, fun hlt => ?_⟩
  have : sz (M.n_rows * M.n_columns) = M.n_rows * M.n_columns := sz_of_lt hlt
  rw [h1, h2, this]
  exact ⟨rfl, rfl⟩

/-- Witness for C10: the product of `demoA` and `demoB`, both built from initializer lists. -/
theorem C10_witness :
    Matrix.Reachable (⟨2, 2, 4, [19, 22, 43, 50]⟩ : Matrix Int) ∧
    ((⟨2, 2, 4, [19, 22, 43, 50]⟩ : Matrix Int).elements.length =
        (⟨2, 2, 4, [19, 22, 43, 50]⟩ : Matrix Int).total_elements ∧
      (⟨2, 2, 4, [19, 22, 43, 50]⟩ : Matrix Int).total_elements =
        ((⟨2, 2, 4, [19, 22, 43, 50]⟩ : Matrix Int).n_rows *
          (⟨2, 2, 4, [19, 22, 43, 50]⟩ : Matrix Int).n_columns) % SIZE_MOD ∧
      ((⟨2, 2, 4, [19, 22, 43, 50]⟩ : Matrix Int).n_rows *
          (⟨2, 2, 4, [19, 22, 43, 50]⟩ : Matrix Int).n_columns < SIZE_MOD →
        (⟨2, 2, 4, [19, 22, 43, 50]⟩ : Matrix Int).elements.length =
          (⟨2, 2, 4, [19, 22, 43, 50]⟩ : Matrix Int).n_rows *
            (⟨2, 2, 4, [19, 22, 43, 50]⟩ : Matrix Int).n_columns ∧
        (⟨2, 2, 4, [19, 22, 43, 50]⟩ : Matrix Int).total_elements =
          (⟨2, 2, 4, [19, 22, 43, 50]⟩ : Matrix Int).n_rows *
            (⟨2, 2, 4, [19, 22, 43, 50]⟩ : Matrix Int).n_columns)) :=
  have hreach : Matrix.Reachable (⟨2, 2, 4, [19, 22, 43, 50]⟩ : Matrix Int) :=
    Matrix.Reachable.mul demoA demoB _
      (Matrix.Reachable.new_list 2 2 [1, 2, 3, 4] demoA (by decide))
      (Matrix.Reachable.new_list 2 2 [5, 6, 7, 8] demoB (by decide)) (by decide)
  ⟨hreach, C10_representation_invariant _ hreach⟩

/-! ## Slices of a matrix -/

/-- C11: for every matrix `M` obtained from the constructors and the public operations whose
buffer has exactly rows times columns elements, and every range with
`rowStart < rowEnd ≤ M.rows()` and `colStart < colEnd ≤ M.columns()`, `M.slice` returns a
matrix of `rowEnd - rowStart` rows and `colEnd - colStart` columns whose entry `(i, j)`, read
with `operator()`, is the entry `(rowStart + i, colStart + j)` of `M`: row `rowEnd` and column
`colEnd` are not copied. `slice` returns a new value and nothing else, so `M` is as it was. -/
theorem C11_slice_copies_the_range [Zero T] [Add T] [Sub T] [Mul T] (M : Matrix T)
    (rowStart rowEnd colStart colEnd : Nat) (hM : Matrix.Reachable M)
    (hlen : M.elements.length = M.n_rows * M.n_columns)
    (hr : rowStart < rowEnd) (hrb : rowEnd ≤ M.rows)
    (hc : colStart < colEnd) (hcb : colEnd ≤ M.columns) :
    ∃ P, M.slice rowStart rowEnd colStart colEnd = .ok P ∧
      P.rows = rowEnd - rowStart ∧ P.columns = colEnd - colStart ∧
      P.elements.length = (rowEnd - rowStart) * (colEnd - colStart) ∧
      ∀ i j, i < rowEnd - rowStart → j < colEnd - colStart →
        ∃ x, P.get i j = .ok x ∧ M.get (rowStart + i) (colStart + j) = .ok x := by
  unfold Matrix.rows Matrix.columns at *
  have wM : M.wf := Matrix.wf_of_reachable hM (by omega) (by omega) hlen
  obtain ⟨P, e, h1, h2, wP, h3⟩ := Matrix.slice_spec M wM hr hrb hc hcb
  refine ⟨P, e, h1, h2, by rw [wP.2.2.2.2, h1, h2], ?_⟩
  intro i j hi hj
  refine ⟨P.entry i j, Matrix.get_ok P wP (by omega) (by omega), ?_⟩
  rw [h3 i j hi hj]
  exact Matrix.get_ok M wM (by omega) (by omega)

theorem C11_witness :
    (Matrix.Reachable demoC ∧ demoC.elements.length = demoC.n_rows * demoC.n_columns ∧
      1 < 3 ∧ 3 ≤ demoC.rows ∧ 0 < 2 ∧ 2 ≤ demoC.columns) ∧
    ∃ P, demoC.slice 1 3 0 2 = .ok P ∧ P.rows = 3 - 1 ∧ P.columns = 2 - 0 ∧
      P.elements.length = (3 - 1) * (2 - 0) ∧
      ∀ i j, i < 3 - 1 → j < 2 - 0 →
        ∃ x, P.get i j = .ok x ∧ demoC.get (1 + i) (0 + j) = .ok x :=
  have hC : Matrix.Reachable demoC :=
    Matrix.Reachable.new_list 3 3 [1, 2, 3, 4, 5, 6, 7, 8, 9] demoC (by decide)
  ⟨⟨hC, by decide, by decide, by decide, by decide, by decide⟩,
    C11_slice_copies_the_range demoC 1 3 0 2 hC (by decide) (by decide) (by decide)
      (by decide) (by decide)⟩

/-! ## The order in which one worker runs the queue -/

section pool_order
variable {F R : Type}

theorem packaged_all_outcome (invoke : F → Except Err R) (s : Nat) (fs : List F) :
    (packaged_all s fs).map (packaged_task.outcome invoke) =
      (List.range' s fs.length).zip (fs.map invoke) := by
  induction fs generalizing s with
  | nil => rfl
  | cons f fs ih =>
    simp only [packaged_all, List.map_cons, List.length_cons, List.range'_succ, List.zip_cons_cons,
      ih (s + 1)]
    rfl

theorem Thread_Pool.load_front_all_spec (TP : Thread_Pool F R) (fs : List F) :
    TP.load_front_all fs = (List.range' TP.next_state fs.length,
      { TP with tasks := (packaged_all TP.next_state fs).reverse ++ TP.tasks,
                next_state := TP.next_state + fs.length }) := by
  induction fs generalizing TP with
  | nil => rfl
  | cons f fs ih =>
    simp only [Thread_Pool.load_front_all, ih, Thread_Pool.load_front, packaged_all,
      List.length_cons, List.range'_succ, List.reverse_cons, List.append_assoc,
      List.singleton_append]
    refine Prod.ext rfl ?_
    simp only
    congr 1
    omega

theorem Thread_Pool.load_back_all_spec (TP : Thread_Pool F R) (fs : List F) :
    TP.load_back_all fs = (List.range' TP.next_state fs.length,
      { TP with tasks := TP.tasks ++ packaged_all TP.next_state fs,
                next_state := TP.next_state + fs.length }) := by
  induction fs generalizing TP with
  | nil => simp [Thread_Pool.load_back_all, packaged_all]
  | cons f fs ih =>
    simp only [Thread_Pool.load_back_all, ih, Thread_Pool.load_back, packaged_all,
      List.length_cons, List.range'_succ, List.append_assoc, List.singleton_append]
    refine Prod.ext rfl ?_
    simp only
    congr 1
    omega

theorem Thread_Pool.looper_succ (invoke : F → Except Err R) (n : Nat) (TP : Thread_Pool F R)
    (hd : TP.done = false) :
    Thread_Pool.looper invoke (n + 1) TP = Thread_Pool.looper invoke n (TP.looper_step invoke) := by
  rw [Thread_Pool.looper, if_neg (by simp [hd])]

theorem Thread_Pool.looper_step_front (invoke : F → Except Err R) (TP : Thread_Pool F R)
    (t : packaged_task F) (rest : List (packaged_task F)) (h : TP.tasks = t :: rest)
    (hw : TP.work_end = 'f') :
    TP.looper_step invoke =
      { TP with tasks := rest, shared := t.outcome invoke :: TP.shared } := by
  simp only [Thread_Pool.looper_step, hw, if_true, Thread_Pool.work_front, h,
    packaged_task.perform, packaged_task.outcome]

theorem Thread_Pool.looper_step_back (invoke : F → Except Err R) (TP : Thread_Pool F R)
    (init : List (packaged_task F)) (t : packaged_task F) (h : TP.tasks = init ++ [t])
    (hw : TP.work_end ≠ 'f') :
    TP.looper_step invoke =
      { TP with tasks := init, shared := t.outcome invoke :: TP.shared } := by
  have hlast : (init ++ [t]).getLast? = some t := by simp
  simp only [Thread_Pool.looper_step, hw, if_false, Thread_Pool.work_back, h, hlast,
    packaged_task.perform, packaged_task.outcome, List.dropLast_concat]

/-- A worker of a pool that drains the front runs the whole queue from its front. -/
theorem Thread_Pool.looper_drains_front (invoke : F → Except Err R) :
    ∀ (ts : List (packaged_task F)) (TP : Thread_Pool F R), TP.tasks = ts → TP.done = false →
      TP.work_end = 'f' →
      Thread_Pool.looper invoke ts.length TP = (false, { TP with
        tasks := [], shared := (ts.map (packaged_task.outcome invoke)).reverse ++ TP.shared })
  | [], TP, h, _, _ => by
    obtain ⟨a, b, c, d, e, f, g⟩ := TP
    simp only at h
    subst h
    rfl
  | t :: rest, TP, h, hd, hw => by
    rw [List.length_cons, Thread_Pool.looper_succ invoke _ TP hd,
      Thread_Pool.looper_step_front invoke TP t rest h hw,
      Thread_Pool.looper_drains_front invoke rest
        { TP with tasks := rest, shared := t.outcome invoke :: TP.shared } rfl hd hw]
    simp only [List.map_cons, List.reverse_cons, List.append_assoc, List.singleton_append]

/-- A worker of a pool that drains the back runs the whole queue from its back. -/
theorem Thread_Pool.looper_drains_back (invoke : F → Except Err R) :
    ∀ (n : Nat) (ts : List (packaged_task F)) (TP : Thread_Pool F R), ts.length = n →
      TP.tasks = ts → TP.done = false → TP.work_end ≠ 'f' →
      Thread_Pool.looper invoke n TP = (false, { TP with
        tasks := [], shared := ts.map (packaged_task.outcome invoke) ++ TP.shared }) := by
  intro n
  induction n with
  | zero =>
    intro ts TP hl h _ _
    have : ts = [] := List.length_eq_zero.mp hl
    subst this
    obtain ⟨a, b, c, d, e, f, g⟩ := TP
    simp only at h
    subst h
    rfl
  | succ n ih =>
    intro ts TP hl h hd hw
    rcases List.eq_nil_or_concat ts with rfl | ⟨init, t, rfl⟩
    · simp at hl
    · rw [List.concat_eq_append] at h hl
      rw [Thread_Pool.looper_succ invoke _ TP hd,
        Thread_Pool.looper_step_back invoke TP init t h hw,
        ih init { TP with tasks := init, shared := t.outcome invoke :: TP.shared }
          (by simpa using hl) rfl hd hw]
      simp only [List.concat_eq_append, List.map_append, List.map_cons, List.map_nil,
        List.append_assoc, List.singleton_append]

theorem packaged_all_length (s : Nat) (fs : List F) : (packaged_all s fs).length = fs.length := by
  induction fs generalizing s with
  | nil => rfl
  | cons f fs ih => simp only [packaged_all, List.length_cons, ih]

/-- What one worker has executed after as many passes as tasks were submitted to the front of
an empty queue. -/
theorem Thread_Pool.front_loaded_run (invoke : F → Except Err R) (TP : Thread_Pool F R)
    (fs : List F) (hq : TP.tasks = []) (hd : TP.done = false) :
    (TP.work_end = 'f' →
      (Thread_Pool.looper invoke fs.length (TP.load_front_all fs).2).2.executed =
        TP.executed ++ ((TP.load_front_all fs).1.zip (fs.map invoke)).reverse) ∧
    (TP.work_end ≠ 'f' →
      (Thread_Pool.looper invoke fs.length (TP.load_front_all fs).2).2.executed =
        TP.executed ++ (TP.load_front_all fs).1.zip (fs.map invoke)) ∧
    (Thread_Pool.looper invoke fs.length (TP.load_front_all fs).2).2.tasks = [] := by
  rw [Thread_Pool.load_front_all_spec, hq, List.append_nil]
  have hlen : ((packaged_all TP.next_state fs).reverse).length = fs.length := by
    rw [List.length_reverse, packaged_all_length]
  by_cases hw : TP.work_end = 'f'
  · have h := Thread_Pool.looper_drains_front invoke (packaged_all TP.next_state fs).reverse
      { TP with tasks := (packaged_all TP.next_state fs).reverse,
                next_state := TP.next_state + fs.length } rfl hd hw
    rw [hlen] at h
    rw [h]
    refine ⟨fun _ => ?_, fun h2 => absurd hw h2, rfl⟩
    simp only [Thread_Pool.executed, List.map_reverse, List.reverse_reverse, List.reverse_append,
      packaged_all_outcome]
  · have h := Thread_Pool.looper_drains_back invoke fs.length
      (packaged_all TP.next_state fs).reverse
      { TP with tasks := (packaged_all TP.next_state fs).reverse,
                next_state := TP.next_state + fs.length } hlen rfl hd hw
    rw [h]
    refine ⟨fun h2 => absurd h2 hw, fun _ => ?_, rfl⟩
    simp only [Thread_Pool.executed, List.map_reverse, List.reverse_reverse, List.reverse_append,
      packaged_all_outcome]

/-- What one worker has executed after as many passes as tasks were submitted to the back of
an empty queue. -/
theorem Thread_Pool.back_loaded_run (invoke : F → Except Err R) (TP : Thread_Pool F R)
    (fs : List F) (hq : TP.tasks = []) (hd : TP.done = false) :
    (TP.work_end = 'f' →
      (Thread_Pool.looper invoke fs.length (TP.load_back_all fs).2).2.executed =
        TP.executed ++ (TP.load_back_all fs).1.zip (fs.map invoke)) ∧
    (TP.work_end ≠ 'f' →
      (Thread_Pool.looper invoke fs.length (TP.load_back_all fs).2).2.executed =
        TP.executed ++ ((TP.load_back_all fs).1.zip (fs.map invoke)).reverse) ∧
    (Thread_Pool.looper invoke fs.length (TP.load_back_all fs).2).2.tasks = [] := by
  rw [Thread_Pool.load_back_all_spec, hq, List.nil_append]
  have hlen : (packaged_all TP.next_state fs).length = fs.length := packaged_all_length _ _
  by_cases hw : TP.work_end = 'f'
  · have h := Thread_Pool.looper_drains_front invoke (packaged_all TP.next_state fs)
      { TP with tasks := packaged_all TP.next_state fs,
                next_state := TP.next_state + fs.length } rfl hd hw
    rw [hlen] at h
    rw [h]
    refine ⟨fun _ => ?_, fun h2 => absurd hw h2, rfl⟩
    simp only [Thread_Pool.executed, List.reverse_reverse, List.reverse_append,
      packaged_all_outcome]
  · have h := Thread_Pool.looper_drains_back invoke fs.length (packaged_all TP.next_state fs)
      { TP with tasks := packaged_all TP.next_state fs,
                next_state := TP.next_state + fs.length } hlen rfl hd hw
    rw [h]
    refine ⟨fun h2 => absurd h2 hw, fun _ => ?_, rfl⟩
    simp only [Thread_Pool.executed, List.reverse_append, packaged_all_outcome]

/-- C12: from an empty queue, callables `fs = [T1, ..., TN]` are submitted in that order with
`load_front`, which returns the futures `s, s + 1, ...` in that order; one worker then makes
`N` passes through `looper`. If the pool drains the front (`work_end` is `'f'`), what the
worker has executed, oldest first, is `TN, ..., T1`, each writing what its own callable
returns to its own shared state; if the pool drains the back, it is `T1, ..., TN`. In both
cases the queue is empty afterwards. -/
theorem C12_front_submissions_one_worker (invoke : F → Except Err R) (TP : Thread_Pool F R)
    (fs : List F) (hq : TP.tasks = []) (hd : TP.done = false) :
    (TP.load_front_all fs).1 = List.range' TP.next_state fs.length ∧
    (TP.work_end = 'f' →
      (Thread_Pool.looper invoke fs.length (TP.load_front_all fs).2).2.executed =
        TP.executed ++ ((TP.load_front_all fs).1.zip (fs.map invoke)).reverse) ∧
    (TP.work_end ≠ 'f' →
      (Thread_Pool.looper invoke fs.length (TP.load_front_all fs).2).2.executed =
        TP.executed ++ (TP.load_front_all fs).1.zip (fs.map invoke)) ∧
    (Thread_Pool.looper invoke fs.length (TP.load_front_all fs).2).2.tasks = [] :=
  ⟨by rw [Thread_Pool.load_front_all_spec], Thread_Pool.front_loaded_run invoke TP fs hq hd⟩

theorem C12_witness :
    (front_pool.tasks = [] ∧ front_pool.done = false) ∧
    (front_pool.load_front_all [1, 2, 3]).1 = List.range' front_pool.next_state [1, 2, 3].length ∧
    (front_pool.work_end = 'f' →
      (Thread_Pool.looper demo_task [1, 2, 3].length
          (front_pool.load_front_all [1, 2, 3]).2).2.executed =
        front_pool.executed ++
          ((front_pool.load_front_all [1, 2, 3]).1.zip ([1, 2, 3].map demo_task)).reverse) ∧
    (front_pool.work_end ≠ 'f' →
      (Thread_Pool.looper demo_task [1, 2, 3].length
          (front_pool.load_front_all [1, 2, 3]).2).2.executed =
        front_pool.executed ++
          (front_pool.load_front_all [1, 2, 3]).1.zip ([1, 2, 3].map demo_task)) ∧
    (Thread_Pool.looper demo_task [1, 2, 3].length
      (front_pool.load_front_all [1, 2, 3]).2).2.tasks = [] :=
  ⟨⟨rfl, rfl⟩, C12_front_submissions_one_worker demo_task front_pool [1, 2, 3] rfl rfl⟩

/-- C13, the claim as stated fails: two callables submitted with `load_back` to the fresh
pool that drains the front are executed by its one worker in the order of submission, not in
the reverse order; submitted to the fresh pool that drains the back, they are executed in the
reverse order, not in the order of submission. -/
theorem C13_counterexample :
    (front_pool.load_back_all [10, 20]).1 = [0, 1] ∧
    (Thread_Pool.looper demo_task 2 (front_pool.load_back_all [10, 20]).2).2.executed =
      [(0, .ok 10), (1, .ok 20)] ∧
    (Thread_Pool.looper demo_task 2 (front_pool.load_back_all [10, 20]).2).2.executed ≠
      [(1, .ok 20), (0, .ok 10)] ∧
    (back_pool.load_back_all [10, 20]).1 = [0, 1] ∧
    (Thread_Pool.looper demo_task 2 (back_pool.load_back_all [10, 20]).2).2.executed =
      [(1, .ok 20), (0, .ok 10)] ∧
    (Thread_Pool.looper demo_task 2 (back_pool.load_back_all [10, 20]).2).2.executed ≠
      [(0, .ok 10), (1, .ok 20)] := by
  decide

/-- C13, amended: from an empty queue, with one worker making as many passes as there were
submissions after all of them, the order of execution is fixed by the end of submission and
the end drained together. Callables submitted with `load_front` are executed in the reverse
order of submission by a pool that drains the front and in the order of submission by a pool
that drains the back; callables submitted with `load_back` are executed in the order of
submission by a pool that drains the front and in the reverse order by a pool that drains
the back. -/
theorem C13_order_fixed_by_both_ends (invoke : F → Except Err R) (TP : Thread_Pool F R)
    (fs : List F) (hq : TP.tasks = []) (hd : TP.done = false) :
    (TP.work_end = 'f' →
      (Thread_Pool.looper invoke fs.length (TP.load_front_all fs).2).2.executed =
          TP.executed ++ ((TP.load_front_all fs).1.zip (fs.map invoke)).reverse ∧
      (Thread_Pool.looper invoke fs.length (TP.load_back_all fs).2).2.executed =
          TP.executed ++ (TP.load_back_all fs).1.zip (fs.map invoke)) ∧
    (TP.work_end ≠ 'f' →
      (Thread_Pool.looper invoke fs.length (TP.load_front_all fs).2).2.executed =
          TP.executed ++ (TP.load_front_all fs).1.zip (fs.map invoke) ∧
      (Thread_Pool.looper invoke fs.length (TP.load_back_all fs).2).2.executed =
          TP.executed ++ ((TP.load_back_all fs).1.zip (fs.map invoke)).reverse) ∧
    (TP.load_front_all fs).1 = List.range' TP.next_state fs.length ∧
    (TP.load_back_all fs).1 = List.range' TP.next_state fs.length :=
  have hf := Thread_Pool.front_loaded_run invoke TP fs hq hd
  have hb := Thread_Pool.back_loaded_run invoke TP fs hq hd
  ⟨fun hw => ⟨hf.1 hw, hb.1 hw⟩, fun hw => ⟨hf.2.1 hw, hb.2.1 hw⟩,
    by rw [Thread_Pool.load_front_all_spec], by rw [Thread_Pool.load_back_all_spec]⟩

theorem C13_witness :
    (back_pool.tasks = [] ∧ back_pool.done = false) ∧
    (back_pool.work_end = 'f' →
      (Thread_Pool.looper demo_task [1, 0, 3].length
          (back_pool.load_front_all [1, 0, 3]).2).2.executed =
        back_pool.executed ++
          ((back_pool.load_front_all [1, 0, 3]).1.zip ([1, 0, 3].map demo_task)).reverse ∧
      (Thread_Pool.looper demo_task [1, 0, 3].length
          (back_pool.load_back_all [1, 0, 3]).2).2.executed =
        back_pool.executed ++
          (back_pool.load_back_all [1, 0, 3]).1.zip ([1, 0, 3].map demo_task)) ∧
    (back_pool.work_end ≠ 'f' →
      (Thread_Pool.looper demo_task [1, 0, 3].length
          (back_pool.load_front_all [1, 0, 3]).2).2.executed =
        back_pool.executed ++
          (back_pool.load_front_all [1, 0, 3]).1.zip ([1, 0, 3].map demo_task) ∧
      (Thread_Pool.looper demo_task [1, 0, 3].length
          (back_pool.load_back_all [1, 0, 3]).2).2.executed =
        back_pool.executed ++
          ((back_pool.load_back_all [1, 0, 3]).1.zip ([1, 0, 3].map demo_task)).reverse) ∧
    (back_pool.load_front_all [1, 0, 3]).1 = List.range' back_pool.next_state [1, 0, 3].length ∧
    (back_pool.load_back_all [1, 0, 3]).1 = List.range' back_pool.next_state [1, 0, 3].length :=
  ⟨⟨rfl, rfl⟩, C13_order_fixed_by_both_ends demo_task back_pool [1, 0, 3] rfl rfl⟩

end pool_order

/-! ## Futures and their tasks -/

section pool_futures
variable {F R : Type}

theorem Thread_Pool.load_back_inv (TP : Thread_Pool F R) (f : F) (h : TP.Inv) :
    (TP.load_back f).2.Inv := by
  obtain ⟨h1, h2, h3, h4, h5, h6⟩ := h
  refine ⟨h1, h2, ?_, ?_, ?_, ?_⟩
  · simp only [Thread_Pool.load_back, List.map_append, List.map_cons, List.map_nil]
    refine List.nodup_append.mpr ⟨h3, List.nodup_singleton _, ?_⟩
    intro a ha hb
    obtain ⟨t, ht, e⟩ := List.mem_map.mp ha
    have := h4 t ht
    simp only [List.mem_singleton] at hb
    omega
  · intro t ht
    simp only [Thread_Pool.load_back, List.mem_append, List.mem_singleton] at ht ⊢
    rcases ht with ht | rfl
    · have := h4 t ht; omega
    · simp
  · intro e he
    have := h5 e he
    simp only [Thread_Pool.load_back]; omega
  · intro t ht e he
    simp only [Thread_Pool.load_back, List.mem_append, List.mem_singleton] at ht he
    rcases ht with ht | rfl
    · exact h6 t ht e he
    · have := h5 e he; simp only; omega

theorem Thread_Pool.load_back_holds_new (invoke : F → Except Err R) (TP : Thread_Pool F R)
    (f : F) : (TP.load_back f).2.Holds invoke (TP.load_back f).1 f :=
  Or.inl ⟨⟨TP.next_state, f⟩, by simp [Thread_Pool.load_back], rfl, rfl⟩

theorem Thread_Pool.load_back_holds_old (invoke : F → Except Err R) (TP : Thread_Pool F R)
    (f : F) {fut : Nat} {g : F} (h : TP.Holds invoke fut g) :
    (TP.load_back f).2.Holds invoke fut g := by
  rcases h with ⟨t, ht, e1, e2⟩ | h
  · exact Or.inl ⟨t, by simp [Thread_Pool.load_back, ht], e1, e2⟩
  · exact Or.inr h

theorem Thread_Pool.work_front_spec (invoke : F → Except Err R) (TP : Thread_Pool F R)
    (h : TP.Inv) :
    (TP.work_front invoke).2.Inv ∧
      ∀ fut g, TP.Holds invoke fut g → (TP.work_front invoke).2.Holds invoke fut g := by
  have hnd := h.2.2.1
  unfold Thread_Pool.work_front
  cases htk : TP.tasks with
  | nil => exact ⟨h, fun _ _ hg => hg⟩
  | cons t rest =>
    rw [htk] at hnd
    simp only [List.map_cons, List.nodup_cons, List.mem_map, not_exists, not_and] at hnd
    exact Thread_Pool.perform_step invoke TP t rest h
      (by intro u; rw [htk]; exact List.mem_cons) hnd.2 (fun u hu e => hnd.1 u hu e)

theorem Thread_Pool.work_back_spec (invoke : F → Except Err R) (TP : Thread_Pool F R)
    (h : TP.Inv) :
    (TP.work_back invoke).2.Inv ∧
      ∀ fut g, TP.Holds invoke fut g → (TP.work_back invoke).2.Holds invoke fut g := by
  have hnd := h.2.2.1
  unfold Thread_Pool.work_back
  cases hlast : TP.tasks.getLast? with
  | none => exact ⟨h, fun _ _ hg => hg⟩
  | some t =>
    have hsplit : TP.tasks.dropLast ++ [t] = TP.tasks :=
      List.dropLast_append_getLast? t (by rw [hlast]; exact rfl)
    rw [← hsplit] at hnd
    simp only [List.map_append, List.map_cons, List.map_nil] at hnd
    have hnd2 := List.nodup_append.mp hnd
    exact Thread_Pool.perform_step invoke TP t TP.tasks.dropLast h
      (by
        intro u
        conv_lhs => rw [← hsplit]
        simp only [List.mem_append, List.mem_singleton]
        exact Or.comm)
      hnd2.1
      (by
        intro u hu e
        exact hnd2.2.2 (List.mem_map.mpr ⟨u, hu, rfl⟩) (by simp [e]))

/-- Every call keeps the pool in order and keeps every future paired with its callable. -/
theorem Thread_Pool.call_spec (invoke : F → Except Err R) (TP : Thread_Pool F R)
    (c : Pool_Call F) (h : TP.Inv) :
    (TP.call invoke c).Inv ∧
      ∀ fut g, TP.Holds invoke fut g → (TP.call invoke c).Holds invoke fut g := by
  cases c with
  | load_front f =>
    exact ⟨TP.load_front_inv f h, fun _ _ hg => Thread_Pool.load_front_holds_old invoke TP f hg⟩
  | load_back f =>
    exact ⟨TP.load_back_inv f h, fun _ _ hg => Thread_Pool.load_back_holds_old invoke TP f hg⟩
  | work_front => exact Thread_Pool.work_front_spec invoke TP h
  | work_back => exact Thread_Pool.work_back_spec invoke TP h
  | is_empty => exact ⟨h, fun _ _ hg => hg⟩
  | set_work_end e => exact ⟨h, fun _ _ hg => hg⟩
  | set_time_to_sleep t => exact ⟨h, fun _ _ hg => hg⟩
  | looper_pass =>
    simp only [Thread_Pool.call, h.1, Bool.false_eq_true, if_false, Thread_Pool.looper_step]
    by_cases hw : TP.work_end = 'f'
    · rw [if_pos hw]; exact Thread_Pool.work_front_spec invoke TP h
    · rw [if_neg hw]; exact Thread_Pool.work_back_spec invoke TP h

theorem Thread_Pool.calls_spec (invoke : F → Except Err R) (cs : List (Pool_Call F)) :
    ∀ TP : Thread_Pool F R, TP.Inv →
      (TP.calls invoke cs).Inv ∧
        ∀ fut g, TP.Holds invoke fut g → (TP.calls invoke cs).Holds invoke fut g := by
  induction cs with
  | nil => exact fun TP h => ⟨h, fun _ _ hg => hg⟩
  | cons c cs ih =>
    intro TP h
    obtain ⟨i1, i2⟩ := Thread_Pool.call_spec invoke TP c h
    obtain ⟨j1, j2⟩ := ih (TP.call invoke c) i1
    exact ⟨j1, fun fut g hg => j2 fut g (i2 fut g hg)⟩

/-- Reading a future that stands for `f` gives what `f` gives, value or error, once the
workers have run enough of the queue; the other futures keep standing for their callables. -/
theorem Thread_Pool.future_get_own (invoke : F → Except Err R) (fut : Nat) (f : F) :
    ∀ (fuel : Nat) (TP : Thread_Pool F R), TP.Inv → TP.Holds invoke fut f →
      TP.tasks.length ≤ fuel →
      ∃ TP', Thread_Pool.future_get invoke fut fuel TP = (invoke f).map (fun v => (v, TP')) ∧
        TP'.Inv ∧ ∀ fut' g, TP.Holds invoke fut' g → TP'.Holds invoke fut' g := by
  intro fuel
  induction fuel with
  | zero =>
    intro TP hinv hh hlen
    have hnil : TP.tasks = [] := List.length_eq_zero.mp (by omega)
    rcases hh with ⟨t, ht, _, _⟩ | hh
    · rw [hnil] at ht; exact absurd ht (List.not_mem_nil t)
    · refine ⟨TP, ?_, hinv, fun _ _ h => h⟩
      unfold Thread_Pool.future_get
      rw [hh]
      cases invoke f <;> rfl
  | succ fuel ih =>
    intro TP hinv hh hlen
    cases hl : TP.shared.lookup fut with
    | some res =>
      have hres : res = invoke f := by
        rcases hh with ⟨t, ht, e1, _⟩ | hh
        · have := lookup_eq_none_of_ne TP.shared t.state (fun x hx => hinv.2.2.2.2.2 t ht x hx)
          rw [e1, hl] at this
          exact Option.noConfusion this
        · rw [hl] at hh
          exact Option.some.inj hh
      refine ⟨TP, ?_, hinv, fun _ _ h => h⟩
      unfold Thread_Pool.future_get
      rw [hl, hres]
      cases invoke f <;> rfl
    | none =>
      have hpend : TP.tasks ≠ [] := by
        rcases hh with ⟨t, ht, _, _⟩ | hh
        · exact List.ne_nil_of_mem ht
        · rw [hl] at hh; exact Option.noConfusion hh
      obtain ⟨i1, i2, i3⟩ := Thread_Pool.looper_step_spec invoke TP hinv hpend
      obtain ⟨TP', e, j1, j2⟩ := ih (TP.looper_step invoke) i1 (i2 fut f hh) (by omega)
      refine ⟨TP', ?_, j1, fun fut' g h => j2 fut' g (i2 fut' g h)⟩
      unfold Thread_Pool.future_get
      have hblock : ¬ (TP.done = true ∨ TP.thread_number = 0 ∨ TP.tasks.isEmpty = true) := by
        rintro (h | h | h)
        · rw [hinv.1] at h; exact Bool.noConfusion h
        · have := hinv.2.1; omega
        · exact hpend (List.isEmpty_iff.mp h)
      rw [hl]
      simp only [hblock, if_false]
      exact e

/-- Reading a future whose shared state has been written gives what was written, at once. -/
theorem Thread_Pool.future_get_written (invoke : F → Except Err R) (fut : Nat)
    (res : Except Err R) (TP : Thread_Pool F R) (h : TP.shared.lookup fut = some res)
    (fuel : Nat) :
    Thread_Pool.future_get invoke fut fuel TP = res.map (fun v => (v, TP)) := by
  cases fuel <;> (unfold Thread_Pool.future_get; rw [h]; cases res <;> rfl)

/-- Under the invariant, a future that stands for `f` and whose task is no longer queued has
the result of `f` in its shared state. -/
theorem Thread_Pool.holds_executed (invoke : F → Except Err R) (TP : Thread_Pool F R)
    (fut : Nat) (f : F) (hh : TP.Holds invoke fut f) (hx : ∀ t ∈ TP.tasks, t.state ≠ fut) :
    TP.shared.lookup fut = some (invoke f) := by
  rcases hh with ⟨t, ht, e1, _⟩ | hh
  · exact absurd e1 (hx t ht)
  · exact hh

/-- C14: a callable `f` is submitted to a pool in order with `load_front` or with `load_back`
(`sub` is what the submission returns: the future and the pool), and any calls `cs` follow:
other submissions to either end, changes of the end drained, passes of the workers, whatever
the other callables return. Then, once no queued task has the shared state of the future, that
is once the task was executed, the shared state holds what `invoke f` gives and `get` returns
it at once; and in any case `get` returns what `invoke f` gives after the workers have run:
the value if `f` returns one, the error if `f` throws, and nothing of another task. The pool
of `Thread_Pool_G.hpp` is this pool (see `Thread_Pool_G`). -/
theorem C14_future_yields_own_result (invoke : F → Except Err R) (TP : Thread_Pool F R) (f : F)
    (cs : List (Pool_Call F)) (sub : Nat × Thread_Pool F R) (hinv : TP.Inv)
    (hsub : sub = TP.load_front f ∨ sub = TP.load_back f) :
    ((∀ t ∈ (sub.2.calls invoke cs).tasks, t.state ≠ sub.1) →
      (sub.2.calls invoke cs).shared.lookup sub.1 = some (invoke f) ∧
      (sub.2.calls invoke cs).get invoke sub.1 =
        (invoke f).map (fun v => (v, sub.2.calls invoke cs))) ∧
    ∃ TP', (sub.2.calls invoke cs).get invoke sub.1 = (invoke f).map (fun v => (v, TP')) := by
  have h0 : sub.2.Inv ∧ sub.2.Holds invoke sub.1 f := by
    rcases hsub with rfl | rfl
    · exact ⟨TP.load_front_inv f hinv, Thread_Pool.load_front_holds_new invoke TP f⟩
    · exact ⟨TP.load_back_inv f hinv, Thread_Pool.load_back_holds_new invoke TP f⟩
  obtain ⟨i1, i2⟩ := Thread_Pool.calls_spec invoke cs sub.2 h0.1
  have hh := i2 sub.1 f h0.2
  constructor
  · intro hx
    have hl := Thread_Pool.holds_executed invoke _ sub.1 f hh hx
    exact ⟨hl, Thread_Pool.future_get_written invoke sub.1 (invoke f) _ hl _⟩
  · obtain ⟨TP', e, _⟩ := Thread_Pool.future_get_own invoke sub.1 f
      (sub.2.calls invoke cs).tasks.length _ i1 hh (Nat.le_refl _)
    exact ⟨TP', e⟩

theorem C14_witness :
    (front_pool.Inv ∧
      (front_pool.load_back 0 = front_pool.load_front 0 ∨
        front_pool.load_back 0 = front_pool.load_back 0)) ∧
    ((∀ t ∈ ((front_pool.load_back 0).2.calls demo_task
          [.load_front 5, .looper_pass, .looper_pass]).tasks,
        t.state ≠ (front_pool.load_back 0).1) →
      ((front_pool.load_back 0).2.calls demo_task
          [.load_front 5, .looper_pass, .looper_pass]).shared.lookup (front_pool.load_back 0).1 =
        some (demo_task 0) ∧
      ((front_pool.load_back 0).2.calls demo_task
          [.load_front 5, .looper_pass, .looper_pass]).get demo_task (front_pool.load_back 0).1 =
        (demo_task 0).map (fun v => (v, (front_pool.load_back 0).2.calls demo_task
          [.load_front 5, .looper_pass, .looper_pass]))) ∧
    ∃ TP', ((front_pool.load_back 0).2.calls demo_task
          [.load_front 5, .looper_pass, .looper_pass]).get demo_task (front_pool.load_back 0).1 =
        (demo_task 0).map (fun v => (v, TP')) :=
  ⟨⟨Thread_Pool.new_inv 1 'f' 2 (by decide), Or.inr rfl⟩,
    C14_future_yields_own_result demo_task front_pool 0
      [.load_front 5, .looper_pass, .looper_pass] (front_pool.load_back 0)
      (Thread_Pool.new_inv 1 'f' 2 (by decide)) (Or.inr rfl)⟩

end pool_futures

/-! ## Errors of tasks, shutdown and emptiness -/

section pool_worker
variable {F R : Type}

theorem Thread_Pool.work_front_cons (invoke : F → Except Err R) (TP : Thread_Pool F R)
    (t : packaged_task F) (rest : List (packaged_task F)) (h : TP.tasks = t :: rest) :
    TP.work_front invoke =
      (true, { TP with tasks := rest, shared := (t.state, invoke t.f) :: TP.shared }) := by
  simp only [Thread_Pool.work_front, h, packaged_task.perform]

theorem Thread_Pool.work_back_concat (invoke : F → Except Err R) (TP : Thread_Pool F R)
    (init : List (packaged_task F)) (t : packaged_task F) (h : TP.tasks = init ++ [t]) :
    TP.work_back invoke =
      (true, { TP with tasks := init, shared := (t.state, invoke t.f) :: TP.shared }) := by
  have hlast : (init ++ [t]).getLast? = some t := by simp
  simp only [Thread_Pool.work_back, h, hlast, packaged_task.perform, List.dropLast_concat]

/-- C15: a worker takes the task `t` whose callable throws `e`, from the front with
`work_front` or from the back with `work_back`. The call returns `true` and a pool, not an
error: the task has left the queue and `e` is in its shared state. Reading the future of `t`
raises `e`, whenever it is read. A worker of a pool that is not shut down, whose pass made
that call, is then in `looper` as before, with the rest of the queue; and its next call takes
the next pending task `u` and returns `true`. -/
theorem C15_error_stays_in_future (invoke : F → Except Err R) (TP : Thread_Pool F R)
    (t : packaged_task F) (rest : List (packaged_task F)) (e : Err)
    (he : invoke t.f = .error e) :
    (TP.tasks = t :: rest →
      TP.work_front invoke =
        (true, { TP with tasks := rest, shared := (t.state, .error e) :: TP.shared }) ∧
      (∀ fuel, Thread_Pool.future_get invoke t.state fuel (TP.work_front invoke).2 = .error e) ∧
      (TP.done = false → TP.work_end = 'f' → ∀ n, Thread_Pool.looper invoke (n + 1) TP =
        Thread_Pool.looper invoke n (TP.work_front invoke).2) ∧
      (∀ u rest', rest = u :: rest' → (TP.work_front invoke).2.work_front invoke =
        (true, { TP with tasks := rest', shared :=
          (u.state, invoke u.f) :: (t.state, .error e) :: TP.shared }))) ∧
    (TP.tasks = rest ++ [t] →
      TP.work_back invoke =
        (true, { TP with tasks := rest, shared := (t.state, .error e) :: TP.shared }) ∧
      (∀ fuel, Thread_Pool.future_get invoke t.state fuel (TP.work_back invoke).2 = .error e) ∧
      (TP.done = false → TP.work_end ≠ 'f' → ∀ n, Thread_Pool.looper invoke (n + 1) TP =
        Thread_Pool.looper invoke n (TP.work_back invoke).2) ∧
      (∀ u rest', rest = rest' ++ [u] → (TP.work_back invoke).2.work_back invoke =
        (true, { TP with tasks := rest', shared :=
          (u.state, invoke u.f) :: (t.state, .error e) :: TP.shared }))) := by
  constructor
  · intro h
    have hw := Thread_Pool.work_front_cons invoke TP t rest h
    rw [he] at hw
    refine ⟨hw, ?_, ?_, ?_⟩
    · intro fuel
      rw [hw]
      exact Thread_Pool.future_get_written invoke t.state (.error e) _ List.lookup_cons_self fuel
    · intro hd hf n
      rw [Thread_Pool.looper_succ invoke n TP hd, Thread_Pool.looper_step, if_pos hf]
    · intro u rest' hr
      rw [hw]
      exact Thread_Pool.work_front_cons invoke _ u rest' hr
  · intro h
    have hw := Thread_Pool.work_back_concat invoke TP rest t h
    rw [he] at hw
    refine ⟨hw, ?_, ?_, ?_⟩
    · intro fuel
      rw [hw]
      exact Thread_Pool.future_get_written invoke t.state (.error e) _ List.lookup_cons_self fuel
    · intro hd hf n
      rw [Thread_Pool.looper_succ invoke n TP hd, Thread_Pool.looper_step, if_neg hf]
    · intro u rest' hr
      rw [hw]
      exact Thread_Pool.work_back_concat invoke _ rest' u hr

theorem C15_witness :
    demo_task (⟨0, 0⟩ : packaged_task Nat).f = .error .incorrect_product ∧
    ((front_pool.load_front_all [7, 0]).2.tasks = ⟨1, 0⟩ :: [⟨0, 7⟩] ∧
      (front_pool.load_front_all [7, 0]).2.done = false ∧
      (front_pool.load_front_all [7, 0]).2.work_end = 'f') ∧
    (front_pool.load_front_all [7, 0]).2.work_front demo_task =
      (true, { (front_pool.load_front_all [7, 0]).2 with
        tasks := [⟨0, 7⟩], shared := [(1, .error .incorrect_product)] }) ∧
    (∀ fuel, Thread_Pool.future_get demo_task 1 fuel
      ((front_pool.load_front_all [7, 0]).2.work_front demo_task).2 =
        .error .incorrect_product) ∧
    (∀ n, Thread_Pool.looper demo_task (n + 1) (front_pool.load_front_all [7, 0]).2 =
      Thread_Pool.looper demo_task n
        ((front_pool.load_front_all [7, 0]).2.work_front demo_task).2) ∧
    ((front_pool.load_front_all [7, 0]).2.work_front demo_task).2.work_front demo_task =
      (true, { (front_pool.load_front_all [7, 0]).2 with
        tasks := [], shared := [(0, .ok 7), (1, .error .incorrect_product)] }) :=
  have h := (C15_error_stays_in_future demo_task (front_pool.load_front_all [7, 0]).2
    ⟨1, 0⟩ [⟨0, 7⟩] .incorrect_product rfl).1 rfl
  ⟨rfl, ⟨rfl, rfl, rfl⟩, h.1, h.2.1, h.2.2.1 rfl rfl, h.2.2.2 ⟨0, 7⟩ [] rfl⟩

theorem Thread_Pool.work_front_frame (invoke : F → Except Err R) (TP : Thread_Pool F R) :
    (TP.work_front invoke).2.done = TP.done ∧
      (TP.work_front invoke).2.next_state = TP.next_state ∧
      (TP.work_front invoke).2.work_end = TP.work_end := by
  unfold Thread_Pool.work_front
  cases TP.tasks <;> exact ⟨rfl, rfl, rfl⟩

theorem Thread_Pool.work_back_frame (invoke : F → Except Err R) (TP : Thread_Pool F R) :
    (TP.work_back invoke).2.done = TP.done ∧
      (TP.work_back invoke).2.next_state = TP.next_state ∧
      (TP.work_back invoke).2.work_end = TP.work_end := by
  unfold Thread_Pool.work_back
  cases TP.tasks.getLast? <;> exact ⟨rfl, rfl, rfl⟩

theorem Thread_Pool.looper_step_frame (invoke : F → Except Err R) (TP : Thread_Pool F R) :
    (TP.looper_step invoke).done = TP.done ∧
      (TP.looper_step invoke).next_state = TP.next_state ∧
      (TP.looper_step invoke).work_end = TP.work_end := by
  unfold Thread_Pool.looper_step
  by_cases hw : TP.work_end = 'f'
  · rw [if_pos hw]; exact Thread_Pool.work_front_frame invoke TP
  · rw [if_neg hw]; exact Thread_Pool.work_back_frame invoke TP

theorem Thread_Pool.call_done (invoke : F → Except Err R) (TP : Thread_Pool F R)
    (c : Pool_Call F) : (TP.call invoke c).done = TP.done := by
  cases c with
  | load_front f => rfl
  | load_back f => rfl
  | work_front => exact (Thread_Pool.work_front_frame invoke TP).1
  | work_back => exact (Thread_Pool.work_back_frame invoke TP).1
  | is_empty => rfl
  | set_work_end e => rfl
  | set_time_to_sleep t => rfl
  | looper_pass =>
    show (if TP.done then TP else TP.looper_step invoke).done = TP.done
    by_cases hd : TP.done = true
    · rw [if_pos hd]
    · rw [if_neg hd]; exact (Thread_Pool.looper_step_frame invoke TP).1

theorem Thread_Pool.looper_running (invoke : F → Except Err R) :
    ∀ (n : Nat) (TP : Thread_Pool F R), TP.done = false →
      (Thread_Pool.looper invoke n TP).1 = false ∧ (Thread_Pool.looper invoke n TP).2.done = false
  | 0, TP, hd => ⟨rfl, hd⟩
  | n + 1, TP, hd => by
    rw [Thread_Pool.looper_succ invoke n TP hd]
    exact Thread_Pool.looper_running invoke n _
      ((Thread_Pool.looper_step_frame invoke TP).1.trans hd)

/-- C18: the destructor sets `done` and leaves the queue and the shared states as they are;
no call of a member function and no pass of a worker changes `done`, so only the destructor
sets it (a constructor that fails sets it too, and returns no pool). Once `done` is set, a
worker that evaluates the condition of its loop leaves `looper` with the pool as it was: the
queued tasks are still queued and no shared state was written, whatever the number of
evaluations allowed. While `done` is not set, a worker has not left its loop after any number
of passes, and `done` is still not set. -/
theorem C18_shutdown_discards_pending (invoke : F → Except Err R) (TP : Thread_Pool F R) :
    (TP.destroy.done = true ∧ TP.destroy.tasks = TP.tasks ∧ TP.destroy.shared = TP.shared) ∧
    (∀ c : Pool_Call F, (TP.call invoke c).done = TP.done) ∧
    (TP.done = true → ∀ n, Thread_Pool.looper invoke (n + 1) TP = (true, TP)) ∧
    (∀ n, Thread_Pool.looper invoke (n + 1) TP.destroy = (true, TP.destroy) ∧
      (Thread_Pool.looper invoke (n + 1) TP.destroy).2.tasks = TP.tasks ∧
      (Thread_Pool.looper invoke (n + 1) TP.destroy).2.shared = TP.shared) ∧
    (TP.done = false → ∀ n, (Thread_Pool.looper invoke n TP).1 = false ∧
      (Thread_Pool.looper invoke n TP).2.done = false) := by
  refine ⟨⟨rfl, rfl, rfl⟩, Thread_Pool.call_done invoke TP, ?_, ?_, ?_⟩
  · intro hd n
    rw [Thread_Pool.looper, if_pos hd]
  · intro n
    have h : Thread_Pool.looper invoke (n + 1) TP.destroy = (true, TP.destroy) := by
      rw [Thread_Pool.looper, if_pos (show TP.destroy.done = true from rfl)]
    rw [h]
    exact ⟨rfl, rfl, rfl⟩
  · intro hd n
    exact Thread_Pool.looper_running invoke n TP hd

theorem Thread_Pool.work_front_length (invoke : F → Except Err R) (TP : Thread_Pool F R) :
    (TP.work_front invoke).2.tasks.length + (if (TP.work_front invoke).1 then 1 else 0) =
      TP.tasks.length := by
  unfold Thread_Pool.work_front
  cases h : TP.tasks with
  | nil => simp only [h]; rfl
  | cons t rest => rfl

theorem Thread_Pool.work_back_length (invoke : F → Except Err R) (TP : Thread_Pool F R) :
    (TP.work_back invoke).2.tasks.length + (if (TP.work_back invoke).1 then 1 else 0) =
      TP.tasks.length := by
  unfold Thread_Pool.work_back
  cases hl : TP.tasks.getLast? with
  | none => simp only [List.getLast?_eq_none_iff.mp hl]; rfl
  | some t =>
    have hsplit : TP.tasks.dropLast ++ [t] = TP.tasks :=
      List.dropLast_append_getLast? t (by rw [hl]; exact rfl)
    conv_rhs => rw [← hsplit]
    simp

/-- Each call changes the length of the queue by the submission it makes and the successful
step it makes. -/
theorem Thread_Pool.call_length (invoke : F → Except Err R) (TP : Thread_Pool F R)
    (c : Pool_Call F) :
    (TP.call invoke c).tasks.length + (if TP.works invoke c then 1 else 0) =
      TP.tasks.length + (if c.submits then 1 else 0) := by
  cases c with
  | load_front f => simp [Thread_Pool.call, Thread_Pool.works, Pool_Call.submits,
      Thread_Pool.load_front]
  | load_back f => simp [Thread_Pool.call, Thread_Pool.works, Pool_Call.submits,
      Thread_Pool.load_back]
  | work_front => exact Thread_Pool.work_front_length invoke TP
  | work_back => exact Thread_Pool.work_back_length invoke TP
  | is_empty => rfl
  | set_work_end e => rfl
  | set_time_to_sleep t => rfl
  | looper_pass =>
    simp only [Thread_Pool.call, Thread_Pool.works, Pool_Call.submits, Thread_Pool.looper_step]
    by_cases hd : TP.done = true
    · simp [hd]
    · by_cases hw : TP.work_end = 'f'
      · simp only [hd, hw, if_true, if_false]
        exact Thread_Pool.work_front_length invoke TP
      · simp only [hd, hw, if_false]
        exact Thread_Pool.work_back_length invoke TP

theorem Thread_Pool.calls_length (invoke : F → Except Err R) (cs : List (Pool_Call F)) :
    ∀ TP : Thread_Pool F R,
      (TP.calls invoke cs).tasks.length + TP.successes invoke cs =
        TP.tasks.length + submissions cs := by
  induction cs with
  | nil => intro TP; rfl
  | cons c cs ih =>
    intro TP
    have h1 := ih (TP.call invoke c)
    have h2 := Thread_Pool.call_length invoke TP c
    simp only [Thread_Pool.calls, Thread_Pool.successes, submissions, List.countP_cons] at h1 ⊢
    omega

/-- C19: `is_empty()` returns `true` exactly when the queue holds no task, and the pool after
the call is the pool before it. It returns `true` on a freshly constructed pool and `false`
right after any `load_front` or `load_back`. After any calls `cs` on a pool whose queue was
empty, it returns `true` exactly when the calls of `work_front` and `work_back` that returned
`true` are as many as the submissions, and never more were made. -/
theorem C19_is_empty_reads_the_queue (invoke : F → Except Err R) (TP : Thread_Pool F R)
    (cs : List (Pool_Call F)) (t_n t : Nat) (w_e : Char) (f : F) :
    (TP.is_empty = true ↔ TP.tasks = []) ∧
    TP.call invoke .is_empty = TP ∧
    (Thread_Pool.new t_n w_e t : Thread_Pool F R).is_empty = true ∧
    (Thread_Pool.new_default : Thread_Pool F R).is_empty = true ∧
    (TP.load_front f).2.is_empty = false ∧
    (TP.load_back f).2.is_empty = false ∧
    (TP.tasks = [] → TP.successes invoke cs ≤ submissions cs ∧
      ((TP.calls invoke cs).is_empty = true ↔ TP.successes invoke cs = submissions cs)) := by
  refine ⟨List.isEmpty_iff, rfl, rfl, rfl, rfl, ?_, ?_⟩
  · simp [Thread_Pool.is_empty, Thread_Pool.load_back]
  · intro hq
    have h := Thread_Pool.calls_length invoke cs TP
    rw [hq, List.length_nil] at h
    refine ⟨by omega, ?_⟩
    unfold Thread_Pool.is_empty
    rw [List.isEmpty_iff, ← List.length_eq_zero]
    omega

theorem C19_witness :
    (front_pool.is_empty = true ↔ front_pool.tasks = []) ∧
    front_pool.call demo_task .is_empty = front_pool ∧
    (Thread_Pool.new 2 'b' 2 : Thread_Pool Nat Nat).is_empty = true ∧
    (Thread_Pool.new_default : Thread_Pool Nat Nat).is_empty = true ∧
    (front_pool.load_front 3).2.is_empty = false ∧
    (front_pool.load_back 3).2.is_empty = false ∧
    (front_pool.tasks = [] →
      front_pool.successes demo_task [.load_front 1, .work_back, .work_back, .load_back 2,
        .looper_pass] ≤ submissions [.load_front 1, .work_back, .work_back, .load_back 2,
        .looper_pass] ∧
      ((front_pool.calls demo_task [.load_front 1, .work_back, .work_back, .load_back 2,
          .looper_pass]).is_empty = true ↔
        front_pool.successes demo_task [.load_front 1, .work_back, .work_back, .load_back 2,
          .looper_pass] = submissions [.load_front 1, .work_back, .work_back, .load_back 2,
          .looper_pass])) :=
  C19_is_empty_reads_the_queue demo_task front_pool
    [.load_front 1, .work_back, .work_back, .load_back 2, .looper_pass] 2 2 'b' 3

end pool_worker

/-! ## Submissions -/

theorem state_bind_eq_ok {σ α β : Type} {x : StateT σ (Except Err) α}
    {f : α → StateT σ (Except Err) β} {s s' : σ} {b : β} (h : (x >>= f).run s = .ok (b, s')) :
    ∃ a s1, x.run s = .ok (a, s1) ∧ (f a).run s1 = .ok (b, s') := by
  rw [StateT.run_bind] at h
  cases hx : x.run s with
  | error e => rw [hx] at h; exact Except.noConfusion h
  | ok r => rw [hx] at h; exact ⟨r.1, r.2, rfl, h⟩

theorem Traced.only_bind {α β : Type} {x : Traced α} {f : α → Traced β} (hx : Traced.Only x)
    (hf : ∀ a, Traced.Only (f a)) : Traced.Only (x >>= f) := by
  intro tr v tr' h
  obtain ⟨a, s1, e1, e2⟩ := state_bind_eq_ok h
  obtain ⟨o1, rfl, p1⟩ := hx tr a s1 e1
  obtain ⟨o2, rfl, p2⟩ := hf a _ v tr' e2
  refine ⟨o1 ++ o2, (List.append_assoc _ _ _), ?_⟩
  intro o ho
  rcases List.mem_append.mp ho with ho | ho
  · exact p1 o ho
  · exact p2 o ho

theorem Traced.only_traced {α : Type} (o : Op) (x : Except Err α) (ho : o.serial = true) :
    Traced.Only (traced o x) := by
  intro tr v tr' h
  cases x with
  | error e => exact Except.noConfusion h
  | ok a =>
    have h2 : (a, tr ++ [o]) = (v, tr') := Except.ok.inj h
    refine ⟨[o], (Prod.mk.inj h2).2.symm, ?_⟩
    intro o' ho'
    rw [List.mem_singleton.mp ho']
    exact ho

theorem Traced.only_untraced {α : Type} (x : Except Err α) : Traced.Only (untraced x) := by
  intro tr v tr' h
  cases x with
  | error e => exact Except.noConfusion h
  | ok a =>
    have h2 : (a, tr) = (v, tr') := Except.ok.inj h
    exact ⟨[], by rw [List.append_nil]; exact (Prod.mk.inj h2).2.symm,
      fun _ ho' => absurd ho' (List.not_mem_nil _)⟩

theorem Traced.only_pure {α : Type} (v : α) : Traced.Only (Pure.pure v : Traced α) := by
  intro tr v' tr' h
  have h2 : (v, tr) = (v', tr') := Except.ok.inj h
  exact ⟨[], by rw [List.append_nil]; exact (Prod.mk.inj h2).2.symm,
    fun _ ho' => absurd ho' (List.not_mem_nil _)⟩

theorem quadrants_only [Zero T] (A B : Matrix T) (n : Nat) : Traced.Only (quadrants A B n) := by
  unfold quadrants
  refine Traced.only_bind (Traced.only_traced _ _ rfl) (fun _ => ?_)
  refine Traced.only_bind (Traced.only_traced _ _ rfl) (fun _ => ?_)
  refine Traced.only_bind (Traced.only_traced _ _ rfl) (fun _ => ?_)
  refine Traced.only_bind (Traced.only_traced _ _ rfl) (fun _ => ?_)
  refine Traced.only_bind (Traced.only_traced _ _ rfl) (fun _ => ?_)
  refine Traced.only_bind (Traced.only_traced _ _ rfl) (fun _ => ?_)
  refine Traced.only_bind (Traced.only_traced _ _ rfl) (fun _ => ?_)
  refine Traced.only_bind (Traced.only_traced _ _ rfl) (fun _ => ?_)
  exact Traced.only_pure _

/-- The serial multiplier records operations of the serial multiplier only: it hands no task
to a pool and reads no future. -/
theorem Strassen.run_only [Zero T] [Add T] [Sub T] [Mul T] (r : Nat) :
    ∀ A B : Matrix T, Traced.Only (Strassen.run r A B) := by
  induction r with
  | zero =>
    intro A B
    rw [Strassen.run]
    exact Traced.only_bind (Traced.only_traced _ _ rfl) (fun _ => Traced.only_traced _ _ rfl)
  | succ r ih =>
    intro A B
    rw [Strassen.run]
    refine Traced.only_bind (Traced.only_traced _ _ rfl) (fun _ => ?_)
    by_cases hodd : A.rows % 2 ≠ 0
    · simp only [if_pos hodd]
      exact Traced.only_traced _ _ rfl
    · simp only [if_neg hodd]
      refine Traced.only_bind (quadrants_only _ _ _) (fun _ => ?_)
      refine Traced.only_bind (Traced.only_traced _ _ rfl) (fun _ => ?_)
      refine Traced.only_bind (Traced.only_traced _ _ rfl) (fun _ => ?_)
      refine Traced.only_bind
        (Traced.only_bind (Traced.only_traced _ _ rfl) (fun _ => ih _ _)) (fun _ => ?_)
      refine Traced.only_bind (Traced.only_traced _ _ rfl) (fun _ => ?_)
      refine Traced.only_bind
        (Traced.only_bind (Traced.only_traced _ _ rfl) (fun _ => ih _ _)) (fun _ => ?_)
      refine Traced.only_bind (Traced.only_traced _ _ rfl) (fun _ => ?_)
      refine Traced.only_bind
        (Traced.only_bind (Traced.only_traced _ _ rfl) (fun _ => ih _ _)) (fun _ => ?_)
      refine Traced.only_bind (Traced.only_traced _ _ rfl) (fun _ => ?_)
      refine Traced.only_bind
        (Traced.only_bind (Traced.only_traced _ _ rfl) (fun _ => ih _ _)) (fun _ => ?_)
      refine Traced.only_bind (Traced.only_traced _ _ rfl) (fun _ => ?_)
      refine Traced.only_bind
        (Traced.only_bind (Traced.only_traced _ _ rfl) (fun _ => ih _ _)) (fun _ => ?_)
      refine Traced.only_bind (Traced.only_traced _ _ rfl) (fun _ => ?_)
      refine Traced.only_bind (Traced.only_traced _ _ rfl) (fun _ => ?_)
      refine Traced.only_bind
        (Traced.only_bind (Traced.only_traced _ _ rfl) (fun _ => ih _ _)) (fun _ => ?_)
      refine Traced.only_bind (Traced.only_traced _ _ rfl) (fun _ => ?_)
      refine Traced.only_bind (Traced.only_traced _ _ rfl) (fun _ => ?_)
      refine Traced.only_bind
        (Traced.only_bind (Traced.only_traced _ _ rfl) (fun _ => ih _ _)) (fun _ => ?_)
      exact Traced.only_untraced _

theorem Thread_Pool.future_get_next_state {F R : Type} (invoke : F → Except Err R) (fut : Nat) :
    ∀ (fuel : Nat) (TP : Thread_Pool F R) (v : R) (TP' : Thread_Pool F R),
      Thread_Pool.future_get invoke fut fuel TP = .ok (v, TP') →
        TP'.next_state = TP.next_state := by
  intro fuel
  induction fuel with
  | zero =>
    intro TP v TP' h
    unfold Thread_Pool.future_get at h
    split at h
    · rw [(Prod.mk.inj (Except.ok.inj h)).2]
    · exact Except.noConfusion h
    · exact Except.noConfusion h
  | succ fuel ih =>
    intro TP v TP' h
    unfold Thread_Pool.future_get at h
    split at h
    · rw [(Prod.mk.inj (Except.ok.inj h)).2]
    · exact Except.noConfusion h
    · split at h
      · exact Except.noConfusion h
      · rw [ih _ v TP' h]
        exact (Thread_Pool.looper_step_frame invoke TP).2.1

theorem Par.submits_bind {α β : Type} {k1 k2 : Nat} {x : Par T α} {f : α → Par T β}
    (hx : Par.Submits k1 x) (hf : ∀ a, Par.Submits k2 (f a)) :
    Par.Submits (k1 + k2) (x >>= f) := by
  intro w v w' h
  obtain ⟨a, w1, e1, e2⟩ := state_bind_eq_ok h
  obtain ⟨o1, t1, n1, b1⟩ := hx w a w1 e1
  obtain ⟨o2, t2, n2, b2⟩ := hf a w1 v w' e2
  refine ⟨o1 ++ o2, ?_, ?_, ?_⟩
  · rw [t2, t1, List.append_assoc]
  · rw [n2, n1, List.count_append]; omega
  · rw [List.count_append]; omega

theorem Par.submits_mono {α : Type} {k k' : Nat} {x : Par T α} (hx : Par.Submits k x)
    (hk : k ≤ k') : Par.Submits k' x := by
  intro w v w' h
  obtain ⟨o, t, n, b⟩ := hx w v w' h
  exact ⟨o, t, n, by omega⟩

theorem Par.submits_bind_zero {α β : Type} {k : Nat} {x : Par T α} {f : α → Par T β}
    (hx : Par.Submits 0 x) (hf : ∀ a, Par.Submits k (f a)) : Par.Submits k (x >>= f) :=
  Par.submits_mono (Par.submits_bind hx hf) (by omega)

theorem Par.submits_bind_one {α β : Type} {k : Nat} {x : Par T α} {f : α → Par T β}
    (hx : Par.Submits 1 x) (hf : ∀ a, Par.Submits k (f a)) : Par.Submits (k + 1) (x >>= f) :=
  Par.submits_mono (Par.submits_bind hx hf) (by omega)

theorem Par.submits_traced {α : Type} (o : Op) (x : Except Err α) (ho : o ≠ .load_front) :
    Par.Submits 0 (Par.traced o x : Par T α) := by
  intro w v w' h
  cases x with
  | error e => exact Except.noConfusion h
  | ok a =>
    have h2 : (a, ({ w with trace := w.trace ++ [o] } : World T)) = (v, w') := Except.ok.inj h
    rw [← (Prod.mk.inj h2).2]
    refine ⟨[o], rfl, ?_, ?_⟩ <;> simp [List.count_singleton, ho]

/-- A traced step that returns is followed by what its value is followed by. -/
theorem Par.submits_bind_traced {α β : Type} {k : Nat} (o : Op) (x : Except Err α)
    {f : α → Par T β} (ho : o ≠ .load_front) (hf : ∀ a, x = .ok a → Par.Submits k (f a)) :
    Par.Submits k ((Par.traced o x : Par T α) >>= f) := by
  cases x with
  | error e =>
    intro w v w' h
    obtain ⟨a, w1, e1, _⟩ := state_bind_eq_ok h
    exact Except.noConfusion e1
  | ok a =>
    intro w v w' h
    obtain ⟨b, w1, e1, e2⟩ := state_bind_eq_ok h
    have h2 : (a, ({ w with trace := w.trace ++ [o] } : World T)) = (b, w1) := Except.ok.inj e1
    obtain ⟨rfl, rfl⟩ := Prod.mk.inj h2
    obtain ⟨o2, t2, n2, b2⟩ := hf a rfl _ v w' e2
    refine ⟨[o] ++ o2, ?_, ?_, ?_⟩
    · rw [t2, List.append_assoc]
    · rw [n2, List.count_append]; simp [List.count_singleton, ho]
    · rw [List.count_append]; simpa [List.count_singleton, ho] using b2

theorem Par.submits_lift {α : Type} (x : Traced α) (hx : Traced.Only x) :
    Par.Submits 0 (Par.lift x : Par T α) := by
  intro w v w' h
  have h' : Par.lift x w = .ok (v, w') := h
  unfold Par.lift at h'
  cases hr : x.run w.trace with
  | error e => rw [hr] at h'; exact Except.noConfusion h'
  | ok res =>
    obtain ⟨a, tr⟩ := res
    rw [hr] at h'
    have h2 : (a, ({ w with trace := tr } : World T)) = (v, w') := Except.ok.inj h'
    rw [← (Prod.mk.inj h2).2]
    obtain ⟨ops, rfl, hs⟩ := hx w.trace a tr hr
    have hc : ops.count .load_front = 0 := by
      rw [List.count_eq_zero]
      intro hmem
      exact Bool.noConfusion (hs _ hmem)
    exact ⟨ops, rfl, by rw [hc]; rfl, by rw [hc]⟩

theorem Par.submits_load_front (S : Strassen T) : Par.Submits 1 (Par.load_front S) := by
  intro w v w' h
  have h2 : ((w.pool.load_front S).1,
      World.mk (w.trace ++ [Op.load_front]) (w.pool.load_front S).2) = (v, w') :=
    Except.ok.inj h
  rw [← (Prod.mk.inj h2).2]
  exact ⟨[.load_front], rfl, rfl, by decide⟩

theorem Par.submits_get [Zero T] [Add T] [Sub T] [Mul T] (fut : Nat) :
    Par.Submits 0 (Par.get fut : Par T (Matrix T)) := by
  intro w v w' h
  have h' : Par.get fut w = .ok (v, w') := h
  unfold Par.get at h'
  cases hr : w.pool.get Strassen.invoke fut with
  | error e => rw [hr] at h'; exact Except.noConfusion h'
  | ok res =>
    obtain ⟨M, pool⟩ := res
    rw [hr] at h'
    have h2 : (M, World.mk (w.trace ++ [Op.future_get]) pool) = (v, w') := Except.ok.inj h'
    rw [← (Prod.mk.inj h2).2]
    have hn := Thread_Pool.future_get_next_state Strassen.invoke fut _ _ _ _ hr
    exact ⟨[.future_get], rfl, by rw [hn]; rfl, by decide⟩

/-- The parallel controller hands at most `7 ^ (p + 1)` tasks to the pool, all from the thread
that called it. -/
theorem Parallel_Strassen.run_submits [Zero T] [Add T] [Sub T] [Mul T] (r : Nat) :
    ∀ (p : Nat) (A B : Matrix T), Par.Submits (7 ^ (p + 1)) (Parallel_Strassen.run r p A B) := by
  induction r with
  | zero =>
    intro p A B
    rw [Parallel_Strassen.run]
    exact Par.submits_mono (Par.submits_bind_zero (Par.submits_traced _ _ (by decide))
      (fun _ => Par.submits_traced _ _ (by decide))) (Nat.zero_le _)
  | succ r ih =>
    intro p A B
    rw [Parallel_Strassen.run]
    refine Par.submits_bind_zero (Par.submits_traced _ _ (by decide)) (fun _ => ?_)
    by_cases hodd : A.rows % 2 ≠ 0
    · simp only [if_pos hodd]
      exact Par.submits_mono (Par.submits_traced _ _ (by decide)) (Nat.zero_le _)
    · simp only [if_neg hodd]
      refine Par.submits_bind_zero (Par.submits_lift _ (quadrants_only _ _ _)) (fun q => ?_)
      by_cases hp : p = 0
      · subst hp
        simp only [if_true]
        show Par.Submits 7 _
        refine Par.submits_bind_zero (Par.submits_traced _ _ (by decide)) (fun _ => ?_)
        refine Par.submits_bind_zero (Par.submits_traced _ _ (by decide)) (fun _ => ?_)
        refine Par.submits_bind_one (Par.submits_bind_zero (Par.submits_traced _ _ (by decide))
          (fun S => Par.submits_load_front S)) (fun _ => ?_)
        refine Par.submits_bind_zero (Par.submits_traced _ _ (by decide)) (fun _ => ?_)
        refine Par.submits_bind_one (Par.submits_bind_zero (Par.submits_traced _ _ (by decide))
          (fun S => Par.submits_load_front S)) (fun _ => ?_)
        refine Par.submits_bind_zero (Par.submits_traced _ _ (by decide)) (fun _ => ?_)
        refine Par.submits_bind_one (Par.submits_bind_zero (Par.submits_traced _ _ (by decide))
          (fun S => Par.submits_load_front S)) (fun _ => ?_)
        refine Par.submits_bind_zero (Par.submits_traced _ _ (by decide)) (fun _ => ?_)
        refine Par.submits_bind_one (Par.submits_bind_zero (Par.submits_traced _ _ (by decide))
          (fun S => Par.submits_load_front S)) (fun _ => ?_)
        refine Par.submits_bind_zero (Par.submits_traced _ _ (by decide)) (fun _ => ?_)
        refine Par.submits_bind_one (Par.submits_bind_zero (Par.submits_traced _ _ (by decide))
          (fun S => Par.submits_load_front S)) (fun _ => ?_)
        refine Par.submits_bind_zero (Par.submits_traced _ _ (by decide)) (fun _ => ?_)
        refine Par.submits_bind_zero (Par.submits_traced _ _ (by decide)) (fun _ => ?_)
        refine Par.submits_bind_one (Par.submits_bind_zero (Par.submits_traced _ _ (by decide))
          (fun S => Par.submits_load_front S)) (fun _ => ?_)
        refine Par.submits_bind_zero (Par.submits_traced _ _ (by decide)) (fun _ => ?_)
        refine Par.submits_bind_zero (Par.submits_traced _ _ (by decide)) (fun _ => ?_)
        refine Par.submits_bind_one (Par.submits_bind_zero (Par.submits_traced _ _ (by decide))
          (fun S => Par.submits_load_front S)) (fun _ => ?_)
        refine Par.submits_bind_zero (Par.submits_get _) (fun _ => ?_)
        refine Par.submits_bind_zero (Par.submits_get _) (fun _ => ?_)
        refine Par.submits_bind_zero (Par.submits_get _) (fun _ => ?_)
        refine Par.submits_bind_zero (Par.submits_get _) (fun _ => ?_)
        refine Par.submits_bind_zero (Par.submits_get _) (fun _ => ?_)
        refine Par.submits_bind_zero (Par.submits_get _) (fun _ => ?_)
        refine Par.submits_bind_zero (Par.submits_get _) (fun _ => ?_)
        exact Par.submits_lift _ (Traced.only_untraced _)
      · simp only [if_neg hp]
        have hk : 7 ^ (p - 1 + 1) + (7 ^ (p - 1 + 1) + (7 ^ (p - 1 + 1) + (7 ^ (p - 1 + 1) +
            (7 ^ (p - 1 + 1) + (7 ^ (p - 1 + 1) + (7 ^ (p - 1 + 1) + 0)))))) ≤ 7 ^ (p + 1) := by
          have e : p + 1 = (p - 1 + 1) + 1 := by omega
          rw [e, pow_succ]
          omega
        refine Par.submits_mono ?_ hk
        refine Par.submits_bind_zero (Par.submits_traced _ _ (by decide)) (fun _ => ?_)
        refine Par.submits_bind_zero (Par.submits_traced _ _ (by decide)) (fun _ => ?_)
        refine Par.submits_bind (Par.submits_bind_traced _ _ (by decide) (fun S hS => by
          rw [(Parallel_Strassen.parallel_new_eq_ok hS).1]; exact ih (p - 1) _ _)) (fun _ => ?_)
        refine Par.submits_bind_zero (Par.submits_traced _ _ (by decide)) (fun _ => ?_)
        refine Par.submits_bind (Par.submits_bind_traced _ _ (by decide) (fun S hS => by
          rw [(Parallel_Strassen.parallel_new_eq_ok hS).1]; exact ih (p - 1) _ _)) (fun _ => ?_)
        refine Par.submits_bind_zero (Par.submits_traced _ _ (by decide)) (fun _ => ?_)
        refine Par.submits_bind (Par.submits_bind_traced _ _ (by decide) (fun S hS => by
          rw [(Parallel_Strassen.parallel_new_eq_ok hS).1]; exact ih (p - 1) _ _)) (fun _ => ?_)
        refine Par.submits_bind_zero (Par.submits_traced _ _ (by decide)) (fun _ => ?_)
        refine Par.submits_bind (Par.submits_bind_traced _ _ (by decide) (fun S hS => by
          rw [(Parallel_Strassen.parallel_new_eq_ok hS).1]; exact ih (p - 1) _ _)) (fun _ => ?_)
        refine Par.submits_bind_zero (Par.submits_traced _ _ (by decide)) (fun _ => ?_)
        refine Par.submits_bind (Par.submits_bind_traced _ _ (by decide) (fun S hS => by
          rw [(Parallel_Strassen.parallel_new_eq_ok hS).1]; exact ih (p - 1) _ _)) (fun _ => ?_)
        refine Par.submits_bind_zero (Par.submits_traced _ _ (by decide)) (fun _ => ?_)
        refine Par.submits_bind_zero (Par.submits_traced _ _ (by decide)) (fun _ => ?_)
        refine Par.submits_bind (Par.submits_bind_traced _ _ (by decide) (fun S hS => by
          rw [(Parallel_Strassen.parallel_new_eq_ok hS).1]; exact ih (p - 1) _ _)) (fun _ => ?_)
        refine Par.submits_bind_zero (Par.submits_traced _ _ (by decide)) (fun _ => ?_)
        refine Par.submits_bind_zero (Par.submits_traced _ _ (by decide)) (fun _ => ?_)
        refine Par.submits_bind (Par.submits_bind_traced _ _ (by decide) (fun S hS => by
          rw [(Parallel_Strassen.parallel_new_eq_ok hS).1]; exact ih (p - 1) _ _)) (fun _ => ?_)
        exact Par.submits_lift _ (Traced.only_untraced _)

theorem Thread_Pool.looper_step_sublist {F R : Type} (invoke : F → Except Err R)
    (TP : Thread_Pool F R) : (TP.looper_step invoke).tasks.Sublist TP.tasks := by
  unfold Thread_Pool.looper_step Thread_Pool.work_front Thread_Pool.work_back
  by_cases hw : TP.work_end = 'f'
  · rw [if_pos hw]
    cases h : TP.tasks with
    | nil => simp only [h]; exact List.Sublist.refl _
    | cons t rest => exact List.sublist_cons_self t rest
  · rw [if_neg hw]
    cases h : TP.tasks.getLast? with
    | none => exact List.Sublist.refl _
    | some t => exact List.dropLast_sublist _

/-- C16: a task handed to the pool by the parallel controller is a `Strassen` functor (the
pool of the controller holds nothing else), and what a worker executes for it is
`Strassen::operator()` run on an empty trace. Whenever `Strassen::operator()` returns, at any
budget `r` and on any operands, the operations it performed are operations on matrices and
constructions and calls of `Strassen` functors: no task was handed to `load_front` and no
future was read. A pass of a worker hands out no shared state and leaves in the queue only
tasks that were in it. Whenever the parallel controller returns, the shared states handed out
by the pool in the meantime are as many as the `load_front` in the trace of the thread that
called it: every submission was made by that thread. -/
theorem C16_no_resubmission [Zero T] [Add T] [Sub T] [Mul T] (r p : Nat) (A B : Matrix T) :
    (∀ S : Strassen T, Strassen.invoke S =
      ((Strassen.run S.r S.A S.B).run []).map (fun x => x.1)) ∧
    (∀ tr P tr', (Strassen.run r A B).run tr = .ok (P, tr') →
      ∃ ops, tr' = tr ++ ops ∧
        ∀ o ∈ ops, o.serial = true ∧ o ≠ .load_front ∧ o ≠ .future_get ∧
          o ≠ .parallel_new ∧ o ≠ .parallel_call) ∧
    (∀ TP : Thread_Pool (Strassen T) (Matrix T),
      (TP.looper_step Strassen.invoke).next_state = TP.next_state ∧
      (TP.looper_step Strassen.invoke).tasks.Sublist TP.tasks) ∧
    (∀ w P w', (Parallel_Strassen.run r p A B).run w = .ok (P, w') →
      ∃ ops, w'.trace = w.trace ++ ops ∧
        w'.pool.next_state = w.pool.next_state + ops.count .load_front) := by
  refine ⟨?_, ?_, ?_, ?_⟩
  · intro S
    unfold Strassen.invoke Strassen.call
    cases (Strassen.run S.r S.A S.B).run [] <;> rfl
  · intro tr P tr' h
    obtain ⟨ops, e, hs⟩ := Strassen.run_only r A B tr P tr' h
    refine ⟨ops, e, ?_⟩
    intro o ho
    have := hs o ho
    refine ⟨this, ?_, ?_, ?_, ?_⟩ <;> (intro e; rw [e] at this; exact Bool.noConfusion this)
  · intro TP
    exact ⟨(Thread_Pool.looper_step_frame Strassen.invoke TP).2.1,
      Thread_Pool.looper_step_sublist Strassen.invoke TP⟩
  · intro w P w' h
    obtain ⟨ops, e1, e2, _⟩ := Parallel_Strassen.run_submits r p A B w P w' h
    exact ⟨ops, e1, e2⟩

/-- Witness for C16: on the 2×2 integer matrices `demoA`, `demoB` both multipliers return, the
serial one from the empty trace and the parallel one, with `p = 0`, from the world of the
test. -/
theorem C16_witness :
    (∃ P tr', (Strassen.run 1 demoA demoB).run [] = .ok (P, tr') ∧
      ∃ ops, tr' = [] ++ ops ∧
        ∀ o ∈ ops, o.serial = true ∧ o ≠ .load_front ∧ o ≠ .future_get ∧
          o ≠ .parallel_new ∧ o ≠ .parallel_call) ∧
    (∃ P w', (Parallel_Strassen.run 1 0 demoA demoB).run (test_world Int) = .ok (P, w') ∧
      ∃ ops, w'.trace = (test_world Int).trace ++ ops ∧
        w'.pool.next_state = (test_world Int).pool.next_state + ops.count .load_front) := by
  have h := C16_no_resubmission 1 0 demoA demoB
  obtain ⟨P, ⟨ops, hP⟩, _⟩ := Strassen.serial_ok_all 1 2 demoA demoB (by decide) (by decide)
  obtain ⟨Q, hQ, _⟩ := Parallel_Strassen.parallel_ok_all 1 0 2 demoA demoB (by decide)
    (by decide)
  obtain ⟨w', hw', _⟩ := hQ (test_world Int) (Thread_Pool.new_inv 4 'f' 2 (by decide))
  exact ⟨⟨P, _, hP [], h.2.1 [] P _ (hP [])⟩, ⟨Q, w', hw', h.2.2.2 _ Q w' hw'⟩⟩

/-- C17, the claim as stated fails: the call `Parallel_Strassen(demoA, demoB, 1, 0, TP)()` on
2×2 matrices hands seven tasks to `load_front` and the pool hands out seven shared states,
and seven is more than `7 ^ 0`. -/
theorem C17_counterexample :
    ((Parallel_Strassen.call ⟨demoA, demoB, 1, 0⟩).run (test_world Int)).map
      (fun x => (x.2.trace.count .load_front,
        x.2.pool.next_state - (test_world Int).pool.next_state)) = .ok (7, 7) ∧
    ¬ (7 ≤ 7 ^ 0) := by
  decide

/-- C17, amended: for all square operands of the same dimension, every `r`, every `p` and
every pool in order, the call of `Parallel_Strassen(A, B, r, p, pool)` returns, and between
its entry and its return at most `7 ^ (p + 1)` tasks were handed to `load_front`: the pool
handed out exactly that many shared states. -/
theorem C17_at_most_seven_pow_succ_tasks [CommRing T] (r p n : Nat) (A B : Matrix T)
    (hA : A.square n) (hB : B.square n) (w : World T) (hw : w.pool.Inv) :
    ∃ P w' ops, (Parallel_Strassen.call ⟨A, B, r, p⟩).run w = .ok (P, w') ∧
      w'.trace = w.trace ++ ops ∧
      w'.pool.next_state = w.pool.next_state + ops.count .load_front ∧
      ops.count .load_front ≤ 7 ^ (p + 1) := by
  obtain ⟨P, hP, _⟩ := Parallel_Strassen.parallel_ok_all r p n A B hA hB
  obtain ⟨w', hw', _⟩ := hP w hw
  obtain ⟨ops, e1, e2, e3⟩ := Parallel_Strassen.run_submits r p A B w P w' hw'
  exact ⟨P, w', ops, hw', e1, e2, e3⟩

theorem C17_witness :
    (demoA.square 2 ∧ demoB.square 2 ∧ (test_world Int).pool.Inv) ∧
    ∃ P w' ops, (Parallel_Strassen.call ⟨demoA, demoB, 5, 0⟩).run (test_world Int) =
        .ok (P, w') ∧
      w'.trace = (test_world Int).trace ++ ops ∧
      w'.pool.next_state = (test_world Int).pool.next_state + ops.count .load_front ∧
      ops.count .load_front ≤ 7 ^ (0 + 1) :=
  ⟨⟨by decide, by decide, Thread_Pool.new_inv 4 'f' 2 (by decide)⟩,
    C17_at_most_seven_pow_succ_tasks 5 0 2 demoA demoB (by decide) (by decide) (test_world Int)
      (Thread_Pool.new_inv 4 'f' 2 (by decide))⟩

/-! ## One step of a worker -/

section pool_step
variable {F R : Type}

theorem Thread_Pool.work_front_nil (invoke : F → Except Err R) (TP : Thread_Pool F R)
    (h : TP.tasks = []) : TP.work_front invoke = (false, TP) := by
  simp only [Thread_Pool.work_front, h]

theorem Thread_Pool.work_back_nil (invoke : F → Except Err R) (TP : Thread_Pool F R)
    (h : TP.tasks = []) : TP.work_back invoke = (false, TP) := by
  simp only [Thread_Pool.work_back, h, List.getLast?_nil]

/-- C24: `work_front` (and `work_back`) returns `false` exactly when the queue is empty at
the call, and then the pool is as it was: the queue is unchanged and no shared state is
written. Otherwise `work_front` takes the first task `t` of the deque `t :: rest` (and
`work_back` the last task `t` of `init ++ [t]`), returns `true`, writes the shared state of
`t`, once, with what its callable returns, and leaves the other tasks in their order, so the
queue is shorter by exactly one. `load_front` puts the new task before the others and
`load_back` after them, so the queue is longer by exactly one, the others in their order. -/
theorem C24_single_drain_step (invoke : F → Except Err R) (TP : Thread_Pool F R) (f : F) :
    ((TP.work_front invoke).1 = false ↔ TP.tasks = []) ∧
    ((TP.work_back invoke).1 = false ↔ TP.tasks = []) ∧
    (TP.tasks = [] → TP.work_front invoke = (false, TP) ∧ TP.work_back invoke = (false, TP)) ∧
    (∀ t rest, TP.tasks = t :: rest →
      TP.work_front invoke =
        (true, { TP with tasks := rest, shared := (t.state, invoke t.f) :: TP.shared }) ∧
      rest.length + 1 = TP.tasks.length) ∧
    (∀ init t, TP.tasks = init ++ [t] →
      TP.work_back invoke =
        (true, { TP with tasks := init, shared := (t.state, invoke t.f) :: TP.shared }) ∧
      init.length + 1 = TP.tasks.length) ∧
    (TP.load_front f).2.tasks = ⟨TP.next_state, f⟩ :: TP.tasks ∧
    (TP.load_back f).2.tasks = TP.tasks ++ [⟨TP.next_state, f⟩] ∧
    (TP.load_front f).2.tasks.length = TP.tasks.length + 1 ∧
    (TP.load_back f).2.tasks.length = TP.tasks.length + 1 := by
  refine ⟨?_, ?_, fun h => ⟨Thread_Pool.work_front_nil invoke TP h,
    Thread_Pool.work_back_nil invoke TP h⟩, ?_, ?_, rfl, rfl, ?_, ?_⟩
  · constructor
    · intro h
      cases ht : TP.tasks with
      | nil => rfl
      | cons t rest =>
        rw [Thread_Pool.work_front_cons invoke TP t rest ht] at h
        exact Bool.noConfusion h
    · intro h
      rw [Thread_Pool.work_front_nil invoke TP h]
  · constructor
    · intro h
      rcases List.eq_nil_or_concat TP.tasks with ht | ⟨init, t, ht⟩
      · exact ht
      · rw [List.concat_eq_append] at ht
        rw [Thread_Pool.work_back_concat invoke TP init t ht] at h
        exact Bool.noConfusion h
    · intro h
      rw [Thread_Pool.work_back_nil invoke TP h]
  · intro t rest ht
    exact ⟨Thread_Pool.work_front_cons invoke TP t rest ht, by rw [ht]; rfl⟩
  · intro init t ht
    exact ⟨Thread_Pool.work_back_concat invoke TP init t ht, by rw [ht]; simp⟩
  · simp [Thread_Pool.load_front]
  · simp [Thread_Pool.load_back]

theorem C24_witness :
    (((front_pool.load_front_all [4, 5, 6]).2.work_front demo_task).1 = false ↔
      (front_pool.load_front_all [4, 5, 6]).2.tasks = []) ∧
    ((front_pool.load_front_all [4, 5, 6]).2.tasks = ⟨2, 6⟩ :: [⟨1, 5⟩, ⟨0, 4⟩] →
      (front_pool.load_front_all [4, 5, 6]).2.work_front demo_task =
        (true, { (front_pool.load_front_all [4, 5, 6]).2 with
          tasks := [⟨1, 5⟩, ⟨0, 4⟩], shared := [(2, .ok 6)] }) ∧
      [(⟨1, 5⟩ : packaged_task Nat), ⟨0, 4⟩].length + 1 =
        (front_pool.load_front_all [4, 5, 6]).2.tasks.length) ∧
    ((front_pool.load_front_all [4, 5, 6]).2.tasks = [⟨2, 6⟩, ⟨1, 5⟩] ++ [⟨0, 4⟩] →
      (front_pool.load_front_all [4, 5, 6]).2.work_back demo_task =
        (true, { (front_pool.load_front_all [4, 5, 6]).2 with
          tasks := [⟨2, 6⟩, ⟨1, 5⟩], shared := [(0, .ok 4)] }) ∧
      [(⟨2, 6⟩ : packaged_task Nat), ⟨1, 5⟩].length + 1 =
        (front_pool.load_front_all [4, 5, 6]).2.tasks.length) :=
  have h := C24_single_drain_step demo_task (front_pool.load_front_all [4, 5, 6]).2 0
  ⟨h.1, h.2.2.2.1 ⟨2, 6⟩ [⟨1, 5⟩, ⟨0, 4⟩], h.2.2.2.2.1 [⟨2, 6⟩, ⟨1, 5⟩] ⟨0, 4⟩⟩

end pool_step

/-! ## `exchange_rows` -/

theorem row_below {i a w : Nat} (h : i < a) : i * w + w ≤ a * w := by
  calc i * w + w = (i + 1) * w := by ring
    _ ≤ a * w := Nat.mul_le_mul_right w h

/-- The loop of `exchange_rows` on two rows inside the buffer that are the same or do not
overlap. -/
theorem swap_loop [Zero T] (old : List T) (ia ib w : Nat) (hlen : old.length < SIZE_MOD)
    (hia : ia + w ≤ old.length) (hib : ib + w ≤ old.length)
    (hd : ia = ib ∨ ia + w ≤ ib ∨ ib + w ≤ ia) :
    ∃ els, (List.range w).foldlM (fun els j => do
        let x ← buf_get els (sz (ia + j))
        let y ← buf_get els (sz (ib + j))
        let els ← buf_set els (sz (ia + j)) y
        buf_set els (sz (ib + j)) x) old = .ok els ∧
      els.length = old.length ∧
      ∀ k, els.getD k 0 = old.getD (swap_index ia ib w k) 0 := by
  refine foldlM_range_inv _
    (fun j els => els.length = old.length ∧
      ∀ k, els.getD k 0 = old.getD (swap_index ia ib j k) 0) w old ⟨rfl, ?_⟩ ?_
  · intro k
    have : swap_index ia ib 0 k = k := by
      unfold swap_index
      rw [if_neg (by omega), if_neg (by omega)]
    rw [this]
  · intro j els hj ⟨hl, hk⟩
    have ha : ia + j < els.length := by omega
    have hb : ib + j < els.length := by omega
    refine ⟨(els.set (ia + j) (els.getD (ib + j) 0)).set (ib + j) (els.getD (ia + j) 0),
      ?_, by simp [hl], ?_⟩
    · beta_reduce
      rw [sz_of_lt (by omega), sz_of_lt (by omega), buf_get_of_lt ha, buf_get_of_lt hb]
      simp only [ok_bind]
      rw [buf_set_of_lt ha]
      simp only [ok_bind]
      rw [buf_set_of_lt (by rw [List.length_set]; exact hb)]
    · intro k
      have hxa : els.getD (ia + j) 0 = old.getD (ia + j) 0 := by
        rw [hk]
        congr 1
        unfold swap_index
        rw [if_neg (by omega), if_neg (by omega)]
      have hxb : els.getD (ib + j) 0 = old.getD (ib + j) 0 := by
        rw [hk]
        congr 1
        unfold swap_index
        rw [if_neg (by omega), if_neg (by omega)]
      by_cases h1 : k = ib + j
      · subst h1
        rw [List.getD_eq_getElem?_getD, List.getElem?_set_self (by rw [List.length_set]; exact hb)]
        simp only [Option.getD_some]
        rw [hxa]
        congr 1
        unfold swap_index
        by_cases h2 : ia ≤ ib + j ∧ ib + j < ia + (j + 1)
        · rw [if_pos h2]; omega
        · rw [if_neg h2, if_pos (by omega)]; omega
      · rw [List.getD_eq_getElem?_getD, List.getElem?_set_ne (by omega)]
        by_cases h2 : k = ia + j
        · subst h2
          rw [List.getElem?_set_self ha]
          simp only [Option.getD_some]
          rw [hxb]
          congr 1
          unfold swap_index
          rw [if_pos (by omega)]
          omega
        · rw [List.getElem?_set_ne (by omega), ← List.getD_eq_getElem?_getD, hk]
          have e : swap_index ia ib j k = swap_index ia ib (j + 1) k := by
            unfold swap_index
            split_ifs <;> omega
          rw [e]

theorem swap_index_row {a b w i j : Nat} (hj : j < w) :
    swap_index (a * w) (b * w) w (i * w + j) = swap_row a b i * w + j := by
  unfold swap_index swap_row
  by_cases h1 : i = a
  · subst h1
    rw [if_pos (by omega), if_pos rfl]
    omega
  · have ha : ¬ (a * w ≤ i * w + j ∧ i * w + j < a * w + w) := by
      rcases Nat.lt_or_gt_of_ne h1 with h | h
      · have := row_below (w := w) h; omega
      · have := row_below (w := w) h; omega
    rw [if_neg ha, if_neg h1]
    by_cases h2 : i = b
    · subst h2
      rw [if_pos (by omega), if_pos rfl]
      omega
    · have hb : ¬ (b * w ≤ i * w + j ∧ i * w + j < b * w + w) := by
        rcases Nat.lt_or_gt_of_ne h2 with h | h
        · have := row_below (w := w) h; omega
        · have := row_below (w := w) h; omega
      rw [if_neg hb, if_neg h2]

/-- With both rows in range, `exchange_rows` exchanges them and leaves the other rows. -/
theorem Matrix.exchange_rows_spec [Zero T] (M : Matrix T) (hM : M.wf) {a b : Nat}
    (ha : a < M.n_rows) (hb : b < M.n_rows) :
    ∃ M', M.exchange_rows a b = .ok M' ∧ M'.n_rows = M.n_rows ∧
      M'.n_columns = M.n_columns ∧ M'.wf ∧
      ∀ i j, j < M.n_columns → M'.entry i j = M.entry (swap_row a b i) j := by
  obtain ⟨h1, h2, h3, h4, h5⟩ := hM
  have e1 : a * M.n_columns + M.n_columns ≤ M.n_rows * M.n_columns := row_below ha
  have e2 : b * M.n_columns + M.n_columns ≤ M.n_rows * M.n_columns := row_below hb
  have hd : a * M.n_columns = b * M.n_columns ∨
      a * M.n_columns + M.n_columns ≤ b * M.n_columns ∨
      b * M.n_columns + M.n_columns ≤ a * M.n_columns := by
    rcases Nat.lt_trichotomy a b with h | h | h
    · exact Or.inr (Or.inl (row_below h))
    · exact Or.inl (by rw [h])
    · exact Or.inr (Or.inr (row_below h))
  obtain ⟨els, hl, hlen, hk⟩ := swap_loop M.elements (a * M.n_columns) (b * M.n_columns)
    M.n_columns (by omega) (by omega) (by omega) hd
  refine ⟨{ M with elements := els }, ?_, rfl, rfl, ⟨h1, h2, h3, h4, by rw [hlen]; exact h5⟩, ?_⟩
  · unfold Matrix.exchange_rows
    rw [if_neg (by omega)]
    simp only [sz_of_lt (x := a * M.n_columns) (by omega),
      sz_of_lt (x := b * M.n_columns) (by omega)]
    rw [hl]
    rfl
  · intro i j hj
    unfold Matrix.entry
    simp only
    rw [hk, swap_index_row hj]

theorem Matrix.exchange_rows_at_end [Zero T] (M : Matrix T) (hM : M.wf) {a b : Nat}
    (ha : a ≤ M.n_rows) (hb : b ≤ M.n_rows) (hab : a = M.n_rows ∨ b = M.n_rows) :
    M.exchange_rows a b = .error .out_of_buffer := by
  obtain ⟨h1, h2, h3, h4, h5⟩ := hM
  unfold Matrix.exchange_rows
  rw [if_neg (by omega)]
  have hstep : ∀ (ia ib : Nat), ia ≤ M.n_rows * M.n_columns → ib ≤ M.n_rows * M.n_columns →
      (ia = M.n_rows * M.n_columns ∨ ib = M.n_rows * M.n_columns) →
      (do
        let x ← buf_get M.elements (sz (ia + 0))
        let y ← buf_get M.elements (sz (ib + 0))
        let els ← buf_set M.elements (sz (ia + 0)) y
        buf_set els (sz (ib + 0)) x) = (.error .out_of_buffer : Except Err (List T)) := by
    intro ia ib hia hib hor
    rw [Nat.add_zero, Nat.add_zero, sz_of_lt (by omega), sz_of_lt (by omega)]
    by_cases hx : ia = M.n_rows * M.n_columns
    · have : buf_get M.elements ia = .error .out_of_buffer := by
        unfold buf_get
        rw [List.getElem?_eq_none (by omega)]
      rw [this]
      rfl
    · have hy : ib = M.n_rows * M.n_columns := by
        rcases hor with h | h
        · exact absurd h hx
        · exact h
      have : buf_get M.elements ib = .error .out_of_buffer := by
        unfold buf_get
        rw [List.getElem?_eq_none (by omega)]
      rw [buf_get_of_lt (by omega), this]
      rfl
  have hla : a * M.n_columns ≤ M.n_rows * M.n_columns := Nat.mul_le_mul_right _ ha
  have hlb : b * M.n_columns ≤ M.n_rows * M.n_columns := Nat.mul_le_mul_right _ hb
  have hends : a * M.n_columns = M.n_rows * M.n_columns ∨
      b * M.n_columns = M.n_rows * M.n_columns := by
    rcases hab with h | h
    · exact Or.inl (by rw [h])
    · exact Or.inr (by rw [h])
  simp only [sz_of_lt (x := a * M.n_columns) (by omega),
    sz_of_lt (x := b * M.n_columns) (by omega)]
  rw [foldlM_range_first_error _ M.elements M.n_columns .out_of_buffer (by omega)
    (hstep _ _ hla hlb hends)]
  rfl

/-- C29, what the code does: `exchange_rows` raises "index out of bounds" when `row_a` or
`row_b` is greater than the number of rows. When `row_a` or `row_b` IS the number of rows (an
invalid row index) and neither is greater, the check `row_a > n_rows || row_b > n_rows`
passes and the first `std::swap` reaches outside the buffer: no exception is thrown. With both
indices smaller than the number of rows the call returns the matrix with rows `row_a` and
`row_b` exchanged and every other row as it was. -/
theorem C29_exchange_rows_accepts_row_count [Zero T] (M : Matrix T) (a b : Nat) (hM : M.wf) :
    (M.n_rows < a ∨ M.n_rows < b → M.exchange_rows a b = .error .index_out_of_bounds) ∧
    (a ≤ M.n_rows → b ≤ M.n_rows → a = M.n_rows ∨ b = M.n_rows →
      M.exchange_rows a b = .error .out_of_buffer ∧
      M.exchange_rows a b ≠ .error .index_out_of_bounds) ∧
    (a < M.n_rows → b < M.n_rows →
      ∃ M', M.exchange_rows a b = .ok M' ∧ M'.n_rows = M.n_rows ∧
        M'.n_columns = M.n_columns ∧ M'.wf ∧
        ∀ i j, j < M.n_columns → M'.entry i j = M.entry (swap_row a b i) j) := by
  refine ⟨?_, ?_, fun ha hb => Matrix.exchange_rows_spec M hM ha hb⟩
  · intro h
    unfold Matrix.exchange_rows
    rw [if_pos (by omega)]
  · intro ha hb hab
    have h := Matrix.exchange_rows_at_end M hM ha hb hab
    rw [h]
    exact ⟨rfl, fun e => Err.noConfusion (Except.error.inj e)⟩

/-- Witness for C29: on the 2×2 matrix `demoA`, `exchange_rows(2, 0)` passes the check and
reaches outside the buffer. -/
theorem C29_witness :
    demoA.wf ∧ demoA.exchange_rows 2 0 = .error .out_of_buffer ∧
    demoA.exchange_rows 3 0 = .error .index_out_of_bounds ∧
    demoA.exchange_rows 1 0 = .ok ⟨2, 2, 4, [3, 4, 1, 2]⟩ :=
  have h := C29_exchange_rows_accepts_row_count demoA 2 0 (by decide)
  ⟨by decide, (h.2.1 (by decide) (by decide) (Or.inl rfl)).1, by decide, by decide⟩

/-! ## Row reduction on particular matrices -/

/-- C26, a matrix on which the code does not do what it is documented to do: for the 2×3
matrix of rationals with rows `0 0 1` and `0 1 0` (not more rows than columns), `rref`
returns the matrix itself. The leading entry of its second row is in column 1, to the left
of the leading entry of its first row, in column 2: the result is not in reduced row echelon
form. The search for a pivot in row `row` starts on the main diagonal and moves right along
the row; rows are exchanged only for the entry on the diagonal. -/
theorem C26_rref_not_reduced_row_echelon :
    demoE.wf ∧ demoE.rows ≤ demoE.columns ∧
    Algebra.rref demoE 1 = .ok (demoE, 1) ∧
    demoE.leading 0 = some 2 ∧ demoE.leading 1 = some 1 ∧
    ¬ demoE.reduced_row_echelon := by
  have h0 : demoE.leading 0 = some 2 := by decide!
  have h1 : demoE.leading 1 = some 1 := by decide!
  refine ⟨by decide, by decide, by decide!, h0, h1, ?_⟩
  intro h
  obtain ⟨l, hl, hlt⟩ := h.2 0 1 (by decide) h1
  rw [h0] at hl
  have : l = 2 := (Option.some.inj hl).symm
  omega

/-- C30, a matrix on which an access falls outside the buffer: for the 2×1 matrix of
rationals with rows `1` and `2`, `rref` forms the zero under the first pivot and then, for
`row = 1`, `main_diagonal_partial_sort` reads `M(1, 1)`, whose column is not smaller than
the number of columns and whose position `1 * 1 + 1` is not in the buffer of two elements.
The same happens with three rows and two columns. -/
theorem C30_rref_reads_outside_tall_matrix :
    demoF.wf ∧ demoF.columns < demoF.rows ∧
    Algebra.rref demoF 1 = .error .out_of_buffer ∧
    (Algebra.zeros_under_pivots demoF 1).isOk = false ∧
    demoF.get 1 1 = .error .out_of_buffer ∧
    Algebra.rref (⟨3, 2, 6, [1, 2, 3, 4, 5, 6]⟩ : Matrix ℚ) 1 = .error .out_of_buffer := by
  refine ⟨by decide, by decide, by decide!, by decide!, by decide, by decide!⟩

/-! ## One level of the serial multiplier -/

/-- The eight slices taken by both functors, each with the call that returns it. -/
theorem quadrants_slices [Zero T] (A B : Matrix T) (n : Nat) (hn : 1 ≤ n)
    (hA : A.square (2 * n)) (hB : B.square (2 * n)) :
    ∃ q, Traced.Yields (quadrants A B n) q ∧
      (A.slice 0 n 0 n = .ok q.A11 ∧ A.slice 0 n n (2 * n) = .ok q.A12 ∧
        A.slice n (2 * n) 0 n = .ok q.A21 ∧ A.slice n (2 * n) n (2 * n) = .ok q.A22 ∧
        B.slice 0 n 0 n = .ok q.B11 ∧ B.slice 0 n n (2 * n) = .ok q.B12 ∧
        B.slice n (2 * n) 0 n = .ok q.B21 ∧ B.slice n (2 * n) n (2 * n) = .ok q.B22) ∧
      q.A11.square n ∧ q.A12.square n ∧ q.A21.square n ∧ q.A22.square n ∧
      q.B11.square n ∧ q.B12.square n ∧ q.B21.square n ∧ q.B22.square n := by
  obtain ⟨wA, rA, cA⟩ := hA
  obtain ⟨wB, rB, cB⟩ := hB
  have h2n : sz (2 * n) = 2 * n := sz_of_lt (by have := Matrix.wf_rows_lt wA; omega)
  have e0 : n - 0 = n := rfl
  have e1 : 2 * n - n = n := by omega
  have q0 : 0 < n := by omega
  have q1 : n < 2 * n := by omega
  have q2 : n ≤ A.n_rows := by omega
  have q3 : n ≤ A.n_columns := by omega
  have q4 : 2 * n ≤ A.n_rows := by omega
  have q5 : 2 * n ≤ A.n_columns := by omega
  have q2' : n ≤ B.n_rows := by omega
  have q3' : n ≤ B.n_columns := by omega
  have q4' : 2 * n ≤ B.n_rows := by omega
  have q5' : 2 * n ≤ B.n_columns := by omega
  obtain ⟨A11, a1, a2, a3, a4, a5⟩ := Matrix.slice_spec A wA q0 q2 q0 q3
  obtain ⟨A12, b1, b2, b3, b4, b5⟩ := Matrix.slice_spec A wA q0 q2 q1 q5
  obtain ⟨A21, c1, c2, c3, c4, c5⟩ := Matrix.slice_spec A wA q1 q4 q0 q3
  obtain ⟨A22, d1, d2, d3, d4, d5⟩ := Matrix.slice_spec A wA q1 q4 q1 q5
  obtain ⟨B11, a1', a2', a3', a4', a5'⟩ := Matrix.slice_spec B wB q0 q2' q0 q3'
  obtain ⟨B12, b1', b2', b3', b4', b5'⟩ := Matrix.slice_spec B wB q0 q2' q1 q5'
  obtain ⟨B21, c1', c2', c3', c4', c5'⟩ := Matrix.slice_spec B wB q1 q4' q0 q3'
  obtain ⟨B22, d1', d2', d3', d4', d5'⟩ := Matrix.slice_spec B wB q1 q4' q1 q5'
  rw [e0] at a2 a3 a5 b2 c3 a2' a3' a5' b2' c3' b5 c5 b5' c5'
  rw [e1] at b3 b5 c2 c5 d2 d3 d5 b3' b5' c2' c5' d2' d3' d5'
  simp only [Nat.zero_add] at a5 b5 c5 a5' b5' c5'
  refine ⟨⟨A11, A12, A21, A22, B11, B12, B21, B22⟩, ?_, ⟨a1, b1, c1, d1, a1', b1', c1', d1'⟩,
    ⟨a4, a2, a3⟩, ⟨b4, b2, b3⟩, ⟨c4, c2, c3⟩, ⟨d4, d2, d3⟩, ⟨a4', a2', a3'⟩, ⟨b4', b2', b3'⟩,
    ⟨c4', c2', c3'⟩, ⟨d4', d2', d3'⟩⟩
  unfold quadrants
  rw [h2n]
  refine Traced.yields_bind (Traced.yields_traced _ a1) ?_
  refine Traced.yields_bind (Traced.yields_traced _ b1) ?_
  refine Traced.yields_bind (Traced.yields_traced _ c1) ?_
  refine Traced.yields_bind (Traced.yields_traced _ d1) ?_
  refine Traced.yields_bind (Traced.yields_traced _ a1') ?_
  refine Traced.yields_bind (Traced.yields_traced _ b1') ?_
  refine Traced.yields_bind (Traced.yields_traced _ c1') ?_
  refine Traced.yields_bind (Traced.yields_traced _ d1') ?_
  exact ⟨_, Traced.does_pure _⟩



theorem Strassen.nested_yields [CommRing T] (r : Nat) {X Y : Matrix T} {m : Nat}
    (hX : X.square m) (hY : Y.square m) :
    ∃ P, Traced.Yields (Strassen.call ⟨X, Y, r⟩) P ∧ P.square m ∧
      Traced.Yields (do
        let S ← traced .serial_new (Strassen.new X Y r)
        Strassen.run r S.A S.B) P := by
  obtain ⟨P, h1, h2, _⟩ := Strassen.serial_ok_all r m X Y hX hY
  exact ⟨P, h1, h2,
    Traced.yields_bind (Traced.yields_traced _ (Strassen.serial_new_ok hX hY r)) h1⟩

/-- C21: for square operands `A`, `B` with `2 * m` rows and a budget `r + 1`, the call
`Strassen(A, B, r + 1)()` returns the matrix `C` whose four `m × m` quadrants are
`M1 + M4 - M5 + M7`, `M3 + M5`, `M2 + M4` and `M1 - M2 + M3 + M6`, where `A11 .. B22` are
the quadrant slices of `A` and `B` and `M1 .. M7` are what `Strassen(X, Y, r)()` returns on
the seven pairs of sums and differences of quadrants. -/
theorem C21_one_level_unfolding [CommRing T] (r m : Nat) (A B : Matrix T)
    (hA : A.square (2 * m)) (hB : B.square (2 * m)) :
    ∃ (q : Quadrants T) (X1 Y1 X2 Y3 Y4 X5 X6 Y6 X7 Y7 M1 M2 M3 M4 M5 M6 M7 C : Matrix T),
      (A.slice 0 m 0 m = .ok q.A11 ∧ A.slice 0 m m (2 * m) = .ok q.A12 ∧
        A.slice m (2 * m) 0 m = .ok q.A21 ∧ A.slice m (2 * m) m (2 * m) = .ok q.A22 ∧
        B.slice 0 m 0 m = .ok q.B11 ∧ B.slice 0 m m (2 * m) = .ok q.B12 ∧
        B.slice m (2 * m) 0 m = .ok q.B21 ∧ B.slice m (2 * m) m (2 * m) = .ok q.B22) ∧
      (q.A11.add q.A22 = .ok X1 ∧ q.B11.add q.B22 = .ok Y1 ∧ q.A21.add q.A22 = .ok X2 ∧
        q.B12.sub q.B22 = .ok Y3 ∧ q.B21.sub q.B11 = .ok Y4 ∧ q.A11.add q.A12 = .ok X5 ∧
        q.A21.sub q.A11 = .ok X6 ∧ q.B11.add q.B12 = .ok Y6 ∧ q.A12.sub q.A22 = .ok X7 ∧
        q.B21.add q.B22 = .ok Y7) ∧
      (Traced.Yields (Strassen.call ⟨X1, Y1, r⟩) M1 ∧
        Traced.Yields (Strassen.call ⟨X2, q.B11, r⟩) M2 ∧
        Traced.Yields (Strassen.call ⟨q.A11, Y3, r⟩) M3 ∧
        Traced.Yields (Strassen.call ⟨q.A22, Y4, r⟩) M4 ∧
        Traced.Yields (Strassen.call ⟨X5, q.B22, r⟩) M5 ∧
        Traced.Yields (Strassen.call ⟨X6, Y6, r⟩) M6 ∧
        Traced.Yields (Strassen.call ⟨X7, Y7, r⟩) M7) ∧
      Traced.Yields (Strassen.call ⟨A, B, r + 1⟩) C ∧ C.square (2 * m) ∧
      ∀ i j, i < m → j < m →
        C.entry i j = M1.entry i j + M4.entry i j - M5.entry i j + M7.entry i j ∧
        C.entry i (m + j) = M3.entry i j + M5.entry i j ∧
        C.entry (m + i) j = M2.entry i j + M4.entry i j ∧
        C.entry (m + i) (m + j) =
          M1.entry i j - M2.entry i j + M3.entry i j + M6.entry i j := by
  have hm1 : 1 ≤ m := by
    have : 1 ≤ A.n_rows := hA.1.1
    have : A.n_rows = 2 * m := hA.2.1
    omega
  have hrows : A.rows / 2 = m := by
    have : A.n_rows = 2 * m := hA.2.1
    unfold Matrix.rows
    omega
  have heven : ¬ A.rows % 2 ≠ 0 := by
    have : A.n_rows = 2 * m := hA.2.1
    unfold Matrix.rows
    omega
  obtain ⟨q, hq, hsl, s11, s12, s21, s22, t11, t12, t21, t22⟩ :=
    quadrants_slices A B m hm1 hA hB
  obtain ⟨X1, x1, sx1, _⟩ := Matrix.add_square s11 s22
  obtain ⟨Y1, y1, sy1, _⟩ := Matrix.add_square t11 t22
  obtain ⟨M1, n1, sm1, d1⟩ := Strassen.nested_yields r sx1 sy1
  obtain ⟨X2, x2, sx2, _⟩ := Matrix.add_square s21 s22
  obtain ⟨M2, n2, sm2, d2⟩ := Strassen.nested_yields r sx2 t11
  obtain ⟨Y3, y3, sy3, _⟩ := Matrix.sub_square t12 t22
  obtain ⟨M3, n3, sm3, d3⟩ := Strassen.nested_yields r s11 sy3
  obtain ⟨Y4, y4, sy4, _⟩ := Matrix.sub_square t21 t11
  obtain ⟨M4, n4, sm4, d4⟩ := Strassen.nested_yields r s22 sy4
  obtain ⟨X5, x5, sx5, _⟩ := Matrix.add_square s11 s12
  obtain ⟨M5, n5, sm5, d5⟩ := Strassen.nested_yields r sx5 t22
  obtain ⟨X6, x6, sx6, _⟩ := Matrix.sub_square s21 s11
  obtain ⟨Y6, y6, sy6, _⟩ := Matrix.add_square t11 t12
  obtain ⟨M6, n6, sm6, d6⟩ := Strassen.nested_yields r sx6 sy6
  obtain ⟨X7, x7, sx7, _⟩ := Matrix.sub_square s12 s22
  obtain ⟨Y7, y7, sy7, _⟩ := Matrix.add_square t21 t22
  obtain ⟨M7, n7, sm7, d7⟩ := Strassen.nested_yields r sx7 sy7
  obtain ⟨C, hC, c1, c2, c3, c4⟩ := combine_spec A B m hm1 hA.2.1 hB.2.2 M1 M2 M3 M4 M5 M6 M7
    sm1 sm2 sm3 sm4 sm5 sm6 sm7 (Matrix.square_size hA)
  refine ⟨q, X1, Y1, X2, Y3, Y4, X5, X6, Y6, X7, Y7, M1, M2, M3, M4, M5, M6, M7, C, hsl,
    ⟨x1, y1, x2, y3, y4, x5, x6, y6, x7, y7⟩, ⟨n1, n2, n3, n4, n5, n6, n7⟩, ?_, ⟨c3, c1, c2⟩, ?_⟩
  · unfold Strassen.call
    simp only
    rw [Strassen.run]
    simp only [if_neg heven]
    rw [hrows]
    refine Traced.yields_bind (Traced.yields_traced _ rfl) ?_
    refine Traced.yields_bind hq ?_
    refine Traced.yields_bind (Traced.yields_traced _ x1) ?_
    refine Traced.yields_bind (Traced.yields_traced _ y1) ?_
    refine Traced.yields_bind d1 ?_
    refine Traced.yields_bind (Traced.yields_traced _ x2) ?_
    refine Traced.yields_bind d2 ?_
    refine Traced.yields_bind (Traced.yields_traced _ y3) ?_
    refine Traced.yields_bind d3 ?_
    refine Traced.yields_bind (Traced.yields_traced _ y4) ?_
    refine Traced.yields_bind d4 ?_
    refine Traced.yields_bind (Traced.yields_traced _ x5) ?_
    refine Traced.yields_bind d5 ?_
    refine Traced.yields_bind (Traced.yields_traced _ x6) ?_
    refine Traced.yields_bind (Traced.yields_traced _ y6) ?_
    refine Traced.yields_bind d6 ?_
    refine Traced.yields_bind (Traced.yields_traced _ x7) ?_
    refine Traced.yields_bind (Traced.yields_traced _ y7) ?_
    refine Traced.yields_bind d7 ?_
    exact Traced.yields_untraced hC
  · intro i j hi hj
    have k1 : ¬ m + i < m := by omega
    have k2 : ¬ m + j < m := by omega
    have k3 : m + i - m = i := by omega
    have k4 : m + j - m = j := by omega
    refine ⟨?_, ?_, ?_, ?_⟩
    · rw [c4 i j (by omega) (by omega)]
      simp only [combine_value, if_pos hi, if_pos hj]
    · rw [c4 i (m + j) (by omega) (by omega)]
      simp only [combine_value, if_pos hi, if_neg k2, k4]
    · rw [c4 (m + i) j (by omega) (by omega)]
      simp only [combine_value, if_neg k1, if_pos hj, k3]
    · rw [c4 (m + i) (m + j) (by omega) (by omega)]
      simp only [combine_value, if_neg k1, if_neg k2, k3, k4]

/-- Witness for C21: the 2×2 integer matrices `demoA`, `demoB` with budget 1. -/
theorem C21_witness :
    (demoA.square (2 * 1) ∧ demoB.square (2 * 1)) ∧
    ∃ (q : Quadrants Int) (X1 Y1 X2 Y3 Y4 X5 X6 Y6 X7 Y7 M1 M2 M3 M4 M5 M6 M7 C : Matrix Int),
      (demoA.slice 0 1 0 1 = .ok q.A11 ∧ demoA.slice 0 1 1 (2 * 1) = .ok q.A12 ∧
        demoA.slice 1 (2 * 1) 0 1 = .ok q.A21 ∧ demoA.slice 1 (2 * 1) 1 (2 * 1) = .ok q.A22 ∧
        demoB.slice 0 1 0 1 = .ok q.B11 ∧ demoB.slice 0 1 1 (2 * 1) = .ok q.B12 ∧
        demoB.slice 1 (2 * 1) 0 1 = .ok q.B21 ∧ demoB.slice 1 (2 * 1) 1 (2 * 1) = .ok q.B22) ∧
      (q.A11.add q.A22 = .ok X1 ∧ q.B11.add q.B22 = .ok Y1 ∧ q.A21.add q.A22 = .ok X2 ∧
        q.B12.sub q.B22 = .ok Y3 ∧ q.B21.sub q.B11 = .ok Y4 ∧ q.A11.add q.A12 = .ok X5 ∧
        q.A21.sub q.A11 = .ok X6 ∧ q.B11.add q.B12 = .ok Y6 ∧ q.A12.sub q.A22 = .ok X7 ∧
        q.B21.add q.B22 = .ok Y7) ∧
      (Traced.Yields (Strassen.call ⟨X1, Y1, 0⟩) M1 ∧
        Traced.Yields (Strassen.call ⟨X2, q.B11, 0⟩) M2 ∧
        Traced.Yields (Strassen.call ⟨q.A11, Y3, 0⟩) M3 ∧
        Traced.Yields (Strassen.call ⟨q.A22, Y4, 0⟩) M4 ∧
        Traced.Yields (Strassen.call ⟨X5, q.B22, 0⟩) M5 ∧
        Traced.Yields (Strassen.call ⟨X6, Y6, 0⟩) M6 ∧
        Traced.Yields (Strassen.call ⟨X7, Y7, 0⟩) M7) ∧
      Traced.Yields (Strassen.call ⟨demoA, demoB, 0 + 1⟩) C ∧ C.square (2 * 1) ∧
      ∀ i j, i < 1 → j < 1 →
        C.entry i j = M1.entry i j + M4.entry i j - M5.entry i j + M7.entry i j ∧
        C.entry i (1 + j) = M3.entry i j + M5.entry i j ∧
        C.entry (1 + i) j = M2.entry i j + M4.entry i j ∧
        C.entry (1 + i) (1 + j) =
          M1.entry i j - M2.entry i j + M3.entry i j + M6.entry i j :=
  ⟨⟨by decide, by decide⟩, C21_one_level_unfolding 0 1 demoA demoB (by decide) (by decide)⟩

/-! ## The depth of the decomposition -/

theorem depth_zero (n : Nat) : min 0 (padicValNat 2 n) = 0 := Nat.zero_min _

theorem depth_odd (r n : Nat) (h : n % 2 ≠ 0) : min r (padicValNat 2 n) = 0 := by
  rw [padicValNat.eq_zero_of_not_dvd (by omega)]
  exact Nat.min_zero _

theorem depth_even (r m : Nat) (hm : 1 ≤ m) :
    min (r + 1) (padicValNat 2 (2 * m)) = min r (padicValNat 2 m) + 1 := by
  have : padicValNat 2 (2 * m) = padicValNat 2 m + 1 := by
    rw [padicValNat.mul (by decide) (by omega), padicValNat_self, Nat.add_comm]
  rw [this, Nat.succ_min_succ]

theorem Traced.multiplies_bind {α β : Type} {x : Traced α} {f : α → Traced β} {a : α} {b : β}
    {k1 k2 : Nat} (h1 : Traced.Multiplies k1 x a) (h2 : Traced.Multiplies k2 (f a) b) :
    Traced.Multiplies (k1 + k2) (x >>= f) b := by
  obtain ⟨o1, h1, c1⟩ := h1
  obtain ⟨o2, h2, c2⟩ := h2
  exact ⟨o1 ++ o2, Traced.does_bind h1 h2, by rw [List.count_append, c1, c2]⟩

theorem Traced.multiplies_zero_bind {α β : Type} {x : Traced α} {f : α → Traced β} {a : α}
    {b : β} {k : Nat} (h1 : Traced.Multiplies 0 x a) (h2 : Traced.Multiplies k (f a) b) :
    Traced.Multiplies k (x >>= f) b := by
  have := Traced.multiplies_bind h1 h2
  rwa [Nat.zero_add] at this

theorem Traced.multiplies_traced {α : Type} {x : Except Err α} {v : α} (o : Op)
    (ho : o ≠ .mul) (h : x = .ok v) : Traced.Multiplies 0 (traced o x) v :=
  ⟨[o], Traced.does_traced o h, by simp [List.count_singleton, ho]⟩

theorem Traced.multiplies_mul {α : Type} {x : Except Err α} {v : α} (h : x = .ok v) :
    Traced.Multiplies 1 (traced .mul x) v :=
  ⟨[.mul], Traced.does_traced .mul h, by decide⟩

theorem Traced.multiplies_untraced {α : Type} {x : Except Err α} {v : α} (h : x = .ok v) :
    Traced.Multiplies 0 (untraced x) v :=
  ⟨[], Traced.does_untraced h, rfl⟩

theorem quadrants_multiplies [Zero T] (A B : Matrix T) (n : Nat) (hn : 1 ≤ n)
    (hA : A.square (2 * n)) (hB : B.square (2 * n)) :
    ∃ q, Traced.Multiplies 0 (quadrants A B n) q ∧ (quadrants A B n).run' [] = .ok q ∧
      q.A11.square n ∧ q.A12.square n ∧ q.A21.square n ∧ q.A22.square n ∧
      q.B11.square n ∧ q.B12.square n ∧ q.B21.square n ∧ q.B22.square n := by
  obtain ⟨q, _, ⟨a, b, c, d, a', b', c', d'⟩, hs⟩ := quadrants_slices A B n hn hA hB
  have h2n : sz (2 * n) = 2 * n :=
    sz_of_lt (by have := Matrix.wf_rows_lt hA.1; have := hA.2.1; omega)
  have hm : Traced.Multiplies 0 (quadrants A B n) q := by
    unfold quadrants
    rw [h2n]
    refine Traced.multiplies_zero_bind (Traced.multiplies_traced _ (by decide) a) ?_
    refine Traced.multiplies_zero_bind (Traced.multiplies_traced _ (by decide) b) ?_
    refine Traced.multiplies_zero_bind (Traced.multiplies_traced _ (by decide) c) ?_
    refine Traced.multiplies_zero_bind (Traced.multiplies_traced _ (by decide) d) ?_
    refine Traced.multiplies_zero_bind (Traced.multiplies_traced _ (by decide) a') ?_
    refine Traced.multiplies_zero_bind (Traced.multiplies_traced _ (by decide) b') ?_
    refine Traced.multiplies_zero_bind (Traced.multiplies_traced _ (by decide) c') ?_
    refine Traced.multiplies_zero_bind (Traced.multiplies_traced _ (by decide) d') ?_
    exact ⟨[], Traced.does_pure _, rfl⟩
  refine ⟨q, hm, ?_, hs⟩
  obtain ⟨ops, hd, _⟩ := hm
  have h := hd []
  show (fun x => x.1) <$> (quadrants A B n).run [] = Except.ok q
  rw [h]
  rfl

/-- What the serial multiplier with budget `r` is shown to do on square operands: the number
of its direct products and the operands of each. -/
theorem Strassen.run_products [CommRing T] (r : Nat) :
    ∀ (n : Nat) (A B : Matrix T), A.square n → B.square n →
      ∃ P L, Traced.Multiplies (7 ^ min r (padicValNat 2 n)) (Strassen.run r A B) P ∧
        P.square n ∧ Strassen.products r A B = .ok L ∧
        L.length = 7 ^ min r (padicValNat 2 n) ∧
        ∀ XY ∈ L, XY.1.square (n / 2 ^ min r (padicValNat 2 n)) ∧
          XY.2.square (n / 2 ^ min r (padicValNat 2 n)) := by
  have direct : ∀ (n : Nat) (A B : Matrix T), A.square n → B.square n →
      ∃ P, Traced.Multiplies (7 ^ 0)
        (do traced .serial_call (pure ()); traced .mul (A.mul B)) P ∧ P.square n := by
    intro n A B hA hB
    obtain ⟨P, e, hP, _⟩ := Matrix.mul_square hA hB
    exact ⟨P, Traced.multiplies_zero_bind (Traced.multiplies_traced _ (by decide) rfl)
      (Traced.multiplies_mul e), hP⟩
  induction r with
  | zero =>
    intro n A B hA hB
    obtain ⟨P, h1, h2⟩ := direct n A B hA hB
    rw [depth_zero]
    refine ⟨P, [(A, B)], ?_, h2, rfl, rfl, ?_⟩
    · rw [Strassen.run]; exact h1
    · intro XY hXY
      rw [List.mem_singleton.mp hXY, pow_zero, Nat.div_one]
      exact ⟨hA, hB⟩
  | succ r ih =>
    intro n A B hA hB
    by_cases hodd : A.rows % 2 ≠ 0
    · obtain ⟨P, h1, h2⟩ := direct n A B hA hB
      have hn : n % 2 ≠ 0 := by rw [← hA.2.1]; exact hodd
      rw [depth_odd _ n hn]
      refine ⟨P, [(A, B)], ?_, h2, ?_, rfl, ?_⟩
      · rw [Strassen.run]; simp only [if_pos hodd]; exact h1
      · rw [Strassen.products]; simp only [if_pos hodd]; rfl
      · intro XY hXY
        rw [List.mem_singleton.mp hXY, pow_zero, Nat.div_one]
        exact ⟨hA, hB⟩
    · obtain ⟨m, hn⟩ : ∃ m, n = 2 * m := ⟨A.rows / 2, by
        have : A.rows = n := hA.2.1
        omega⟩
      have hrows : A.rows / 2 = m := by
        have : A.rows = n := hA.2.1
        omega
      have hm1 : 1 ≤ m := by
        have : 1 ≤ A.n_rows := hA.1.1
        have : A.n_rows = n := hA.2.1
        omega
      subst hn
      rw [depth_even r m hm1]
      have hdiv : 2 * m / 2 ^ (min r (padicValNat 2 m) + 1) =
          m / 2 ^ min r (padicValNat 2 m) := by
        rw [pow_succ, Nat.mul_comm (2 ^ _) 2]
        exact Nat.mul_div_mul_left m _ (by decide)
      rw [hdiv]
      obtain ⟨q, hq, hq', s11, s12, s21, s22, t11, t12, t21, t22⟩ :=
        quadrants_multiplies A B m hm1 hA hB
      obtain ⟨X1, x1, sx1, _⟩ := Matrix.add_square s11 s22
      obtain ⟨Y1, y1, sy1, _⟩ := Matrix.add_square t11 t22
      obtain ⟨M1, L1, m1, sm1, p1, l1, q1⟩ := ih m X1 Y1 sx1 sy1
      obtain ⟨X2, x2, sx2, _⟩ := Matrix.add_square s21 s22
      obtain ⟨M2, L2, m2, sm2, p2, l2, q2⟩ := ih m X2 q.B11 sx2 t11
      obtain ⟨Y3, y3, sy3, _⟩ := Matrix.sub_square t12 t22
      obtain ⟨M3, L3, m3, sm3, p3, l3, q3⟩ := ih m q.A11 Y3 s11 sy3
      obtain ⟨Y4, y4, sy4, _⟩ := Matrix.sub_square t21 t11
      obtain ⟨M4, L4, m4, sm4, p4, l4, q4⟩ := ih m q.A22 Y4 s22 sy4
      obtain ⟨X5, x5, sx5, _⟩ := Matrix.add_square s11 s12
      obtain ⟨M5, L5, m5, sm5, p5, l5, q5⟩ := ih m X5 q.B22 sx5 t22
      obtain ⟨X6, x6, sx6, _⟩ := Matrix.sub_square s21 s11
      obtain ⟨Y6, y6, sy6, _⟩ := Matrix.add_square t11 t12
      obtain ⟨M6, L6, m6, sm6, p6, l6, q6⟩ := ih m X6 Y6 sx6 sy6
      obtain ⟨X7, x7, sx7, _⟩ := Matrix.sub_square s12 s22
      obtain ⟨Y7, y7, sy7, _⟩ := Matrix.add_square t21 t22
      obtain ⟨M7, L7, m7, sm7, p7, l7, q7⟩ := ih m X7 Y7 sx7 sy7
      obtain ⟨C, hC, c1, c2, c3, _⟩ := combine_spec A B m hm1 hA.2.1 hB.2.2 M1 M2 M3 M4 M5 M6 M7
        sm1 sm2 sm3 sm4 sm5 sm6 sm7 (Matrix.square_size hA)
      refine ⟨C, L1 ++ L2 ++ L3 ++ L4 ++ L5 ++ L6 ++ L7, ?_, ⟨c3, c1, c2⟩, ?_, ?_, ?_⟩
      · have chain : Traced.Multiplies (7 ^ min r (padicValNat 2 m) +
            (7 ^ min r (padicValNat 2 m) + (7 ^ min r (padicValNat 2 m) +
            (7 ^ min r (padicValNat 2 m) + (7 ^ min r (padicValNat 2 m) +
            (7 ^ min r (padicValNat 2 m) + (7 ^ min r (padicValNat 2 m) + 0)))))))
            (Strassen.run (r + 1) A B) C := by
          rw [Strassen.run]
          simp only [if_neg hodd]
          rw [hrows]
          refine Traced.multiplies_zero_bind (Traced.multiplies_traced _ (by decide) rfl) ?_
          refine Traced.multiplies_zero_bind hq ?_
          refine Traced.multiplies_zero_bind (Traced.multiplies_traced _ (by decide) x1) ?_
          refine Traced.multiplies_zero_bind (Traced.multiplies_traced _ (by decide) y1) ?_
          refine Traced.multiplies_bind (Traced.multiplies_zero_bind
            (Traced.multiplies_traced _ (by decide) (Strassen.serial_new_ok sx1 sy1 r)) m1) ?_
          refine Traced.multiplies_zero_bind (Traced.multiplies_traced _ (by decide) x2) ?_
          refine Traced.multiplies_bind (Traced.multiplies_zero_bind
            (Traced.multiplies_traced _ (by decide) (Strassen.serial_new_ok sx2 t11 r)) m2) ?_
          refine Traced.multiplies_zero_bind (Traced.multiplies_traced _ (by decide) y3) ?_
          refine Traced.multiplies_bind (Traced.multiplies_zero_bind
            (Traced.multiplies_traced _ (by decide) (Strassen.serial_new_ok s11 sy3 r)) m3) ?_
          refine Traced.multiplies_zero_bind (Traced.multiplies_traced _ (by decide) y4) ?_
          refine Traced.multiplies_bind (Traced.multiplies_zero_bind
            (Traced.multiplies_traced _ (by decide) (Strassen.serial_new_ok s22 sy4 r)) m4) ?_
          refine Traced.multiplies_zero_bind (Traced.multiplies_traced _ (by decide) x5) ?_
          refine Traced.multiplies_bind (Traced.multiplies_zero_bind
            (Traced.multiplies_traced _ (by decide) (Strassen.serial_new_ok sx5 t22 r)) m5) ?_
          refine Traced.multiplies_zero_bind (Traced.multiplies_traced _ (by decide) x6) ?_
          refine Traced.multiplies_zero_bind (Traced.multiplies_traced _ (by decide) y6) ?_
          refine Traced.multiplies_bind (Traced.multiplies_zero_bind
            (Traced.multiplies_traced _ (by decide) (Strassen.serial_new_ok sx6 sy6 r)) m6) ?_
          refine Traced.multiplies_zero_bind (Traced.multiplies_traced _ (by decide) x7) ?_
          refine Traced.multiplies_zero_bind (Traced.multiplies_traced _ (by decide) y7) ?_
          refine Traced.multiplies_bind (Traced.multiplies_zero_bind
            (Traced.multiplies_traced _ (by decide) (Strassen.serial_new_ok sx7 sy7 r)) m7) ?_
          exact Traced.multiplies_untraced hC
        obtain ⟨ops, hd, hc⟩ := chain
        exact ⟨ops, hd, by rw [hc, pow_succ]; omega⟩
      · rw [Strassen.products]
        simp only [if_neg hodd]
        rw [hrows]
        simp only [hq', x1, y1, x2, y3, y4, x5, x6, y6, x7, y7, ok_bind,
          Strassen.serial_new_ok sx1 sy1 r, Strassen.serial_new_ok sx2 t11 r,
          Strassen.serial_new_ok s11 sy3 r, Strassen.serial_new_ok s22 sy4 r,
          Strassen.serial_new_ok sx5 t22 r, Strassen.serial_new_ok sx6 sy6 r,
          Strassen.serial_new_ok sx7 sy7 r, p1, p2, p3, p4, p5, p6, p7]
        rfl
      · simp only [List.length_append, l1, l2, l3, l4, l5, l6, l7, pow_succ]
        omega
      · intro XY hXY
        simp only [List.mem_append] at hXY
        rcases hXY with (((((h | h) | h) | h) | h) | h) | h
        · exact q1 XY h
        · exact q2 XY h
        · exact q3 XY h
        · exact q4 XY h
        · exact q5 XY h
        · exact q6 XY h
        · exact q7 XY h

/-- C23: for square operands of dimension `n` and a budget `r`, with
`d = min r (padicValNat 2 n)` the smaller of `r` and the exponent of 2 in `n`, the call
`Strassen(A, B, r)()` returns after exactly `7 ^ d` calls of `operator *`; the operands of
these calls, listed by `Strassen.products`, are `7 ^ d` pairs of square matrices of dimension
`n / 2 ^ d`. The depth `d` is at most `r`, and `2 ^ d` divides `n`: no odd dimension was
halved. -/
theorem C23_seven_pow_depth_products [CommRing T] (r n : Nat) (A B : Matrix T)
    (hA : A.square n) (hB : B.square n) :
    ∃ P ops L, (∀ tr, (Strassen.call ⟨A, B, r⟩).run tr = .ok (P, tr ++ ops)) ∧
      ops.count .mul = 7 ^ min r (padicValNat 2 n) ∧
      Strassen.products r A B = .ok L ∧
      L.length = 7 ^ min r (padicValNat 2 n) ∧
      (∀ XY ∈ L, XY.1.square (n / 2 ^ min r (padicValNat 2 n)) ∧
        XY.2.square (n / 2 ^ min r (padicValNat 2 n))) ∧
      min r (padicValNat 2 n) ≤ r ∧ 2 ^ min r (padicValNat 2 n) ∣ n := by
  obtain ⟨P, L, ⟨ops, hd, hc⟩, _, hL, hlen, hsq⟩ := Strassen.run_products r n A B hA hB
  refine ⟨P, ops, L, hd, hc, hL, hlen, hsq, Nat.min_le_left _ _, ?_⟩
  exact Dvd.dvd.trans (pow_dvd_pow 2 (Nat.min_le_right _ _)) pow_padicValNat_dvd

/-- Witness for C23: the 2×2 integer matrices `demoA`, `demoB` with budget 5. -/
theorem C23_witness :
    (demoA.square 2 ∧ demoB.square 2) ∧
    ∃ P ops L, (∀ tr, (Strassen.call ⟨demoA, demoB, 5⟩).run tr = .ok (P, tr ++ ops)) ∧
      ops.count .mul = 7 ^ min 5 (padicValNat 2 2) ∧
      Strassen.products 5 demoA demoB = .ok L ∧
      L.length = 7 ^ min 5 (padicValNat 2 2) ∧
      (∀ XY ∈ L, XY.1.square (2 / 2 ^ min 5 (padicValNat 2 2)) ∧
        XY.2.square (2 / 2 ^ min 5 (padicValNat 2 2))) ∧
      min 5 (padicValNat 2 2) ≤ 5 ∧ 2 ^ min 5 (padicValNat 2 2) ∣ 2 :=
  ⟨⟨by decide, by decide⟩,
    C23_seven_pow_depth_products 5 2 demoA demoB (by decide) (by decide)⟩

/-! ## The tasks of the parallel controller -/

theorem Par.uses_bind {α β : Type} {k1 g1 k2 g2 : Nat} {x : Par T α} {f : α → Par T β}
    {Q1 : α → Prop} {Q2 : β → Prop} (hx : Par.Uses k1 g1 x Q1)
    (hf : ∀ a, Q1 a → Par.Uses k2 g2 (f a) Q2) : Par.Uses (k1 + k2) (g1 + g2) (x >>= f) Q2 := by
  intro w v w' h
  obtain ⟨a, w1, e1, e2⟩ := state_bind_eq_ok h
  obtain ⟨qa, o1, t1, c1, d1, n1, p1⟩ := hx w a w1 e1
  obtain ⟨qb, o2, t2, c2, d2, n2, p2⟩ := hf a qa w1 v w' e2
  refine ⟨qb, o1 ++ o2, ?_, ?_, ?_, ?_, ?_⟩
  · rw [t2, t1, List.append_assoc]
  · rw [List.count_append, c1, c2]
  · rw [List.count_append, d1, d2]
  · rw [n2, n1]; omega
  · intro hk hg
    rw [p2 (by omega) (by omega), p1 (by omega) (by omega)]

theorem Par.uses_congr {α : Type} {k g k' g' : Nat} {x : Par T α} {Q : α → Prop}
    (hx : Par.Uses k g x Q) (hk : k = k') (hg : g = g') : Par.Uses k' g' x Q := by
  subst hk; subst hg; exact hx

theorem Par.uses_bind_zero {α β : Type} {k g : Nat} {x : Par T α} {f : α → Par T β}
    {Q1 : α → Prop} {Q2 : β → Prop} (hx : Par.Uses 0 0 x Q1)
    (hf : ∀ a, Q1 a → Par.Uses k g (f a) Q2) : Par.Uses k g (x >>= f) Q2 :=
  Par.uses_congr (Par.uses_bind hx hf) (Nat.zero_add k) (Nat.zero_add g)

theorem Par.uses_bind_load {α β : Type} {k g : Nat} {x : Par T α} {f : α → Par T β}
    {Q1 : α → Prop} {Q2 : β → Prop} (hx : Par.Uses 1 0 x Q1)
    (hf : ∀ a, Q1 a → Par.Uses k g (f a) Q2) : Par.Uses (k + 1) g (x >>= f) Q2 :=
  Par.uses_congr (Par.uses_bind hx hf) (Nat.add_comm 1 k) (Nat.zero_add g)

theorem Par.uses_bind_get {α β : Type} {k g : Nat} {x : Par T α} {f : α → Par T β}
    {Q1 : α → Prop} {Q2 : β → Prop} (hx : Par.Uses 0 1 x Q1)
    (hf : ∀ a, Q1 a → Par.Uses k g (f a) Q2) : Par.Uses k (g + 1) (x >>= f) Q2 :=
  Par.uses_congr (Par.uses_bind hx hf) (Nat.zero_add k) (Nat.add_comm 1 g)

theorem Par.uses_weaken {α : Type} {k g : Nat} {x : Par T α} {Q Q' : α → Prop}
    (hx : Par.Uses k g x Q) (h : ∀ a, Q a → Q' a) : Par.Uses k g x Q' := by
  intro w v w' e
  obtain ⟨qa, r⟩ := hx w v w' e
  exact ⟨h v qa, r⟩

theorem Par.uses_traced {α : Type} (o : Op) {x : Except Err α} {v : α} (h : x = .ok v)
    (h1 : o ≠ .load_front) (h2 : o ≠ .future_get) :
    Par.Uses 0 0 (Par.traced o x : Par T α) (fun a => a = v) := by
  intro w a w' e
  subst h
  have h3 : (v, ({ w with trace := w.trace ++ [o] } : World T)) = (a, w') := Except.ok.inj e
  obtain ⟨rfl, rfl⟩ := Prod.mk.inj h3
  refine ⟨rfl, [o], rfl, ?_, ?_, rfl, fun _ _ => rfl⟩ <;> simp [List.count_singleton, h1, h2]

theorem Par.uses_lift {α : Type} {x : Traced α} {v : α} (hy : Traced.Yields x v)
    (ho : Traced.Only x) : Par.Uses 0 0 (Par.lift x : Par T α) (fun a => a = v) := by
  intro w a w' e
  obtain ⟨ops, hd⟩ := hy
  have e' : Par.lift x w = .ok (a, w') := e
  unfold Par.lift at e'
  rw [hd w.trace] at e'
  have h3 : (v, ({ w with trace := w.trace ++ ops } : World T)) = (a, w') := Except.ok.inj e'
  obtain ⟨rfl, rfl⟩ := Prod.mk.inj h3
  obtain ⟨ops', e1, hs⟩ := ho w.trace v _ (hd w.trace)
  have : ops = ops' := List.append_cancel_left e1
  subst this
  have c1 : ops.count .load_front = 0 :=
    List.count_eq_zero.mpr (fun hm => Bool.noConfusion (hs _ hm))
  have c2 : ops.count .future_get = 0 :=
    List.count_eq_zero.mpr (fun hm => Bool.noConfusion (hs _ hm))
  exact ⟨rfl, ops, rfl, c1, c2, rfl, fun _ _ => rfl⟩

theorem Par.uses_load_front (S : Strassen T) :
    Par.Uses 1 0 (Par.load_front S) (fun _ => True) := by
  intro w v w' h
  have h2 : ((w.pool.load_front S).1,
      World.mk (w.trace ++ [Op.load_front]) (w.pool.load_front S).2) = (v, w') :=
    Except.ok.inj h
  rw [← (Prod.mk.inj h2).2]
  exact ⟨trivial, [.load_front], rfl, by decide, by decide, rfl,
    fun h => absurd h (by decide)⟩

theorem Par.uses_get [Zero T] [Add T] [Sub T] [Mul T] (fut : Nat) :
    Par.Uses 0 1 (Par.get fut : Par T (Matrix T)) (fun _ => True) := by
  intro w v w' h
  have h' : Par.get fut w = .ok (v, w') := h
  unfold Par.get at h'
  cases hr : w.pool.get Strassen.invoke fut with
  | error e => rw [hr] at h'; exact Except.noConfusion h'
  | ok res =>
    obtain ⟨M, pool⟩ := res
    rw [hr] at h'
    have h2 : (M, World.mk (w.trace ++ [Op.future_get]) pool) = (v, w') := Except.ok.inj h'
    rw [← (Prod.mk.inj h2).2]
    have hn := Thread_Pool.future_get_next_state Strassen.invoke fut _ _ _ _ hr
    exact ⟨trivial, [.future_get], rfl, by decide, by decide, by rw [hn]; rfl,
      fun _ h => absurd h (by decide)⟩

theorem Par.uses_traced_any {α : Type} (o : Op) (x : Except Err α)
    (h1 : o ≠ .load_front) (h2 : o ≠ .future_get) :
    Par.Uses 0 0 (Par.traced o x : Par T α) (fun _ => True) := by
  cases x with
  | error e => intro w a w' h; exact Except.noConfusion h
  | ok v => exact Par.uses_weaken (Par.uses_traced o rfl h1 h2) (fun _ _ => trivial)

theorem Par.uses_lift_any {α : Type} (x : Traced α) (ho : Traced.Only x) :
    Par.Uses 0 0 (Par.lift x : Par T α) (fun _ => True) := by
  intro w a w' e
  have e' : Par.lift x w = .ok (a, w') := e
  unfold Par.lift at e'
  cases hr : x.run w.trace with
  | error err => rw [hr] at e'; exact Except.noConfusion e'
  | ok res =>
    obtain ⟨v, tr⟩ := res
    rw [hr] at e'
    have h3 : (v, ({ w with trace := tr } : World T)) = (a, w') := Except.ok.inj e'
    obtain ⟨rfl, rfl⟩ := Prod.mk.inj h3
    obtain ⟨ops, rfl, hs⟩ := ho w.trace v tr hr
    have c1 : ops.count .load_front = 0 :=
      List.count_eq_zero.mpr (fun hm => Bool.noConfusion (hs _ hm))
    have c2 : ops.count .future_get = 0 :=
      List.count_eq_zero.mpr (fun hm => Bool.noConfusion (hs _ hm))
    exact ⟨trivial, ops, rfl, c1, c2, rfl, fun _ _ => rfl⟩

/-- The parallel controller on square operands hands `7 ^ (p + 1)` tasks to the pool when
`p` is smaller than the depth of the decomposition, and none otherwise; it reads as many
futures. -/
theorem Parallel_Strassen.run_uses [CommRing T] (r : Nat) :
    ∀ (p n : Nat) (A B : Matrix T), A.square n → B.square n →
      Par.Uses (if p < min r (padicValNat 2 n) then 7 ^ (p + 1) else 0)
        (if p < min r (padicValNat 2 n) then 7 ^ (p + 1) else 0)
        (Parallel_Strassen.run r p A B) (fun _ => True) := by
  induction r with
  | zero =>
    intro p n A B _ _
    rw [depth_zero, if_neg (Nat.not_lt_zero p), Parallel_Strassen.run]
    exact Par.uses_bind_zero (Par.uses_traced_any _ _ (by decide) (by decide))
      (fun _ _ => Par.uses_traced_any _ _ (by decide) (by decide))
  | succ r ih =>
    intro p n A B hA hB
    rw [Parallel_Strassen.run]
    refine Par.uses_bind_zero (Par.uses_traced_any _ _ (by decide) (by decide)) (fun _ _ => ?_)
    by_cases hodd : A.rows % 2 ≠ 0
    · have hn : n % 2 ≠ 0 := by rw [← hA.2.1]; exact hodd
      rw [depth_odd _ n hn, if_neg (Nat.not_lt_zero p)]
      simp only [if_pos hodd]
      exact Par.uses_traced_any _ _ (by decide) (by decide)
    · simp only [if_neg hodd]
      obtain ⟨m, hn⟩ : ∃ m, n = 2 * m := ⟨A.rows / 2, by
        have : A.rows = n := hA.2.1
        omega⟩
      have hrows : A.rows / 2 = m := by
        have : A.rows = n := hA.2.1
        omega
      have hm1 : 1 ≤ m := by
        have : 1 ≤ A.n_rows := hA.1.1
        have : A.n_rows = n := hA.2.1
        omega
      subst hn
      rw [depth_even r m hm1, hrows]
      obtain ⟨q, hq, _, s11, s12, s21, s22, t11, t12, t21, t22⟩ :=
        quadrants_slices A B m hm1 hA hB
      refine Par.uses_bind_zero (Par.uses_lift hq (quadrants_only _ _ _)) (fun a ha => ?_)
      subst ha
      by_cases hp : p = 0
      · subst hp
        rw [if_pos (Nat.succ_pos _)]
        simp only [if_true]
        show Par.Uses 7 7 _ _
        refine Par.uses_bind_zero (Par.uses_traced_any _ _ (by decide) (by decide)) (fun _ _ => ?_)
        refine Par.uses_bind_zero (Par.uses_traced_any _ _ (by decide) (by decide)) (fun _ _ => ?_)
        refine Par.uses_bind_load (Par.uses_bind_zero
          (Par.uses_traced_any _ _ (by decide) (by decide))
          (fun S _ => Par.uses_load_front S)) (fun _ _ => ?_)
        refine Par.uses_bind_zero (Par.uses_traced_any _ _ (by decide) (by decide)) (fun _ _ => ?_)
        refine Par.uses_bind_load (Par.uses_bind_zero
          (Par.uses_traced_any _ _ (by decide) (by decide))
          (fun S _ => Par.uses_load_front S)) (fun _ _ => ?_)
        refine Par.uses_bind_zero (Par.uses_traced_any _ _ (by decide) (by decide)) (fun _ _ => ?_)
        refine Par.uses_bind_load (Par.uses_bind_zero
          (Par.uses_traced_any _ _ (by decide) (by decide))
          (fun S _ => Par.uses_load_front S)) (fun _ _ => ?_)
        refine Par.uses_bind_zero (Par.uses_traced_any _ _ (by decide) (by decide)) (fun _ _ => ?_)
        refine Par.uses_bind_load (Par.uses_bind_zero
          (Par.uses_traced_any _ _ (by decide) (by decide))
          (fun S _ => Par.uses_load_front S)) (fun _ _ => ?_)
        refine Par.uses_bind_zero (Par.uses_traced_any _ _ (by decide) (by decide)) (fun _ _ => ?_)
        refine Par.uses_bind_load (Par.uses_bind_zero
          (Par.uses_traced_any _ _ (by decide) (by decide))
          (fun S _ => Par.uses_load_front S)) (fun _ _ => ?_)
        refine Par.uses_bind_zero (Par.uses_traced_any _ _ (by decide) (by decide)) (fun _ _ => ?_)
        refine Par.uses_bind_zero (Par.uses_traced_any _ _ (by decide) (by decide)) (fun _ _ => ?_)
        refine Par.uses_bind_load (Par.uses_bind_zero
          (Par.uses_traced_any _ _ (by decide) (by decide))
          (fun S _ => Par.uses_load_front S)) (fun _ _ => ?_)
        refine Par.uses_bind_zero (Par.uses_traced_any _ _ (by decide) (by decide)) (fun _ _ => ?_)
        refine Par.uses_bind_zero (Par.uses_traced_any _ _ (by decide) (by decide)) (fun _ _ => ?_)
        refine Par.uses_bind_load (Par.uses_bind_zero
          (Par.uses_traced_any _ _ (by decide) (by decide))
          (fun S _ => Par.uses_load_front S)) (fun _ _ => ?_)
        refine Par.uses_bind_get (Par.uses_get _) (fun _ _ => ?_)
        refine Par.uses_bind_get (Par.uses_get _) (fun _ _ => ?_)
        refine Par.uses_bind_get (Par.uses_get _) (fun _ _ => ?_)
        refine Par.uses_bind_get (Par.uses_get _) (fun _ _ => ?_)
        refine Par.uses_bind_get (Par.uses_get _) (fun _ _ => ?_)
        refine Par.uses_bind_get (Par.uses_get _) (fun _ _ => ?_)
        refine Par.uses_bind_get (Par.uses_get _) (fun _ _ => ?_)
        exact Par.uses_lift_any _ (Traced.only_untraced _)
      · simp only [if_neg hp]
        obtain ⟨X1, x1, sx1, _⟩ := Matrix.add_square s11 s22
        obtain ⟨Y1, y1, sy1, _⟩ := Matrix.add_square t11 t22
        obtain ⟨X2, x2, sx2, _⟩ := Matrix.add_square s21 s22
        obtain ⟨Y3, y3, sy3, _⟩ := Matrix.sub_square t12 t22
        obtain ⟨Y4, y4, sy4, _⟩ := Matrix.sub_square t21 t11
        obtain ⟨X5, x5, sx5, _⟩ := Matrix.add_square s11 s12
        obtain ⟨X6, x6, sx6, _⟩ := Matrix.sub_square s21 s11
        obtain ⟨Y6, y6, sy6, _⟩ := Matrix.add_square t11 t12
        obtain ⟨X7, x7, sx7, _⟩ := Matrix.sub_square s12 s22
        obtain ⟨Y7, y7, sy7, _⟩ := Matrix.add_square t21 t22
        have hc : ∀ c : Nat, c = (if p - 1 < min r (padicValNat 2 m) then 7 ^ (p - 1 + 1) else 0) →
            c + (c + (c + (c + (c + (c + (c + 0)))))) =
              (if p < min r (padicValNat 2 m) + 1 then 7 ^ (p + 1) else 0) := by
          intro c hc
          have e : p + 1 = (p - 1 + 1) + 1 := by omega
          by_cases h : p - 1 < min r (padicValNat 2 m)
          · rw [if_pos h] at hc
            rw [if_pos (by omega), e, pow_succ, ← hc]
            omega
          · rw [if_neg h] at hc
            rw [if_neg (by omega), hc]
        refine Par.uses_congr ?_ (hc _ rfl) (hc _ rfl)
        refine Par.uses_bind_zero (Par.uses_traced _ x1 (by decide) (by decide))
          (fun a ha => ?_)
        subst ha
        refine Par.uses_bind_zero (Par.uses_traced _ y1 (by decide) (by decide))
          (fun a ha => ?_)
        subst ha
        refine Par.uses_bind (Par.uses_bind_zero
          (Par.uses_traced _ (Parallel_Strassen.parallel_new_ok sx1 sy1 r (p - 1)) (by decide)
            (by decide))
          (fun S hS => by subst hS; exact ih (p - 1) m _ _ sx1 sy1)) (fun _ _ => ?_)
        refine Par.uses_bind_zero (Par.uses_traced _ x2 (by decide) (by decide))
          (fun a ha => ?_)
        subst ha
        refine Par.uses_bind (Par.uses_bind_zero
          (Par.uses_traced _ (Parallel_Strassen.parallel_new_ok sx2 t11 r (p - 1)) (by decide)
            (by decide))
          (fun S hS => by subst hS; exact ih (p - 1) m _ _ sx2 t11)) (fun _ _ => ?_)
        refine Par.uses_bind_zero (Par.uses_traced _ y3 (by decide) (by decide))
          (fun a ha => ?_)
        subst ha
        refine Par.uses_bind (Par.uses_bind_zero
          (Par.uses_traced _ (Parallel_Strassen.parallel_new_ok s11 sy3 r (p - 1)) (by decide)
            (by decide))
          (fun S hS => by subst hS; exact ih (p - 1) m _ _ s11 sy3)) (fun _ _ => ?_)
        refine Par.uses_bind_zero (Par.uses_traced _ y4 (by decide) (by decide))
          (fun a ha => ?_)
        subst ha
        refine Par.uses_bind (Par.uses_bind_zero
          (Par.uses_traced _ (Parallel_Strassen.parallel_new_ok s22 sy4 r (p - 1)) (by decide)
            (by decide))
          (fun S hS => by subst hS; exact ih (p - 1) m _ _ s22 sy4)) (fun _ _ => ?_)
        refine Par.uses_bind_zero (Par.uses_traced _ x5 (by decide) (by decide))
          (fun a ha => ?_)
        subst ha
        refine Par.uses_bind (Par.uses_bind_zero
          (Par.uses_traced _ (Parallel_Strassen.parallel_new_ok sx5 t22 r (p - 1)) (by decide)
            (by decide))
          (fun S hS => by subst hS; exact ih (p - 1) m _ _ sx5 t22)) (fun _ _ => ?_)
        refine Par.uses_bind_zero (Par.uses_traced _ x6 (by decide) (by decide))
          (fun a ha => ?_)
        subst ha
        refine Par.uses_bind_zero (Par.uses_traced _ y6 (by decide) (by decide))
          (fun a ha => ?_)
        subst ha
        refine Par.uses_bind (Par.uses_bind_zero
          (Par.uses_traced _ (Parallel_Strassen.parallel_new_ok sx6 sy6 r (p - 1)) (by decide)
            (by decide))
          (fun S hS => by subst hS; exact ih (p - 1) m _ _ sx6 sy6)) (fun _ _ => ?_)
        refine Par.uses_bind_zero (Par.uses_traced _ x7 (by decide) (by decide))
          (fun a ha => ?_)
        subst ha
        refine Par.uses_bind_zero (Par.uses_traced _ y7 (by decide) (by decide))
          (fun a ha => ?_)
        subst ha
        refine Par.uses_bind (Par.uses_bind_zero
          (Par.uses_traced _ (Parallel_Strassen.parallel_new_ok sx7 sy7 r (p - 1)) (by decide)
            (by decide))
          (fun S hS => by subst hS; exact ih (p - 1) m _ _ sx7 sy7)) (fun _ _ => ?_)
        exact Par.uses_lift_any _ (Traced.only_untraced _)

/-- The functors handed to the pool, on square operands: their number, their budget and the
dimension of their operands. -/
theorem Parallel_Strassen.tasks_spec [CommRing T] (r : Nat) :
    ∀ (p n : Nat) (A B : Matrix T), A.square n → B.square n →
      ∃ L, Parallel_Strassen.tasks r p A B = .ok L ∧
        L.length = (if p < min r (padicValNat 2 n) then 7 ^ (p + 1) else 0) ∧
        ∀ S ∈ L, S.r = r - p - 1 ∧ S.A.square (n / 2 ^ (p + 1)) ∧
          S.B.square (n / 2 ^ (p + 1)) := by
  induction r with
  | zero =>
    intro p n A B _ _
    rw [depth_zero, if_neg (Nat.not_lt_zero p)]
    exact ⟨[], rfl, rfl, fun S hS => absurd hS (List.not_mem_nil S)⟩
  | succ r ih =>
    intro p n A B hA hB
    by_cases hodd : A.rows % 2 ≠ 0
    · have hn : n % 2 ≠ 0 := by rw [← hA.2.1]; exact hodd
      rw [depth_odd _ n hn, if_neg (Nat.not_lt_zero p)]
      refine ⟨[], ?_, rfl, fun S hS => absurd hS (List.not_mem_nil S)⟩
      rw [Parallel_Strassen.tasks]
      simp only [if_pos hodd]
      rfl
    · obtain ⟨m, hn⟩ : ∃ m, n = 2 * m := ⟨A.rows / 2, by
        have : A.rows = n := hA.2.1
        omega⟩
      have hrows : A.rows / 2 = m := by
        have : A.rows = n := hA.2.1
        omega
      have hm1 : 1 ≤ m := by
        have : 1 ≤ A.n_rows := hA.1.1
        have : A.n_rows = n := hA.2.1
        omega
      subst hn
      rw [depth_even r m hm1]
      obtain ⟨q, _, hq', s11, s12, s21, s22, t11, t12, t21, t22⟩ :=
        quadrants_multiplies A B m hm1 hA hB
      obtain ⟨X1, x1, sx1, _⟩ := Matrix.add_square s11 s22
      obtain ⟨Y1, y1, sy1, _⟩ := Matrix.add_square t11 t22
      obtain ⟨X2, x2, sx2, _⟩ := Matrix.add_square s21 s22
      obtain ⟨Y3, y3, sy3, _⟩ := Matrix.sub_square t12 t22
      obtain ⟨Y4, y4, sy4, _⟩ := Matrix.sub_square t21 t11
      obtain ⟨X5, x5, sx5, _⟩ := Matrix.add_square s11 s12
      obtain ⟨X6, x6, sx6, _⟩ := Matrix.sub_square s21 s11
      obtain ⟨Y6, y6, sy6, _⟩ := Matrix.add_square t11 t12
      obtain ⟨X7, x7, sx7, _⟩ := Matrix.sub_square s12 s22
      obtain ⟨Y7, y7, sy7, _⟩ := Matrix.add_square t21 t22
      have hdiv : ∀ k, 2 * m / 2 ^ (k + 1) = m / 2 ^ k := by
        intro k
        rw [pow_succ, Nat.mul_comm (2 ^ _) 2]
        exact Nat.mul_div_mul_left m _ (by decide)
      by_cases hp : p = 0
      · subst hp
        rw [if_pos (Nat.succ_pos _)]
        refine ⟨[⟨X1, Y1, r⟩, ⟨X2, q.B11, r⟩, ⟨q.A11, Y3, r⟩, ⟨q.A22, Y4, r⟩, ⟨X5, q.B22, r⟩,
          ⟨X6, Y6, r⟩, ⟨X7, Y7, r⟩], ?_, rfl, ?_⟩
        · rw [Parallel_Strassen.tasks]
          simp only [if_neg hodd]
          rw [hrows]
          simp only [hq', x1, y1, x2, y3, y4, x5, x6, y6, x7, y7, ok_bind, if_true,
            Strassen.serial_new_ok sx1 sy1 r, Strassen.serial_new_ok sx2 t11 r,
            Strassen.serial_new_ok s11 sy3 r, Strassen.serial_new_ok s22 sy4 r,
            Strassen.serial_new_ok sx5 t22 r, Strassen.serial_new_ok sx6 sy6 r,
            Strassen.serial_new_ok sx7 sy7 r]
          rfl
        · intro S hS
          rw [hdiv 0, pow_zero, Nat.div_one]
          simp only [List.mem_cons, List.mem_singleton, List.not_mem_nil, or_false] at hS
          rcases hS with rfl | rfl | rfl | rfl | rfl | rfl | rfl
          · exact ⟨by simp, sx1, sy1⟩
          · exact ⟨by simp, sx2, t11⟩
          · exact ⟨by simp, s11, sy3⟩
          · exact ⟨by simp, s22, sy4⟩
          · exact ⟨by simp, sx5, t22⟩
          · exact ⟨by simp, sx6, sy6⟩
          · exact ⟨by simp, sx7, sy7⟩
      · obtain ⟨L1, p1, l1, q1⟩ := ih (p - 1) m X1 Y1 sx1 sy1
        obtain ⟨L2, p2, l2, q2⟩ := ih (p - 1) m X2 q.B11 sx2 t11
        obtain ⟨L3, p3, l3, q3⟩ := ih (p - 1) m q.A11 Y3 s11 sy3
        obtain ⟨L4, p4, l4, q4⟩ := ih (p - 1) m q.A22 Y4 s22 sy4
        obtain ⟨L5, p5, l5, q5⟩ := ih (p - 1) m X5 q.B22 sx5 t22
        obtain ⟨L6, p6, l6, q6⟩ := ih (p - 1) m X6 Y6 sx6 sy6
        obtain ⟨L7, p7, l7, q7⟩ := ih (p - 1) m X7 Y7 sx7 sy7
        refine ⟨L1 ++ L2 ++ L3 ++ L4 ++ L5 ++ L6 ++ L7, ?_, ?_, ?_⟩
        · rw [Parallel_Strassen.tasks]
          simp only [if_neg hodd]
          rw [hrows]
          simp only [hq', x1, y1, x2, y3, y4, x5, x6, y6, x7, y7, ok_bind, if_neg hp,
            Parallel_Strassen.parallel_new_ok sx1 sy1 r (p - 1),
            Parallel_Strassen.parallel_new_ok sx2 t11 r (p - 1),
            Parallel_Strassen.parallel_new_ok s11 sy3 r (p - 1),
            Parallel_Strassen.parallel_new_ok s22 sy4 r (p - 1),
            Parallel_Strassen.parallel_new_ok sx5 t22 r (p - 1),
            Parallel_Strassen.parallel_new_ok sx6 sy6 r (p - 1),
            Parallel_Strassen.parallel_new_ok sx7 sy7 r (p - 1), p1, p2, p3, p4, p5, p6, p7]
          rfl
        · simp only [List.length_append, l1, l2, l3, l4, l5, l6, l7]
          have e : p + 1 = (p - 1 + 1) + 1 := by omega
          by_cases h : p - 1 < min r (padicValNat 2 m)
          · rw [if_pos h, if_pos (by omega), e, pow_succ]
            omega
          · rw [if_neg h, if_neg (by omega)]
        · intro S hS
          have hpp : p - 1 + 1 = p := by omega
          have key : ∀ L : List (Strassen T), (∀ S ∈ L, S.r = r - (p - 1) - 1 ∧
              S.A.square (m / 2 ^ (p - 1 + 1)) ∧ S.B.square (m / 2 ^ (p - 1 + 1))) → S ∈ L →
              S.r = r + 1 - p - 1 ∧ S.A.square (2 * m / 2 ^ (p + 1)) ∧
                S.B.square (2 * m / 2 ^ (p + 1)) := by
            intro L hL hm
            obtain ⟨a, b, c⟩ := hL S hm
            rw [hdiv p]
            rw [hpp] at b c
            exact ⟨by omega, b, c⟩
          simp only [List.mem_append] at hS
          rcases hS with (((((h | h) | h) | h) | h) | h) | h
          · exact key L1 q1 h
          · exact key L2 q2 h
          · exact key L3 q3 h
          · exact key L4 q4 h
          · exact key L5 q5 h
          · exact key L6 q6 h
          · exact key L7 q7 h

/-- C22: for square operands of dimension `n`, a budget `r`, a parallel depth `p` and a pool
in order, with `d = min r (padicValNat 2 n)`, the call `Parallel_Strassen(A, B, r, p, pool)()`
returns; the functors it hands to `load_front`, listed by `Parallel_Strassen.tasks`, are as
many as the `load_front` in its trace, as the futures it reads and as the shared states the
pool hands out. If `p < d` they are exactly `7 ^ (p + 1)` serial `Strassen` functors with budget
`r - p - 1` on square operands of dimension `n / 2 ^ (p + 1)`; if `d ≤ p` there is none and the
pool is left exactly as it was. -/
theorem C22_exact_dispatch_count [CommRing T] (r p n : Nat) (A B : Matrix T)
    (hA : A.square n) (hB : B.square n) (w : World T) (hw : w.pool.Inv) :
    ∃ P w' ops L, (Parallel_Strassen.call ⟨A, B, r, p⟩).run w = .ok (P, w') ∧
      w'.trace = w.trace ++ ops ∧
      Parallel_Strassen.tasks r p A B = .ok L ∧
      ops.count .load_front = L.length ∧ ops.count .future_get = L.length ∧
      w'.pool.next_state = w.pool.next_state + L.length ∧
      (p < min r (padicValNat 2 n) → L.length = 7 ^ (p + 1) ∧
        ∀ S ∈ L, S.r = r - p - 1 ∧ S.A.square (n / 2 ^ (p + 1)) ∧
          S.B.square (n / 2 ^ (p + 1))) ∧
      (min r (padicValNat 2 n) ≤ p → L = [] ∧ w'.pool = w.pool) := by
  obtain ⟨P, hP, _⟩ := Parallel_Strassen.parallel_ok_all r p n A B hA hB
  obtain ⟨w', hw', _⟩ := hP w hw
  obtain ⟨_, ops, e1, e2, e3, e4, e5⟩ := Parallel_Strassen.run_uses r p n A B hA hB w P w' hw'
  obtain ⟨L, hL, hlen, hS⟩ := Parallel_Strassen.tasks_spec r p n A B hA hB
  refine ⟨P, w', ops, L, hw', e1, hL, by rw [e2, hlen], by rw [e3, hlen], by rw [e4, hlen],
    ?_, ?_⟩
  · intro h
    rw [if_pos h] at hlen
    exact ⟨hlen, hS⟩
  · intro h
    have h' : ¬ p < min r (padicValNat 2 n) := by omega
    rw [if_neg h'] at hlen e5
    exact ⟨List.length_eq_zero.mp hlen, e5 rfl rfl⟩

/-- Witness for C22: the call of the test, with `p = 0` and budget 5, on the 2×2 integer
matrices `demoA`, `demoB` and the pool of the test. -/
theorem C22_witness :
    (demoA.square 2 ∧ demoB.square 2 ∧ (test_world Int).pool.Inv) ∧
    ∃ P w' ops L, (Parallel_Strassen.call ⟨demoA, demoB, 5, 0⟩).run (test_world Int) = .ok (P, w') ∧
      w'.trace = (test_world Int).trace ++ ops ∧
      Parallel_Strassen.tasks 5 0 demoA demoB = .ok L ∧
      ops.count .load_front = L.length ∧ ops.count .future_get = L.length ∧
      w'.pool.next_state = (test_world Int).pool.next_state + L.length ∧
      (0 < min 5 (padicValNat 2 2) → L.length = 7 ^ (0 + 1) ∧
        ∀ S ∈ L, S.r = 5 - 0 - 1 ∧ S.A.square (2 / 2 ^ (0 + 1)) ∧
          S.B.square (2 / 2 ^ (0 + 1))) ∧
      (min 5 (padicValNat 2 2) ≤ 0 → L = [] ∧ w'.pool = (test_world Int).pool) :=
  ⟨⟨by decide, by decide, Thread_Pool.new_inv 4 'f' 2 (by decide)⟩,
    C22_exact_dispatch_count 5 0 2 demoA demoB (by decide) (by decide) (test_world Int)
      (Thread_Pool.new_inv 4 'f' 2 (by decide))⟩

/-! ## Element access on tables -/

section tables
variable {K : Type} [Field K] [DecidableEq K]

theorem Matrix.is_self [Zero T] (M : Matrix T) (hM : M.wf) :
    M.Is M.n_rows M.n_columns M.entry :=
  ⟨hM, rfl, rfl, fun _ _ _ _ => rfl⟩

theorem Matrix.is_congr [Zero T] {M : Matrix T} {h w : Nat} {e f : Nat → Nat → T}
    (hM : M.Is h w e) (hef : ∀ i j, i < h → j < w → e i j = f i j) : M.Is h w f :=
  ⟨hM.1, hM.2.1, hM.2.2.1, fun i j hi hj => (hM.2.2.2 i j hi hj).trans (hef i j hi hj)⟩

theorem Matrix.is_size [Zero T] {M : Matrix T} {h w : Nat} {e : Nat → Nat → T}
    (hM : M.Is h w e) : 1 ≤ h ∧ 1 ≤ w ∧ h * w < SIZE_MOD ∧ h < SIZE_MOD ∧ w < SIZE_MOD := by
  obtain ⟨wf, rfl, rfl, _⟩ := hM
  exact ⟨wf.1, wf.2.1, wf.2.2.1, Matrix.wf_rows_lt wf, Matrix.wf_columns_lt wf⟩

theorem Matrix.get_is [Zero T] {M : Matrix T} {h w : Nat} {e : Nat → Nat → T}
    (hM : M.Is h w e) {r c : Nat} (hr : r < h) (hc : c < w) : M.get r c = .ok (e r c) := by
  obtain ⟨wf, rfl, rfl, he⟩ := hM
  rw [Matrix.get_ok M wf hr hc, he r c hr hc]

theorem Matrix.put_is [Zero T] {M : Matrix T} {h w : Nat} {e : Nat → Nat → T}
    (hM : M.Is h w e) {r c : Nat} (hr : r < h) (hc : c < w) (v : T) :
    ∃ M', M.put r c v = .ok M' ∧ M'.Is h w (entry_set e r c v) := by
  obtain ⟨wf, rfl, rfl, he⟩ := hM
  obtain ⟨h1, h2, h3, h4, h5⟩ := wf
  refine ⟨_, Matrix.put_ok h3 hr hc M v rfl h5, ⟨h1, h2, h3, h4, ?_⟩, rfl, rfl, ?_⟩
  · simp only [List.length_set]; exact h5
  · intro i j hi hj
    unfold Matrix.entry entry_set
    simp only
    rw [getD_set_lin M.elements hc hj (by rw [h5]; exact lin_lt hr hc)]
    by_cases hij : i = r ∧ j = c
    · rw [if_pos hij, if_pos hij]
    · rw [if_neg hij, if_neg hij]
      exact he i j hi hj

/-- The loop over `j`: row `t` minus `multiplier` times row `s`, right of column `c`. -/
theorem Algebra.subtract_row_spec {M : Matrix K} {h w : Nat} {e : Nat → Nat → K}
    (hM : M.Is h w e) {t s c : Nat} (ht : t < h) (hs : s < h) (m : K) :
    ∃ M', Algebra.subtract_row t s c w m M = .ok M' ∧
      M'.Is h w (fun i j => if i = t ∧ c < j then e i j - e s j * m else e i j) := by
  obtain ⟨_, _, _, _, hw⟩ := Matrix.is_size hM
  unfold Algebra.subtract_row
  obtain ⟨M', h1, h2⟩ := foldlM_range_inv
    (fun (M : Matrix K) l => do
      let j := l + 1
      M.put t (sz (c + j)) ((← M.get t (sz (c + j))) - (← M.get s (sz (c + j))) * m))
    (fun l M => M.Is h w
      (fun i j => if i = t ∧ c < j ∧ j < c + 1 + l then e i j - e s j * m else e i j))
    (w - c - 1) M
    (Matrix.is_congr hM (fun i j _ _ => by
      rw [if_neg (by omega)]))
    (by
      intro l N hl hN
      have hj : c + (l + 1) < w := by omega
      obtain ⟨N', p1, p2⟩ := Matrix.put_is hN ht hj
        (e t (c + (l + 1)) - e s (c + (l + 1)) * m)
      refine ⟨N', ?_, Matrix.is_congr p2 ?_⟩
      · beta_reduce
        simp only [sz_of_lt (show c + (l + 1) < SIZE_MOD by omega)]
        rw [Matrix.get_is hN ht hj, Matrix.get_is hN hs hj]
        simp only [ok_bind]
        rw [if_neg (by omega), if_neg (by omega)]
        exact p1
      · intro i j hi hj'
        unfold entry_set
        by_cases h1 : i = t ∧ j = c + (l + 1)
        · rw [if_pos h1, if_pos (by omega), h1.1, h1.2]
        · rw [if_neg h1]
          beta_reduce
          split_ifs <;> first | rfl | omega)
  refine ⟨M', h1, Matrix.is_congr h2 ?_⟩
  intro i j hi hj
  beta_reduce
  by_cases h3 : i = t ∧ c < j
  · rw [if_pos h3, if_pos (by omega)]
  · rw [if_neg h3, if_neg (by omega)]

theorem Algebra.clear_under_spec {M : Matrix K} {h w : Nat} {e : Nat → Nat → K}
    (hM : M.Is h w e) {row c : Nat} (hr : row < h) (hc : c < w) :
    ∃ M', Algebra.clear_under row c M = .ok M' ∧ M'.Is h w (cleared_under e row c) := by
  obtain ⟨_, _, _, hh, hw⟩ := Matrix.is_size hM
  have hrows : M.rows = h := hM.2.1
  have hcols : M.columns = w := hM.2.2.1
  obtain ⟨M1, h1, h2⟩ := foldlM_range_inv
    (fun (M : Matrix K) k => do
      let i := k + 1
      let multiplier := (← M.get (sz (row + i)) c) / e row c
      Algebra.subtract_row (sz (row + i)) row c w multiplier M)
    (fun k M => M.Is h w
      (fun i j => if row < i ∧ i < row + 1 + k ∧ c < j then
        e i j - e row j * (e i c / e row c) else e i j))
    (h - row - 1) M
    (Matrix.is_congr hM (fun i j _ _ => by rw [if_neg (by omega)]))
    (by
      intro k N hk hN
      have ht : row + (k + 1) < h := by omega
      obtain ⟨N', p1, p2⟩ := Algebra.subtract_row_spec hN ht hr (c := c)
        (e (row + (k + 1)) c / e row c)
      refine ⟨N', ?_, Matrix.is_congr p2 ?_⟩
      · beta_reduce
        simp only [sz_of_lt (show row + (k + 1) < SIZE_MOD by omega)]
        rw [Matrix.get_is hN ht hc]
        simp only [ok_bind]
        rw [if_neg (by omega)]
        exact p1
      · intro i j hi hj
        beta_reduce
        by_cases h1 : i = row + (k + 1) ∧ c < j
        · rw [if_pos h1, if_neg (by omega), if_neg (by omega), if_pos (by omega), h1.1]
        · rw [if_neg h1]
          split_ifs <;> first | rfl | omega)
  obtain ⟨M2, h3, h4⟩ := foldlM_range_inv
    (fun (M : Matrix K) k => M.put (sz (row + (k + 1))) c 0)
    (fun k M => M.Is h w
      (fun i j => if row < i ∧ i < row + 1 + k ∧ j = c then 0
        else if row < i ∧ i < row + 1 + (h - row - 1) ∧ c < j then
          e i j - e row j * (e i c / e row c) else e i j))
    (h - row - 1) M1
    (Matrix.is_congr h2 (fun i j _ _ => by
      split_ifs <;> first | rfl | omega))
    (by
      intro k N hk hN
      have ht : row + (k + 1) < h := by omega
      obtain ⟨N', p1, p2⟩ := Matrix.put_is hN ht hc (0 : K)
      refine ⟨N', ?_, Matrix.is_congr p2 ?_⟩
      · beta_reduce
        rw [sz_of_lt (show row + (k + 1) < SIZE_MOD by omega)]
        exact p1
      · intro i j hi hj
        unfold entry_set
        by_cases h1 : i = row + (k + 1) ∧ j = c
        · rw [if_pos h1, if_pos (by omega)]
        · rw [if_neg h1]
          beta_reduce
          split_ifs <;> first | rfl | omega)
  refine ⟨M2, ?_, Matrix.is_congr h4 ?_⟩
  · unfold Algebra.clear_under
    rw [hrows, hcols, Matrix.get_is hM hr hc]
    simp only [ok_bind]
    rw [h1]
    simp only [ok_bind]
    exact h3
  · intro i j hi hj
    unfold cleared_under
    split_ifs <;> first | rfl | omega

theorem Matrix.exchange_rows_is [Zero T] {M : Matrix T} {h w : Nat} {e : Nat → Nat → T}
    (hM : M.Is h w e) {a b : Nat} (ha : a < h) (hb : b < h) :
    ∃ M', M.exchange_rows a b = .ok M' ∧ M'.Is h w (fun i j => e (swap_row a b i) j) := by
  obtain ⟨wf, rfl, rfl, he⟩ := hM
  obtain ⟨M', h1, h2, h3, h4, h5⟩ := Matrix.exchange_rows_spec M wf ha hb
  refine ⟨M', h1, h4, h2, h3, ?_⟩
  intro i j hi hj
  rw [h5 i j hj]
  apply he _ _ _ hj
  unfold swap_row
  split_ifs <;> omega

theorem Algebra.clear_above_spec {M : Matrix K} {h w : Nat} {e : Nat → Nat → K}
    (hM : M.Is h w e) {row c : Nat} (hr : row < h) (hc : c < w) :
    ∃ M', Algebra.clear_above row c M = .ok M' ∧ M'.Is h w (cleared_above e row c) := by
  obtain ⟨_, _, _, hh, hw⟩ := Matrix.is_size hM
  have hcols : M.columns = w := hM.2.2.1
  obtain ⟨M1, h1, h2⟩ := foldlM_range_inv
    (fun (M : Matrix K) k => do
      let i := k + 1
      let multiplier := (← M.get (size_sub row i) c) / e row c
      Algebra.subtract_row (size_sub row i) row c w multiplier M)
    (fun k M => M.Is h w
      (fun i j => if i < row ∧ row ≤ i + k ∧ c < j then
        e i j - e row j * (e i c / e row c) else e i j))
    row M
    (Matrix.is_congr hM (fun i j _ _ => by rw [if_neg (by omega)]))
    (by
      intro k N hk hN
      have ht : row - (k + 1) < h := by omega
      obtain ⟨N', p1, p2⟩ := Algebra.subtract_row_spec hN ht hr (c := c)
        (e (row - (k + 1)) c / e row c)
      refine ⟨N', ?_, Matrix.is_congr p2 ?_⟩
      · beta_reduce
        simp only [size_sub_of_le (show k + 1 ≤ row by omega) (show row < SIZE_MOD by omega)]
        rw [Matrix.get_is hN ht hc]
        simp only [ok_bind]
        rw [if_neg (by omega)]
        exact p1
      · intro i j hi hj
        beta_reduce
        by_cases h1 : i = row - (k + 1) ∧ c < j
        · rw [if_pos h1, if_neg (by omega), if_neg (by omega), if_pos (by omega), h1.1]
        · rw [if_neg h1]
          split_ifs <;> first | rfl | omega)
  obtain ⟨M2, h3, h4⟩ := foldlM_range_inv
    (fun (M : Matrix K) k => M.put (size_sub row (k + 1)) c 0)
    (fun k M => M.Is h w
      (fun i j => if i < row ∧ row ≤ i + k ∧ j = c then 0
        else if i < row ∧ row ≤ i + row ∧ c < j then
          e i j - e row j * (e i c / e row c) else e i j))
    row M1
    (Matrix.is_congr h2 (fun i j _ _ => by
      split_ifs <;> first | rfl | omega))
    (by
      intro k N hk hN
      have ht : row - (k + 1) < h := by omega
      obtain ⟨N', p1, p2⟩ := Matrix.put_is hN ht hc (0 : K)
      refine ⟨N', ?_, Matrix.is_congr p2 ?_⟩
      · beta_reduce
        rw [size_sub_of_le (show k + 1 ≤ row by omega) (show row < SIZE_MOD by omega)]
        exact p1
      · intro i j hi hj
        unfold entry_set
        by_cases h1 : i = row - (k + 1) ∧ j = c
        · rw [if_pos h1, if_pos (by omega)]
        · rw [if_neg h1]
          beta_reduce
          split_ifs <;> first | rfl | omega)
  refine ⟨M2, ?_, Matrix.is_congr h4 ?_⟩
  · unfold Algebra.clear_above
    rw [hcols, Matrix.get_is hM hr hc]
    simp only [ok_bind]
    rw [h1]
    simp only [ok_bind]
    exact h3
  · intro i j hi hj
    unfold cleared_above
    split_ifs <;> first | rfl | omega

/-! ## The scans for a pivot -/

theorem Algebra.sort_scan_spec {M : Matrix K} {h w : Nat} {e : Nat → Nat → K}
    (hM : M.Is h w e) {row : Nat} (hr : row < h) (hrw : row < w) (dm : Int) :
    ∀ l : List Nat, (∀ i ∈ l, i < h) →
      ∃ M' dm', Algebra.sort_scan row l M dm = .ok (M', dm') ∧
        ((M' = M ∧ dm' = dm ∧ ∀ i ∈ l, e i row = 0) ∨
          ∃ i ∈ l, e i row ≠ 0 ∧ M'.Is h w (fun a j => e (swap_row i row a) j) ∧
            dm' = -dm) := by
  intro l
  induction l with
  | nil => intro _; exact ⟨M, dm, rfl, Or.inl ⟨rfl, rfl, fun _ hi => by cases hi⟩⟩
  | cons i rest ih =>
    intro hl
    have hi : i < h := hl i (List.mem_cons_self _ _)
    unfold Algebra.sort_scan
    rw [Matrix.get_is hM hi hrw]
    simp only [ok_bind, Algebra.is_zero]
    by_cases hz : e i row = 0
    · obtain ⟨M', dm', p1, p2⟩ := ih (fun a ha => hl a (List.mem_cons_of_mem _ ha))
      refine ⟨M', dm', ?_, ?_⟩
      · simp only [hz, decide_True, Bool.not_true]
        exact p1
      · rcases p2 with ⟨q1, q2, q3⟩ | ⟨a, qa, q1, q2, q3⟩
        · refine Or.inl ⟨q1, q2, ?_⟩
          intro a ha
          rcases List.mem_cons.mp ha with rfl | ha
          · exact hz
          · exact q3 a ha
        · exact Or.inr ⟨a, List.mem_cons_of_mem _ qa, q1, q2, q3⟩
    · obtain ⟨M', p1, p2⟩ := Matrix.exchange_rows_is hM hi hr
      refine ⟨M', dm * -1, ?_, Or.inr ⟨i, List.mem_cons_self _ _, hz, p2, by ring⟩⟩
      simp only [hz, decide_False, Bool.not_false, if_true]
      rw [p1]
      rfl

/-- The exchange of `main_diagonal_partial_sort`: nothing changes, and then the diagonal entry
is not zero or the column is zero from the diagonal down; or a row further down with an
entry that is not zero in the column takes the place of the row, and the sign flips. -/
theorem Algebra.main_diagonal_partial_sort_spec {M : Matrix K} {h w : Nat}
    {e : Nat → Nat → K} (hM : M.Is h w e) {row : Nat} (hr : row < h) (hrw : row < w)
    (dm : Int) :
    ∃ M' dm' e', Algebra.main_diagonal_partial_sort row M dm = .ok (M', dm') ∧
      M'.Is h w e' ∧
      ((e' = e ∧ dm' = dm ∧ (e row row = 0 → ∀ i, row ≤ i → i < h → e i row = 0)) ∨
        ∃ i, row < i ∧ i < h ∧ e row row = 0 ∧ e i row ≠ 0 ∧
          e' = (fun a j => e (swap_row i row a) j) ∧ dm' = -dm) := by
  have hrows : M.rows = h := hM.2.1
  unfold Algebra.main_diagonal_partial_sort
  rw [Matrix.get_is hM hr hrw, hrows]
  simp only [ok_bind, Algebra.is_zero]
  by_cases hz : e row row = 0
  · rw [if_pos (decide_eq_true hz)]
    obtain ⟨M', dm', p1, p2⟩ := Algebra.sort_scan_spec hM hr hrw dm
      (List.range' row (h - row)) (fun i hi => by
        have := List.mem_range'_1.mp hi
        omega)
    rcases p2 with ⟨q1, q2, q3⟩ | ⟨i, qi, q1, q2, q3⟩
    · refine ⟨M', dm', e, p1, q1 ▸ hM, Or.inl ⟨rfl, q2, fun _ i h1 h2 => ?_⟩⟩
      exact q3 i (List.mem_range'_1.mpr ⟨h1, by omega⟩)
    · have hi := List.mem_range'_1.mp qi
      have hne : i ≠ row := fun hh => q1 (hh ▸ hz)
      exact ⟨M', dm', _, p1, q2, Or.inr ⟨i, by omega, by omega, hz, q1, rfl, q3⟩⟩
  · rw [if_neg (by simpa using hz)]
    exact ⟨M, dm, e, rfl, hM, Or.inl ⟨rfl, rfl, fun hh => absurd hh hz⟩⟩

theorem Algebra.under_scan_spec {M : Matrix K} {h w : Nat} {e : Nat → Nat → K}
    (hM : M.Is h w e) {row : Nat} (hr : row < h) :
    ∀ n a, a + n ≤ w →
      ∃ M', Algebra.under_scan row (List.range' a n) M = .ok M' ∧
        ((M' = M ∧ ∀ c, a ≤ c → c < a + n → e row c = 0) ∨
          ∃ c, a ≤ c ∧ c < a + n ∧ e row c ≠ 0 ∧ (∀ j, a ≤ j → j < c → e row j = 0) ∧
            M'.Is h w (cleared_under e row c)) := by
  intro n
  induction n with
  | zero => intro a _; exact ⟨M, rfl, Or.inl ⟨rfl, fun c h1 h2 => by omega⟩⟩
  | succ n ih =>
    intro a ha
    rw [List.range'_succ]
    unfold Algebra.under_scan
    rw [Matrix.get_is hM hr (show a < w by omega)]
    simp only [ok_bind, Algebra.is_zero]
    by_cases hz : e row a = 0
    · obtain ⟨M', p1, p2⟩ := ih (a + 1) (by omega)
      refine ⟨M', ?_, ?_⟩
      · simp only [hz, decide_True, Bool.not_true]
        exact p1
      · rcases p2 with ⟨q1, q2⟩ | ⟨c, q1, q2, q3, q4, q5⟩
        · refine Or.inl ⟨q1, fun c h1 h2 => ?_⟩
          by_cases hc : c = a
          · rw [hc]; exact hz
          · exact q2 c (by omega) (by omega)
        · refine Or.inr ⟨c, by omega, by omega, q3, fun j h1 h2 => ?_, q5⟩
          by_cases hj : j = a
          · rw [hj]; exact hz
          · exact q4 j (by omega) h2
    · obtain ⟨M', p1, p2⟩ := Algebra.clear_under_spec hM hr (show a < w by omega)
      refine ⟨M', ?_, Or.inr ⟨a, le_refl _, by omega, hz, fun j h1 h2 => by omega, p2⟩⟩
      simp only [hz, decide_False, Bool.not_false, if_true]
      exact p1

theorem Algebra.above_scan_spec {M : Matrix K} {h w : Nat} {e : Nat → Nat → K}
    (hM : M.Is h w e) {row : Nat} (hr : row < h) :
    ∀ n a, a + n ≤ w →
      ∃ M', Algebra.above_scan row (List.range' a n) M = .ok M' ∧
        ((M' = M ∧ ∀ c, a ≤ c → c < a + n → e row c = 0) ∨
          ∃ c, a ≤ c ∧ c < a + n ∧ e row c ≠ 0 ∧ (∀ j, a ≤ j → j < c → e row j = 0) ∧
            M'.Is h w (cleared_above e row c)) := by
  intro n
  induction n with
  | zero => intro a _; exact ⟨M, rfl, Or.inl ⟨rfl, fun c h1 h2 => by omega⟩⟩
  | succ n ih =>
    intro a ha
    rw [List.range'_succ]
    unfold Algebra.above_scan
    rw [Matrix.get_is hM hr (show a < w by omega)]
    simp only [ok_bind, Algebra.is_zero]
    by_cases hz : e row a = 0
    · obtain ⟨M', p1, p2⟩ := ih (a + 1) (by omega)
      refine ⟨M', ?_, ?_⟩
      · simp only [hz, decide_True, Bool.not_true]
        exact p1
      · rcases p2 with ⟨q1, q2⟩ | ⟨c, q1, q2, q3, q4, q5⟩
        · refine Or.inl ⟨q1, fun c h1 h2 => ?_⟩
          by_cases hc : c = a
          · rw [hc]; exact hz
          · exact q2 c (by omega) (by omega)
        · refine Or.inr ⟨c, by omega, by omega, q3, fun j h1 h2 => ?_, q5⟩
          by_cases hj : j = a
          · rw [hj]; exact hz
          · exact q4 j (by omega) h2
    · obtain ⟨M', p1, p2⟩ := Algebra.clear_above_spec hM hr (show a < w by omega)
      refine ⟨M', ?_, Or.inr ⟨a, le_refl _, by omega, hz, fun j h1 h2 => by omega, p2⟩⟩
      simp only [hz, decide_False, Bool.not_false, if_true]
      exact p1

end tables

/-! ## Row operations -/

section row_operations
variable {K : Type} [Field K]

theorem RowEquivalent.refl (n w : Nat) (e : Nat → Nat → K) : RowEquivalent n w e e 1 :=
  ⟨1, Matrix.det_one, fun i j _ => by
    simp [Matrix.one_apply, ite_mul, Finset.sum_ite_eq]⟩

theorem RowEquivalent.congr {n w : Nat} {e0 e f : Nat → Nat → K} {d : K}
    (h : RowEquivalent n w e0 e d) (hf : ∀ i j, i < n → j < w → f i j = e i j) :
    RowEquivalent n w e0 f d := by
  obtain ⟨E, hd, hE⟩ := h
  exact ⟨E, hd, fun i j hj => (hf i j i.2 hj).trans (hE i j hj)⟩

/-- Exchanging two rows negates the determinant. -/
theorem RowEquivalent.swap {n w : Nat} {e0 e : Nat → Nat → K} {d : K}
    (h : RowEquivalent n w e0 e d) {a b : Nat} (ha : a < n) (hb : b < n) (hab : a ≠ b) :
    RowEquivalent n w e0 (fun i j => e (swap_row a b i) j) (-d) := by
  obtain ⟨E, hd, hE⟩ := h
  refine ⟨E.submatrix (Equiv.swap (⟨a, ha⟩ : Fin n) ⟨b, hb⟩) id, ?_, ?_⟩
  · rw [Matrix.det_permute, Equiv.Perm.sign_swap (by
      intro hh; exact hab (Fin.mk.inj hh)), hd]
    simp
  · intro i j hj
    have hs : swap_row a b i = ((Equiv.swap (⟨a, ha⟩ : Fin n) ⟨b, hb⟩ i : Fin n) : Nat) := by
      unfold swap_row
      rw [Equiv.swap_apply_def]
      by_cases h1 : (i : Nat) = a
      · rw [if_pos h1, if_pos (Fin.ext h1)]
      · rw [if_neg h1, if_neg (fun hh => h1 (congrArg Fin.val hh))]
        by_cases h2 : (i : Nat) = b
        · rw [if_pos h2, if_pos (Fin.ext h2)]
        · rw [if_neg h2, if_neg (fun hh => h2 (congrArg Fin.val hh))]
    beta_reduce
    rw [hs, hE _ j hj]
    rfl

/-- Adding multiples of row `r` to the other rows keeps the determinant. -/
theorem RowEquivalent.add {n w : Nat} {e0 e : Nat → Nat → K} {d : K}
    (h : RowEquivalent n w e0 e d) {r : Nat} (hr : r < n) (v : Nat → K) (hv : v r = 0) :
    RowEquivalent n w e0 (fun i j => e i j + v i * e r j) d := by
  obtain ⟨E, hd, hE⟩ := h
  refine ⟨Matrix.of fun i k => E i k + v i * E ⟨r, hr⟩ k, ?_, ?_⟩
  · rw [← hd]
    exact Matrix.det_eq_of_forall_row_eq_smul_add_const (fun i : Fin n => v i) ⟨r, hr⟩ hv
      (fun _ _ => rfl)
  · intro i j hj
    beta_reduce
    rw [hE i j hj, hE ⟨r, hr⟩ j hj, Finset.mul_sum, ← Finset.sum_add_distrib]
    refine Finset.sum_congr rfl (fun k _ => ?_)
    simp only [Matrix.of_apply]
    ring

/-- Scaling the rows multiplies the determinant by the factors. -/
theorem RowEquivalent.scale {n w : Nat} {e0 e : Nat → Nat → K} {d : K}
    (h : RowEquivalent n w e0 e d) (s : Nat → K) :
    RowEquivalent n w e0 (fun i j => s i * e i j) ((∏ i in Finset.range n, s i) * d) := by
  obtain ⟨E, hd, hE⟩ := h
  refine ⟨Matrix.of fun i k => s i * E i k, ?_, ?_⟩
  · rw [← hd, ← Fin.prod_univ_eq_prod_range]
    exact Matrix.det_mul_column (fun i : Fin n => s i) E
  · intro i j hj
    beta_reduce
    rw [hE i j hj, Finset.mul_sum]
    refine Finset.sum_congr rfl (fun k _ => ?_)
    simp only [Matrix.of_apply]
    ring

/-- The square part of the table reached is the product of the combining matrix and the
square part of the table left. -/
theorem RowEquivalent.det_eq {n w : Nat} {e0 e : Nat → Nat → K} {d : K}
    (h : RowEquivalent n w e0 e d) (hnw : n ≤ w) :
    (table n e).det = d * (table n e0).det := by
  obtain ⟨E, hd, hE⟩ := h
  have : table n e = E * table n e0 := by
    ext i j
    rw [Matrix.mul_apply]
    exact hE i j (by omega)
  rw [this, Matrix.det_mul, hd]

theorem table_det_upper {n : Nat} {e : Nat → Nat → K}
    (h : ∀ i j, j < i → i < n → e i j = 0) :
    (table n e).det = ∏ i in Finset.range n, e i i := by
  rw [← Fin.prod_univ_eq_prod_range]
  exact Matrix.det_of_upperTriangular (fun i j hij => h i j hij i.2)

theorem cleared_under_eq {e : Nat → Nat → K} {row c : Nat} (hp : e row c ≠ 0)
    (hz : ∀ j, j < c → e row j = 0) (i j : Nat) :
    cleared_under e row c i j =
      e i j + (if row < i then -(e i c / e row c) else 0) * e row j := by
  unfold cleared_under
  by_cases h1 : row < i
  · rw [if_pos h1, if_pos h1]
    by_cases h2 : c < j
    · rw [if_pos h2]; ring
    · rw [if_neg h2]
      by_cases h3 : j = c
      · rw [if_pos h3, h3]; field_simp
      · rw [if_neg h3, hz j (by omega)]; ring
  · rw [if_neg h1, if_neg h1]; ring

theorem cleared_above_eq {e : Nat → Nat → K} {row c : Nat} (hp : e row c ≠ 0)
    (hz : ∀ j, j < c → e row j = 0) (i j : Nat) :
    cleared_above e row c i j =
      e i j + (if i < row then -(e i c / e row c) else 0) * e row j := by
  unfold cleared_above
  by_cases h1 : i < row
  · rw [if_pos h1, if_pos h1]
    by_cases h2 : c < j
    · rw [if_pos h2]; ring
    · rw [if_neg h2]
      by_cases h3 : j = c
      · rw [if_pos h3, h3]; field_simp
      · rw [if_neg h3, hz j (by omega)]; ring
  · rw [if_neg h1, if_neg h1]; ring

theorem RowEquivalent.cleared_under {n w : Nat} {e0 e : Nat → Nat → K} {d : K}
    (h : RowEquivalent n w e0 e d) {row c : Nat} (hr : row < n) (hp : e row c ≠ 0)
    (hz : ∀ j, j < c → e row j = 0) :
    RowEquivalent n w e0 (MatrixAndFriends.cleared_under e row c) d :=
  (h.add hr (fun i => if row < i then -(e i c / e row c) else 0)
    (by simp)).congr (fun i j _ _ => cleared_under_eq hp hz i j)

theorem RowEquivalent.cleared_above {n w : Nat} {e0 e : Nat → Nat → K} {d : K}
    (h : RowEquivalent n w e0 e d) {row c : Nat} (hr : row < n) (hp : e row c ≠ 0)
    (hz : ∀ j, j < c → e row j = 0) :
    RowEquivalent n w e0 (MatrixAndFriends.cleared_above e row c) d :=
  (h.add hr (fun i => if i < row then -(e i c / e row c) else 0)
    (by simp)).congr (fun i j _ _ => cleared_above_eq hp hz i j)

end row_operations

/-! ## `zeros_under_pivots` -/

section elimination
variable {K : Type} [Field K] [DecidableEq K]

/-- On a matrix with no more rows than columns `zeros_under_pivots` returns: the sign it
leaves is 1 or -1, row operations of that determinant lead to the matrix it leaves, and that
matrix is zero under the main diagonal. -/
theorem Algebra.zeros_under_pivots_spec {M : Matrix K} {h w : Nat} {e0 : Nat → Nat → K}
    (hM : M.Is h w e0) (hhw : h ≤ w) (dm : Int) :
    ∃ M' s e, Algebra.zeros_under_pivots M dm = .ok (M', s) ∧ M'.Is h w e ∧
      (s = 1 ∨ s = -1) ∧ RowEquivalent h w e0 e ((s : Int) : K) ∧
      ∀ i j, j < i → i < h → e i j = 0 := by
  have hrows : M.rows = h := hM.2.1
  have hcols : M.columns = w := hM.2.2.1
  obtain ⟨S, p1, e, p2, p3, p4, p5⟩ := foldlM_range_inv
    (fun (s : Matrix K × Int) row => do
      let s ← Algebra.main_diagonal_partial_sort row s.1 s.2
      let col := row
      let M ← Algebra.under_scan row (List.range' col (w - col)) s.1
      pure (M, s.2))
    (fun r (S : Matrix K × Int) => ∃ e, S.1.Is h w e ∧ (S.2 = 1 ∨ S.2 = -1) ∧
      RowEquivalent h w e0 e ((S.2 : Int) : K) ∧
      ∀ i j, j < r → j < i → i < h → e i j = 0)
    h (M, 1)
    ⟨e0, hM, Or.inl rfl, by
      simp only [Int.cast_one]
      exact RowEquivalent.refl h w e0, fun i j hj => by omega⟩
    (by
      rintro r ⟨N, s⟩ hr ⟨e, q1, q2, q3, q4⟩
      simp only at q1 q2 q3
      obtain ⟨N1, s1, e1, a1, a2, a3⟩ :=
        Algebra.main_diagonal_partial_sort_spec q1 hr (show r < w by omega) s
      have b1 : (s1 = 1 ∨ s1 = -1) ∧ RowEquivalent h w e0 e1 ((s1 : Int) : K) ∧
          (∀ i j, j < r → j < i → i < h → e1 i j = 0) ∧
          (e1 r r = 0 → ∀ i, r ≤ i → i < h → e1 i r = 0) := by
        rcases a3 with ⟨c1, c2, c3⟩ | ⟨i, c1, c2, c3, c4, c5, c6⟩
        · subst c1 c2
          exact ⟨q2, q3, q4, c3⟩
        · subst c5 c6
          refine ⟨by omega, ?_, ?_, ?_⟩
          · have := q3.swap c2 hr (by omega : i ≠ r)
            simpa using this
          · intro a j hj hja ha
            beta_reduce
            unfold swap_row
            split_ifs with g1 g2
            · exact q4 r j hj hj hr
            · exact q4 i j hj (by omega) c2
            · exact q4 a j hj hja ha
          · intro hz
            exfalso
            apply c4
            have : swap_row i r r = i := by
              unfold swap_row
              split_ifs <;> omega
            beta_reduce at hz
            rw [this] at hz
            exact hz
      obtain ⟨b1, b2, b3, b4⟩ := b1
      obtain ⟨N2, d1, d2⟩ := Algebra.under_scan_spec a2 hr (w - r) r (by omega)
      refine ⟨(N2, s1), ?_, ?_⟩
      · beta_reduce
        simp only
        rw [a1]
        simp only [ok_bind]
        rw [d1]
        rfl
      · rcases d2 with ⟨g1, g2⟩ | ⟨c, g1, g2, g3, g4, g5⟩
        · subst g1
          refine ⟨e1, a2, b1, b2, ?_⟩
          intro i j hj hji hi
          by_cases hjr : j = r
          · rw [hjr]
            exact b4 (g2 r (le_refl _) (by omega)) i (by omega) hi
          · exact b3 i j (by omega) hji hi
        · have hz : ∀ j, j < c → e1 r j = 0 := by
            intro j hj
            by_cases hjr : j < r
            · exact b3 r j hjr hjr hr
            · exact g4 j (by omega) hj
          refine ⟨_, g5, b1, b2.cleared_under hr g3 hz, ?_⟩
          intro i j hj hji hi
          unfold cleared_under
          by_cases hri : r < i
          · rw [if_pos hri, if_neg (by omega)]
            by_cases hjc : j = c
            · rw [if_pos hjc]
            · rw [if_neg hjc]
              by_cases hjr : j = r
              · rw [hjr]
                exact b4 (g4 r (le_refl _) (by omega)) i (by omega) hi
              · exact b3 i j (by omega) hji hi
          · rw [if_neg hri]
            exact b3 i j (by omega) hji hi)
  obtain ⟨M', s⟩ := S
  refine ⟨M', s, e, ?_, p2, p3, p4, fun i j hji hi => p5 i j (by omega) hji hi⟩
  unfold Algebra.zeros_under_pivots
  rw [hrows, hcols]
  exact p1

end elimination

/-! ## `determinant` -/

section determinants
variable {K : Type} [Field K]

/-- The loop of `determinant` over the diagonal returns the product of the diagonal. -/
theorem Algebra.diagonal_product {M : Matrix K} {h w : Nat} {e : Nat → Nat → K}
    (hM : M.Is h w e) (n : Nat) (hnh : n ≤ h) (hnw : n ≤ w) :
    (List.range n).foldlM (fun det i => do pure (det * (← M.get i i))) (1 : K) =
      (.ok (∏ i in Finset.range n, e i i) : Except Err K) := by
  obtain ⟨d, h1, h2⟩ := foldlM_range_inv
    (fun (det : K) i => do pure (det * (← M.get i i)))
    (fun k det => det = ∏ i in Finset.range k, e i i) n 1 (by simp)
    (by
      intro k det hk hdet
      refine ⟨det * e k k, ?_, ?_⟩
      · beta_reduce
        rw [Matrix.get_is hM (show k < h by omega) (show k < w by omega)]
        rfl
      · beta_reduce
        rw [Finset.prod_range_succ, hdet])
  rw [h1, h2]

/-- The value of `determinant` on a square matrix of the data model. -/
theorem Algebra.determinant_spec [DecidableEq K] {M : Matrix K} {n : Nat} (hM : M.square n) (dm : Int) :
    ∃ U s, Algebra.zeros_under_pivots M dm = .ok (U, s) ∧ (s = 1 ∨ s = -1) ∧
      (∏ i in Finset.range n, U.entry i i) * ((s : Int) : K) = (table n M.entry).det ∧
      Algebra.determinant M dm = .ok ((table n M.entry).det, s) := by
  obtain ⟨wf, hr, hc⟩ := hM
  have hIs : M.Is n n M.entry := by
    have := Matrix.is_self M wf
    rw [hr, hc] at this
    exact this
  obtain ⟨U, s, e, p1, p2, p3, p4, p5⟩ := Algebra.zeros_under_pivots_spec hIs (le_refl n) dm
  have hdet : (∏ i in Finset.range n, e i i) * ((s : Int) : K) = (table n M.entry).det := by
    rw [← table_det_upper p5, p4.det_eq (le_refl n)]
    rcases p3 with rfl | rfl <;> simp
  have hU : ∏ i in Finset.range n, U.entry i i = ∏ i in Finset.range n, e i i :=
    Finset.prod_congr rfl (fun i hi => by
      have := Finset.mem_range.mp hi
      exact p2.2.2.2 i i this this)
  refine ⟨U, s, p1, p3, by rw [hU, hdet], ?_⟩
  unfold Algebra.determinant
  rw [if_pos (show M.rows = M.columns by rw [Matrix.rows, Matrix.columns, hr, hc])]
  simp only [p1, ok_bind]
  rw [show U.rows = n from p2.2.1, Algebra.diagonal_product p2 n (le_refl n) (le_refl n)]
  simp only [ok_bind]
  rw [hdet]
  rfl

/-- C27: on a square matrix `M` of the data model over a field, `determinant` returns the
determinant of `M`: `zeros_under_pivots` returns, the sign it leaves in
`determinant_multiplier` is 1 or -1, and the product of the diagonal it leaves times that
sign is the determinant (zero when `M` is singular, as for every other value). On a matrix
`N` that is not square `determinant` returns 0. The value returned does not depend on the
value `determinant_multiplier` had before the call, for any matrix. -/
theorem C27_determinant_is_the_determinant [DecidableEq K] (M N : Matrix K) (n : Nat) (hM : M.square n)
    (hN : N.rows ≠ N.columns) (dm : Int) :
    (∃ U s, Algebra.zeros_under_pivots M dm = .ok (U, s) ∧ (s = 1 ∨ s = -1) ∧
      (∏ i in Finset.range n, U.entry i i) * ((s : Int) : K) = (table n M.entry).det ∧
      Algebra.determinant M dm = .ok ((table n M.entry).det, s)) ∧
    Algebra.determinant N dm = .ok (0, dm) ∧
    ∀ (A : Matrix K) (dm' : Int),
      Prod.fst <$> Algebra.determinant A dm' = Prod.fst <$> Algebra.determinant A dm := by
  refine ⟨Algebra.determinant_spec hM dm, ?_, ?_⟩
  · unfold Algebra.determinant
    rw [if_neg hN]
    rfl
  · intro A dm'
    unfold Algebra.determinant
    by_cases hA : A.rows = A.columns
    · rw [if_pos hA, if_pos hA]
      rfl
    · rw [if_neg hA, if_neg hA]
      rfl

/-- C27 on the matrix with rows `1 2` and `3 4`, of determinant -2, and on the 2×3 matrix
`demoE`. -/
theorem C27_witness :
    demoG.square 2 ∧ demoE.rows ≠ demoE.columns ∧
    (table 2 demoG.entry).det = -2 ∧
    Algebra.determinant demoG 5 = .ok (-2, 1) ∧
    Algebra.determinant demoE 5 = .ok (0, 5) := by
  have hdet : (table 2 demoG.entry).det = -2 := by
    rw [Matrix.det_fin_two]
    simp only [table, Matrix.of_apply]
    decide!
  obtain ⟨⟨U, s, h1, h2, h3, h4⟩, h5, _⟩ :=
    C27_determinant_is_the_determinant demoG demoE 2 ⟨by decide, rfl, rfl⟩ (by decide) 5
  refine ⟨⟨by decide, rfl, rfl⟩, by decide, hdet, ?_, h5⟩
  rw [h4, hdet]
  have hs : Algebra.zeros_under_pivots demoG 5 = .ok (⟨2, 2, 4, [1, 2, 0, -2]⟩, 1) := by
    decide!
  rw [hs] at h1
  have := (Prod.mk.inj (Except.ok.inj h1)).2
  rw [← this]

end determinants

/-! ## The loops of `inverse` that fill a matrix -/

theorem foldlM_range'_eq {σ : Type} (f : σ → Nat → Except Err σ) (a n : Nat) (s : σ) :
    (List.range' a n).foldlM f s = (List.range n).foldlM (fun s k => f s (a + k)) s := by
  rw [List.range'_eq_map_range, List.foldlM_map]

/-- Two nested loops that write `g i j` at row `i`, column `c0 + j`. -/
theorem fill_spec [Zero T] {M : Matrix T} {h w : Nat} {e : Nat → Nat → T} (hM : M.Is h w e)
    (c0 m : Nat) (hc : c0 + m ≤ w) (g : Nat → Nat → T)
    (body : Matrix T → Nat → Nat → Except Err (Matrix T))
    (hbody : ∀ N i j, i < h → j < m → body N i j = N.put i (c0 + j) (g i j)) :
    ∃ M', (List.range h).foldlM (fun N i =>
        (List.range m).foldlM (fun N j => body N i j) N) M = .ok M' ∧
      M'.Is h w (fun i j => if c0 ≤ j ∧ j < c0 + m then g i (j - c0) else e i j) := by
  obtain ⟨M', h1, h2⟩ := foldlM_range_inv
    (fun (N : Matrix T) i => (List.range m).foldlM (fun N j => body N i j) N)
    (fun k N => N.Is h w
      (fun i j => if i < k ∧ c0 ≤ j ∧ j < c0 + m then g i (j - c0) else e i j))
    h M
    (Matrix.is_congr hM (fun i j _ _ => by rw [if_neg (by omega)]))
    (by
      intro k N hk hN
      obtain ⟨N', q1, q2⟩ := foldlM_range_inv
        (fun (N : Matrix T) j => body N k j)
        (fun l N => N.Is h w
          (fun i j => if i < k ∧ c0 ≤ j ∧ j < c0 + m then g i (j - c0)
            else if i = k ∧ c0 ≤ j ∧ j < c0 + l then g i (j - c0) else e i j))
        m N
        (Matrix.is_congr hN (fun i j _ _ => by
          split_ifs <;> first | rfl | omega))
        (by
          intro l P hl hP
          obtain ⟨P', r1, r2⟩ := Matrix.put_is hP hk (show c0 + l < w by omega) (g k l)
          refine ⟨P', ?_, Matrix.is_congr r2 ?_⟩
          · beta_reduce
            rw [hbody P k l hk hl]
            exact r1
          · intro i j hi hj
            unfold entry_set
            by_cases g1 : i = k ∧ j = c0 + l
            · rw [if_pos g1, if_neg (by omega), if_pos (by omega), g1.1, g1.2,
                Nat.add_sub_cancel_left]
            · rw [if_neg g1]
              beta_reduce
              split_ifs <;> first | rfl | omega)
      refine ⟨N', q1, Matrix.is_congr q2 ?_⟩
      intro i j hi hj
      split_ifs <;> first | rfl | omega)
  refine ⟨M', h1, Matrix.is_congr h2 ?_⟩
  intro i j hi hj
  split_ifs <;> first | rfl | omega

section inverse_loops
variable {K : Type} [Field K] [DecidableEq K]

/-- The augmented matrix that `inverse` builds from a square matrix. -/
theorem Algebra.augment_spec {M : Matrix K} {n : Nat} {e : Nat → Nat → K}
    (hM : M.Is n n e) (hfit : n * (2 * n) < SIZE_MOD) :
    ∃ MA MB MC, (Matrix.new n (sz (2 * n)) : Except Err (Matrix K)) = .ok MA ∧
      (List.range n).foldlM (fun MA i =>
        (List.range n).foldlM (fun MA j => do MA.put i j (← M.get i j)) MA) MA = .ok MB ∧
      (List.range n).foldlM (fun MA i =>
        (List.range' n (sz (2 * n) - n)).foldlM (fun MA j =>
          if i = size_sub j n then MA.put i j 1 else MA.put i j 0) MA) MB = .ok MC ∧
      MC.Is n (2 * n) (augmented n e) := by
  obtain ⟨hn, _, _, _, _⟩ := Matrix.is_size hM
  have h2n : 2 * n < SIZE_MOD := by
    have : 2 * n ≤ n * (2 * n) := Nat.le_mul_of_pos_left _ hn
    omega
  rw [sz_of_lt h2n, Matrix.new_ok hn (show 1 ≤ 2 * n by omega) hfit]
  have hA : (⟨n, 2 * n, n * (2 * n), List.replicate (n * (2 * n)) 0⟩ : Matrix K).Is n (2 * n)
      (fun _ _ => 0) := by
    refine ⟨⟨hn, show 1 ≤ 2 * n by omega, hfit, rfl, by simp⟩, rfl, rfl, ?_⟩
    intro i j hi hj
    unfold Matrix.entry
    rw [List.getD_eq_getElem?_getD, List.getElem?_replicate]
    split_ifs <;> rfl
  obtain ⟨MB, b1, b2⟩ := fill_spec hA 0 n (by omega) e
    (fun MA i j => do MA.put i j (← M.get i j))
    (by
      intro N i j hi hj
      beta_reduce
      rw [Matrix.get_is hM hi hj, Nat.zero_add]
      rfl)
  obtain ⟨MC, c1, c2⟩ := fill_spec b2 n n (by omega) (fun i j => if i = j then (1 : K) else 0)
    (fun MA i j => if i = size_sub (n + j) n then MA.put i (n + j) 1 else MA.put i (n + j) 0)
    (by
      intro N i j hi hj
      beta_reduce
      rw [size_sub_of_le (by omega) (by omega), Nat.add_sub_cancel_left]
      split_ifs <;> rfl)
  refine ⟨_, MB, MC, rfl, b1, ?_, Matrix.is_congr c2 ?_⟩
  · rw [show 2 * n - n = n by omega, ← c1]
    congr 1
    funext MA i
    rw [foldlM_range'_eq]
  · intro i j hi hj
    unfold augmented
    split_ifs <;> first | rfl | omega

/-- What `has_a_main_diagonal_zero` returns. -/
theorem Algebra.has_a_main_diagonal_zero_spec {M : Matrix K} {h w : Nat}
    {e : Nat → Nat → K} (hM : M.Is h w e) :
    ∃ b, Algebra.has_a_main_diagonal_zero M = .ok b ∧
      (b = true ↔ ∃ i, i < h ∧ i < w ∧ e i i = 0) := by
  have hrows : M.rows = h := hM.2.1
  have hcols : M.columns = w := hM.2.2.1
  have scan : ∀ l : List Nat, (∀ i ∈ l, i < h ∧ i < w) →
      ∃ b, Algebra.diagonal_scan M l = .ok b ∧ (b = true ↔ ∃ i ∈ l, e i i = 0) := by
    intro l
    induction l with
    | nil => intro _; exact ⟨false, rfl, by simp⟩
    | cons i rest ih =>
      intro hl
      obtain ⟨hi1, hi2⟩ := hl i (List.mem_cons_self _ _)
      unfold Algebra.diagonal_scan
      rw [Matrix.get_is hM hi1 hi2]
      simp only [ok_bind, Algebra.is_zero]
      by_cases hz : e i i = 0
      · rw [if_pos (decide_eq_true hz)]
        exact ⟨true, rfl, by simp [hz]⟩
      · rw [if_neg (by simpa using hz)]
        obtain ⟨b, p1, p2⟩ := ih (fun a ha => hl a (List.mem_cons_of_mem _ ha))
        refine ⟨b, p1, p2.trans ?_⟩
        simp [hz]
  unfold Algebra.has_a_main_diagonal_zero
  rw [hrows, hcols]
  obtain ⟨b, p1, p2⟩ := scan (List.range (if h < w then h else w)) (fun i hi => by
    have := List.mem_range.mp hi
    split_ifs at this <;> omega)
  refine ⟨b, p1, p2.trans ⟨?_, ?_⟩⟩
  · rintro ⟨i, hi, hz⟩
    have := List.mem_range.mp hi
    exact ⟨i, by split_ifs at this <;> omega, by split_ifs at this <;> omega, hz⟩
  · rintro ⟨i, h1, h2, hz⟩
    exact ⟨i, List.mem_range.mpr (by split_ifs <;> omega), hz⟩

end inverse_loops

/-! ## `zeros_above_pivots` and `divide_rows_by_pivots` -/

section reduction
variable {K : Type} [Field K] [DecidableEq K]

/-- On a matrix with no more rows than columns that is zero under the main diagonal,
`zeros_above_pivots` returns: row operations that keep the determinant lead to the matrix
it leaves, which is still zero under the main diagonal; and when no entry of the main
diagonal was zero, none is zero now and the square part is zero above the main diagonal. -/
theorem Algebra.zeros_above_pivots_spec {M : Matrix K} {h w : Nat} {e0 e : Nat → Nat → K}
    {d : K} (hM : M.Is h w e) (hhw : h ≤ w) (hR : RowEquivalent h w e0 e d)
    (hlow : ∀ i j, j < i → i < h → e i j = 0) :
    ∃ M' e', Algebra.zeros_above_pivots M = .ok M' ∧ M'.Is h w e' ∧
      RowEquivalent h w e0 e' d ∧ (∀ i j, j < i → i < h → e' i j = 0) ∧
      ((∀ i, i < h → e i i ≠ 0) →
        (∀ i, i < h → e' i i ≠ 0) ∧ ∀ i j, i < j → j < h → e' i j = 0) := by
  have hrows : M.rows = h := hM.2.1
  have hcols : M.columns = w := hM.2.2.1
  obtain ⟨hh, _, _, _, _⟩ := Matrix.is_size hM
  obtain ⟨M', p1, e', p2, p3, p4, p5⟩ := foldlM_range_inv
    (fun (N : Matrix K) k =>
      Algebra.above_scan (1 + k) (List.range' (1 + k) (w - (1 + k))) N)
    (fun k N => ∃ e', N.Is h w e' ∧ RowEquivalent h w e0 e' d ∧
      (∀ i j, j < i → i < h → e' i j = 0) ∧
      ((∀ i, i < h → e i i ≠ 0) →
        (∀ i, i < h → e' i i ≠ 0) ∧ ∀ i j, i < j → j < 1 + k → j < h → e' i j = 0))
    (h - 1) M
    ⟨e, hM, hR, hlow, fun hd => ⟨hd, fun i j hij hj _ => by omega⟩⟩
    (by
      rintro k N hk ⟨e1, q1, q2, q3, q4⟩
      have hr : 1 + k < h := by omega
      obtain ⟨N', a1, a2⟩ := Algebra.above_scan_spec q1 hr (w - (1 + k)) (1 + k) (by omega)
      refine ⟨N', a1, ?_⟩
      rcases a2 with ⟨g1, g2⟩ | ⟨c, g1, g2, g3, g4, g5⟩
      · subst g1
        refine ⟨e1, q1, q2, q3, fun hd => ?_⟩
        exact absurd (g2 (1 + k) (le_refl _) (by omega)) ((q4 hd).1 (1 + k) hr)
      · have hz : ∀ j, j < c → e1 (1 + k) j = 0 := by
          intro j hj
          by_cases hjr : j < 1 + k
          · exact q3 (1 + k) j hjr hr
          · exact g4 j (by omega) hj
        refine ⟨_, g5, q2.cleared_above hr g3 hz, ?_, fun hd => ?_⟩
        · intro i j hji hi
          unfold cleared_above
          by_cases hir : i < 1 + k
          · rw [if_pos hir, if_neg (by omega), if_neg (by omega)]
            exact q3 i j hji hi
          · rw [if_neg hir]
            exact q3 i j hji hi
        · obtain ⟨d1, d2⟩ := q4 hd
          have hc : c = 1 + k := by
            by_contra hne
            exact d1 (1 + k) hr (g4 (1 + k) (le_refl _) (by omega))
          subst hc
          refine ⟨fun i hi => ?_, fun i j hij hj hjh => ?_⟩
          · unfold cleared_above
            by_cases hir : i < 1 + k
            · rw [if_pos hir, if_neg (by omega), if_neg (by omega)]
              exact d1 i hi
            · rw [if_neg hir]
              exact d1 i hi
          · unfold cleared_above
            by_cases hjk : j = 1 + k
            · rw [if_pos (by omega), if_neg (by omega), if_pos hjk]
            · rw [if_pos (by omega), if_neg (by omega), if_neg hjk]
              exact d2 i j hij (by omega) hjh)
  refine ⟨M', e', ?_, p2, p3, p4, fun hd => ⟨(p5 hd).1, fun i j hij hj =>
    (p5 hd).2 i j hij (by omega) hj⟩⟩
  unfold Algebra.zeros_above_pivots
  rw [hrows, hcols, foldlM_range'_eq]
  exact p1

/-- The loop over `k` of `divide_rows_by_pivots`: row `i` divided by the entry in column `c`,
from column `c` on. -/
theorem Algebra.divide_from_spec {M : Matrix K} {h w : Nat} {e : Nat → Nat → K}
    (hM : M.Is h w e) {i c : Nat} (hi : i < h) (hc : c < w) (divisor : K) :
    ∃ M', (List.range (w - c)).foldlM (fun M k => do
        M.put i (sz (c + k)) ((← M.get i (sz (c + k))) / divisor)) M = .ok M' ∧
      M'.Is h w (fun r j => if r = i ∧ c ≤ j then e r j / divisor else e r j) := by
  obtain ⟨_, _, _, _, hw⟩ := Matrix.is_size hM
  obtain ⟨M', h1, h2⟩ := foldlM_range_inv
    (fun (M : Matrix K) k => do
      M.put i (sz (c + k)) ((← M.get i (sz (c + k))) / divisor))
    (fun k M => M.Is h w
      (fun r j => if r = i ∧ c ≤ j ∧ j < c + k then e r j / divisor else e r j))
    (w - c) M
    (Matrix.is_congr hM (fun r j _ _ => by rw [if_neg (by omega)]))
    (by
      intro k N hk hN
      have hj : c + k < w := by omega
      obtain ⟨N', p1, p2⟩ := Matrix.put_is hN hi hj (e i (c + k) / divisor)
      refine ⟨N', ?_, Matrix.is_congr p2 ?_⟩
      · beta_reduce
        simp only [sz_of_lt (show c + k < SIZE_MOD by omega)]
        rw [Matrix.get_is hN hi hj]
        simp only [ok_bind]
        rw [if_neg (by omega)]
        exact p1
      · intro r j hr hj'
        unfold entry_set
        by_cases g1 : r = i ∧ j = c + k
        · rw [if_pos g1, if_pos (by omega), g1.1, g1.2]
        · rw [if_neg g1]
          beta_reduce
          split_ifs <;> first | rfl | omega)
  refine ⟨M', h1, Matrix.is_congr h2 ?_⟩
  intro r j hr hj
  beta_reduce
  split_ifs <;> first | rfl | omega

theorem Algebra.divide_scan_spec {M : Matrix K} {h w : Nat} {e : Nat → Nat → K}
    (hM : M.Is h w e) {i : Nat} (hi : i < h) :
    ∀ n a, a + n ≤ w →
      ∃ M', Algebra.divide_scan i w (List.range' a n) M = .ok M' ∧
        ((M' = M ∧ ∀ c, a ≤ c → c < a + n → e i c = 0) ∨
          ∃ c, a ≤ c ∧ c < a + n ∧ e i c ≠ 0 ∧ (∀ j, a ≤ j → j < c → e i j = 0) ∧
            M'.Is h w (fun r j => if r = i ∧ c ≤ j then e r j / e i c else e r j)) := by
  intro n
  induction n with
  | zero => intro a _; exact ⟨M, rfl, Or.inl ⟨rfl, fun c h1 h2 => by omega⟩⟩
  | succ n ih =>
    intro a ha
    rw [List.range'_succ]
    unfold Algebra.divide_scan
    rw [Matrix.get_is hM hi (show a < w by omega)]
    simp only [ok_bind, Algebra.is_zero]
    by_cases hz : e i a = 0
    · obtain ⟨M', p1, p2⟩ := ih (a + 1) (by omega)
      refine ⟨M', ?_, ?_⟩
      · simp only [hz, decide_True, Bool.not_true]
        exact p1
      · rcases p2 with ⟨q1, q2⟩ | ⟨c, q1, q2, q3, q4, q5⟩
        · refine Or.inl ⟨q1, fun c h1 h2 => ?_⟩
          by_cases hc : c = a
          · rw [hc]; exact hz
          · exact q2 c (by omega) (by omega)
        · refine Or.inr ⟨c, by omega, by omega, q3, fun j h1 h2 => ?_, q5⟩
          by_cases hj : j = a
          · rw [hj]; exact hz
          · exact q4 j (by omega) h2
    · obtain ⟨M', p1, p2⟩ := Algebra.divide_from_spec hM hi (show a < w by omega) (e i a)
      refine ⟨M', ?_, Or.inr ⟨a, le_refl _, by omega, hz, fun j h1 h2 => by omega, p2⟩⟩
      simp only [hz, decide_False, Bool.not_false, if_true]
      exact p1

/-- The matrix `divide_rows_by_pivots` leaves: every row is multiplied by a factor that is
not zero, the inverse of the first entry of the row that is not zero when there is one. -/
theorem Algebra.divide_rows_by_pivots_spec {M : Matrix K} {h w : Nat} {e : Nat → Nat → K}
    (hM : M.Is h w e) :
    ∃ (M' : Matrix K) (s : Nat → K), Algebra.divide_rows_by_pivots M = .ok M' ∧
      (∀ i, s i ≠ 0) ∧
      M'.Is h w (fun i j => s i * e i j) ∧
      ∀ i c, i < h → c < w → e i c ≠ 0 → (∀ j, j < c → e i j = 0) → s i * e i c = 1 := by
  have hrows : M.rows = h := hM.2.1
  have hcols : M.columns = w := hM.2.2.1
  obtain ⟨M', p1, s, p2, p3, p4⟩ := foldlM_range_inv
    (fun (N : Matrix K) i => Algebra.divide_scan i w (List.range w) N)
    (fun k N => ∃ s : Nat → K, (∀ i, s i ≠ 0) ∧
      N.Is h w (fun i j => if i < k then s i * e i j else e i j) ∧
      ∀ i c, i < k → c < w → e i c ≠ 0 → (∀ j, j < c → e i j = 0) → s i * e i c = 1)
    h M
    ⟨fun _ => 1, fun _ => one_ne_zero,
      Matrix.is_congr hM (fun i j _ _ => by rw [if_neg (by omega)]),
      fun i c hi => by omega⟩
    (by
      rintro k N hk ⟨s, q1, q2, q3⟩
      obtain ⟨N', a1, a2⟩ := Algebra.divide_scan_spec q2 hk w 0 (by omega)
      rw [← List.range_eq_range'] at a1
      refine ⟨N', a1, ?_⟩
      simp only [Nat.lt_irrefl, if_false, Nat.zero_le, true_implies, Nat.zero_add, true_and]
        at a2
      rcases a2 with ⟨g1, g2⟩ | ⟨c, g2, g3, g4, g5⟩
      · subst g1
        refine ⟨s, q1, Matrix.is_congr q2 ?_, ?_⟩
        · intro i j hi hj
          by_cases hik : i = k
          · rw [if_neg (by omega), if_pos (by omega), hik, g2 j hj, mul_zero]
          · split_ifs <;> first | rfl | omega
        · intro i c hi hc hne hz
          by_cases hik : i = k
          · rw [hik] at hne
            exact absurd (g2 c hc) hne
          · exact q3 i c (by omega) hc hne hz
      · refine ⟨fun i => if i = k then (e k c)⁻¹ else s i, ?_, Matrix.is_congr g5 ?_, ?_⟩
        · intro i
          beta_reduce
          split_ifs
          · exact inv_ne_zero g3
          · exact q1 i
        · intro i j hi hj
          beta_reduce
          by_cases hik : i = k
          · rw [hik, if_pos (Nat.lt_succ_self k), if_pos (rfl : k = k)]
            by_cases hcj : c ≤ j
            · rw [if_pos ⟨rfl, hcj⟩, if_neg (Nat.lt_irrefl k), div_eq_inv_mul]
            · rw [if_neg (fun hh => hcj hh.2), if_neg (Nat.lt_irrefl k), g4 j (by omega),
                mul_zero]
          · rw [if_neg (fun hh => hik hh.1), if_neg hik]
            split_ifs <;> first | rfl | omega
        · intro i c' hi hc' hne hz
          beta_reduce
          by_cases hik : i = k
          · rw [hik] at hne hz ⊢
            rw [if_pos (rfl : k = k)]
            have hcc : c' = c := by
              rcases Nat.lt_trichotomy c' c with hlt | heq | hgt
              · exact absurd (g4 c' hlt) hne
              · exact heq
              · exact absurd (hz c hgt) g3
            rw [hcc]
            exact inv_mul_cancel₀ g3
          · rw [if_neg hik]
            exact q3 i c' (by omega) hc' hne hz)
  refine ⟨M', s, ?_, p2, Matrix.is_congr p3 ?_, fun i c hi => p4 i c hi⟩
  · unfold Algebra.divide_rows_by_pivots
    rw [hrows, hcols]
    exact p1
  · intro i j hi hj
    rw [if_pos hi]

end reduction

/-! ## `inverse` -/

section inverses
variable {K : Type} [Field K]

/-- When row operations lead from `[e | I]` to a table whose square part is the identity,
the right half of that table is a left inverse of `e`. -/
theorem RowEquivalent.left_inverse {n : Nat} {e f : Nat → Nat → K} {d : K}
    (hR : RowEquivalent n (2 * n) (augmented n e) f d)
    (hI : ∀ i j, i < n → j < n → f i j = if i = j then 1 else 0) :
    table n (fun i j => f i (j + n)) * table n e = 1 := by
  obtain ⟨E, _, hE⟩ := hR
  have h1 : table n (fun i j => f i (j + n)) = E := by
    ext i j
    simp only [table, Matrix.of_apply]
    rw [hE i (j + n) (by omega)]
    have : ∀ k : Fin n, E i k * augmented n e k (j + n) = if k = j then E i k else 0 := by
      intro k
      unfold augmented
      rw [if_neg (by omega), Nat.add_sub_cancel]
      by_cases hk : k = j
      · rw [if_pos (by rw [hk]), if_pos hk, mul_one]
      · rw [if_neg (fun hh => hk (Fin.ext hh)), if_neg hk, mul_zero]
    rw [Finset.sum_congr rfl (fun k _ => this k)]
    simp
  rw [h1]
  ext i j
  rw [Matrix.mul_apply, Matrix.one_apply]
  have : ∀ k : Fin n, E i k * table n e k j = E i k * augmented n e k j := by
    intro k
    unfold augmented
    rw [if_pos j.2]
    rfl
  rw [Finset.sum_congr rfl (fun k _ => this k), ← hE i j (by omega), hI i j i.2 j.2]
  by_cases hij : i = j
  · rw [if_pos hij, if_pos (by rw [hij])]
  · rw [if_neg hij, if_neg (fun hh => hij (Fin.ext hh))]

/-- What `inverse` does on a square matrix of the data model whose augmented matrix is a
matrix of the data model too: it throws "matrix is singular" when the determinant is zero,
and otherwise returns a square matrix that is a left inverse. -/
theorem Algebra.inverse_spec [DecidableEq K] {M : Matrix K} {n : Nat} (hM : M.square n)
    (hfit : n * (2 * n) < SIZE_MOD) (dm : Int) :
    ((table n M.entry).det = 0 → Algebra.inverse M dm = .error .singular) ∧
    ((table n M.entry).det ≠ 0 → ∃ Q s, Algebra.inverse M dm = .ok (Q, s) ∧ Q.square n ∧
      table n Q.entry * table n M.entry = 1) := by
  obtain ⟨wf, hr, hc⟩ := hM
  have hn : 1 ≤ n := hr ▸ wf.1
  have hnn : n * n < SIZE_MOD := by
    have := wf.2.2.1
    rwa [hr, hc] at this
  have hIs : M.Is n n M.entry := by
    have := Matrix.is_self M wf
    rw [hr, hc] at this
    exact this
  obtain ⟨MA, MB, MC, a1, a2, a3, hC⟩ := Algebra.augment_spec hIs hfit
  obtain ⟨U, s, eU, z1, hU, hs, hR, hlow⟩ :=
    Algebra.zeros_under_pivots_spec hC (show n ≤ 2 * n by omega) dm
  obtain ⟨b, b1, b2⟩ := Algebra.has_a_main_diagonal_zero_spec hU
  have hs0 : ((s : Int) : K) ≠ 0 := by
    rcases hs with rfl | rfl <;> simp
  have haug : table n (augmented n M.entry) = table n M.entry := by
    ext i j
    simp only [table, Matrix.of_apply, augmented]
    rw [if_pos j.2]
  have hdet : (table n M.entry).det = 0 ↔ ∃ i, i < n ∧ i < 2 * n ∧ eU i i = 0 := by
    have h1 := hR.det_eq (show n ≤ 2 * n by omega)
    rw [haug, table_det_upper hlow] at h1
    constructor
    · intro h0
      rw [h0, mul_zero] at h1
      obtain ⟨i, hi, hz⟩ := Finset.prod_eq_zero_iff.mp h1
      have := Finset.mem_range.mp hi
      exact ⟨i, this, by omega, hz⟩
    · rintro ⟨i, hi, _, hz⟩
      have h2 : ∏ i in Finset.range n, eU i i = 0 :=
        Finset.prod_eq_zero_iff.mpr ⟨i, Finset.mem_range.mpr hi, hz⟩
      rw [h2] at h1
      rcases mul_eq_zero.mp h1.symm with h3 | h3
      · exact absurd h3 hs0
      · exact h3
  have start : Algebra.inverse M dm = (do
      if b then (.error .singular : Except Err (Matrix K × Int))
      else do
        let MA ← Algebra.zeros_above_pivots U
        let MA ← Algebra.divide_rows_by_pivots MA
        let MI ← (Matrix.new n n : Except Err (Matrix K))
        let MI ← (List.range n).foldlM (fun MI i =>
          (List.range n).foldlM (fun MI j => do
            MI.put i j (← MA.get i (sz (j + n)))) MI) MI
        pure (MI, s)) := by
    unfold Algebra.inverse
    simp only [Matrix.rows, Matrix.columns, hr, hc]
    rw [a1]
    simp only [ok_bind]
    rw [a2]
    simp only [ok_bind]
    rw [a3]
    simp only [ok_bind]
    rw [z1]
    simp only [ok_bind]
    rw [b1]
    rfl
  rw [start]
  constructor
  · intro h0
    rw [b2.mpr (hdet.mp h0)]
    rfl
  · intro h0
    have hb : b = false := by
      cases b
      · rfl
      · exact absurd (hdet.mpr (b2.mp rfl)) h0
    have hdiag : ∀ i, i < n → eU i i ≠ 0 := by
      intro i hi hz
      exact h0 (hdet.mpr ⟨i, hi, by omega, hz⟩)
    obtain ⟨V, eV, v1, hV, hRV, hlowV, hcond⟩ :=
      Algebra.zeros_above_pivots_spec hU (show n ≤ 2 * n by omega) hR hlow
    obtain ⟨hdV, hupV⟩ := hcond hdiag
    obtain ⟨W, sc, w1, hsc, hW, hpiv⟩ := Algebra.divide_rows_by_pivots_spec hV
    have hI : ∀ i j, i < n → j < n → sc i * eV i j = if i = j then 1 else 0 := by
      intro i j hi hj
      by_cases hij : i = j
      · rw [if_pos hij, ← hij]
        exact hpiv i i hi (by omega) (hdV i hi) (fun j hj => hlowV i j hj hi)
      · rw [if_neg hij]
        rcases Nat.lt_or_gt_of_ne hij with hlt | hgt
        · rw [hupV i j hlt hj, mul_zero]
        · rw [hlowV i j hgt hi, mul_zero]
    have hQ0 : (⟨n, n, n * n, List.replicate (n * n) 0⟩ : Matrix K).Is n n (fun _ _ => 0) := by
      refine ⟨⟨hn, hn, hnn, rfl, by simp⟩, rfl, rfl, ?_⟩
      intro i j hi hj
      unfold Matrix.entry
      rw [List.getD_eq_getElem?_getD, List.getElem?_replicate]
      split_ifs <;> rfl
    obtain ⟨Q, q1, q2⟩ := fill_spec hQ0 0 n (by omega) (fun i j => sc i * eV i (j + n))
      (fun MI i j => do MI.put i j (← W.get i (sz (j + n))))
      (by
        intro N i j hi hj
        beta_reduce
        rw [sz_of_lt (show j + n < SIZE_MOD by
          have : 2 * n ≤ n * (2 * n) := Nat.le_mul_of_pos_left _ hn
          omega), Matrix.get_is hW hi (show j + n < 2 * n by omega), Nat.zero_add]
        rfl)
    have hQe : ∀ i j, i < n → j < n → Q.entry i j = sc i * eV i (j + n) := by
      intro i j hi hj
      have h := q2.2.2.2 i j hi hj
      beta_reduce at h
      rw [if_pos (⟨Nat.zero_le j, by omega⟩ : 0 ≤ j ∧ j < 0 + n)] at h
      rw [h, Nat.sub_zero]
    refine ⟨Q, s, ?_, ⟨q2.1, q2.2.1, q2.2.2.1⟩, ?_⟩
    · rw [hb]
      simp only [Bool.false_eq_true, if_false]
      rw [v1]
      simp only [ok_bind]
      rw [w1]
      simp only [ok_bind]
      rw [Matrix.new_ok hn hn hnn]
      simp only [ok_bind]
      rw [q1]
      rfl
    · have h1 := RowEquivalent.left_inverse (hRV.scale sc) hI
      have h2 : table n Q.entry = table n (fun i j => sc i * eV i (j + n)) := by
        ext i j
        simp only [table, Matrix.of_apply]
        exact hQe i j i.2 j.2
      rw [h2]
      exact h1

/-- C25: for a square matrix `P` of the data model over a field whose determinant is not
zero, the augmented matrix of `n` rows and `2n` columns being a matrix of the data model too
(its `2n²` elements are counted in `size_t`), `inverse(P)` returns a square matrix `Q` of the
same size, and the product `P * Q` computed by `operator *` is the identity matrix. -/
theorem C25_inverse_is_a_right_inverse [DecidableEq K] (P : Matrix K) (n : Nat)
    (hP : P.square n) (hfit : n * (2 * n) < SIZE_MOD)
    (hdet : (table n P.entry).det ≠ 0) (dm : Int) :
    ∃ Q s, Algebra.inverse P dm = .ok (Q, s) ∧ Q.square n ∧
      table n P.entry * table n Q.entry = 1 ∧
      ∃ R, P.mul Q = .ok R ∧ R.square n ∧
        ∀ i j, i < n → j < n → R.entry i j = if i = j then 1 else 0 := by
  obtain ⟨Q, s, h1, h2, h3⟩ := (Algebra.inverse_spec hP hfit dm).2 hdet
  have h4 : table n P.entry * table n Q.entry = 1 := Matrix.mul_eq_one_comm.mp h3
  obtain ⟨R, r1, r2, r3⟩ := Matrix.mul_square hP h2
  refine ⟨Q, s, h1, h2, h4, R, r1, r2, ?_⟩
  intro i j hi hj
  rw [r3 i j hi hj]
  have h5 := congrFun (congrFun h4 ⟨i, hi⟩) ⟨j, hj⟩
  rw [Matrix.mul_apply, Matrix.one_apply] at h5
  simp only [table, Matrix.of_apply, Fin.mk.injEq] at h5
  rw [Fin.sum_univ_eq_sum_range (fun k => P.entry i k * Q.entry k j) n] at h5
  exact h5

/-- C25 on the matrix with rows `1 2` and `3 4`, whose determinant is -2. -/
theorem C25_witness :
    demoG.square 2 ∧ 2 * (2 * 2) < SIZE_MOD ∧ (table 2 demoG.entry).det ≠ 0 ∧
    ∃ Q s, Algebra.inverse demoG 1 = .ok (Q, s) ∧ Q.square 2 ∧
      table 2 demoG.entry * table 2 Q.entry = 1 ∧
      ∃ R, demoG.mul Q = .ok R ∧ R.square 2 ∧
        ∀ i j, i < 2 → j < 2 → R.entry i j = if i = j then 1 else 0 := by
  have hdet : (table 2 demoG.entry).det ≠ 0 := by
    rw [Matrix.det_fin_two]
    simp only [table, Matrix.of_apply]
    decide!
  have hfit : 2 * (2 * 2) < SIZE_MOD := by decide
  exact ⟨⟨by decide, rfl, rfl⟩, hfit, hdet,
    C25_inverse_is_a_right_inverse demoG 2 ⟨by decide, rfl, rfl⟩ hfit hdet 1⟩

/-- C28: for a square matrix `M` of the data model over a field, the augmented matrix of `n`
rows and `2n` columns being a matrix of the data model too, `inverse(M)` throws
"matrix is singular" if and only if the determinant of `M` is zero. -/
theorem C28_singular_iff_determinant_zero [DecidableEq K] (M : Matrix K) (n : Nat)
    (hM : M.square n) (hfit : n * (2 * n) < SIZE_MOD) (dm : Int) :
    Algebra.inverse M dm = .error .singular ↔ (table n M.entry).det = 0 := by
  obtain ⟨h1, h2⟩ := Algebra.inverse_spec hM hfit dm
  constructor
  · intro he
    by_contra h0
    obtain ⟨Q, s, h3, _⟩ := h2 h0
    rw [h3] at he
    cases he
  · exact h1

/-- C28 on the matrix with rows `1 2` and `2 4`, whose determinant is zero, and on the
matrix with rows `1 2` and `3 4`, whose determinant is not. -/
theorem C28_witness :
    demoH.square 2 ∧ 2 * (2 * 2) < SIZE_MOD ∧
    (table 2 demoH.entry).det = 0 ∧ Algebra.inverse demoH 1 = .error .singular ∧
    ((table 2 demoG.entry).det ≠ 0 ∧ Algebra.inverse demoG 1 ≠ .error .singular) := by
  have hfit : 2 * (2 * 2) < SIZE_MOD := by decide
  have hH : (table 2 demoH.entry).det = 0 := by
    rw [Matrix.det_fin_two]
    simp only [table, Matrix.of_apply]
    decide!
  have hG : (table 2 demoG.entry).det ≠ 0 := by
    rw [Matrix.det_fin_two]
    simp only [table, Matrix.of_apply]
    decide!
  exact ⟨⟨by decide, rfl, rfl⟩, hfit, hH,
    (C28_singular_iff_determinant_zero demoH 2 ⟨by decide, rfl, rfl⟩ hfit 1).mpr hH,
    hG, fun he => hG
      ((C28_singular_iff_determinant_zero demoG 2 ⟨by decide, rfl, rfl⟩ hfit 1).mp he)⟩

end inverses

/-! ## `rref` -/

section reduced
variable {K : Type} [Field K]

/-- On a matrix of the data model with no more rows than columns `rref` returns a matrix of
the same shape that row operations of a determinant that is not zero lead to. -/
theorem Algebra.rref_spec [DecidableEq K] {M : Matrix K} {h w : Nat} {e0 : Nat → Nat → K}
    (hM : M.Is h w e0) (hhw : h ≤ w) (dm : Int) :
    ∃ (R : Matrix K) (s : Int) (e : Nat → Nat → K) (d : K),
      Algebra.rref M dm = .ok (R, s) ∧ R.Is h w e ∧ d ≠ 0 ∧ RowEquivalent h w e0 e d := by
  obtain ⟨U, s, eU, z1, hU, hs, hR, hlow⟩ := Algebra.zeros_under_pivots_spec hM hhw dm
  obtain ⟨V, eV, v1, hV, hRV, _, _⟩ := Algebra.zeros_above_pivots_spec hU hhw hR hlow
  obtain ⟨W, sc, w1, hsc, hW, _⟩ := Algebra.divide_rows_by_pivots_spec hV
  refine ⟨W, s, _, _, ?_, hW, ?_, hRV.scale sc⟩
  · unfold Algebra.rref
    simp only [z1, ok_bind, v1, w1]
    rfl
  · refine mul_ne_zero (Finset.prod_ne_zero_iff.mpr (fun i _ => hsc i)) ?_
    rcases hs with rfl | rfl <;> simp

/-- C31: on a matrix `M` of the data model over a field with no more rows than columns,
`rref` returns a matrix of the same shape that is row-equivalent to `M`: there is an
invertible square matrix `E` with `rref(M) = E·M`. -/
theorem C31_rref_is_row_equivalent [DecidableEq K] (M : Matrix K) (hM : M.wf)
    (hrc : M.rows ≤ M.columns) (dm : Int) :
    ∃ R s, Algebra.rref M dm = .ok (R, s) ∧ R.wf ∧ R.rows = M.rows ∧
      R.columns = M.columns ∧
      ∃ E : SquareTable M.rows K, IsUnit E ∧
        ∀ (i : Fin M.rows) (j : Nat), j < M.columns →
          R.entry i j = ∑ k : Fin M.rows, E i k * M.entry k j := by
  obtain ⟨R, s, e, d, h1, h2, h3, E, h4, h5⟩ :=
    Algebra.rref_spec (Matrix.is_self M hM) hrc dm
  refine ⟨R, s, h1, h2.1, h2.2.1, h2.2.2.1, E, ?_, ?_⟩
  · rw [Matrix.isUnit_iff_isUnit_det, h4]
    exact isUnit_iff_ne_zero.mpr h3
  · intro i j hj
    rw [h2.2.2.2 i j i.2 hj]
    exact h5 i j hj

/-- C31 on the 2×3 matrix with rows `0 0 1` and `0 1 0`. -/
theorem C31_witness :
    demoE.wf ∧ demoE.rows ≤ demoE.columns ∧
    ∃ R s, Algebra.rref demoE 1 = .ok (R, s) ∧ R.wf ∧ R.rows = demoE.rows ∧
      R.columns = demoE.columns ∧
      ∃ E : SquareTable demoE.rows ℚ, IsUnit E ∧
        ∀ (i : Fin demoE.rows) (j : Nat), j < demoE.columns →
          R.entry i j = ∑ k : Fin demoE.rows, E i k * demoE.entry k j :=
  ⟨by decide, by decide, C31_rref_is_row_equivalent demoE (by decide) (by decide) 1⟩

end reduced

/-! ## Element types that wrap around -/

/-- C33: with the unsigned integers of `w` bits as element type, whose sums, differences and
products are taken modulo `2^w`, for all square operands of the same dimension and every
budget `r` the serial multiplier returns the matrix that the direct product returns, whose
entry `(i, j)` is the sum of the products `A(i,k)·B(k,j)` modulo `2^w`. -/
theorem C33_wrapping_strassen_is_direct_product (w r n : Nat) (A B : Matrix (Word w))
    (hA : A.square n) (hB : B.square n) :
    (∀ a b : Word w, (a + b).val = (a.val + b.val) % 2 ^ w ∧
      (a - b).val = (2 ^ w - b.val + a.val) % 2 ^ w ∧
      (a * b).val = (a.val * b.val) % 2 ^ w) ∧
    ∃ S P, Strassen.new A B r = .ok S ∧ S.invoke = .ok P ∧ A.mul B = .ok P ∧ P.square n ∧
      ∀ i j, i < n → j < n →
        (P.entry i j).val =
          (∑ k in Finset.range n, (A.entry i k).val * (B.entry k j).val) % 2 ^ w := by
  refine ⟨fun a b => ⟨Fin.val_add a b, Fin.coe_sub a b, Fin.val_mul a b⟩, ?_⟩
  obtain ⟨P, h1, h2, h3, h4⟩ := Strassen.serial_eq_mul r n A B hA hB
  refine ⟨⟨A, B, r⟩, P, Strassen.serial_new_ok hA hB r, Strassen.invoke_ok h1, h2, h3, ?_⟩
  intro i j hi hj
  rw [h4 i j hi hj, ← Fin.val_natCast]
  congr 1
  unfold dot
  rw [Nat.cast_sum]
  refine Finset.sum_congr rfl (fun k _ => ?_)
  rw [Nat.cast_mul, Fin.cast_val_eq_self, Fin.cast_val_eq_self]

/-- C33 on two matrices of bytes and one level of the seven products. -/
theorem C33_witness :
    (demoP.square 2 ∧ demoQ.square 2) ∧
    (∀ a b : Word 8, (a + b).val = (a.val + b.val) % 2 ^ 8 ∧
      (a - b).val = (2 ^ 8 - b.val + a.val) % 2 ^ 8 ∧
      (a * b).val = (a.val * b.val) % 2 ^ 8) ∧
    ∃ S P, Strassen.new demoP demoQ 1 = .ok S ∧ S.invoke = .ok P ∧ demoP.mul demoQ = .ok P ∧
      P.square 2 ∧
      ∀ i j, i < 2 → j < 2 →
        (P.entry i j).val =
          (∑ k in Finset.range 2, (demoP.entry i k).val * (demoQ.entry k j).val) % 2 ^ 8 :=
  ⟨⟨by decide, by decide⟩,
    C33_wrapping_strassen_is_direct_product 8 1 2 demoP demoQ (by decide) (by decide)⟩

/-! ## The in-place operators as calls on an object -/

theorem assign_step_error (op : T → T → T) (M : Matrix T) (e : Err) (A : Matrix T)
    (l : List Nat) : l.foldl (assign_step op M) (.error e, A) = (.error e, A) := by
  induction l with
  | nil => rfl
  | cons i rest ih => exact ih

/-- What the loop of the in-place operators returns is what it leaves in the object. -/
theorem assign_loop_returned (op : T → T → T) (M A : Matrix T) (l : List Nat) :
    ∀ els : List T,
      (do
        let els ← l.foldlM (fun els i => do
          let x ← buf_get els i
          let y ← buf_get M.elements i
          buf_set els i (op x y)) els
        pure { A with elements := els } : Except Err (Matrix T)) =
      returned (l.foldl (assign_step op M) (.ok (), { A with elements := els })) := by
  induction l with
  | nil => intro els; rfl
  | cons i rest ih =>
    intro els
    rw [List.foldlM_cons, List.foldl_cons]
    cases h : (do
      let x ← buf_get els i
      let y ← buf_get M.elements i
      buf_set els i (op x y) : Except Err (List T)) with
    | error e =>
      have hs : assign_step op M (.ok (), { A with elements := els }) i =
          (.error e, { A with elements := els }) := by
        unfold assign_step
        simp only [h]
      rw [hs, assign_step_error]
      rfl
    | ok els' =>
      have hs : assign_step op M (.ok (), { A with elements := els }) i =
          (.ok (), { A with elements := els' }) := by
        unfold assign_step
        simp only [h]
      rw [hs, ← ih els']
      rfl

/-- The value `operator +=` returns is the object it leaves, and it throws what the call on
the object throws. -/
theorem Matrix.add_assign_returned [Add T] (A M : Matrix T) :
    A.add_assign M = returned (A.add_assign_object M) := by
  unfold Matrix.add_assign Matrix.add_assign_object
  split_ifs
  · rfl
  · exact assign_loop_returned (fun x y => x + y) M A _ A.elements

theorem Matrix.sub_assign_returned [Sub T] (A M : Matrix T) :
    A.sub_assign M = returned (A.sub_assign_object M) := by
  unfold Matrix.sub_assign Matrix.sub_assign_object
  split_ifs
  · rfl
  · exact assign_loop_returned (fun x y => x - y) M A _ A.elements

/-- C34: for matrices `A`, `B` of different shapes, `A += B` and `A -= B` throw
"dimensions do not match" and the object `A` after the call is the object before the call,
shape and elements; `B` is taken by reference to `const` and no statement writes to it. -/
theorem C34_failed_assignment_changes_nothing [Add T] [Sub T] (A B : Matrix T)
    (h : A.n_rows ≠ B.n_rows ∨ A.n_columns ≠ B.n_columns) :
    A.add_assign_object B = (.error .dimensions_do_not_match, A) ∧
    A.sub_assign_object B = (.error .dimensions_do_not_match, A) ∧
    A.add_assign B = .error .dimensions_do_not_match ∧
    A.sub_assign B = .error .dimensions_do_not_match := by
  have h1 : A.add_assign_object B = (.error .dimensions_do_not_match, A) := by
    unfold Matrix.add_assign_object
    rw [if_pos h]
  have h2 : A.sub_assign_object B = (.error .dimensions_do_not_match, A) := by
    unfold Matrix.sub_assign_object
    rw [if_pos h]
  refine ⟨h1, h2, ?_, ?_⟩
  · rw [Matrix.add_assign_returned, h1]; rfl
  · rw [Matrix.sub_assign_returned, h2]; rfl

/-- C34 on a 2×2 and a 3×3 matrix of integers. -/
theorem C34_witness :
    (demoA.n_rows ≠ demoC.n_rows ∨ demoA.n_columns ≠ demoC.n_columns) ∧
    demoA.add_assign_object demoC = (.error .dimensions_do_not_match, demoA) ∧
    demoA.sub_assign_object demoC = (.error .dimensions_do_not_match, demoA) ∧
    demoA.add_assign demoC = .error .dimensions_do_not_match ∧
    demoA.sub_assign demoC = .error .dimensions_do_not_match :=
  ⟨by decide, C34_failed_assignment_changes_nothing demoA demoC (by decide)⟩

/-! ## The comparison operators -/

@[simp] theorem halt_ok_bind {α β : Type} (a : α) (f : α → Except Halt β) :
    ((Except.ok a : Except Halt α) >>= f) = f a := rfl

@[simp] theorem halt_error_bind {α β : Type} (e : Halt) (f : α → Except Halt β) :
    ((Except.error e : Except Halt α) >>= f) = Except.error e := rfl

@[simp] theorem halt_pure {α : Type} (a : α) : (pure a : Except Halt α) = Except.ok a := rfl

@[simp] theorem bounded_ok {α : Type} (a : α) :
    bounded (Except.ok a : Except Err α) = Except.ok a := rfl

theorem loop_succ {σ : Type} (cond : Nat → Bool) (body : Nat → σ → Except Halt (Nat × σ))
    (fuel i : Nat) (s : σ) :
    loop cond body (fuel + 1) i s =
      if cond i then body i s >>= fun r => loop cond body fuel r.1 r.2 else pure s := rfl

/-- The loop of the comparison operators: the flag keeps its first value when the buffers
agree from `a` on, and gets the value `v` when they do not. -/
theorem compare_loop [DecidableEq T] (la lb : List T) (total : Nat) (v : Bool)
    (ha : la.length = total) (hb : lb.length = total) (hlim : total + 1 < SIZE_MOD) :
    ∀ (n a fuel : Nat) (init : Bool), a + n = total → n + 1 < fuel →
      ∃ r, loop (fun i => decide (i < total))
          (fun i flag => do
            let a ← bounded (buf_get la i)
            let b ← bounded (buf_get lb i)
            if a ≠ b then pure (sz (total + 1), v) else pure (sz (i + 1), flag))
          fuel a init = .ok r ∧
        ((∀ i, a ≤ i → i < total → la[i]? = lb[i]?) → r = init) ∧
        (¬ (∀ i, a ≤ i → i < total → la[i]? = lb[i]?) → r = v) := by
  intro n
  induction n with
  | zero =>
    intro a fuel init h1 h2
    obtain ⟨f, rfl⟩ : ∃ f, fuel = f + 1 := ⟨fuel - 1, by omega⟩
    refine ⟨init, ?_, fun _ => rfl, fun h => absurd (fun i h3 h4 => by omega) h⟩
    rw [loop_succ, if_neg (by simp; omega)]
    rfl
  | succ n ih =>
    intro a fuel init h1 h2
    obtain ⟨f, rfl⟩ : ∃ f, fuel = f + 1 := ⟨fuel - 1, by omega⟩
    have hat : a < total := by omega
    obtain ⟨x, hx⟩ : ∃ x, la[a]? = some x := ⟨la[a], List.getElem?_eq_getElem (by omega)⟩
    obtain ⟨y, hy⟩ : ∃ y, lb[a]? = some y := ⟨lb[a], List.getElem?_eq_getElem (by omega)⟩
    have hgx : buf_get la a = .ok x := by simp only [buf_get, hx]
    have hgy : buf_get lb a = .ok y := by simp only [buf_get, hy]
    rw [loop_succ, if_pos (by simpa using hat)]
    simp only [hgx, hgy, bounded_ok, halt_ok_bind]
    by_cases hxy : x = y
    · rw [if_neg (not_not.mpr hxy)]
      simp only [halt_pure, halt_ok_bind]
      rw [sz_of_lt (show a + 1 < SIZE_MOD by omega)]
      obtain ⟨r, p1, p2, p3⟩ := ih (a + 1) f init (by omega) (by omega)
      refine ⟨r, p1, fun h => p2 (fun i h3 h4 => h i (by omega) h4), fun h => p3 ?_⟩
      intro h'
      apply h
      intro i h3 h4
      by_cases hia : i = a
      · rw [hia, hx, hy, hxy]
      · exact h' i (by omega) h4
    · rw [if_pos hxy]
      simp only [halt_pure, halt_ok_bind]
      obtain ⟨g, rfl⟩ : ∃ g, f = g + 1 := ⟨f - 1, by omega⟩
      rw [loop_succ, if_neg (by rw [sz_of_lt hlim]; simp)]
      refine ⟨v, rfl, fun h => ?_, fun _ => rfl⟩
      have := h a (le_refl _) hat
      rw [hx, hy] at this
      exact absurd (Option.some.inj this) hxy

/-- C35: for matrices `A`, `B` of the data model, `A`'s buffer being shorter than
`2^64 - 1` elements (so that the index after `i = total_elements` is a `size_t` value), and
with more iterations allowed than `A` has elements plus one, `A == B` returns a value, which
is `true` if and only if the numbers of rows agree, the numbers of columns agree and the
elements at every position agree; and `A != B` returns the negation of that value. -/
theorem C35_equality_compares_every_position [Zero T] [DecidableEq T] (A B : Matrix T)
    (hA : A.wf) (hB : B.wf) (hlim : A.n_rows * A.n_columns + 1 < SIZE_MOD) (fuel : Nat)
    (hfuel : A.n_rows * A.n_columns + 1 < fuel) :
    ∃ b, A.eq fuel B = .ok b ∧ A.ne fuel B = .ok (!b) ∧
      (b = true ↔ A.n_rows = B.n_rows ∧ A.n_columns = B.n_columns ∧
        ∀ i j, i < A.n_rows → j < A.n_columns → A.entry i j = B.entry i j) := by
  by_cases hd : A.n_rows ≠ B.n_rows ∨ A.n_columns ≠ B.n_columns
  · refine ⟨false, ?_, ?_, ?_⟩
    · unfold Matrix.eq; rw [if_pos hd]; rfl
    · unfold Matrix.ne; rw [if_pos hd]; rfl
    · constructor
      · intro h; cases h
      · rintro ⟨h1, h2, _⟩
        rcases hd with hd | hd
        · exact absurd h1 hd
        · exact absurd h2 hd
  · have hr : A.n_rows = B.n_rows := by
      by_contra h; exact hd (Or.inl h)
    have hc : A.n_columns = B.n_columns := by
      by_contra h; exact hd (Or.inr h)
    have hla : A.elements.length = A.total_elements := by rw [hA.2.2.2.2, hA.2.2.2.1]
    have hlb : B.elements.length = A.total_elements := by
      rw [hB.2.2.2.2, hA.2.2.2.1, hr, hc]
    have htot : A.total_elements = A.n_rows * A.n_columns := hA.2.2.2.1
    obtain ⟨r, p1, p2, p3⟩ := compare_loop A.elements B.elements A.total_elements false
      hla hlb (by omega) A.total_elements 0 fuel true (by omega) (by omega)
    obtain ⟨r', q1, q2, q3⟩ := compare_loop A.elements B.elements A.total_elements true
      hla hlb (by omega) A.total_elements 0 fuel false (by omega) (by omega)
    have hiff : (∀ i, 0 ≤ i → i < A.total_elements → A.elements[i]? = B.elements[i]?) ↔
        ∀ i j, i < A.n_rows → j < A.n_columns → A.entry i j = B.entry i j := by
      constructor
      · intro h i j hi hj
        unfold Matrix.entry
        rw [List.getD_eq_getElem?_getD, List.getD_eq_getElem?_getD, ← hc,
          h _ (Nat.zero_le _) (by rw [htot]; exact lin_lt hi hj)]
      · intro h i _ hi
        have hAB : A = B := Matrix.ext_entry hA hB hr hc h
        rw [← hAB]
    refine ⟨r, ?_, ?_, ?_⟩
    · unfold Matrix.eq; rw [if_neg hd]; exact p1
    · unfold Matrix.ne; rw [if_neg hd, q1]
      by_cases hall : ∀ i, 0 ≤ i → i < A.total_elements → A.elements[i]? = B.elements[i]?
      · rw [p2 hall, q2 hall]; rfl
      · rw [p3 hall, q3 hall]; rfl
    · constructor
      · intro hb
        refine ⟨hr, hc, hiff.mp ?_⟩
        by_contra hall
        rw [p3 hall] at hb
        cases hb
      · rintro ⟨_, _, hall⟩
        exact p2 (hiff.mpr hall)

/-- C35 on two 2×2 matrices of integers that differ at every position. -/
theorem C35_witness :
    (demoA.wf ∧ demoB.wf ∧ demoA.n_rows * demoA.n_columns + 1 < SIZE_MOD) ∧
    demoA.eq 6 demoB = .ok false ∧ demoA.ne 6 demoB = .ok true ∧
    demoA.eq 6 demoA = .ok true ∧
    ∃ b, demoA.eq 6 demoB = .ok b ∧ demoA.ne 6 demoB = .ok (!b) ∧
      (b = true ↔ demoA.n_rows = demoB.n_rows ∧ demoA.n_columns = demoB.n_columns ∧
        ∀ i j, i < demoA.n_rows → j < demoA.n_columns → demoA.entry i j = demoB.entry i j) :=
  ⟨⟨by decide, by decide, by decide⟩, by decide, by decide, by decide,
    C35_equality_compares_every_position demoA demoB (by decide) (by decide) (by decide) 6
      (by decide)⟩

/-! ## Loops that count -/

theorem bounded_bind {α β : Type} (x : Except Err α) (f : α → Except Err β) :
    bounded (x >>= f) = bounded x >>= fun a => bounded (f a) := by
  cases x <;> rfl

/-- A loop whose index takes the values `idx 0`, `idx 1`, ... and whose test fails first at
`idx n` runs its body `n` times: it is the loop over `0 .. n-1` of the embedding. -/
theorem loop_count {σ : Type} (P : σ → Prop) (cond : Nat → Bool)
    (body : Nat → σ → Except Halt (Nat × σ)) (idx : Nat → Nat) (n : Nat)
    (f : σ → Nat → Except Err σ)
    (hc : ∀ k, k < n → cond (idx k) = true) (hn : cond (idx n) = false)
    (hb : ∀ k s, k < n → P s →
      body (idx k) s = bounded (f s k) >>= fun s' => pure (idx (k + 1), s'))
    (hP : ∀ k s s', k < n → P s → f s k = .ok s' → P s') :
    ∀ fuel s, n < fuel → P s →
      loop cond body fuel (idx 0) s = bounded ((List.range n).foldlM f s) := by
  have gen : ∀ m a fuel s, a + m = n → m < fuel → P s →
      loop cond body fuel (idx a) s = bounded ((List.range' a m).foldlM f s) := by
    intro m
    induction m with
    | zero =>
      intro a fuel s h1 h2 _
      obtain ⟨g, rfl⟩ : ∃ g, fuel = g + 1 := ⟨fuel - 1, by omega⟩
      have : a = n := by omega
      rw [loop_succ, this, hn]
      rfl
    | succ m ih =>
      intro a fuel s h1 h2 hs
      obtain ⟨g, rfl⟩ : ∃ g, fuel = g + 1 := ⟨fuel - 1, by omega⟩
      rw [loop_succ, hc a (by omega), if_pos rfl, hb a s (by omega) hs, List.range'_succ,
        List.foldlM_cons]
      cases hf : f s a with
      | error e => rfl
      | ok s' =>
        simp only [bounded_ok, halt_ok_bind, halt_pure, ok_bind]
        exact ih (a + 1) g s' (by omega) (by omega) (hP a s s' (by omega) hs hf)
  intro fuel s h1 h2
  rw [List.range_eq_range']
  exact gen n 0 fuel s (by omega) h1 h2

/-! ## The loops of `Algebra` and their tests -/

section runs
variable {K : Type} [Field K]

/-- The loop over `j` reaches `j_end` and stops there. -/
theorem Algebra.subtract_row_run_eq (test : Nat → Bool) {w c : Nat} (hc : c < w)
    (hw : w < SIZE_MOD) (htest : ∀ x, x ≤ w → test x = decide (x < w)) (fuel t row : Nat)
    (m : K) (M : Matrix K) (hfuel : w < fuel) :
    Algebra.subtract_row_run test fuel t row c m M =
      bounded (Algebra.subtract_row t row c w m M) := by
  unfold Algebra.subtract_row_run Algebra.subtract_row
  refine loop_count (fun _ => True) _ _ (fun l => l + 1) (w - c - 1) _ ?_ ?_ ?_
    (fun _ _ _ _ _ _ => trivial) fuel M (by omega) trivial
  · intro k hk
    beta_reduce
    rw [sz_of_lt (by omega), htest _ (by omega)]
    simpa using (by omega : c + (k + 1) < w)
  · beta_reduce
    rw [sz_of_lt (by omega), htest _ (by omega)]
    simpa using (by omega : w ≤ c + (w - c - 1 + 1))
  · intro k N hk _
    beta_reduce
    rw [sz_of_lt (show k + 1 + 1 < SIZE_MOD by omega)]
    simp only [bounded_bind, bind_assoc]

/-- The loops over `i` under a pivot reach `i_end` and stop there. -/
theorem Algebra.clear_under_run_eq [DecidableEq K] {M : Matrix K} {h w : Nat}
    {e : Nat → Nat → K} (hM : M.Is h w e) {row c : Nat} (hr : row < h) (hc : c < w)
    (fuel : Nat) (hfuel : h + w < fuel) :
    Algebra.clear_under_run fuel row c h w M = bounded (Algebra.clear_under row c M) := by
  obtain ⟨_, _, _, hh, hw⟩ := Matrix.is_size hM
  have hrows : M.rows = h := hM.2.1
  have hcols : M.columns = w := hM.2.2.1
  have key := fun (t : Nat) (m : K) (N : Matrix K) =>
    Algebra.subtract_row_run_eq (fun x => decide (x ≠ w)) hc hw
    (fun x hx => decide_eq_decide.mpr (by omega)) fuel t row m N (by omega)
  have l1 : ∀ (pivot : K) (N : Matrix K),
      loop (fun i => decide (sz (row + i) ≠ h))
        (fun i M => do
          let multiplier := (← bounded (M.get (sz (row + i)) c)) / pivot
          let M ← Algebra.subtract_row_run (fun x => decide (x ≠ w)) fuel (sz (row + i)) row c
            multiplier M
          pure (sz (i + 1), M))
        fuel 1 N =
      bounded ((List.range (h - row - 1)).foldlM (fun M k => do
        let i := k + 1
        let multiplier := (← M.get (sz (row + i)) c) / pivot
        Algebra.subtract_row (sz (row + i)) row c w multiplier M) N) := by
    intro pivot N
    refine loop_count (fun _ => True) _ _ (fun l => l + 1) (h - row - 1) _ ?_ ?_ ?_
      (fun _ _ _ _ _ _ => trivial) fuel N (by omega) trivial
    · intro k hk
      beta_reduce
      rw [sz_of_lt (by omega)]
      simpa using (by omega : row + (k + 1) ≠ h)
    · beta_reduce
      rw [sz_of_lt (by omega)]
      simpa using (by omega : row + (h - row - 1 + 1) = h)
    · intro k N' hk _
      beta_reduce
      rw [sz_of_lt (show k + 1 + 1 < SIZE_MOD by omega)]
      simp only [key, bounded_bind, bind_assoc]
  have l2 : ∀ N : Matrix K,
      loop (fun i => decide (sz (row + i) ≠ h))
        (fun i M => do
          let M ← bounded (M.put (sz (row + i)) c 0)
          pure (sz (i + 1), M))
        fuel 1 N =
      bounded ((List.range (h - row - 1)).foldlM
        (fun M k => M.put (sz (row + (k + 1))) c 0) N) := by
    intro N
    refine loop_count (fun _ => True) _ _ (fun l => l + 1) (h - row - 1) _ ?_ ?_ ?_
      (fun _ _ _ _ _ _ => trivial) fuel N (by omega) trivial
    · intro k hk
      beta_reduce
      rw [sz_of_lt (by omega)]
      simpa using (by omega : row + (k + 1) ≠ h)
    · beta_reduce
      rw [sz_of_lt (by omega)]
      simpa using (by omega : row + (h - row - 1 + 1) = h)
    · intro k N' hk _
      beta_reduce
      rw [sz_of_lt (show k + 1 + 1 < SIZE_MOD by omega)]
  unfold Algebra.clear_under_run Algebra.clear_under
  rw [hrows, hcols]
  simp only [l1, l2, bounded_bind, bind_assoc]

/-- The upward loops over `i`, with the test `row - i + 1 > 0`, visit the rows `row - 1`
down to `0` and stop: for `i = row + 1` the difference wraps around to `2^64 - 1` and the
sum to `0`. -/
theorem Algebra.clear_above_run_eq [DecidableEq K] {M : Matrix K} {h w : Nat}
    {e : Nat → Nat → K} (hM : M.Is h w e) {row c : Nat} (hr : row < h) (hc : c < w)
    (hh1 : h + 1 < SIZE_MOD) (fuel : Nat) (hfuel : h + w < fuel) :
    Algebra.clear_above_run fuel row c w M = bounded (Algebra.clear_above row c M) := by
  obtain ⟨_, _, _, hh, hw⟩ := Matrix.is_size hM
  have hcols : M.columns = w := hM.2.2.1
  have key := fun (t : Nat) (m : K) (N : Matrix K) =>
    Algebra.subtract_row_run_eq (fun x => decide (x < w)) hc hw
    (fun x _ => rfl) fuel t row m N (by omega)
  have c1 : ∀ k, k < row → decide (0 < sz (size_sub row (k + 1) + 1)) = true := by
    intro k hk
    rw [size_sub_of_le (by omega) (by omega), sz_of_lt (by omega)]
    simp
  have c2 : decide (0 < sz (size_sub row (row + 1) + 1)) = false := by
    have : size_sub row (row + 1) = SIZE_MOD - 1 := by
      unfold size_sub
      rw [Nat.mod_eq_of_lt (show row + 1 < SIZE_MOD by omega),
        show row + (SIZE_MOD - (row + 1)) = SIZE_MOD - 1 by omega,
        Nat.mod_eq_of_lt (by omega)]
    rw [this, show SIZE_MOD - 1 + 1 = SIZE_MOD by omega]
    simp [sz]
  have l1 : ∀ (pivot : K) (N : Matrix K),
      loop (fun i => decide (0 < sz (size_sub row i + 1)))
        (fun i M => do
          let multiplier := (← bounded (M.get (size_sub row i) c)) / pivot
          let M ← Algebra.subtract_row_run (fun x => decide (x < w)) fuel (size_sub row i) row c
            multiplier M
          pure (sz (i + 1), M))
        fuel 1 N =
      bounded ((List.range row).foldlM (fun M k => do
        let i := k + 1
        let multiplier := (← M.get (size_sub row i) c) / pivot
        Algebra.subtract_row (size_sub row i) row c w multiplier M) N) := by
    intro pivot N
    refine loop_count (fun _ => True) _ _ (fun l => l + 1) row _ c1 c2 ?_
      (fun _ _ _ _ _ _ => trivial) fuel N (by omega) trivial
    intro k N' hk _
    beta_reduce
    rw [sz_of_lt (show k + 1 + 1 < SIZE_MOD by omega)]
    simp only [key, bounded_bind, bind_assoc]
  have l2 : ∀ N : Matrix K,
      loop (fun i => decide (0 < sz (size_sub row i + 1)))
        (fun i M => do
          let M ← bounded (M.put (size_sub row i) c 0)
          pure (sz (i + 1), M))
        fuel 1 N =
      bounded ((List.range row).foldlM (fun M k => M.put (size_sub row (k + 1)) c 0) N) := by
    intro N
    refine loop_count (fun _ => True) _ _ (fun l => l + 1) row _ c1 c2 ?_
      (fun _ _ _ _ _ _ => trivial) fuel N (by omega) trivial
    intro k N' hk _
    beta_reduce
    rw [sz_of_lt (show k + 1 + 1 < SIZE_MOD by omega)]
  unfold Algebra.clear_above_run Algebra.clear_above
  rw [hcols]
  simp only [l1, l2, bounded_bind, bind_assoc]

/-- The loop `while(col + right_shift < last_col)` visits the columns from `col` on and
stops after the first in which the row is not zero, or at `last_col`. -/
theorem Algebra.pivot_scan_run_eq [DecidableEq K]
    (clear : Nat → Matrix K → Except Halt (Matrix K))
    (scanfn : List Nat → Matrix K → Except Err (Matrix K))
    (clearfn : Nat → Matrix K → Except Err (Matrix K)) (row col w : Nat) (M : Matrix K)
    (hw : w < SIZE_MOD) (hcol : col ≤ w) (hnil : scanfn [] M = pure M)
    (hcons : ∀ c rest, scanfn (c :: rest) M =
      (M.get row c >>= fun x => if !Algebra.is_zero x then clearfn c M else scanfn rest M))
    (hclear : ∀ c, col ≤ c → c < w → clear c M = bounded (clearfn c M)) (fuel : Nat)
    (hfuel : w - col + 1 < fuel) :
    Algebra.pivot_scan_run clear fuel row col w M =
      bounded (scanfn (List.range' col (w - col)) M) := by
  have gen : ∀ n a fuel, col + a + n = w → n + 1 < fuel →
      loop (fun right_shift => decide (sz (col + right_shift) < w))
        (fun right_shift M => do
          if !Algebra.is_zero (← bounded (M.get row (sz (col + right_shift)))) then
            let M ← clear (sz (col + right_shift)) M
            pure (size_sub w col, M)
          else pure (sz (right_shift + 1), M))
        fuel a M = bounded (scanfn (List.range' (col + a) n) M) := by
    intro n
    induction n with
    | zero =>
      intro a fuel h1 h2
      obtain ⟨g, rfl⟩ : ∃ g, fuel = g + 1 := ⟨fuel - 1, by omega⟩
      rw [loop_succ, if_neg (by rw [sz_of_lt (by omega)]; simp; omega)]
      simp only [List.range'_zero, hnil]
      rfl
    | succ n ih =>
      intro a fuel h1 h2
      obtain ⟨g, rfl⟩ : ∃ g, fuel = g + 1 := ⟨fuel - 1, by omega⟩
      rw [loop_succ, if_pos (by rw [sz_of_lt (by omega)]; simp; omega), List.range'_succ,
        hcons, sz_of_lt (show col + a < SIZE_MOD by omega)]
      cases hg : M.get row (col + a) with
      | error e => rfl
      | ok x =>
        simp only [bounded_ok, halt_ok_bind, ok_bind]
        by_cases hz : Algebra.is_zero x = true
        · simp only [hz, Bool.not_true, Bool.false_eq_true, if_false, halt_pure, halt_ok_bind]
          rw [sz_of_lt (show a + 1 < SIZE_MOD by omega)]
          exact ih (a + 1) g (by omega) (by omega)
        · have hz' : Algebra.is_zero x = false := by simpa using hz
          simp only [hz', Bool.not_false, if_true]
          rw [hclear (col + a) (by omega) (by omega)]
          cases hcl : clearfn (col + a) M with
          | error e => rfl
          | ok M' =>
            simp only [bounded_ok, halt_ok_bind, halt_pure]
            obtain ⟨g', rfl⟩ : ∃ g', g = g' + 1 := ⟨g - 1, by omega⟩
            rw [loop_succ, if_neg (by
              rw [size_sub_of_le hcol hw, sz_of_lt (by omega)]
              simp; omega)]
            rfl
  unfold Algebra.pivot_scan_run
  have := gen (w - col) 0 fuel (by omega) hfuel
  rw [Nat.add_zero] at this
  exact this

/-- The loop of `main_diagonal_partial_sort` stops after an exchange, or at `last_row`. -/
theorem Algebra.main_diagonal_partial_sort_run_eq [DecidableEq K] {M : Matrix K} {h : Nat}
    (hrows : M.rows = h) (hh1 : h + 1 < SIZE_MOD) {row : Nat} (hr : row ≤ h) (dm : Int)
    (fuel : Nat) (hfuel : h + 1 < fuel) :
    Algebra.main_diagonal_partial_sort_run fuel row M dm =
      bounded (Algebra.main_diagonal_partial_sort row M dm) := by
  have gen : ∀ n a fuel, a + n = h → n + 1 < fuel →
      loop (fun i => decide (i < h))
        (fun i (s : Matrix K × Int) => do
          if !Algebra.is_zero (← bounded (s.1.get i row)) then
            let M ← bounded (s.1.exchange_rows i row)
            pure (sz (h + 1), (M, s.2 * -1))
          else pure (sz (i + 1), s))
        fuel a (M, dm) = bounded (Algebra.sort_scan row (List.range' a n) M dm) := by
    intro n
    induction n with
    | zero =>
      intro a fuel h1 h2
      obtain ⟨g, rfl⟩ : ∃ g, fuel = g + 1 := ⟨fuel - 1, by omega⟩
      rw [loop_succ, if_neg (by simp; omega)]
      rfl
    | succ n ih =>
      intro a fuel h1 h2
      obtain ⟨g, rfl⟩ : ∃ g, fuel = g + 1 := ⟨fuel - 1, by omega⟩
      rw [loop_succ, if_pos (by simp; omega), List.range'_succ]
      unfold Algebra.sort_scan
      cases hg : M.get a row with
      | error e => rfl
      | ok x =>
        simp only [bounded_ok, halt_ok_bind, ok_bind]
        by_cases hz : Algebra.is_zero x = true
        · simp only [hz, Bool.not_true, Bool.false_eq_true, if_false, halt_pure, halt_ok_bind]
          rw [sz_of_lt (show a + 1 < SIZE_MOD by omega)]
          exact ih (a + 1) g (by omega) (by omega)
        · have hz' : Algebra.is_zero x = false := by simpa using hz
          simp only [hz', Bool.not_false, if_true]
          cases hx : M.exchange_rows a row with
          | error e => rfl
          | ok M' =>
            simp only [bounded_ok, halt_ok_bind, halt_pure, ok_bind]
            obtain ⟨g', rfl⟩ : ∃ g', g = g' + 1 := ⟨g - 1, by omega⟩
            rw [loop_succ, if_neg (by rw [sz_of_lt hh1]; simp)]
            rfl
  unfold Algebra.main_diagonal_partial_sort_run Algebra.main_diagonal_partial_sort
  rw [hrows]
  cases hg : M.get row row with
  | error e => rfl
  | ok x =>
    simp only [bounded_ok, halt_ok_bind, ok_bind]
    by_cases hz : Algebra.is_zero x = true
    · simp only [hz, if_true]
      exact gen (h - row) row fuel (by omega) (by omega)
    · have hz' : Algebra.is_zero x = false := by simpa using hz
      simp only [hz', Bool.false_eq_true, if_false]
      rfl

end runs

/-! ## The loops of the three passes -/

section passes
variable {K : Type} [Field K]

/-- The loop over `k` of `divide_rows_by_pivots` reaches `j_end` and stops there. -/
theorem Algebra.divide_from_run_eq {w j : Nat} (hj : j ≤ w) (hw : w < SIZE_MOD)
    (fuel i : Nat) (divisor : K) (M : Matrix K) (hfuel : w < fuel) :
    Algebra.divide_from_run fuel i j w divisor M =
      bounded ((List.range (w - j)).foldlM (fun M k => do
        M.put i (sz (j + k)) ((← M.get i (sz (j + k))) / divisor)) M) := by
  unfold Algebra.divide_from_run
  refine loop_count (fun _ => True) _ _ (fun l => l) (w - j) _ ?_ ?_ ?_
    (fun _ _ _ _ _ _ => trivial) fuel M (by omega) trivial
  · intro k hk
    beta_reduce
    rw [sz_of_lt (by omega)]
    simpa using (by omega : j + k < w)
  · beta_reduce
    rw [sz_of_lt (by omega)]
    simpa using (by omega : w ≤ j + (w - j))
  · intro k N hk _
    beta_reduce
    rw [sz_of_lt (show k + 1 < SIZE_MOD by omega)]
    simp only [bounded_bind, bind_assoc]

/-- The loop over `j` of `divide_rows_by_pivots` stops after the row is divided, or at
`j_end`. -/
theorem Algebra.divide_scan_run_eq [DecidableEq K] {w : Nat} (hw1 : w + 1 < SIZE_MOD)
    (fuel i : Nat) (M : Matrix K) (hfuel : w + 1 < fuel) :
    Algebra.divide_scan_run fuel i w M =
      bounded (Algebra.divide_scan i w (List.range w) M) := by
  have hw : w < SIZE_MOD := by omega
  have gen : ∀ n a g, a + n = w → n + 1 < g →
      loop (fun j => decide (j < w))
        (fun j M => do
          if !Algebra.is_zero (← bounded (M.get i j)) then
            let divisor ← bounded (M.get i j)
            let M ← Algebra.divide_from_run fuel i j w divisor M
            pure (sz (w + 1), M)
          else pure (sz (j + 1), M))
        g a M = bounded (Algebra.divide_scan i w (List.range' a n) M) := by
    intro n
    induction n with
    | zero =>
      intro a g h1 h2
      obtain ⟨g', rfl⟩ : ∃ g', g = g' + 1 := ⟨g - 1, by omega⟩
      rw [loop_succ, if_neg (by simp; omega)]
      rfl
    | succ n ih =>
      intro a g h1 h2
      obtain ⟨g', rfl⟩ : ∃ g', g = g' + 1 := ⟨g - 1, by omega⟩
      rw [loop_succ, if_pos (by simp; omega), List.range'_succ]
      unfold Algebra.divide_scan
      cases hg : M.get i a with
      | error e => rfl
      | ok x =>
        simp only [bounded_ok, halt_ok_bind, ok_bind]
        by_cases hz : Algebra.is_zero x = true
        · simp only [hz, Bool.not_true, Bool.false_eq_true, if_false, halt_pure, halt_ok_bind]
          rw [sz_of_lt (show a + 1 < SIZE_MOD by omega)]
          exact ih (a + 1) g' (by omega) (by omega)
        · have hz' : Algebra.is_zero x = false := by simpa using hz
          simp only [hz', Bool.not_false, if_true]
          rw [Algebra.divide_from_run_eq (show a ≤ w by omega) hw fuel i x M (by omega)]
          cases hcl : (List.range (w - a)).foldlM (fun M k => do
              M.put i (sz (a + k)) ((← M.get i (sz (a + k))) / x)) M with
          | error e => rfl
          | ok M' =>
            simp only [bounded_ok, halt_ok_bind, halt_pure]
            obtain ⟨g'', rfl⟩ : ∃ g'', g' = g'' + 1 := ⟨g' - 1, by omega⟩
            rw [loop_succ, if_neg (by rw [sz_of_lt hw1]; simp)]
            rfl
  unfold Algebra.divide_scan_run
  rw [List.range_eq_range']
  exact gen w 0 fuel (by omega) hfuel

/-- The loop over the rows of `divide_rows_by_pivots` reaches `i_end` and stops there. -/
theorem Algebra.divide_rows_by_pivots_run_eq [DecidableEq K] {M : Matrix K} {h w : Nat}
    (hrows : M.rows = h) (hcols : M.columns = w) (hh : h < SIZE_MOD)
    (hw1 : w + 1 < SIZE_MOD) (fuel : Nat) (hfuel : h + w + 1 < fuel) :
    Algebra.divide_rows_by_pivots_run fuel M = bounded (Algebra.divide_rows_by_pivots M) := by
  unfold Algebra.divide_rows_by_pivots_run Algebra.divide_rows_by_pivots
  rw [hrows, hcols]
  refine loop_count (fun _ => True) _ _ (fun l => l) h _ ?_ ?_ ?_
    (fun _ _ _ _ _ _ => trivial) fuel M (by omega) trivial
  · intro k hk
    simpa using hk
  · simp
  · intro k N hk _
    beta_reduce
    rw [sz_of_lt (show k + 1 < SIZE_MOD by omega),
      Algebra.divide_scan_run_eq hw1 fuel k N (by omega)]

/-- The loop over the rows of `zeros_under_pivots` reaches `last_row` and stops there. -/
theorem Algebra.zeros_under_pivots_run_eq [DecidableEq K] {M : Matrix K} {h w : Nat}
    {e0 : Nat → Nat → K} (hM : M.Is h w e0) (hhw : h ≤ w) (hw1 : w + 1 < SIZE_MOD)
    (dm : Int) (fuel : Nat) (hfuel : h + w + 1 < fuel) :
    Algebra.zeros_under_pivots_run fuel M dm = bounded (Algebra.zeros_under_pivots M dm) := by
  have hrows : M.rows = h := hM.2.1
  have hcols : M.columns = w := hM.2.2.1
  unfold Algebra.zeros_under_pivots_run Algebra.zeros_under_pivots
  rw [hrows, hcols]
  refine loop_count (fun s : Matrix K × Int => ∃ e, s.1.Is h w e) _ _ (fun l => l) h _
    ?_ ?_ ?_ ?_ fuel (M, 1) (by omega) ⟨e0, hM⟩
  · intro k hk
    simpa using (by omega : k ≠ h)
  · simp
  · rintro k ⟨N, d⟩ hk ⟨e, hN⟩
    simp only at hN
    beta_reduce
    obtain ⟨N1, d1, e1, a1, a2, _⟩ :=
      Algebra.main_diagonal_partial_sort_spec hN hk (show k < w by omega) d
    rw [sz_of_lt (show k + 1 < SIZE_MOD by omega),
      Algebra.main_diagonal_partial_sort_run_eq (show N.rows = h from hN.2.1) (by omega)
        (by omega) d fuel (by omega), a1]
    simp only [bounded_ok, halt_ok_bind, ok_bind]
    rw [Algebra.pivot_scan_run_eq _ (Algebra.under_scan k)
      (fun c N => Algebra.clear_under k c N) k k w N1 (by omega) (by omega) rfl
      (fun c rest => rfl)
      (fun c _ hc => Algebra.clear_under_run_eq a2 hk hc fuel (by omega)) fuel (by omega)]
    simp only [bounded_bind, bind_assoc]
    rfl
  · rintro k ⟨N, d⟩ ⟨N', d'⟩ hk ⟨e, hN⟩ hf
    simp only at hN
    obtain ⟨N1, d1, e1, a1, a2, _⟩ :=
      Algebra.main_diagonal_partial_sort_spec hN hk (show k < w by omega) d
    obtain ⟨N2, b1, b2⟩ := Algebra.under_scan_spec a2 hk (w - k) k (by omega)
    simp only [a1, ok_bind, b1] at hf
    have hN' : N' = N2 := (Prod.mk.inj (Except.ok.inj hf)).1.symm
    rw [hN']
    rcases b2 with ⟨g1, _⟩ | ⟨c, _, _, _, _, g5⟩
    · exact ⟨e1, g1 ▸ a2⟩
    · exact ⟨_, g5⟩

/-- The loop over the rows of `zeros_above_pivots` reaches `last_row` and stops there. -/
theorem Algebra.zeros_above_pivots_run_eq [DecidableEq K] {M : Matrix K} {h w : Nat}
    {e0 : Nat → Nat → K} (hM : M.Is h w e0) (hhw : h ≤ w) (hw1 : w + 1 < SIZE_MOD)
    (fuel : Nat) (hfuel : h + w + 1 < fuel) :
    Algebra.zeros_above_pivots_run fuel M = bounded (Algebra.zeros_above_pivots M) ∧
      ∃ M' e', Algebra.zeros_above_pivots M = .ok M' ∧ M'.Is h w e' := by
  have hrows : M.rows = h := hM.2.1
  have hcols : M.columns = w := hM.2.2.1
  obtain ⟨hh, _, _, _, _⟩ := Matrix.is_size hM
  have step : ∀ k (N : Matrix K), k < h - 1 → (∃ e, N.Is h w e) →
      ∃ N', Algebra.above_scan (1 + k) (List.range' (1 + k) (w - (1 + k))) N = .ok N' ∧
        ∃ e, N'.Is h w e := by
    rintro k N hk ⟨e, hN⟩
    obtain ⟨N2, b1, b2⟩ := Algebra.above_scan_spec hN (show 1 + k < h by omega) (w - (1 + k))
      (1 + k) (by omega)
    refine ⟨N2, b1, ?_⟩
    rcases b2 with ⟨g1, _⟩ | ⟨c, _, _, _, _, g5⟩
    · exact ⟨e, g1 ▸ hN⟩
    · exact ⟨_, g5⟩
  constructor
  · unfold Algebra.zeros_above_pivots_run Algebra.zeros_above_pivots
    rw [hrows, hcols, foldlM_range'_eq]
    refine loop_count (fun N : Matrix K => ∃ e, N.Is h w e) _ _ (fun l => 1 + l) (h - 1) _
      ?_ ?_ ?_ ?_ fuel M (by omega) ⟨e0, hM⟩
    · intro k hk
      simpa using (by omega : 1 + k < h)
    · simpa using (by omega : h ≤ 1 + (h - 1))
    · rintro k N hk ⟨e, hN⟩
      dsimp only
      rw [sz_of_lt (show 1 + k + 1 < SIZE_MOD by omega),
        Algebra.pivot_scan_run_eq _ (Algebra.above_scan (1 + k))
          (fun c N => Algebra.clear_above (1 + k) c N) (1 + k) (1 + k) w N (by omega) (by omega)
          rfl (fun c rest => rfl)
          (fun c _ hc => Algebra.clear_above_run_eq hN (show 1 + k < h by omega) hc (by omega)
            fuel (by omega)) fuel (by omega)]
      rfl
    · intro k N N' hk hN hf
      obtain ⟨N2, b1, b2⟩ := step k N hk hN
      rw [b1] at hf
      rw [← Except.ok.inj hf]
      exact b2
  · unfold Algebra.zeros_above_pivots
    rw [hrows, hcols, foldlM_range'_eq]
    obtain ⟨M', p1, e', p2⟩ := foldlM_range_inv
      (fun (N : Matrix K) k =>
        Algebra.above_scan (1 + k) (List.range' (1 + k) (w - (1 + k))) N)
      (fun _ N => ∃ e, N.Is h w e) (h - 1) M ⟨e0, hM⟩ (fun k N hk hN => step k N hk hN)
    exact ⟨M', e', p1, p2⟩

/-- C36: for a matrix `M` of the data model over a field with no more rows than columns and
fewer than `2^64 - 1` columns (so that the index after `j = j_end` is a `size_t` value), and
with more iterations allowed to every loop than `M` has rows and columns plus one,
`zeros_under_pivots`, `zeros_above_pivots` and `divide_rows_by_pivots`, run with the tests of
their loops and `size_t` arithmetic modulo `2^64`, return, and so does `rref`; what they
return is what the loops over the ranges `row + 1 .. i_end - 1`, `c + 1 .. j_end - 1` and
`row - 1 .. 0` return. In the upward loop the test `row - i + 1 > 0` holds for `i = 1 .. row`,
where `row - i` does not wrap around, and fails for `i = row + 1`. -/
theorem C36_elimination_loops_terminate [DecidableEq K] (M : Matrix K) (hM : M.wf)
    (hrc : M.rows ≤ M.columns) (hlim : M.columns + 1 < SIZE_MOD) (dm : Int) (fuel : Nat)
    (hfuel : M.rows + M.columns + 1 < fuel) :
    (∃ r, Algebra.zeros_under_pivots_run fuel M dm = .ok r ∧
      Algebra.zeros_under_pivots M dm = .ok r) ∧
    (∃ r, Algebra.zeros_above_pivots_run fuel M = .ok r ∧
      Algebra.zeros_above_pivots M = .ok r) ∧
    (∃ r, Algebra.divide_rows_by_pivots_run fuel M = .ok r ∧
      Algebra.divide_rows_by_pivots M = .ok r) ∧
    (∃ r, Algebra.rref_run fuel M dm = .ok r ∧ Algebra.rref M dm = .ok r) ∧
    (∀ row i, row < M.rows → 1 ≤ i → i ≤ row →
      size_sub row i = row - i ∧ 0 < sz (size_sub row i + 1)) ∧
    ∀ row, row < M.rows → sz (size_sub row (row + 1) + 1) = 0 := by
  have hIs := Matrix.is_self M hM
  have hh : M.n_rows < SIZE_MOD := Matrix.wf_rows_lt hM
  have hrc' : M.n_rows ≤ M.n_columns := hrc
  have hlim' : M.n_columns + 1 < SIZE_MOD := hlim
  have hfuel' : M.n_rows + M.n_columns + 1 < fuel := hfuel
  obtain ⟨U, s, eU, z1, hU, _, hR, hlow⟩ := Algebra.zeros_under_pivots_spec hIs hrc' dm
  have zr := Algebra.zeros_under_pivots_run_eq hIs hrc' hlim' dm fuel hfuel'
  obtain ⟨ar, A', eA, a1, _⟩ := Algebra.zeros_above_pivots_run_eq hIs hrc' hlim' fuel hfuel'
  obtain ⟨D, sc, d1, _, _, _⟩ := Algebra.divide_rows_by_pivots_spec hIs
  have dr := Algebra.divide_rows_by_pivots_run_eq (M := M) rfl rfl hh hlim' fuel hfuel'
  obtain ⟨vr, V, eV, v1, hV⟩ := Algebra.zeros_above_pivots_run_eq hU hrc' hlim' fuel hfuel'
  obtain ⟨W, sw, w1, _, _, _⟩ := Algebra.divide_rows_by_pivots_spec hV
  have wr := Algebra.divide_rows_by_pivots_run_eq (M := V) hV.2.1 hV.2.2.1 hh hlim' fuel hfuel'
  refine ⟨⟨(U, s), by rw [zr, z1]; rfl, z1⟩, ⟨A', by rw [ar, a1]; rfl, a1⟩,
    ⟨D, by rw [dr, d1]; rfl, d1⟩, ⟨(W, s), ?_, ?_⟩, ?_, ?_⟩
  · unfold Algebra.rref_run
    simp only [zr, z1, bounded_ok, halt_ok_bind, vr, v1, wr, w1]
    rfl
  · unfold Algebra.rref
    simp only [z1, ok_bind, v1, w1]
    rfl
  · intro row i hr h1 h2
    have hr' : row < M.n_rows := hr
    rw [size_sub_of_le h2 (by omega), sz_of_lt (by omega)]
    exact ⟨rfl, by omega⟩
  · intro row hr
    have hr' : row < M.n_rows := hr
    have : size_sub row (row + 1) = SIZE_MOD - 1 := by
      unfold size_sub
      rw [Nat.mod_eq_of_lt (show row + 1 < SIZE_MOD by omega),
        show row + (SIZE_MOD - (row + 1)) = SIZE_MOD - 1 by omega,
        Nat.mod_eq_of_lt (by omega)]
    rw [this, show SIZE_MOD - 1 + 1 = SIZE_MOD by omega]
    simp [sz]

/-- C36 on the 2×3 matrix with rows `0 0 1` and `0 1 0`, with seven iterations allowed. -/
theorem C36_witness :
    (demoE.wf ∧ demoE.rows ≤ demoE.columns ∧ demoE.columns + 1 < SIZE_MOD ∧
      demoE.rows + demoE.columns + 1 < 7) ∧
    (∃ r, Algebra.zeros_under_pivots_run 7 demoE 1 = .ok r ∧
      Algebra.zeros_under_pivots demoE 1 = .ok r) ∧
    (∃ r, Algebra.zeros_above_pivots_run 7 demoE = .ok r ∧
      Algebra.zeros_above_pivots demoE = .ok r) ∧
    (∃ r, Algebra.divide_rows_by_pivots_run 7 demoE = .ok r ∧
      Algebra.divide_rows_by_pivots demoE = .ok r) ∧
    (∃ r, Algebra.rref_run 7 demoE 1 = .ok r ∧ Algebra.rref demoE 1 = .ok r) ∧
    (∀ row i, row < demoE.rows → 1 ≤ i → i ≤ row →
      size_sub row i = row - i ∧ 0 < sz (size_sub row i + 1)) ∧
    ∀ row, row < demoE.rows → sz (size_sub row (row + 1) + 1) = 0 :=
  ⟨⟨by decide, by decide, by decide, by decide⟩,
    C36_elimination_loops_terminate demoE (by decide) (by decide) (by decide) 1 7 (by decide)⟩

end passes

/-! ## Workers that run in any order -/

section any_order
variable {F R : Type}

theorem erase_split {α : Type} (l : List α) :
    ∀ (k : Nat) (t : α), l[k]? = some t → ∃ a b, l = a ++ t :: b ∧ l.eraseIdx k = a ++ b := by
  induction l with
  | nil => intro k t h; simp at h
  | cons x rest ih =>
    intro k t h
    cases k with
    | zero =>
      simp only [List.getElem?_cons_zero, Option.some.injEq] at h
      exact ⟨[], rest, by rw [h]; rfl, rfl⟩
    | succ k =>
      simp only [List.getElem?_cons_succ] at h
      obtain ⟨a, b, h1, h2⟩ := ih k t h
      exact ⟨x :: a, b, by rw [h1]; rfl, by rw [List.eraseIdx_cons_succ, h2]; rfl⟩

/-- A task performed from any position keeps the pool in order and the futures standing for
their callables, and shortens the deque by one. -/
theorem Thread_Pool.work_at_spec (invoke : F → Except Err R) (TP : Thread_Pool F R) (k : Nat)
    (h : TP.Inv) :
    (TP.work_at invoke k).Inv ∧
      (∀ fut g, TP.Holds invoke fut g → (TP.work_at invoke k).Holds invoke fut g) ∧
      (TP.tasks ≠ [] → (TP.work_at invoke k).tasks.length + 1 = TP.tasks.length) := by
  unfold Thread_Pool.work_at
  cases hk : TP.tasks[k % TP.tasks.length]? with
  | none =>
    refine ⟨h, fun _ _ hh => hh, fun hne => ?_⟩
    have hpos : 0 < TP.tasks.length := List.length_pos.mpr hne
    have := List.getElem?_eq_none_iff.mp hk
    have := Nat.mod_lt k hpos
    omega
  | some t =>
    obtain ⟨a, b, h1, h2⟩ := erase_split TP.tasks _ t hk
    have hnd := h.2.2.1
    rw [h1] at hnd
    simp only [List.map_append, List.map_cons] at hnd
    have hnd' := List.nodup_middle.mp hnd
    simp only [List.nodup_cons, List.mem_append, List.mem_map, not_or, not_exists,
      not_and] at hnd'
    obtain ⟨i1, i2⟩ := Thread_Pool.perform_step invoke TP t (TP.tasks.eraseIdx
      (k % TP.tasks.length)) h
      (by
        intro u
        rw [h2]
        conv_lhs => rw [h1]
        simp only [List.mem_append, List.mem_cons]
        tauto)
      (by rw [h2, List.map_append]; exact hnd'.2)
      (by
        intro u hu e
        rw [h2, List.mem_append] at hu
        rcases hu with hu | hu
        · exact hnd'.1.1 u hu e
        · exact hnd'.1.2 u hu e)
    refine ⟨i1, i2, fun _ => ?_⟩
    simp only
    rw [h2]
    conv_rhs => rw [h1]
    simp only [List.length_append, List.length_cons]
    omega

theorem Thread_Pool.work_at_all (invoke : F → Except Err R) (ks : List Nat) :
    ∀ TP : Thread_Pool F R, TP.Inv →
      (ks.foldl (fun TP k => TP.work_at invoke k) TP).Inv ∧
        ∀ fut g, TP.Holds invoke fut g →
          (ks.foldl (fun TP k => TP.work_at invoke k) TP).Holds invoke fut g := by
  induction ks with
  | nil => intro TP h; exact ⟨h, fun _ _ hh => hh⟩
  | cons k rest ih =>
    intro TP h
    obtain ⟨i1, i2, _⟩ := Thread_Pool.work_at_spec invoke TP k h
    obtain ⟨j1, j2⟩ := ih (TP.work_at invoke k) i1
    exact ⟨j1, fun fut g hh => j2 fut g (i2 fut g hh)⟩

/-- Reading a future that stands for `f` returns what `f` returns, in whatever order the
workers perform the queued tasks. -/
theorem Thread_Pool.future_get_by_spec (invoke : F → Except Err R)
    (pick : Thread_Pool F R → Nat) (fut : Nat) (f : F) (v : R) (hv : invoke f = .ok v) :
    ∀ (fuel : Nat) (TP : Thread_Pool F R), TP.Inv → TP.Holds invoke fut f →
      TP.tasks.length ≤ fuel →
      ∃ TP', Thread_Pool.future_get_by invoke pick fut fuel TP = .ok (v, TP') ∧ TP'.Inv ∧
        ∀ fut' g, TP.Holds invoke fut' g → TP'.Holds invoke fut' g := by
  intro fuel
  induction fuel with
  | zero =>
    intro TP hinv hh hlen
    have hnil : TP.tasks = [] := List.length_eq_zero.mp (by omega)
    rcases hh with ⟨t, ht, _, _⟩ | hh
    · rw [hnil] at ht; exact absurd ht (List.not_mem_nil t)
    · refine ⟨TP, ?_, hinv, fun _ _ h => h⟩
      unfold Thread_Pool.future_get_by
      rw [hh, hv]
  | succ fuel ih =>
    intro TP hinv hh hlen
    cases hl : TP.shared.lookup fut with
    | some res =>
      have hres : res = .ok v := by
        rcases hh with ⟨t, ht, e1, _⟩ | hh
        · have := lookup_eq_none_of_ne TP.shared t.state (fun x hx => hinv.2.2.2.2.2 t ht x hx)
          rw [e1, hl] at this
          exact Option.noConfusion this
        · rw [hl, hv] at hh
          exact Option.some.inj hh
      refine ⟨TP, ?_, hinv, fun _ _ h => h⟩
      unfold Thread_Pool.future_get_by
      rw [hl, hres]
    | none =>
      have hpend : TP.tasks ≠ [] := by
        rcases hh with ⟨t, ht, _, _⟩ | hh
        · exact List.ne_nil_of_mem ht
        · rw [hl] at hh; exact Option.noConfusion hh
      obtain ⟨i1, i2, i3⟩ := Thread_Pool.work_at_spec invoke TP (pick TP) hinv
      obtain ⟨TP', e, j1, j2⟩ := ih (TP.work_at invoke (pick TP)) i1 (i2 fut f hh)
        (by have := i3 hpend; omega)
      refine ⟨TP', ?_, j1, fun fut' g h => j2 fut' g (i2 fut' g h)⟩
      unfold Thread_Pool.future_get_by
      have hblock : ¬ (TP.done = true ∨ TP.thread_number = 0 ∨ TP.tasks.isEmpty = true) := by
        rintro (h | h | h)
        · rw [hinv.1] at h; exact Bool.noConfusion h
        · have := hinv.2.1; omega
        · exact hpend (List.isEmpty_iff.mp h)
      rw [hl]
      simp only [hblock, if_false]
      exact e

end any_order

/-! ## The controller under any schedule -/

theorem Par.spec_load_front_with [Zero T] [Add T] [Sub T] [Mul T] {β : Type}
    {L : List (Nat × Strassen T)} {Post : Thread_Pool (Strassen T) (Matrix T) → Prop}
    (s : Scheduler T) (S : Strassen T) {f : Nat → Par T β} {b : β}
    (h : ∀ fut, Par.Spec (Promised ((fut, S) :: L)) (f fut) b Post) :
    Par.Spec (Promised L) (Par.load_front_with s S >>= f) b Post := by
  intro w hw
  have ha := Thread_Pool.work_at_all Strassen.invoke (s.ahead w) w.pool hw.1
  have hw' : Promised L (w.ahead s).pool := ⟨ha.1, fun e he => ha.2 _ _ (hw.2 e he)⟩
  obtain ⟨w', e, q⟩ := Par.spec_load_front S h (w.ahead s) hw'
  exact ⟨w', e, q⟩

theorem Par.spec_get_with [Zero T] [Add T] [Sub T] [Mul T] {L : List (Nat × Strassen T)}
    (s : Scheduler T) {fut : Nat} {S : Strassen T} {M : Matrix T} (hmem : (fut, S) ∈ L)
    (hM : S.invoke = .ok M) : Par.Spec (Promised L) (Par.get_with s fut) M (Promised L) := by
  intro w hw
  have ha := Thread_Pool.work_at_all Strassen.invoke (s.ahead w) w.pool hw.1
  obtain ⟨TP', e, i1, i2⟩ := Thread_Pool.future_get_by_spec Strassen.invoke
    (fun TP => s.pick { w.ahead s with pool := TP }) fut S M hM (w.ahead s).pool.tasks.length
    (w.ahead s).pool ha.1 (ha.2 _ _ (hw.2 (fut, S) hmem)) (Nat.le_refl _)
  refine ⟨⟨(w.ahead s).trace ++ [.future_get], TP'⟩, ?_, i1,
    fun x hx => i2 _ _ (ha.2 _ _ (hw.2 x hx))⟩
  show Par.get_with s fut w = _
  unfold Par.get_with
  simp only
  rw [e]

theorem Parallel_Strassen.with_ok_zero [CommRing T] (s : Scheduler T) :
    Parallel_Strassen.run_with_ok s 0 := by
  intro p n A B hA hB
  rw [Parallel_Strassen.run_with]
  exact direct_spec _ n A B hA hB

theorem Parallel_Strassen.with_ok_succ [CommRing T] (s : Scheduler T) (r : Nat)
    (ihs : Strassen.run_ok (T := T) r) (ih : Parallel_Strassen.run_with_ok s r) :
    Parallel_Strassen.run_with_ok s (r + 1) := by
  intro p n A B hA hB
  rw [Parallel_Strassen.run_with]
  by_cases hodd : A.rows % 2 ≠ 0
  · simp only [if_pos hodd]
    exact direct_spec _ n A B hA hB
  · simp only [if_neg hodd]
    have hm : A.rows % 2 = 0 := by omega
    obtain ⟨m, hn⟩ : ∃ m, n = 2 * m := ⟨A.rows / 2, by
      have : A.rows = n := hA.2.1
      omega⟩
    have hrows : A.rows / 2 = m := by
      have : A.rows = n := hA.2.1
      omega
    have hm1 : 1 ≤ m := by
      have : 1 ≤ A.n_rows := hA.1.1
      have : A.n_rows = n := hA.2.1
      omega
    subst hn
    rw [hrows]
    obtain ⟨q, hq, s11, s12, s21, s22, t11, t12, t21, t22, a11, a12, a21, a22, b11, b12,
      b21, b22⟩ := quadrants_spec A B m hm1 hA hB
    obtain ⟨X1, x1, sx1, ex1⟩ := Matrix.add_square s11 s22
    obtain ⟨Y1, y1, sy1, ey1⟩ := Matrix.add_square t11 t22
    obtain ⟨X2, x2, sx2, ex2⟩ := Matrix.add_square s21 s22
    obtain ⟨Y3, y3, sy3, ey3⟩ := Matrix.sub_square t12 t22
    obtain ⟨Y4, y4, sy4, ey4⟩ := Matrix.sub_square t21 t11
    obtain ⟨X5, x5, sx5, ex5⟩ := Matrix.add_square s11 s12
    obtain ⟨X6, x6, sx6, ex6⟩ := Matrix.sub_square s21 s11
    obtain ⟨Y6, y6, sy6, ey6⟩ := Matrix.add_square t11 t12
    obtain ⟨X7, x7, sx7, ex7⟩ := Matrix.sub_square s12 s22
    obtain ⟨Y7, y7, sy7, ey7⟩ := Matrix.add_square t21 t22
    by_cases hp : p = 0
    · obtain ⟨M1, d1, sm1, em1⟩ := ihs m X1 Y1 sx1 sy1
      obtain ⟨M2, d2, sm2, em2⟩ := ihs m X2 q.B11 sx2 t11
      obtain ⟨M3, d3, sm3, em3⟩ := ihs m q.A11 Y3 s11 sy3
      obtain ⟨M4, d4, sm4, em4⟩ := ihs m q.A22 Y4 s22 sy4
      obtain ⟨M5, d5, sm5, em5⟩ := ihs m X5 q.B22 sx5 t22
      obtain ⟨M6, d6, sm6, em6⟩ := ihs m X6 Y6 sx6 sy6
      obtain ⟨M7, d7, sm7, em7⟩ := ihs m X7 Y7 sx7 sy7
      obtain ⟨C, hC, sC, eC⟩ := recombine_spec m hm1 A B hA hB q a11 a12 a21 a22 b11 b12 b21
        b22 X1 Y1 X2 Y3 Y4 X5 X6 Y6 X7 Y7 ex1 ey1 ex2 ey3 ey4 ex5 ex6 ey6 ex7 ey7
        M1 M2 M3 M4 M5 M6 M7 sm1 sm2 sm3 sm4 sm5 sm6 sm7 em1 em2 em3 em4 em5 em6 em7
      refine ⟨C, ?_, sC, eC⟩
      simp only [if_pos hp, bind_assoc]
      refine Par.spec_weaken (Promised []) Thread_Pool.Inv ?_
        (fun p h => ⟨h, fun e he => absurd he (List.not_mem_nil e)⟩) (fun p h => h)
      refine Par.spec_bind (Par.spec_traced _ rfl) ?_
      refine Par.spec_bind (Par.spec_lift hq) ?_
      refine Par.spec_bind (Par.spec_traced _ x1) ?_
      refine Par.spec_bind (Par.spec_traced _ y1) ?_
      refine Par.spec_bind (Par.spec_traced _ (Strassen.serial_new_ok sx1 sy1 r)) ?_
      refine Par.spec_load_front_with s _ (fun f1 => ?_)
      refine Par.spec_bind (Par.spec_traced _ x2) ?_
      refine Par.spec_bind (Par.spec_traced _ (Strassen.serial_new_ok sx2 t11 r)) ?_
      refine Par.spec_load_front_with s _ (fun f2 => ?_)
      refine Par.spec_bind (Par.spec_traced _ y3) ?_
      refine Par.spec_bind (Par.spec_traced _ (Strassen.serial_new_ok s11 sy3 r)) ?_
      refine Par.spec_load_front_with s _ (fun f3 => ?_)
      refine Par.spec_bind (Par.spec_traced _ y4) ?_
      refine Par.spec_bind (Par.spec_traced _ (Strassen.serial_new_ok s22 sy4 r)) ?_
      refine Par.spec_load_front_with s _ (fun f4 => ?_)
      refine Par.spec_bind (Par.spec_traced _ x5) ?_
      refine Par.spec_bind (Par.spec_traced _ (Strassen.serial_new_ok sx5 t22 r)) ?_
      refine Par.spec_load_front_with s _ (fun f5 => ?_)
      refine Par.spec_bind (Par.spec_traced _ x6) ?_
      refine Par.spec_bind (Par.spec_traced _ y6) ?_
      refine Par.spec_bind (Par.spec_traced _ (Strassen.serial_new_ok sx6 sy6 r)) ?_
      refine Par.spec_load_front_with s _ (fun f6 => ?_)
      refine Par.spec_bind (Par.spec_traced _ x7) ?_
      refine Par.spec_bind (Par.spec_traced _ y7) ?_
      refine Par.spec_bind (Par.spec_traced _ (Strassen.serial_new_ok sx7 sy7 r)) ?_
      refine Par.spec_load_front_with s _ (fun f7 => ?_)
      refine Par.spec_bind (Par.spec_get_with s (S := ⟨X1, Y1, r⟩) (by simp)
        (Strassen.invoke_ok d1)) ?_
      refine Par.spec_bind (Par.spec_get_with s (S := ⟨X2, q.B11, r⟩) (by simp)
        (Strassen.invoke_ok d2)) ?_
      refine Par.spec_bind (Par.spec_get_with s (S := ⟨q.A11, Y3, r⟩) (by simp)
        (Strassen.invoke_ok d3)) ?_
      refine Par.spec_bind (Par.spec_get_with s (S := ⟨q.A22, Y4, r⟩) (by simp)
        (Strassen.invoke_ok d4)) ?_
      refine Par.spec_bind (Par.spec_get_with s (S := ⟨X5, q.B22, r⟩) (by simp)
        (Strassen.invoke_ok d5)) ?_
      refine Par.spec_bind (Par.spec_get_with s (S := ⟨X6, Y6, r⟩) (by simp)
        (Strassen.invoke_ok d6)) ?_
      refine Par.spec_bind (Par.spec_get_with s (S := ⟨X7, Y7, r⟩) (by simp)
        (Strassen.invoke_ok d7)) ?_
      exact Par.spec_weaken _ _ (Par.spec_lift (Traced.yields_untraced hC)) (fun p h => h)
        (fun p h => h.1)
    · obtain ⟨M1, d1, sm1, em1⟩ := ih (p - 1) m X1 Y1 sx1 sy1
      obtain ⟨M2, d2, sm2, em2⟩ := ih (p - 1) m X2 q.B11 sx2 t11
      obtain ⟨M3, d3, sm3, em3⟩ := ih (p - 1) m q.A11 Y3 s11 sy3
      obtain ⟨M4, d4, sm4, em4⟩ := ih (p - 1) m q.A22 Y4 s22 sy4
      obtain ⟨M5, d5, sm5, em5⟩ := ih (p - 1) m X5 q.B22 sx5 t22
      obtain ⟨M6, d6, sm6, em6⟩ := ih (p - 1) m X6 Y6 sx6 sy6
      obtain ⟨M7, d7, sm7, em7⟩ := ih (p - 1) m X7 Y7 sx7 sy7
      obtain ⟨C, hC, sC, eC⟩ := recombine_spec m hm1 A B hA hB q a11 a12 a21 a22 b11 b12 b21
        b22 X1 Y1 X2 Y3 Y4 X5 X6 Y6 X7 Y7 ex1 ey1 ex2 ey3 ey4 ex5 ex6 ey6 ex7 ey7
        M1 M2 M3 M4 M5 M6 M7 sm1 sm2 sm3 sm4 sm5 sm6 sm7 em1 em2 em3 em4 em5 em6 em7
      refine ⟨C, ?_, sC, eC⟩
      simp only [if_neg hp, bind_assoc]
      refine Par.spec_bind (Par.spec_traced _ rfl) ?_
      refine Par.spec_bind (Par.spec_lift hq) ?_
      refine Par.spec_bind (Par.spec_traced _ x1) ?_
      refine Par.spec_bind (Par.spec_traced _ y1) ?_
      refine Par.spec_bind (Par.spec_traced _ (Parallel_Strassen.parallel_new_ok sx1 sy1 r _)) ?_
      refine Par.spec_bind d1 ?_
      refine Par.spec_bind (Par.spec_traced _ x2) ?_
      refine Par.spec_bind (Par.spec_traced _ (Parallel_Strassen.parallel_new_ok sx2 t11 r _)) ?_
      refine Par.spec_bind d2 ?_
      refine Par.spec_bind (Par.spec_traced _ y3) ?_
      refine Par.spec_bind (Par.spec_traced _ (Parallel_Strassen.parallel_new_ok s11 sy3 r _)) ?_
      refine Par.spec_bind d3 ?_
      refine Par.spec_bind (Par.spec_traced _ y4) ?_
      refine Par.spec_bind (Par.spec_traced _ (Parallel_Strassen.parallel_new_ok s22 sy4 r _)) ?_
      refine Par.spec_bind d4 ?_
      refine Par.spec_bind (Par.spec_traced _ x5) ?_
      refine Par.spec_bind (Par.spec_traced _ (Parallel_Strassen.parallel_new_ok sx5 t22 r _)) ?_
      refine Par.spec_bind d5 ?_
      refine Par.spec_bind (Par.spec_traced _ x6) ?_
      refine Par.spec_bind (Par.spec_traced _ y6) ?_
      refine Par.spec_bind (Par.spec_traced _ (Parallel_Strassen.parallel_new_ok sx6 sy6 r _)) ?_
      refine Par.spec_bind d6 ?_
      refine Par.spec_bind (Par.spec_traced _ x7) ?_
      refine Par.spec_bind (Par.spec_traced _ y7) ?_
      refine Par.spec_bind (Par.spec_traced _ (Parallel_Strassen.parallel_new_ok sx7 sy7 r _)) ?_
      refine Par.spec_bind d7 ?_
      exact Par.spec_lift (Traced.yields_untraced hC)

theorem Parallel_Strassen.with_ok_all [CommRing T] (s : Scheduler T) (r : Nat) :
    Parallel_Strassen.run_with_ok s r := by
  induction r with
  | zero => exact Parallel_Strassen.with_ok_zero s
  | succ r ih => exact Parallel_Strassen.with_ok_succ s r (Strassen.serial_ok_all r) ih

/-! ## The pool with one worker is one of the schedules -/

section policy
variable {F R : Type}

theorem Thread_Pool.work_at_policy (invoke : F → Except Err R) (TP : Thread_Pool F R) :
    TP.work_at invoke (if TP.work_end = 'f' then 0 else TP.tasks.length - 1) =
      TP.looper_step invoke := by
  unfold Thread_Pool.work_at Thread_Pool.looper_step
  by_cases hw : TP.work_end = 'f'
  · rw [if_pos hw, if_pos hw]
    unfold Thread_Pool.work_front
    cases ht : TP.tasks with
    | nil => rfl
    | cons t rest => simp
  · rw [if_neg hw, if_neg hw]
    unfold Thread_Pool.work_back
    cases ht : TP.tasks with
    | nil => rfl
    | cons t rest =>
      have hlt : (t :: rest).length - 1 < (t :: rest).length := by simp
      have hd : (t :: rest).dropLast = (t :: rest).eraseIdx ((t :: rest).length - 1) :=
        List.dropLast_eq_eraseIdx (by simp)
      rw [Nat.mod_eq_of_lt hlt, ← List.getLast?_eq_getElem?, ← hd]
      cases (t :: rest).getLast? <;> rfl

theorem Thread_Pool.future_get_by_policy (invoke : F → Except Err R) (fut : Nat) :
    ∀ (fuel : Nat) (TP : Thread_Pool F R),
      Thread_Pool.future_get_by invoke
        (fun TP => if TP.work_end = 'f' then 0 else TP.tasks.length - 1) fut fuel TP =
      Thread_Pool.future_get invoke fut fuel TP := by
  intro fuel
  induction fuel with
  | zero => intro TP; rfl
  | succ fuel ih =>
    intro TP
    unfold Thread_Pool.future_get_by Thread_Pool.future_get
    rw [Thread_Pool.work_at_policy, ih]

end policy

theorem Par.load_front_with_policy [Zero T] [Add T] [Sub T] [Mul T] (S : Strassen T) :
    Par.load_front_with (Scheduler.policy T) S = Par.load_front S := rfl

theorem Par.get_with_policy [Zero T] [Add T] [Sub T] [Mul T] (fut : Nat) :
    Par.get_with (Scheduler.policy T) fut = Par.get fut := by
  funext w
  have h := Thread_Pool.future_get_by_policy Strassen.invoke fut w.pool.tasks.length w.pool
  dsimp only [Par.get_with, Par.get, Thread_Pool.get, World.ahead, Scheduler.policy,
    List.foldl_nil]
  rw [h]

/-- The controller of the pool with one worker that runs while the caller is blocked is the
controller under the scheduler that follows `work_end`. -/
theorem Parallel_Strassen.run_with_policy [Zero T] [Add T] [Sub T] [Mul T] (r : Nat) :
    ∀ (p : Nat) (A B : Matrix T),
      Parallel_Strassen.run_with (Scheduler.policy T) r p A B = Parallel_Strassen.run r p A B := by
  induction r with
  | zero =>
    intro p A B
    rw [Parallel_Strassen.run_with, Parallel_Strassen.run]
  | succ r ih =>
    intro p A B
    rw [Parallel_Strassen.run_with, Parallel_Strassen.run]
    simp only [Par.load_front_with_policy, Par.get_with_policy, ih]

/-- C32: for square operands of the same dimension and every `r` and `p`, the matrix that
the controller returns is the same under every scheduler (the workers perform queued tasks
before any operation of the caller and while it is blocked, from any position of the deque)
and from every pool that is in order (any number of workers that is not zero, any
`work_end`, any `time_to_sleep`, tasks of other callers queued or not): it is the direct
product. The controller of the pool whose one worker follows `work_end` is the controller
under one of the schedulers. -/
theorem C32_scheduling_independence [CommRing T] (r p n : Nat) (A B : Matrix T)
    (hA : A.square n) (hB : B.square n) (s1 s2 : Scheduler T) (w1 w2 : World T)
    (h1 : w1.pool.Inv) (h2 : w2.pool.Inv) :
    (∃ P w1' w2', (Parallel_Strassen.run_with s1 r p A B).run w1 = .ok (P, w1') ∧
      (Parallel_Strassen.run_with s2 r p A B).run w2 = .ok (P, w2') ∧ A.mul B = .ok P) ∧
    Parallel_Strassen.run_with (Scheduler.policy T) r p A B = Parallel_Strassen.run r p A B := by
  obtain ⟨P, p1, p2, p3⟩ := Parallel_Strassen.with_ok_all s1 r p n A B hA hB
  obtain ⟨Q, q1, q2, q3⟩ := Parallel_Strassen.with_ok_all s2 r p n A B hA hB
  obtain ⟨D, d1, d2, d3⟩ := Matrix.mul_square hA hB
  have hPD : P = D := Matrix.square_ext p2 d2 (fun i j hi hj => by
    rw [p3 i j hi hj, d3 i j hi hj])
  have hQD : Q = D := Matrix.square_ext q2 d2 (fun i j hi hj => by
    rw [q3 i j hi hj, d3 i j hi hj])
  obtain ⟨w1', e1, _⟩ := p1 w1 h1
  obtain ⟨w2', e2, _⟩ := q1 w2 h2
  rw [hPD] at e1
  rw [hQD] at e2
  exact ⟨⟨D, w1', w2', e1, e2, d1⟩, Parallel_Strassen.run_with_policy r p A B⟩

/-- C32 on the matrices of the test, one level of tasks: the pool of four workers that take
from the front, under the scheduler that follows `work_end`, and a pool of one worker that
takes from the back, under a scheduler that performs a task before every operation of the
caller. -/
theorem C32_witness :
    (demoA.square 2 ∧ demoB.square 2 ∧ (test_world Int).pool.Inv ∧
      (⟨[], Thread_Pool.new 1 'b' 7⟩ : World Int).pool.Inv) ∧
    (∃ P w1' w2',
      (Parallel_Strassen.run_with (Scheduler.policy Int) 1 0 demoA demoB).run (test_world Int) =
        .ok (P, w1') ∧
      (Parallel_Strassen.run_with (Scheduler.eager Int) 1 0 demoA demoB).run
        ⟨[], Thread_Pool.new 1 'b' 7⟩ = .ok (P, w2') ∧ demoA.mul demoB = .ok P) ∧
    Parallel_Strassen.run_with (Scheduler.policy Int) 1 0 demoA demoB =
      Parallel_Strassen.run 1 0 demoA demoB :=
  ⟨⟨by decide, by decide, Thread_Pool.new_inv 4 'f' 2 (by decide),
      Thread_Pool.new_inv 1 'b' 7 (by decide)⟩,
    C32_scheduling_independence 1 0 2 demoA demoB (by decide) (by decide) (Scheduler.policy Int)
      (Scheduler.eager Int) (test_world Int) ⟨[], Thread_Pool.new 1 'b' 7⟩
      (Thread_Pool.new_inv 4 'f' 2 (by decide)) (Thread_Pool.new_inv 1 'b' 7 (by decide))⟩

/-! ## The mutex and the deque -/

section mutex
variable {F R : Type}

theorem Pc.held_of_took {p : Pc F} {task : packaged_task F} (h : p.took = some task) :
    p.held = some task := by
  cases p <;> simp [Pc.took] at h <;> simp [Pc.held, h]

theorem Threads.init_inv : (Threads.init : Threads F R).Inv := by
  refine ⟨fun t h => by simp [Threads.init, Pc.inside] at h, ?_⟩
  constructor <;> simp [Threads.init, Threads.queued, Pc.inside, Pc.held, Pc.took]

/-- A thread that goes on without touching the deque, the shared states or a local task
keeps the deque and the tasks in order. -/
theorem Threads.goto_ledger {s : Threads F R} (h : s.Ledger) (t : Nat) (p : Pc F)
    (h2 : p.held = (s.pc t).held) (h3 : p.took = (s.pc t).took)
    (h4 : ∀ front task, p ≠ .work_pop front task)
    (h5 : ∀ front task, s.pc t ≠ .work_pop front task)
    (h6 : ∀ front, p = .work_move front → s.tasks ≠ []) : (s.goto t p).Ledger := by
  have hpc : ∀ u, (s.goto t p).pc u = if u = t then p else s.pc u := fun _ => rfl
  constructor
  · exact h.sound
  · intro u front task hu
    rw [hpc] at hu
    by_cases hut : u = t
    · rw [if_pos hut] at hu
      exact absurd hu (h4 front task)
    · rw [if_neg hut] at hu
      exact h.shape_pop u front task hu
  · intro u front hu
    rw [hpc] at hu
    by_cases hut : u = t
    · rw [if_pos hut] at hu
      exact h6 front hu
    · rw [if_neg hut] at hu
      exact h.shape_move u front hu
  · intro hno
    apply h.clean
    intro u front task hu
    by_cases hut : u = t
    · rw [hut] at hu
      exact h5 front task hu
    · have := hno u front task
      rw [hpc, if_neg hut] at this
      exact this hu
  · exact h.bound_q
  · exact h.bound_s
  · intro u task hu
    rw [hpc] at hu
    by_cases hut : u = t
    · rw [if_pos hut, h2] at hu
      exact h.bound_h t task hu
    · rw [if_neg hut] at hu
      exact h.bound_h u task hu
  · exact h.nodup_q
  · exact h.nodup_s
  · exact h.q_s
  · intro u task hu
    rw [hpc] at hu
    by_cases hut : u = t
    · rw [if_pos hut, h2] at hu
      exact h.h_q t task hu
    · rw [if_neg hut] at hu
      exact h.h_q u task hu
  · intro u task hu
    rw [hpc] at hu
    by_cases hut : u = t
    · rw [if_pos hut, h2] at hu
      exact h.h_s t task hu
    · rw [if_neg hut] at hu
      exact h.h_s u task hu
  · intro u v a b huv hu hv
    rw [hpc] at hu hv
    have hu' : (s.pc u).held = some a := by
      by_cases hut : u = t
      · rw [if_pos hut, h2] at hu; rw [hut]; exact hu
      · rw [if_neg hut] at hu; exact hu
    have hv' : (s.pc v).held = some b := by
      by_cases hvt : v = t
      · rw [if_pos hvt, h2] at hv; rw [hvt]; exact hv
      · rw [if_neg hvt] at hv; exact hv
    exact h.h_h u v a b huv hu' hv'
  · intro x hx
    rcases h.log x hx with hl | ⟨task, hl, he⟩
    · exact Or.inl hl
    · refine Or.inr ⟨task, ?_, he⟩
      rw [hpc]
      by_cases hxt : x.1 = t
      · rw [if_pos hxt, h3, ← hxt]; exact hl
      · rw [if_neg hxt]; exact hl
  · exact h.nodup_t

/-- The deque and the tasks do not depend on who holds the mutex. -/
theorem Threads.Ledger.with_muter {s : Threads F R} (h : s.Ledger) (m : Option Nat) :
    ({ s with muter := m } : Threads F R).Ledger :=
  ⟨h.sound, h.shape_pop, h.shape_move, h.clean, h.bound_q, h.bound_s, h.bound_h, h.nodup_q,
    h.nodup_s, h.q_s, h.h_q, h.h_s, h.h_h, h.log, h.nodup_t⟩

theorem Threads.goto_exclusive {s : Threads F R} (h : s.Exclusive) (t : Nat) (p : Pc F)
    (h1 : p.inside = (s.pc t).inside) : (s.goto t p).Exclusive := by
  intro u hu
  have hpc : (s.goto t p).pc u = if u = t then p else s.pc u := rfl
  rw [hpc] at hu
  by_cases hut : u = t
  · rw [if_pos hut, h1] at hu
    rw [hut]
    exact h t hu
  · rw [if_neg hut] at hu
    exact h u hu

/-- `muter.lock()` keeps the pool in order: the thread goes on only when nobody is between
`lock` and `unlock`. -/
theorem Threads.lock_inv {s : Threads F R} (h : s.Inv) (t : Nat) (p : Pc F)
    (h2 : p.held = (s.pc t).held) (h3 : p.took = (s.pc t).took)
    (h4 : ∀ front task, p ≠ .work_pop front task)
    (h5 : ∀ front task, s.pc t ≠ .work_pop front task)
    (h6 : ∀ front, p ≠ .work_move front) : (s.lock t p).Inv := by
  unfold Threads.lock
  cases hm : s.muter with
  | some u => exact h
  | none =>
    refine ⟨?_, (Threads.goto_ledger h.2 t p h2 h3 h4 h5
      (fun front hp => absurd hp (h6 front))).with_muter (some t)⟩
    intro u hu
    have hpc : (s.goto t p).pc u = if u = t then p else s.pc u := rfl
    change ((s.goto t p).pc u).inside = true at hu
    rw [hpc] at hu
    by_cases hut : u = t
    · rw [hut]
    · rw [if_neg hut] at hu
      have := h.1 u hu
      rw [hm] at this
      exact Option.noConfusion this

/-- `muter.unlock()` by a thread between `lock` and `unlock` keeps the pool in order: no
other thread is there. -/
theorem Threads.unlock_inv {s : Threads F R} (h : s.Inv) (t : Nat) (p : Pc F)
    (h0 : (s.pc t).inside = true) (h1 : p.inside = false)
    (h2 : p.held = (s.pc t).held) (h3 : p.took = (s.pc t).took)
    (h4 : ∀ front task, p ≠ .work_pop front task)
    (h5 : ∀ front task, s.pc t ≠ .work_pop front task)
    (h6 : ∀ front, p ≠ .work_move front) : (s.unlock t p).Inv := by
  unfold Threads.unlock
  refine ⟨?_, (Threads.goto_ledger h.2 t p h2 h3 h4 h5
    (fun front hp => absurd hp (h6 front))).with_muter none⟩
  intro u hu
  have hpc : (s.goto t p).pc u = if u = t then p else s.pc u := rfl
  change ((s.goto t p).pc u).inside = true at hu
  rw [hpc] at hu
  by_cases hut : u = t
  · rw [if_pos hut, h1] at hu
    exact Bool.noConfusion hu
  · rw [if_neg hut] at hu
    have e1 := h.1 u hu
    have e2 := h.1 t h0
    rw [e1] at e2
    exact absurd (Option.some.inj e2) hut

/-- Making a task with a new shared state keeps the pool in order. -/
theorem Threads.fresh_inv {s : Threads F R} (h : s.Inv) (t : Nat) (front : Bool) (f : F)
    (hidle : s.pc t = .idle) :
    ({ s.goto t (.load_lock front ⟨s.next_state, f⟩) with
      next_state := s.next_state + 1 } : Threads F R).Inv := by
  have hpc : ∀ u, (s.goto t (.load_lock front ⟨s.next_state, f⟩)).pc u =
      if u = t then .load_lock front ⟨s.next_state, f⟩ else s.pc u := fun _ => rfl
  obtain ⟨hx, h⟩ := h
  refine ⟨Threads.goto_exclusive hx t _ (by rw [hidle]; rfl), ?_⟩
  have held_cases : ∀ u task,
      ((s.goto t (.load_lock front ⟨s.next_state, f⟩)).pc u).held = some task →
      (u = t ∧ task = ⟨s.next_state, f⟩) ∨ (u ≠ t ∧ (s.pc u).held = some task) := by
    intro u task hu
    rw [hpc] at hu
    by_cases hut : u = t
    · rw [if_pos hut] at hu
      exact Or.inl ⟨hut, (Option.some.inj hu).symm⟩
    · rw [if_neg hut] at hu
      exact Or.inr ⟨hut, hu⟩
  constructor
  · exact h.sound
  · intro u fr task hu
    change (s.goto t _).pc u = _ at hu
    rw [hpc] at hu
    by_cases hut : u = t
    · rw [if_pos hut] at hu; cases hu
    · rw [if_neg hut] at hu
      exact h.shape_pop u fr task hu
  · intro u fr hu
    change (s.goto t _).pc u = _ at hu
    rw [hpc] at hu
    by_cases hut : u = t
    · rw [if_pos hut] at hu; cases hu
    · rw [if_neg hut] at hu
      exact h.shape_move u fr hu
  · intro hno
    apply h.clean
    intro u fr task hu
    by_cases hut : u = t
    · rw [hut, hidle] at hu; cases hu
    · have := hno u fr task
      change (s.goto t _).pc u ≠ _ at this
      rw [hpc, if_neg hut] at this
      exact this hu
  · intro q hq
    exact Nat.lt_succ_of_lt (h.bound_q q hq)
  · intro e he
    exact Nat.lt_succ_of_lt (h.bound_s e he)
  · intro u task hu
    rcases held_cases u task hu with ⟨_, rfl⟩ | ⟨_, hu'⟩
    · exact Nat.lt_succ_self _
    · exact Nat.lt_succ_of_lt (h.bound_h u task hu')
  · exact h.nodup_q
  · exact h.nodup_s
  · exact h.q_s
  · intro u task hu q hq
    rcases held_cases u task hu with ⟨_, rfl⟩ | ⟨_, hu'⟩
    · exact Nat.ne_of_lt (h.bound_q q hq)
    · exact h.h_q u task hu' q hq
  · intro u task hu e he
    rcases held_cases u task hu with ⟨_, rfl⟩ | ⟨_, hu'⟩
    · exact Nat.ne_of_lt (h.bound_s e he)
    · exact h.h_s u task hu' e he
  · intro u v a b huv hu hv
    rcases held_cases u a hu with ⟨hut, rfl⟩ | ⟨hut, hu'⟩
    · rcases held_cases v b hv with ⟨hvt, _⟩ | ⟨_, hv'⟩
      · exact absurd (hut.trans hvt.symm) huv
      · exact Nat.ne_of_gt (h.bound_h v b hv')
    · rcases held_cases v b hv with ⟨_, rfl⟩ | ⟨_, hv'⟩
      · exact Nat.ne_of_lt (h.bound_h u a hu')
      · exact h.h_h u v a b huv hu' hv'
  · intro x hx'
    rcases h.log x hx' with hl | ⟨task, hl, he⟩
    · exact Or.inl hl
    · refine Or.inr ⟨task, ?_, he⟩
      change ((s.goto t _).pc x.1).took = _
      rw [hpc]
      by_cases hxt : x.1 = t
      · rw [hxt, hidle] at hl; cases hl
      · rw [if_neg hxt]; exact hl
  · exact h.nodup_t

theorem Threads.Exclusive.alone {s : Threads F R} (hx : s.Exclusive) {t u : Nat}
    (ht : (s.pc t).inside = true) (hu : (s.pc u).inside = true) : u = t := by
  have e1 := hx t ht
  have e2 := hx u hu
  rw [e1] at e2
  exact (Option.some.inj e2).symm

/-- `task()` writes a shared state that no task performed before has written. -/
theorem Threads.perform_inv (invoke : F → Except Err R) {s : Threads F R} (h : s.Inv)
    (t : Nat) (task : packaged_task F) (hp : s.pc t = .work_perform task) :
    ({ s.goto t .idle with shared := task.perform invoke s.shared } : Threads F R).Inv := by
  have hpc : ∀ u, (s.goto t .idle).pc u = if u = t then .idle else s.pc u := fun _ => rfl
  obtain ⟨hx, h⟩ := h
  refine ⟨Threads.goto_exclusive hx t _ (by rw [hp]; rfl), ?_⟩
  have hheld : (s.pc t).held = some task := by rw [hp]; rfl
  have held_cases : ∀ u b, ((s.goto t .idle).pc u).held = some b →
      u ≠ t ∧ (s.pc u).held = some b := by
    intro u b hu
    rw [hpc] at hu
    by_cases hut : u = t
    · rw [if_pos hut] at hu; cases hu
    · rw [if_neg hut] at hu
      exact ⟨hut, hu⟩
  have hsh : ∀ e, e ∈ task.perform invoke s.shared →
      e = (task.state, invoke task.f) ∨ e ∈ s.shared := by
    intro e he
    exact List.mem_cons.mp he
  constructor
  · exact h.sound
  · intro u fr b hu
    change (s.goto t _).pc u = _ at hu
    rw [hpc] at hu
    by_cases hut : u = t
    · rw [if_pos hut] at hu; cases hu
    · rw [if_neg hut] at hu
      exact h.shape_pop u fr b hu
  · intro u fr hu
    change (s.goto t _).pc u = _ at hu
    rw [hpc] at hu
    by_cases hut : u = t
    · rw [if_pos hut] at hu; cases hu
    · rw [if_neg hut] at hu
      exact h.shape_move u fr hu
  · intro hno
    apply h.clean
    intro u fr b hu
    by_cases hut : u = t
    · rw [hut, hp] at hu; cases hu
    · have := hno u fr b
      change (s.goto t _).pc u ≠ _ at this
      rw [hpc, if_neg hut] at this
      exact this hu
  · exact h.bound_q
  · intro e he
    rcases hsh e he with rfl | he
    · exact h.bound_h t task hheld
    · exact h.bound_s e he
  · intro u b hu
    exact h.bound_h u b (held_cases u b hu).2
  · exact h.nodup_q
  · change ((task.perform invoke s.shared).map (fun e => e.1)).Nodup
    unfold packaged_task.perform
    rw [List.map_cons, List.nodup_cons]
    refine ⟨?_, h.nodup_s⟩
    intro hmem
    obtain ⟨e, he, he'⟩ := List.mem_map.mp hmem
    exact h.h_s t task hheld e he he'
  · intro q hq e he
    rcases hsh e he with rfl | he
    · exact h.h_q t task hheld q hq
    · exact h.q_s q hq e he
  · intro u b hu q hq
    exact h.h_q u b (held_cases u b hu).2 q hq
  · intro u b hu e he
    obtain ⟨hut, hu'⟩ := held_cases u b hu
    rcases hsh e he with rfl | he
    · exact h.h_h t u task b (Ne.symm hut) hheld hu'
    · exact h.h_s u b hu' e he
  · intro u v a b huv hu hv
    exact h.h_h u v a b huv (held_cases u a hu).2 (held_cases v b hv).2
  · intro x hx'
    rcases h.log x hx' with ⟨e, he, hl⟩ | ⟨b, hl, he⟩
    · exact Or.inl ⟨e, List.mem_cons_of_mem _ he, hl⟩
    · by_cases hxt : x.1 = t
      · rw [hxt, hp] at hl
        have hb : task = b := Option.some.inj hl
        refine Or.inl ⟨(task.state, invoke task.f), List.mem_cons_self _ _, ?_⟩
        rw [← he, ← hb]
      · refine Or.inr ⟨b, ?_, he⟩
        change ((s.goto t _).pc x.1).took = _
        rw [hpc, if_neg hxt]
        exact hl
  · exact h.nodup_t

theorem clean_eq {α : Type} (l : List (Option α)) (h : ∀ x ∈ l, x ≠ none) :
    l = (l.filterMap id).map some := by
  induction l with
  | nil => rfl
  | cons x rest ih =>
    cases x with
    | none => exact absurd rfl (h none (List.mem_cons_self _ _))
    | some a =>
      rw [List.filterMap_cons_some (by rfl), List.map_cons,
        ← ih (fun y hy => h y (List.mem_cons_of_mem _ hy))]

theorem filterMap_id_map_some {α : Type} (l : List α) : (l.map some).filterMap id = l := by
  induction l with
  | nil => rfl
  | cons x rest ih => rw [List.map_cons, List.filterMap_cons_some (by rfl), ih]

/-- `push_front` and `push_back` by the thread that holds the mutex keep the pool in
order. -/
theorem Threads.push_inv {s : Threads F R} (h : s.Inv) (t : Nat) (front : Bool)
    (task : packaged_task F) (hp : s.pc t = .load_push front task) :
    ({ s.goto t .load_unlock with
      tasks := if front then some task :: s.tasks else s.tasks ++ [some task] } :
        Threads F R).Inv := by
  have hpc : ∀ u, (s.goto t .load_unlock).pc u = if u = t then .load_unlock else s.pc u :=
    fun _ => rfl
  obtain ⟨hx, h⟩ := h
  refine ⟨Threads.goto_exclusive hx t _ (by rw [hp]; rfl), ?_⟩
  have hin : (s.pc t).inside = true := by rw [hp]; rfl
  have hheld : (s.pc t).held = some task := by rw [hp]; rfl
  have nopop : ∀ u fr b, s.pc u ≠ .work_pop fr b := by
    intro u fr b hu
    have : u = t := hx.alone hin (by rw [hu]; rfl)
    rw [this, hp] at hu
    cases hu
  have held_cases : ∀ u b, ((s.goto t .load_unlock).pc u).held = some b →
      u ≠ t ∧ (s.pc u).held = some b := by
    intro u b hu
    rw [hpc] at hu
    by_cases hut : u = t
    · rw [if_pos hut] at hu; cases hu
    · rw [if_neg hut] at hu
      exact ⟨hut, hu⟩
  have hq : ∀ q, q ∈ (if front then some task :: s.tasks
      else s.tasks ++ [some task]).filterMap id → q = task ∨ q ∈ s.queued := by
    intro q hq
    unfold Threads.queued
    cases front <;> simp at hq ⊢ <;> tauto
  constructor
  · exact h.sound
  · intro u fr b hu
    change (s.goto t _).pc u = _ at hu
    rw [hpc] at hu
    by_cases hut : u = t
    · rw [if_pos hut] at hu; cases hu
    · rw [if_neg hut] at hu
      exact absurd hu (nopop u fr b)
  · intro u fr _
    change (if front then some task :: s.tasks else s.tasks ++ [some task]) ≠ []
    cases front <;> simp
  · intro _ x hx'
    change x ∈ (if front then some task :: s.tasks else s.tasks ++ [some task]) at hx'
    have hold := h.clean nopop
    cases front
    · simp only [Bool.false_eq_true, if_false, List.mem_append, List.mem_singleton] at hx'
      rcases hx' with hx' | rfl
      · exact hold x hx'
      · exact fun e => Option.noConfusion e
    · simp only [if_true, List.mem_cons] at hx'
      rcases hx' with rfl | hx'
      · exact fun e => Option.noConfusion e
      · exact hold x hx'
  · intro q hq'
    rcases hq q hq' with rfl | hq'
    · exact h.bound_h t q hheld
    · exact h.bound_q q hq'
  · exact h.bound_s
  · intro u b hu
    exact h.bound_h u b (held_cases u b hu).2
  · change (((if front then some task :: s.tasks
      else s.tasks ++ [some task]).filterMap id).map (fun q => q.state)).Nodup
    have hnew : task.state ∉ s.queued.map (fun q => q.state) := by
      intro hmem
      obtain ⟨q, hq1, hq2⟩ := List.mem_map.mp hmem
      exact h.h_q t task hheld q hq1 hq2
    have hold := h.nodup_q
    unfold Threads.queued at hnew hold
    cases front
    · simp only [Bool.false_eq_true, if_false, List.filterMap_append, List.map_append]
      rw [List.nodup_append]
      refine ⟨hold, by simp, ?_⟩
      intro a ha hb
      simp at hb
      rw [hb] at ha
      exact hnew ha
    · simp only [if_true]
      rw [List.filterMap_cons_some (by rfl), List.map_cons, List.nodup_cons]
      exact ⟨hnew, hold⟩
  · exact h.nodup_s
  · intro q hq' e he
    rcases hq q hq' with rfl | hq'
    · exact fun e' => h.h_s t q hheld e he e'.symm
    · exact h.q_s q hq' e he
  · intro u b hu q hq'
    obtain ⟨hut, hu'⟩ := held_cases u b hu
    rcases hq q hq' with rfl | hq'
    · exact h.h_h t u q b (Ne.symm hut) hheld hu'
    · exact h.h_q u b hu' q hq'
  · intro u b hu e he
    exact h.h_s u b (held_cases u b hu).2 e he
  · intro u v a b huv hu hv
    exact h.h_h u v a b huv (held_cases u a hu).2 (held_cases v b hv).2
  · intro x hx'
    rcases h.log x hx' with hl | ⟨b, hl, he⟩
    · exact Or.inl hl
    · refine Or.inr ⟨b, ?_, he⟩
      change ((s.goto t _).pc x.1).took = _
      rw [hpc]
      by_cases hxt : x.1 = t
      · rw [hxt, hp] at hl; cases hl
      · rw [if_neg hxt]; exact hl
  · exact h.nodup_t

/-- `pop_front` and `pop_back` by the thread that has moved the task at that end remove
the task moved from. -/
theorem Threads.pop_inv {s : Threads F R} (h : s.Inv) (t : Nat) (front : Bool)
    (task : packaged_task F) (hp : s.pc t = .work_pop front task) :
    s.tasks.isEmpty = false ∧
    ({ s.goto t (.work_unlock task) with
      tasks := if front then s.tasks.tail else s.tasks.dropLast } : Threads F R).Inv := by
  have hpc : ∀ u, (s.goto t (.work_unlock task)).pc u =
      if u = t then .work_unlock task else s.pc u := fun _ => rfl
  obtain ⟨hx, h⟩ := h
  obtain ⟨rest, hrest⟩ := h.shape_pop t front task hp
  have hne : s.tasks.isEmpty = false := by
    rw [hrest]
    cases front <;> simp
  refine ⟨hne, Threads.goto_exclusive hx t _ (by rw [hp]; rfl), ?_⟩
  have hin : (s.pc t).inside = true := by rw [hp]; rfl
  have hnew : (if front then s.tasks.tail else s.tasks.dropLast) = rest.map some := by
    rw [hrest]
    cases front <;> simp
  have hq : s.queued = rest := by
    unfold Threads.queued
    rw [hrest]
    cases front
    · simp only [Bool.false_eq_true, if_false, List.filterMap_append, filterMap_id_map_some]
      simp
    · simp only [if_true]
      rw [List.filterMap_cons_none (by rfl), filterMap_id_map_some]
  have hq' : (if front then s.tasks.tail else s.tasks.dropLast).filterMap id = s.queued := by
    rw [hnew, hq, filterMap_id_map_some]
  have held_eq : ∀ u, ((s.goto t (.work_unlock task)).pc u).held = (s.pc u).held := by
    intro u
    rw [hpc]
    by_cases hut : u = t
    · rw [if_pos hut, hut, hp]; rfl
    · rw [if_neg hut]
  constructor
  · exact h.sound
  · intro u fr b hu
    change (s.goto t _).pc u = _ at hu
    rw [hpc] at hu
    by_cases hut : u = t
    · rw [if_pos hut] at hu; cases hu
    · rw [if_neg hut] at hu
      have : u = t := hx.alone hin (by rw [hu]; rfl)
      exact absurd this hut
  · intro u fr hu
    change (s.goto t _).pc u = _ at hu
    rw [hpc] at hu
    by_cases hut : u = t
    · rw [if_pos hut] at hu; cases hu
    · rw [if_neg hut] at hu
      have : u = t := hx.alone hin (by rw [hu]; rfl)
      exact absurd this hut
  · intro _ x hx'
    change x ∈ (if front then s.tasks.tail else s.tasks.dropLast) at hx'
    rw [hnew] at hx'
    obtain ⟨a, _, rfl⟩ := List.mem_map.mp hx'
    exact fun e => Option.noConfusion e
  · intro q hq1
    change q ∈ (if front then s.tasks.tail else s.tasks.dropLast).filterMap id at hq1
    rw [hq'] at hq1
    exact h.bound_q q hq1
  · exact h.bound_s
  · intro u b hu
    rw [held_eq] at hu
    exact h.bound_h u b hu
  · change (((if front then s.tasks.tail else s.tasks.dropLast).filterMap id).map
      (fun q => q.state)).Nodup
    rw [hq']
    exact h.nodup_q
  · exact h.nodup_s
  · intro q hq1 e he
    change q ∈ (if front then s.tasks.tail else s.tasks.dropLast).filterMap id at hq1
    rw [hq'] at hq1
    exact h.q_s q hq1 e he
  · intro u b hu q hq1
    change q ∈ (if front then s.tasks.tail else s.tasks.dropLast).filterMap id at hq1
    rw [hq'] at hq1
    rw [held_eq] at hu
    exact h.h_q u b hu q hq1
  · intro u b hu e he
    rw [held_eq] at hu
    exact h.h_s u b hu e he
  · intro u v a b huv hu hv
    rw [held_eq] at hu hv
    exact h.h_h u v a b huv hu hv
  · intro x hx'
    rcases h.log x hx' with hl | ⟨b, hl, he⟩
    · exact Or.inl hl
    · refine Or.inr ⟨b, ?_, he⟩
      change ((s.goto t _).pc x.1).took = _
      rw [hpc]
      by_cases hxt : x.1 = t
      · rw [if_pos hxt]
        rw [hxt, hp] at hl
        exact hl
      · rw [if_neg hxt]; exact hl
  · exact h.nodup_t

/-- `std::move(tasks.front())` and `std::move(tasks.back())` by the thread that holds the
mutex, after the test that the deque is not empty: the task at that end is a task nobody has
moved from, and no thread has taken it before. -/
theorem Threads.move_inv {s : Threads F R} (h : s.Inv) (t : Nat) (front : Bool)
    (hp : s.pc t = .work_move front) :
    ∃ task, (if front then s.tasks.head? else s.tasks.getLast?) = some (some task) ∧
      ({ s.goto t (.work_pop front task) with
        tasks := if front then none :: s.tasks.tail else s.tasks.dropLast ++ [none],
        taken := (t, task.state) :: s.taken } : Threads F R).Inv := by
  obtain ⟨hx, h⟩ := h
  have hin : (s.pc t).inside = true := by rw [hp]; rfl
  have nopop : ∀ u fr b, s.pc u ≠ .work_pop fr b := by
    intro u fr b hu
    have : u = t := hx.alone hin (by rw [hu]; rfl)
    rw [this, hp] at hu
    cases hu
  have hclean := clean_eq s.tasks (h.clean nopop)
  have hne := h.shape_move t front hp
  have hqne : s.queued ≠ [] := by
    intro hq
    unfold Threads.queued at hq
    rw [hq] at hclean
    exact hne hclean
  obtain ⟨task, rest, hq, hend, hnew⟩ : ∃ task rest,
      s.queued = (if front then task :: rest else rest ++ [task]) ∧
      (if front then s.tasks.head? else s.tasks.getLast?) = some (some task) ∧
      (if front then none :: s.tasks.tail else s.tasks.dropLast ++ [none]) =
        (if front then none :: rest.map some else rest.map some ++ [none]) := by
    cases front
    · obtain ⟨rest, task, hq⟩ := (List.eq_nil_or_concat s.queued).resolve_left hqne
      rw [List.concat_eq_append] at hq
      have ht : s.tasks = rest.map some ++ [some task] := by
        rw [hclean]
        change (s.queued).map some = _
        rw [hq]
        simp
      refine ⟨task, rest, by simpa using hq, ?_, ?_⟩
      · simp [ht]
      · simp [ht]
    · cases hq : s.queued with
      | nil => exact absurd hq hqne
      | cons task rest =>
        have ht : s.tasks = some task :: rest.map some := by
          rw [hclean]
          change (s.queued).map some = _
          rw [hq]
          rfl
        refine ⟨task, rest, by simp, ?_, ?_⟩
        · simp [ht]
        · simp [ht]
  refine ⟨task, hend, ?_⟩
  rw [hnew]
  have hpc : ∀ u, (s.goto t (.work_pop front task)).pc u =
      if u = t then .work_pop front task else s.pc u := fun _ => rfl
  refine ⟨Threads.goto_exclusive hx t _ (by rw [hp]; rfl), ?_⟩
  have hmem : task ∈ s.queued := by
    rw [hq]
    cases front <;> simp
  have hsub : ∀ q, q ∈ rest → q ∈ s.queued := by
    intro q hq1
    rw [hq]
    cases front <;> simp [hq1]
  have hq' : (if front then none :: rest.map some else rest.map some ++ [none]).filterMap id =
      rest := by
    cases front
    · simp only [Bool.false_eq_true, if_false, List.filterMap_append, filterMap_id_map_some]
      simp
    · simp only [if_true]
      rw [List.filterMap_cons_none (by rfl), filterMap_id_map_some]
  have hnd : (rest.map (fun q => q.state)).Nodup ∧
      ∀ q ∈ rest, q.state ≠ task.state := by
    have := h.nodup_q
    rw [hq] at this
    cases front
    · simp only [Bool.false_eq_true, if_false, List.map_append, List.map_cons, List.map_nil]
        at this
      rw [List.nodup_append] at this
      refine ⟨this.1, fun q hq1 e => ?_⟩
      exact this.2.2 (List.mem_map.mpr ⟨q, hq1, rfl⟩) (by simp [e])
    · simp only [if_true, List.map_cons, List.nodup_cons] at this
      refine ⟨this.2, fun q hq1 e => ?_⟩
      exact this.1 (List.mem_map.mpr ⟨q, hq1, e⟩)
  have held_cases : ∀ u b, ((s.goto t (.work_pop front task)).pc u).held = some b →
      (u = t ∧ b = task) ∨ (u ≠ t ∧ (s.pc u).held = some b) := by
    intro u b hu
    rw [hpc] at hu
    by_cases hut : u = t
    · rw [if_pos hut] at hu
      exact Or.inl ⟨hut, (Option.some.inj hu).symm⟩
    · rw [if_neg hut] at hu
      exact Or.inr ⟨hut, hu⟩
  constructor
  · exact h.sound
  · intro u fr b hu
    change (s.goto t _).pc u = _ at hu
    rw [hpc] at hu
    by_cases hut : u = t
    · rw [if_pos hut] at hu
      have hfr : front = fr := by cases hu; rfl
      rw [← hfr]
      exact ⟨rest, rfl⟩
    · rw [if_neg hut] at hu
      exact absurd hu (nopop u fr b)
  · intro u fr _
    change (if front then none :: rest.map some else rest.map some ++ [none]) ≠ []
    cases front <;> simp
  · intro hno
    have := hno t front task
    change (s.goto t _).pc t ≠ _ at this
    rw [hpc, if_pos rfl] at this
    exact absurd rfl this
  · intro q hq1
    change q ∈ (if front then none :: rest.map some else rest.map some ++ [none]).filterMap id
      at hq1
    rw [hq'] at hq1
    exact h.bound_q q (hsub q hq1)
  · exact h.bound_s
  · intro u b hu
    rcases held_cases u b hu with ⟨_, rfl⟩ | ⟨_, hu'⟩
    · exact h.bound_q b hmem
    · exact h.bound_h u b hu'
  · change (((if front then none :: rest.map some else rest.map some ++ [none]).filterMap
      id).map (fun q => q.state)).Nodup
    rw [hq']
    exact hnd.1
  · exact h.nodup_s
  · intro q hq1 e he
    change q ∈ (if front then none :: rest.map some else rest.map some ++ [none]).filterMap id
      at hq1
    rw [hq'] at hq1
    exact h.q_s q (hsub q hq1) e he
  · intro u b hu q hq1
    change q ∈ (if front then none :: rest.map some else rest.map some ++ [none]).filterMap id
      at hq1
    rw [hq'] at hq1
    rcases held_cases u b hu with ⟨_, rfl⟩ | ⟨_, hu'⟩
    · exact hnd.2 q hq1
    · exact h.h_q u b hu' q (hsub q hq1)
  · intro u b hu e he
    rcases held_cases u b hu with ⟨_, rfl⟩ | ⟨_, hu'⟩
    · exact fun e' => h.q_s b hmem e he e'.symm
    · exact h.h_s u b hu' e he
  · intro u v a b huv hu hv
    rcases held_cases u a hu with ⟨hut, rfl⟩ | ⟨hut, hu'⟩
    · rcases held_cases v b hv with ⟨hvt, _⟩ | ⟨_, hv'⟩
      · exact absurd (hut.trans hvt.symm) huv
      · exact h.h_q v b hv' a hmem
    · rcases held_cases v b hv with ⟨_, rfl⟩ | ⟨_, hv'⟩
      · exact fun e => h.h_q u a hu' b hmem e.symm
      · exact h.h_h u v a b huv hu' hv'
  · intro x hx'
    change x ∈ (t, task.state) :: s.taken at hx'
    rcases List.mem_cons.mp hx' with rfl | hx'
    · refine Or.inr ⟨task, ?_, rfl⟩
      change ((s.goto t _).pc t).took = _
      rw [hpc, if_pos rfl]
      rfl
    · rcases h.log x hx' with hl | ⟨b, hl, he⟩
      · exact Or.inl hl
      · refine Or.inr ⟨b, ?_, he⟩
        change ((s.goto t _).pc x.1).took = _
        rw [hpc]
        by_cases hxt : x.1 = t
        · rw [hxt, hp] at hl; cases hl
        · rw [if_neg hxt]; exact hl
  · change (((t, task.state) :: s.taken).map (fun x => x.2)).Nodup
    rw [List.map_cons, List.nodup_cons]
    refine ⟨?_, h.nodup_t⟩
    intro hmem'
    obtain ⟨x, hx1, hx2⟩ := List.mem_map.mp hmem'
    rcases h.log x hx1 with ⟨e, he, hl⟩ | ⟨b, hl, he⟩
    · exact h.q_s task hmem e he (by rw [hl, hx2])
    · exact h.h_q x.1 b (Pc.held_of_took hl) task hmem (by rw [he, hx2])

/-- Every statement of every member function keeps the pool in order. -/
theorem Threads.step_inv (invoke : F → Except Err R) {s : Threads F R} (h : s.Inv) (t : Nat)
    (m : Method F) : (s.step invoke t m).Inv := by
  unfold Threads.step
  split
  · rename_i hp
    split
    · exact Threads.fresh_inv h t true _ hp
    · exact Threads.fresh_inv h t false _ hp
    · exact ⟨Threads.goto_exclusive h.1 t _ (by rw [hp]; rfl),
        Threads.goto_ledger h.2 t _ (by rw [hp]; rfl) (by rw [hp]; rfl)
          (fun _ _ e => by cases e) (fun _ _ e => by rw [hp] at e; cases e)
          (fun _ e => by cases e)⟩
    · exact ⟨Threads.goto_exclusive h.1 t _ (by rw [hp]; rfl),
        Threads.goto_ledger h.2 t _ (by rw [hp]; rfl) (by rw [hp]; rfl)
          (fun _ _ e => by cases e) (fun _ _ e => by rw [hp] at e; cases e)
          (fun _ e => by cases e)⟩
    · exact ⟨Threads.goto_exclusive h.1 t _ (by rw [hp]; rfl),
        Threads.goto_ledger h.2 t _ (by rw [hp]; rfl) (by rw [hp]; rfl)
          (fun _ _ e => by cases e) (fun _ _ e => by rw [hp] at e; cases e)
          (fun _ e => by cases e)⟩
  · rename_i front task hp
    exact Threads.lock_inv h t _ (by rw [hp]; rfl) (by rw [hp]; rfl)
      (fun _ _ e => by cases e) (fun _ _ e => by rw [hp] at e; cases e) (fun _ e => by cases e)
  · rename_i front task hp
    exact Threads.push_inv h t front task hp
  · rename_i hp
    exact Threads.unlock_inv h t _ (by rw [hp]; rfl) rfl (by rw [hp]; rfl) (by rw [hp]; rfl)
      (fun _ _ e => by cases e) (fun _ _ e => by rw [hp] at e; cases e) (fun _ e => by cases e)
  · rename_i front hp
    exact Threads.lock_inv h t _ (by rw [hp]; rfl) (by rw [hp]; rfl)
      (fun _ _ e => by cases e) (fun _ _ e => by rw [hp] at e; cases e) (fun _ e => by cases e)
  · rename_i front hp
    split
    · exact ⟨Threads.goto_exclusive h.1 t _ (by rw [hp]; rfl),
        Threads.goto_ledger h.2 t _ (by rw [hp]; rfl) (by rw [hp]; rfl)
          (fun _ _ e => by cases e) (fun _ _ e => by rw [hp] at e; cases e)
          (fun _ e => by cases e)⟩
    · rename_i hne
      exact ⟨Threads.goto_exclusive h.1 t _ (by rw [hp]; rfl),
        Threads.goto_ledger h.2 t _ (by rw [hp]; rfl) (by rw [hp]; rfl)
          (fun _ _ e => by cases e) (fun _ _ e => by rw [hp] at e; cases e)
          (fun _ _ e => hne (by rw [e]; rfl))⟩
  · rename_i front hp
    obtain ⟨task, hend, hinv⟩ := Threads.move_inv h t front hp
    simp only [hend]
    exact hinv
  · rename_i front task hp
    obtain ⟨hne, hinv⟩ := Threads.pop_inv h t front task hp
    rw [if_neg (by rw [hne]; exact Bool.false_ne_true)]
    exact hinv
  · rename_i task hp
    exact Threads.unlock_inv h t _ (by rw [hp]; rfl) rfl (by rw [hp]; rfl) (by rw [hp]; rfl)
      (fun _ _ e => by cases e) (fun _ _ e => by rw [hp] at e; cases e) (fun _ e => by cases e)
  · rename_i task hp
    exact Threads.perform_inv invoke h t task hp
  · rename_i hp
    exact Threads.unlock_inv h t _ (by rw [hp]; rfl) rfl (by rw [hp]; rfl) (by rw [hp]; rfl)
      (fun _ _ e => by cases e) (fun _ _ e => by rw [hp] at e; cases e) (fun _ e => by cases e)
  · rename_i hp
    exact Threads.lock_inv h t _ (by rw [hp]; rfl) (by rw [hp]; rfl)
      (fun _ _ e => by cases e) (fun _ _ e => by rw [hp] at e; cases e) (fun _ e => by cases e)
  · rename_i hp
    exact ⟨Threads.goto_exclusive h.1 t _ (by rw [hp]; rfl),
      Threads.goto_ledger h.2 t _ (by rw [hp]; rfl) (by rw [hp]; rfl)
        (fun _ _ e => by cases e) (fun _ _ e => by rw [hp] at e; cases e)
        (fun _ e => by cases e)⟩
  · rename_i b hp
    exact Threads.unlock_inv h t _ (by rw [hp]; rfl) rfl (by rw [hp]; rfl) (by rw [hp]; rfl)
      (fun _ _ e => by cases e) (fun _ _ e => by rw [hp] at e; cases e) (fun _ e => by cases e)

/-- Whatever the threads do and in whatever order, the pool stays in order. -/
theorem Threads.run_inv (invoke : F → Except Err R) (schedule : List (Nat × Method F)) :
    ∀ s : Threads F R, s.Inv → (s.run invoke schedule).Inv := by
  induction schedule with
  | nil => intro s h; exact h
  | cons x rest ih =>
    intro s h
    exact ih _ (Threads.step_inv invoke h x.1 x.2)

theorem Threads.step_pc_other (invoke : F → Except Err R) (s : Threads F R) {t u : Nat}
    (hu : u ≠ t) (m : Method F) : (s.step invoke t m).pc u = s.pc u := by
  unfold Threads.step Threads.lock Threads.unlock
  split <;> (try split) <;> (try split) <;> simp [Threads.goto, hu]

theorem Threads.step_shared_mono (invoke : F → Except Err R) (s : Threads F R) (t : Nat)
    (m : Method F) (e : Nat × Except Err R) (he : e ∈ s.shared) :
    e ∈ (s.step invoke t m).shared := by
  unfold Threads.step Threads.lock Threads.unlock
  split <;> (try split) <;> (try split) <;>
    simp [Threads.goto, packaged_task.perform, he]

theorem Threads.run_shared_mono (invoke : F → Except Err R) (schedule : List (Nat × Method F))
    (e : Nat × Except Err R) :
    ∀ s : Threads F R, e ∈ s.shared → e ∈ (s.run invoke schedule).shared := by
  induction schedule with
  | nil => intro s h; exact h
  | cons x rest ih =>
    intro s h
    exact ih _ (Threads.step_shared_mono invoke s x.1 x.2 e h)

/-- A thread that has moved a task out of the deque performs it with its next statements,
whatever the other threads do in between. -/
theorem Threads.taken_is_performed (invoke : F → Except Err R) (t : Nat)
    (task : packaged_task F) (more : List (Nat × Method F)) :
    ∀ s : Threads F R, s.Inv → (s.pc t).took = some task →
      (s.pc t).steps_left ≤ steps_of t more →
      (task.state, invoke task.f) ∈ (s.run invoke more).shared := by
  induction more with
  | nil =>
    intro s _ htook hle
    cases hp : s.pc t <;> rw [hp] at htook hle <;> simp [Pc.took] at htook <;>
      simp [Pc.steps_left, steps_of] at hle
  | cons x rest ih =>
    intro s h htook hle
    have hinv := Threads.step_inv invoke h x.1 x.2
    by_cases hx : x.1 = t
    · have hcount : steps_of t (x :: rest) = steps_of t rest + 1 := by
        simp [steps_of, hx]
      rw [hcount] at hle
      change (task.state, invoke task.f) ∈ ((s.step invoke x.1 x.2).run invoke rest).shared
      rw [hx] at hinv ⊢
      cases hp : s.pc t <;> rw [hp] at htook hle <;> simp [Pc.took] at htook
      · rename_i front task'
        subst htook
        obtain ⟨hne, _⟩ := Threads.pop_inv h t front task' hp
        have hpc : (s.step invoke t x.2).pc t = .work_unlock task' := by
          unfold Threads.step
          simp [hp, hne, Threads.goto]
        exact ih _ hinv (by rw [hpc]; rfl) (by
          rw [hpc]; simp only [Pc.steps_left] at hle ⊢; omega)
      · rename_i task'
        subst htook
        have hpc : (s.step invoke t x.2).pc t = .work_perform task' := by
          unfold Threads.step
          simp [hp, Threads.unlock, Threads.goto]
        exact ih _ hinv (by rw [hpc]; rfl) (by
          rw [hpc]; simp only [Pc.steps_left] at hle ⊢; omega)
      · rename_i task'
        subst htook
        apply Threads.run_shared_mono
        unfold Threads.step
        simp [hp, Threads.goto, packaged_task.perform]
    · have hcount : steps_of t (x :: rest) = steps_of t rest := by
        simp [steps_of, hx]
      rw [hcount] at hle
      have hpc := Threads.step_pc_other invoke s (Ne.symm hx) x.2
      exact ih _ hinv (by rw [hpc]; exact htook) (by rw [hpc]; exact hle)

theorem Pc.inside_of_touches {p : Pc F} (h : p.touches = true) : p.inside = true := by
  cases p <;> simp [Pc.touches] at h <;> rfl

/-- C20: whatever member functions of the pool the threads call, however many threads
there are and in whatever order their statements are executed, no undefined behaviour
occurs; a thread whose next statement reads or writes the deque holds the mutex, so that
there is at most one such thread; every task is moved out of the deque at most once, hence
by at most one thread; every task is performed at most once; a task moved out of the deque
is performed or in the local variable of the thread that moved it out; and that thread
performs it with its next three statements, whatever the other threads do in between. -/
theorem C20_every_task_taken_and_performed_once (invoke : F → Except Err R)
    (schedule : List (Nat × Method F)) :
    ((Threads.init : Threads F R).run invoke schedule).undefined = false ∧
    (∀ t, (((Threads.init : Threads F R).run invoke schedule).pc t).touches = true →
      ((Threads.init : Threads F R).run invoke schedule).muter = some t) ∧
    (∀ t u, (((Threads.init : Threads F R).run invoke schedule).pc t).touches = true →
      (((Threads.init : Threads F R).run invoke schedule).pc u).touches = true → t = u) ∧
    (((Threads.init : Threads F R).run invoke schedule).taken.map (fun x => x.2)).Nodup ∧
    (((Threads.init : Threads F R).run invoke schedule).shared.map (fun e => e.1)).Nodup ∧
    (∀ x ∈ ((Threads.init : Threads F R).run invoke schedule).taken,
      (∃ e ∈ ((Threads.init : Threads F R).run invoke schedule).shared, e.1 = x.2) ∨
      ∃ task, (((Threads.init : Threads F R).run invoke schedule).pc x.1).took = some task ∧
        task.state = x.2) ∧
    ∀ t task more,
      (((Threads.init : Threads F R).run invoke schedule).pc t).took = some task →
      3 ≤ steps_of t more →
      (task.state, invoke task.f) ∈
        (((Threads.init : Threads F R).run invoke schedule).run invoke more).shared := by
  have h := Threads.run_inv invoke schedule (Threads.init : Threads F R) Threads.init_inv
  refine ⟨h.2.sound, fun t ht => h.1 t (Pc.inside_of_touches ht), fun t u ht hu => ?_,
    h.2.nodup_t, h.2.nodup_s, h.2.log, fun t task more htook hle => ?_⟩
  · exact h.1.alone (Pc.inside_of_touches hu) (Pc.inside_of_touches ht)
  · apply Threads.taken_is_performed invoke t task more _ h htook
    have : (((Threads.init : Threads F R).run invoke schedule).pc t).steps_left ≤ 3 := by
      cases ((Threads.init : Threads F R).run invoke schedule).pc t <;> simp [Pc.steps_left]
    omega

end mutex

/-- C20 on a schedule of three threads: the task that thread 0 submits is moved out of the
deque by thread 1 only and performed once, while thread 2 waits for the mutex and then finds
the deque empty. -/
theorem C20_witness :
    ((Threads.init : Threads Nat Nat).run demo_task demo_schedule).taken = [(1, 0)] ∧
    ((Threads.init : Threads Nat Nat).run demo_task demo_schedule).shared = [(0, .ok 5)] ∧
    ((Threads.init : Threads Nat Nat).run demo_task demo_schedule).tasks.isEmpty = true ∧
    ((Threads.init : Threads Nat Nat).run demo_task demo_schedule).muter = none ∧
    ((Threads.init : Threads Nat Nat).run demo_task demo_schedule).undefined = false ∧
    (((Threads.init : Threads Nat Nat).run demo_task demo_schedule).taken.map
      (fun x => x.2)).Nodup ∧
    (((Threads.init : Threads Nat Nat).run demo_task demo_schedule).shared.map
      (fun e => e.1)).Nodup :=
  have h := C20_every_task_taken_and_performed_once (R := Nat) demo_task demo_schedule
  ⟨by decide, by decide, by decide, by decide, h.1, h.2.2.2.1, h.2.2.2.2.1⟩

end MatrixAndFriends
